import Mathlib

/-! # DSA Visualizer: a shallow embedding of the trace-recording algorithms

The C++ sources under `backend/include` run textbook algorithms and push one
rendered snapshot per step onto a `steps` vector.  The embedding below keeps

* `std::vector<int>` as `List Int` (an `int` value is an `Int`; the sorts and
  searches only compare values, never add them),
* every rendered snapshot as a record of the arguments handed to the renderer
  (the array or visited list, the highlight positions, the status text as a
  tagged value), in push order,
* `for` loops with a fixed trip count as recursion on the number of remaining
  iterations, `while` loops and recursive helpers as recursion on a fuel
  counter that answers `none` when it runs out.

Reads `arr[i]` are `List.getD arr i 0`, writes `arr[i] = x` are `List.set`.
-/

set_option autoImplicit false

namespace DSAVisualizer

/-! ## Array snapshots (`sorting.h`) -/

/-- What `arrayToJson(arr, highlightPos, highlightPos2)` renders: the array and
the two highlight positions (`-1` is the default "no highlight"). -/
structure ArraySnapshot where
  arr : List Int
  highlightPos : Int
  highlightPos2 : Int
deriving DecidableEq

/-- The renderer `arrayToJson`; element `i` is shown highlighted when `i` equals
one of the two positions. -/
def arrayToJson (arr : List Int) (highlightPos highlightPos2 : Int) : ArraySnapshot :=
  ⟨arr, highlightPos, highlightPos2⟩

/-- The `highlight` flag `arrayToJson` prints for element `i`. -/
def ArraySnapshot.highlighted (s : ArraySnapshot) (i : Nat) : Bool :=
  decide ((i : Int) = s.highlightPos) || decide ((i : Int) = s.highlightPos2)

/-- The effect of `std::swap(arr[i], arr[j])`. -/
def swap (arr : List Int) (i j : Nat) : List Int :=
  (arr.set i (arr.getD j 0)).set j (arr.getD i 0)

/-- The running state of a sort: the private copy `arr` and the `steps` pushed so far. -/
abbrev SortState := List Int × List ArraySnapshot

/-! ## Searching (`searching.h`) -/

/-- The status text of a search snapshot. -/
inductive SearchStatus where
  /-- "Checking element at index i" -/
  | checking (i : Int)
  /-- "Found target at index i" -/
  | found (i : Int)
  /-- "Checking mid element at index mid" -/
  | checkingMid (mid : Int)
  /-- "Target is greater, moving to right half" -/
  | greater
  /-- "Target is smaller, moving to left half" -/
  | smaller
  /-- "Target not found in array" -/
  | notFound
deriving DecidableEq

/-- What `searchStateToJson(arr, pos, status)` renders. -/
structure SearchSnapshot where
  arr : List Int
  pos : Int
  status : SearchStatus
deriving DecidableEq

/-- The renderer `searchStateToJson`. -/
def searchStateToJson (arr : List Int) (pos : Int) (status : SearchStatus) : SearchSnapshot :=
  ⟨arr, pos, status⟩

/-- The `for` loop of `linearSearch` at index `i`, with `k = arr.size() - i`
iterations left; leaving the loop pushes the "not found" snapshot and returns `-1`. -/
def linearSearchLoop (arr : List Int) (target : Int) :
    Nat → Nat → List SearchSnapshot → Int × List SearchSnapshot
  | 0, _, steps => (-1, steps ++ [searchStateToJson arr (-1) SearchStatus.notFound])
  | k + 1, i, steps =>
    let steps1 := steps ++ [searchStateToJson arr i (SearchStatus.checking i)]
    if arr.getD i 0 = target then
      ((i : Int), steps1 ++ [searchStateToJson arr i (SearchStatus.found i)])
    else
      linearSearchLoop arr target k (i + 1) steps1

/-- `linearSearch(arr, target, steps)`: the returned index and the extended `steps`. -/
def linearSearch (arr : List Int) (target : Int) (steps : List SearchSnapshot) :
    Int × List SearchSnapshot :=
  linearSearchLoop arr target arr.length 0 steps

/-- The `while (left <= right)` loop of `binarySearch`; `none` when the fuel runs out.
`(right - left) / 2` is C++ truncating division. -/
def binarySearchLoop (arr : List Int) (target : Int) :
    Nat → Int → Int → List SearchSnapshot → Option (Int × List SearchSnapshot)
  | fuel, left, right, steps =>
    if left ≤ right then
      match fuel with
      | 0 => none
      | fuel + 1 =>
        let mid := left + (right - left).tdiv 2
        let steps1 := steps ++ [searchStateToJson arr mid (SearchStatus.checkingMid mid)]
        if arr.getD mid.toNat 0 = target then
          some (mid, steps1 ++ [searchStateToJson arr mid (SearchStatus.found mid)])
        else if arr.getD mid.toNat 0 < target then
          binarySearchLoop arr target fuel (mid + 1) right
            (steps1 ++ [searchStateToJson arr mid SearchStatus.greater])
        else
          binarySearchLoop arr target fuel left (mid - 1)
            (steps1 ++ [searchStateToJson arr mid SearchStatus.smaller])
    else
      some (-1, steps ++ [searchStateToJson arr (-1) SearchStatus.notFound])

/-- `binarySearch(arr, target, steps)` with `left = 0`, `right = arr.size() - 1`;
the loop halves a range of at most `arr.size()` indices, so `arr.size()` rounds of
fuel are supplied. -/
def binarySearch (arr : List Int) (target : Int) (steps : List SearchSnapshot) :
    Option (Int × List SearchSnapshot) :=
  binarySearchLoop arr target arr.length 0 ((arr.length : Int) - 1) steps


/-! ## Sorting (`sorting.h`) -/

/-- One round of the inner `for` loop of `bubbleSort` at index `j`. -/
def bubbleInner (st : SortState) (j : Nat) : SortState :=
  let steps1 := st.2 ++ [arrayToJson st.1 j (j + 1)]
  if st.1.getD j 0 > st.1.getD (j + 1) 0 then
    let arr1 := swap st.1 j (j + 1)
    (arr1, steps1 ++ [arrayToJson arr1 j (j + 1)])
  else
    (st.1, steps1)

/-- One round of the outer loop of `bubbleSort`: `j` runs over `0 .. n-i-2`. -/
def bubbleOuter (n : Nat) (st : SortState) (i : Nat) : SortState :=
  (List.range (n - i - 1)).foldl bubbleInner st

/-- `bubbleSort(arr)`: `i` runs over `0 .. n-2` (no round when `n <= 1`). -/
def bubbleSort (arr : List Int) : List ArraySnapshot :=
  let steps := [arrayToJson arr (-1) (-1)]
  let n := arr.length
  let st := (List.range (n - 1)).foldl (bubbleOuter n) (arr, steps)
  st.2 ++ [arrayToJson st.1 (-1) (-1)]

/-- The `while (j >= 0 && arr[j] > key)` loop of `insertionSort`.  The counter is
`j + 1`, so `0` is the C++ `j = -1`; the result is the final `j + 1` and the state. -/
def insertionWhile (key : Int) (i : Nat) : Nat → SortState → Nat × SortState
  | 0, st => (0, st)
  | j + 1, st =>
    if st.1.getD j 0 > key then
      let steps1 := st.2 ++ [arrayToJson st.1 j i]
      let arr1 := st.1.set (j + 1) (st.1.getD j 0)
      insertionWhile key i j (arr1, steps1 ++ [arrayToJson arr1 j (-1)])
    else
      (j + 1, st)

/-- One round of the `for` loop of `insertionSort` at index `i`. -/
def insertionOuter (st : SortState) (i : Nat) : SortState :=
  let key := st.1.getD i 0
  let steps1 := st.2 ++ [arrayToJson st.1 i (-1)]
  let r := insertionWhile key i i (st.1, steps1)
  let arr1 := r.2.1.set r.1 key
  (arr1, r.2.2 ++ [arrayToJson arr1 r.1 (-1)])

/-- `insertionSort(arr)`: `i` runs over `1 .. n-1`. -/
def insertionSort (arr : List Int) : List ArraySnapshot :=
  let steps := [arrayToJson arr (-1) (-1)]
  let n := arr.length
  let st := (List.range' 1 (n - 1)).foldl insertionOuter (arr, steps)
  st.2 ++ [arrayToJson st.1 (-1) (-1)]

/-- One round of the inner loop of `selectionSort`; the state is `min_idx` and `steps`. -/
def selectionInner (arr : List Int) (ms : Nat × List ArraySnapshot) (j : Nat) :
    Nat × List ArraySnapshot :=
  let steps1 := ms.2 ++ [arrayToJson arr ms.1 j]
  if arr.getD j 0 < arr.getD ms.1 0 then (j, steps1) else (ms.1, steps1)

/-- One round of the outer loop of `selectionSort` at index `i`: `j` runs over `i+1 .. n-1`. -/
def selectionOuter (n : Nat) (st : SortState) (i : Nat) : SortState :=
  let steps1 := st.2 ++ [arrayToJson st.1 i (-1)]
  let ms := (List.range' (i + 1) (n - (i + 1))).foldl (selectionInner st.1) (i, steps1)
  let steps2 := ms.2 ++ [arrayToJson st.1 i ms.1]
  let arr1 := swap st.1 ms.1 i
  (arr1, steps2 ++ [arrayToJson arr1 i (-1)])

/-- `selectionSort(arr)`: `i` runs over `0 .. n-2`. -/
def selectionSort (arr : List Int) : List ArraySnapshot :=
  let steps := [arrayToJson arr (-1) (-1)]
  let n := arr.length
  let st := (List.range (n - 1)).foldl (selectionOuter n) (arr, steps)
  st.2 ++ [arrayToJson st.1 (-1) (-1)]

/-- The running state of the first `while` loop of `merge`: `i`, `j`, `k`, `arr`, `steps`. -/
structure MergeState where
  i : Int
  j : Int
  k : Int
  arr : List Int
  steps : List ArraySnapshot

/-- The loop `while (i < n1 && j < n2)` of `merge`; `none` when the fuel runs out. -/
def mergeLoop (L R : List Int) (left mid n1 n2 : Int) : Nat → MergeState → Option MergeState
  | fuel, s =>
    if s.i < n1 ∧ s.j < n2 then
      match fuel with
      | 0 => none
      | fuel + 1 =>
        let steps1 := s.steps ++ [arrayToJson s.arr (left + s.i) (mid + 1 + s.j)]
        if L.getD s.i.toNat 0 ≤ R.getD s.j.toNat 0 then
          let arr1 := s.arr.set s.k.toNat (L.getD s.i.toNat 0)
          mergeLoop L R left mid n1 n2 fuel
            ⟨s.i + 1, s.j, s.k + 1, arr1, steps1 ++ [arrayToJson arr1 (s.k + 1 - 1) (-1)]⟩
        else
          let arr1 := s.arr.set s.k.toNat (R.getD s.j.toNat 0)
          mergeLoop L R left mid n1 n2 fuel
            ⟨s.i, s.j + 1, s.k + 1, arr1, steps1 ++ [arrayToJson arr1 (s.k + 1 - 1) (-1)]⟩
    else
      some s

/-- The loops `while (i < n1)` and `while (j < n2)` of `merge`, copying the rest of the
temporary `T` from index `i` on, with `c` copies left; the result is `k`, `arr`, `steps`. -/
def mergeCopy (T : List Int) : Nat → Int → Int → SortState → Int × SortState
  | 0, _, k, st => (k, st)
  | c + 1, i, k, st =>
    let arr1 := st.1.set k.toNat (T.getD i.toNat 0)
    mergeCopy T c (i + 1) (k + 1) (arr1, st.2 ++ [arrayToJson arr1 k (-1)])

/-- `merge(arr, left, mid, right, steps)`. -/
def merge (st : SortState) (left mid right : Int) : Option SortState :=
  let n1 := mid - left + 1
  let n2 := right - mid
  let L := (List.range n1.toNat).map (fun (i : Nat) => st.1.getD (left + (i : Int)).toNat 0)
  let R := (List.range n2.toNat).map (fun (j : Nat) => st.1.getD (mid + 1 + (j : Int)).toNat 0)
  (mergeLoop L R left mid n1 n2 (n1.toNat + n2.toNat) ⟨0, 0, left, st.1, st.2⟩).map
    (fun s =>
      let r1 := mergeCopy L (n1 - s.i).toNat s.i s.k (s.arr, s.steps)
      (mergeCopy R (n2 - s.j).toNat s.j r1.1 r1.2).2)

/-- `mergeSortHelper(arr, left, right, steps)`; `none` when the fuel runs out. -/
def mergeSortHelper : Nat → SortState → Int → Int → Option SortState
  | fuel, st, left, right =>
    if left < right then
      match fuel with
      | 0 => none
      | fuel + 1 =>
        let mid := left + (right - left).tdiv 2
        let steps1 := st.2 ++ [arrayToJson st.1 left right]
        (mergeSortHelper fuel (st.1, steps1) left mid).bind fun st1 =>
        (mergeSortHelper fuel st1 (mid + 1) right).bind fun st2 =>
        merge (st2.1, st2.2 ++ [arrayToJson st2.1 left right]) left mid right
    else
      some st

/-- `mergeSort(arr)`: the helper runs on `0 .. arr.size() - 1` (which is `-1` for the
empty array); every call halves a range of at most `arr.size()` indices, so
`arr.size()` levels of fuel are supplied. -/
def mergeSort (arr : List Int) : Option (List ArraySnapshot) :=
  let steps := [arrayToJson arr (-1) (-1)]
  (mergeSortHelper arr.length (arr, steps) 0 ((arr.length : Int) - 1)).map
    (fun st => st.2 ++ [arrayToJson st.1 (-1) (-1)])

/-- The running state of the `for` loop of `partition`: `i`, `arr`, `steps`. -/
abbrev PartState := Int × SortState

/-- One round of the `for` loop of `partition` at index `j`. -/
def partitionStep (pivot high : Int) (s : PartState) (j : Int) : PartState :=
  let steps1 := s.2.2 ++ [arrayToJson s.2.1 j high]
  if s.2.1.getD j.toNat 0 < pivot then
    let i := s.1 + 1
    let arr1 := swap s.2.1 i.toNat j.toNat
    (i, arr1, steps1 ++ [arrayToJson arr1 i j])
  else
    (s.1, s.2.1, steps1)

/-- `partition(arr, low, high, steps)`: `j` runs over `low .. high-1`; the result is the
returned pivot index and the state. -/
def partition (st : SortState) (low high : Int) : Int × SortState :=
  let pivot := st.1.getD high.toNat 0
  let i := low - 1
  let steps1 := st.2 ++ [arrayToJson st.1 high (-1)]
  let s := ((List.range (high - low).toNat).map (fun (k : Nat) => low + (k : Int))).foldl
    (partitionStep pivot high) (i, st.1, steps1)
  let arr1 := swap s.2.1 (s.1 + 1).toNat high.toNat
  (s.1 + 1, arr1, s.2.2 ++ [arrayToJson arr1 (s.1 + 1) (-1)])

/-- `quickSortHelper(arr, low, high, steps)`; `none` when the fuel runs out. -/
def quickSortHelper : Nat → SortState → Int → Int → Option SortState
  | fuel, st, low, high =>
    if low < high then
      match fuel with
      | 0 => none
      | fuel + 1 =>
        let steps1 := st.2 ++ [arrayToJson st.1 low high]
        let r := partition (st.1, steps1) low high
        (quickSortHelper fuel r.2 low (r.1 - 1)).bind fun st1 =>
        quickSortHelper fuel st1 (r.1 + 1) high
    else
      some st

/-- `quickSort(arr)`: the helper runs on `0 .. arr.size() - 1` (which is `-1` for the
empty array); every nested call works on a strictly shorter range, so `arr.size()`
levels of fuel are supplied. -/
def quickSort (arr : List Int) : Option (List ArraySnapshot) :=
  let steps := [arrayToJson arr (-1) (-1)]
  (quickSortHelper arr.length (arr, steps) 0 ((arr.length : Int) - 1)).map
    (fun st => st.2 ++ [arrayToJson st.1 (-1) (-1)])

/-- `heapify(arr, n, i, steps)`; `none` when the fuel runs out. -/
def heapify (n : Nat) : Nat → SortState → Nat → Option SortState
  | fuel, st, i =>
    let left := 2 * i + 1
    let right := 2 * i + 2
    let steps1 := st.2 ++ [arrayToJson st.1 i (-1)]
    let c1 : Nat × List ArraySnapshot :=
      if left < n ∧ st.1.getD left 0 > st.1.getD i 0 then
        (left, steps1 ++ [arrayToJson st.1 left i])
      else (i, steps1)
    let c2 : Nat × List ArraySnapshot :=
      if right < n ∧ st.1.getD right 0 > st.1.getD c1.1 0 then
        (right, c1.2 ++ [arrayToJson st.1 right c1.1])
      else c1
    if c2.1 ≠ i then
      match fuel with
      | 0 => none
      | fuel + 1 =>
        let steps2 := c2.2 ++ [arrayToJson st.1 i c2.1]
        let arr1 := swap st.1 i c2.1
        heapify n fuel (arr1, steps2 ++ [arrayToJson arr1 i c2.1]) c2.1
    else
      some (st.1, c2.2)

/-- One round of the build loop of `heapSort` at index `i`.  Every nested `heapify`
call moves to a larger index below `n`, so `n` levels of fuel are supplied. -/
def heapBuildStep (n : Nat) (st : SortState) (i : Nat) : Option SortState :=
  heapify n n (st.1, st.2 ++ [arrayToJson st.1 i (-1)]) i

/-- One round of the extraction loop of `heapSort` at index `i`. -/
def heapExtractStep (st : SortState) (i : Nat) : Option SortState :=
  let steps1 := st.2 ++ [arrayToJson st.1 0 i]
  let arr1 := swap st.1 0 i
  heapify i i (arr1, steps1 ++ [arrayToJson arr1 i (-1)]) 0

/-- `heapSort(arr)`: the build loop runs `i` over `n/2-1 .. 0`, the extraction loop
over `n-1 .. 1`. -/
def heapSort (arr : List Int) : Option (List ArraySnapshot) :=
  let steps := [arrayToJson arr (-1) (-1)]
  let n := arr.length
  ((List.range (n / 2)).reverse.foldlM (heapBuildStep n) (arr, steps)).bind fun st1 =>
  ((List.range' 1 (n - 1)).reverse.foldlM heapExtractStep
      (st1.1, st1.2 ++ [arrayToJson st1.1 (-1) (-1)])).map
    (fun st2 => st2.2 ++ [arrayToJson st2.1 (-1) (-1)])

/-- The array shown in the last snapshot of a trace. -/
def finalArray (steps : List ArraySnapshot) : Option (List Int) :=
  steps.getLast?.map ArraySnapshot.arr

/-! ## Graph snapshots (`graph.h`) -/

/-- A weighted adjacency list: entry `u` lists the `(target, weight)` pairs of node `u`. -/
abbrev Graph := List (List (Int × Int))

/-- Why a run of the embedding stops without a result: an index outside its vector
(undefined behaviour in the C++), or the fuel of a loop ran out. -/
inductive Fault where
  | outOfBounds
  | outOfFuel
deriving DecidableEq

/-- Results of the embedding can be compared by evaluation. -/
instance exceptDecidableEq {α : Type} [DecidableEq α] : DecidableEq (Except Fault α) :=
  fun a b =>
    match a, b with
    | Except.ok x, Except.ok y =>
      if h : x = y then isTrue (by rw [h]) else isFalse (fun hc => h (Except.ok.inj hc))
    | Except.error x, Except.error y =>
      if h : x = y then isTrue (by rw [h]) else isFalse (fun hc => h (Except.error.inj hc))
    | Except.ok _, Except.error _ => isFalse (fun hc => Except.noConfusion hc)
    | Except.error _, Except.ok _ => isFalse (fun hc => Except.noConfusion hc)

/-- The status text of a graph snapshot. -/
inductive GraphStatus where
  /-- "Starting BFS from node s" -/
  | bfsStart (start : Int)
  /-- "Processing node c" (BFS and DFS) -/
  | processing (current : Int)
  /-- "Discovering edge c -> n" -/
  | discoveringEdge (current neighbor : Int)
  /-- "Discovered node n" -/
  | discovered (neighbor : Int)
  /-- "BFS complete" -/
  | bfsComplete
  /-- "Starting DFS from node s" -/
  | dfsStart (start : Int)
  /-- "Considering edge c -> n" -/
  | consideringEdge (current neighbor : Int)
  /-- "DFS complete" -/
  | dfsComplete
  /-- "Starting Dijkstra's algorithm from node s" -/
  | dijkstraStart (start : Int)
  /-- "Processing node c with distance d" -/
  | processingDist (current dist : Int)
  /-- "Considering edge c -> n with weight w" (Dijkstra and Kruskal) -/
  | consideringWeighted (source target weight : Int)
  /-- "Updated distance to node n = d" -/
  | updatedDist (neighbor newDist : Int)
  /-- "Dijkstra complete. Shortest paths from s: " followed, for every node `i` other
  than `s`, by "i(d) " with `d = distances[i]`, or "i(∞) " when `d` is `INT_MAX` -/
  | dijkstraComplete (start : Int) (distances : List Int)
  /-- "Starting Kruskal's MST algorithm" -/
  | kruskalStart
  /-- "Added edge u -> v to MST (weight: w)" (Kruskal and Prim) -/
  | addedEdge (source target weight : Int)
  /-- "Edge u -> v would create a cycle - skipping" -/
  | cycleSkip (source target : Int)
  /-- "Kruskal's MST algorithm complete. Total MST weight: t" -/
  | kruskalComplete (totalWeight : Int)
  /-- "Starting Prim's MST algorithm from node s" -/
  | primStart (start : Int)
  /-- "Added all edges from node x to priority queue" -/
  | primQueued (node : Int)
  /-- "Edge f -> t connects to already visited node - skipping" -/
  | primSkip (source target : Int)
  /-- "Prim's MST algorithm complete. Total MST weight: t" -/
  | primComplete (totalWeight : Int)
deriving DecidableEq

/-- What `graphStateToJson(graph, visited, current, status)` renders besides the graph
itself, which is the same in every snapshot of a run. -/
structure GraphSnapshot where
  visited : List Int
  current : Int
  status : GraphStatus
deriving DecidableEq

/-- The renderer `graphStateToJson`. -/
def graphStateToJson (visited : List Int) (current : Int) (status : GraphStatus) :
    GraphSnapshot :=
  ⟨visited, current, status⟩

/-- `std::numeric_limits<int>::max()`. -/
def INT_MAX : Int := 2147483647

/-- Addition and the other `int` operations wrap to 32 bits (signed overflow is undefined
in C++; this is what the usual two's complement targets compute). -/
def wrapInt (x : Int) : Int := (x + 2147483648) % 4294967296 - 2147483648

/-- The lexicographic order of `std::pair<int, int>`. -/
def pairLe (a b : Int × Int) : Bool :=
  decide (a.1 < b.1) || (decide (a.1 = b.1) && decide (a.2 ≤ b.2))

/-- `pq.top()` of the min-queue `std::priority_queue<pair, vector<pair>, std::greater<>>`:
the least pair held, `none` when the queue is empty.  The queue is kept as the list of
pairs it holds. -/
def pqTop : List (Int × Int) → Option (Int × Int)
  | [] => none
  | x :: xs => some (xs.foldl (fun m y => if pairLe y m then y else m) x)

/-! ## Dijkstra (`graph.h`) -/

/-- The variables of `dijkstraAlgorithm`. -/
structure DijkstraState where
  visited : List Int
  distances : List Int
  previous : List Int
  pq : List (Int × Int)
  steps : List GraphSnapshot

/-- One round of the loop over `graph[current]` in `dijkstraAlgorithm`. -/
def relaxEdge (current dist : Int) (s : DijkstraState) (edge : Int × Int) :
    Except Fault DijkstraState :=
  let neighbor := edge.1
  let weight := edge.2
  if neighbor ∈ s.visited then
    Except.ok s
  else
    let steps1 := s.steps ++
      [graphStateToJson s.visited current (GraphStatus.consideringWeighted current neighbor weight)]
    let newDist := wrapInt (dist + weight)
    if 0 ≤ neighbor ∧ neighbor < s.distances.length then
      if newDist < s.distances.getD neighbor.toNat 0 then
        Except.ok
          { s with
            distances := s.distances.set neighbor.toNat newDist
            previous := s.previous.set neighbor.toNat current
            pq := s.pq ++ [(newDist, neighbor)]
            steps := steps1 ++
              [graphStateToJson s.visited neighbor (GraphStatus.updatedDist neighbor newDist)] }
      else
        Except.ok { s with steps := steps1 }
    else
      Except.error Fault.outOfBounds

/-- The body of the `while (!pq.empty())` loop of `dijkstraAlgorithm` for the top entry
`(dist, current)`. -/
def dijkstraStep (graph : Graph) (s : DijkstraState) (top : Int × Int) :
    Except Fault DijkstraState :=
  let dist := top.1
  let current := top.2
  let pq1 := s.pq.erase top
  if current ∈ s.visited then
    Except.ok { s with pq := pq1 }
  else
    let visited1 := s.visited ++ [current]
    let steps1 := s.steps ++
      [graphStateToJson visited1 current (GraphStatus.processingDist current dist)]
    if 0 ≤ current ∧ current < graph.length then
      (graph.getD current.toNat []).foldlM (relaxEdge current dist)
        { s with visited := visited1, pq := pq1, steps := steps1 }
    else
      Except.error Fault.outOfBounds

/-- The `while (!pq.empty())` loop of `dijkstraAlgorithm`. -/
def dijkstraLoop (graph : Graph) : Nat → DijkstraState → Except Fault DijkstraState
  | fuel, s =>
    match pqTop s.pq with
    | none => Except.ok s
    | some top =>
      match fuel with
      | 0 => Except.error Fault.outOfFuel
      | fuel + 1 =>
        match dijkstraStep graph s top with
        | Except.error e => Except.error e
        | Except.ok s1 => dijkstraLoop graph fuel s1

/-- The number of adjacency entries of the graph. -/
def edgeCount (graph : Graph) : Nat := (graph.map List.length).sum

/-- The state of `dijkstraAlgorithm(graph, start)` when its loop ends.  Every queue
entry is pushed by the start or by one adjacency entry of a node processed once, so
`edgeCount graph + 1` rounds of fuel are supplied. -/
def dijkstraRun (graph : Graph) (start : Int) : Except Fault DijkstraState :=
  let steps := [graphStateToJson [] start (GraphStatus.dijkstraStart start)]
  if 0 ≤ start ∧ start < graph.length then
    dijkstraLoop graph (edgeCount graph + 1)
      { visited := []
        distances := (List.replicate graph.length INT_MAX).set start.toNat 0
        previous := List.replicate graph.length (-1)
        pq := [(0, start)]
        steps := steps }
  else
    Except.error Fault.outOfBounds

/-- `dijkstraAlgorithm(graph, start)`: the steps, ending with the snapshot that lists the
final distances. -/
def dijkstraAlgorithm (graph : Graph) (start : Int) : Except Fault (List GraphSnapshot) :=
  match dijkstraRun graph start with
  | Except.error e => Except.error e
  | Except.ok s =>
    Except.ok (s.steps ++
      [graphStateToJson s.visited (-1) (GraphStatus.dijkstraComplete start s.distances)])

/-- The distances vector when `dijkstraAlgorithm(graph, start)` finishes. -/
def dijkstraDistances (graph : Graph) (start : Int) : Option (List Int) :=
  match dijkstraRun graph start with
  | Except.error _ => none
  | Except.ok s => some s.distances

/-! ## Kruskal (`graph.h`) -/

/-- The class `DisjointSet`: the vectors `parent` and `rank`. -/
structure DisjointSet where
  parent : List Int
  rank : List Int

/-- The constructor `DisjointSet(n)`: every node is its own parent, with rank 0. -/
def DisjointSet.init (n : Nat) : DisjointSet :=
  ⟨(List.range n).map (fun (i : Nat) => (i : Int)), List.replicate n 0⟩

/-- `DisjointSet::find(u)` with path compression: the returned root and the updated
set.  `none`-like faults: an index outside `parent`, or the fuel ran out. -/
def DisjointSet.find : Nat → DisjointSet → Int → Except Fault (Int × DisjointSet)
  | fuel, ds, u =>
    if 0 ≤ u ∧ u < ds.parent.length then
      if u ≠ ds.parent.getD u.toNat 0 then
        match fuel with
        | 0 => Except.error Fault.outOfFuel
        | fuel + 1 =>
          match DisjointSet.find fuel ds (ds.parent.getD u.toNat 0) with
          | Except.error e => Except.error e
          | Except.ok (r, ds1) =>
            Except.ok (r, { ds1 with parent := ds1.parent.set u.toNat r })
      else
        Except.ok (ds.parent.getD u.toNat 0, ds)
    else
      Except.error Fault.outOfBounds

/-- `DisjointSet::unionSets(u, v)` with union by rank.  Every chain of parents passes
strictly increasing ranks below the number of nodes, so `parent.size()` levels of fuel
are supplied to `find`. -/
def DisjointSet.unionSets (ds : DisjointSet) (u v : Int) : Except Fault DisjointSet :=
  match DisjointSet.find ds.parent.length ds u with
  | Except.error e => Except.error e
  | Except.ok (ru, ds1) =>
    match DisjointSet.find ds1.parent.length ds1 v with
    | Except.error e => Except.error e
    | Except.ok (rv, ds2) =>
      if ru ≠ rv then
        if ds2.rank.getD ru.toNat 0 < ds2.rank.getD rv.toNat 0 then
          Except.ok { ds2 with parent := ds2.parent.set ru.toNat rv }
        else if ds2.rank.getD ru.toNat 0 > ds2.rank.getD rv.toNat 0 then
          Except.ok { ds2 with parent := ds2.parent.set rv.toNat ru }
        else
          Except.ok
            { parent := ds2.parent.set rv.toNat ru
              rank := ds2.rank.set ru.toNat (wrapInt (ds2.rank.getD ru.toNat 0 + 1)) }
      else
        Except.ok ds2

/-- An entry `(weight, u, v)` of the edge list of `kruskalMST`, a
`std::tuple<int, int, int>`. -/
abbrev Edge := Int × Int × Int

/-- The order `std::sort` uses on the tuples: `a` is not after `b` lexicographically. -/
def tupleLe (a b : Edge) : Prop :=
  a.1 < b.1 ∨ (a.1 = b.1 ∧ (a.2.1 < b.2.1 ∨ (a.2.1 = b.2.1 ∧ a.2.2 ≤ b.2.2)))

instance tupleLe_decidable : DecidableRel tupleLe := fun a b => by
  unfold tupleLe
  exact inferInstance

/-- The edge list built by `kruskalMST` before sorting: for `u = 0, 1, ...` the entries
`(v, weight)` of `graph[u]` with `u < v`, as `(weight, u, v)`. -/
def kruskalEdgeList (graph : Graph) : List Edge :=
  (List.range graph.length).flatMap (fun (u : Nat) =>
    ((graph.getD u []).filter (fun edge => decide ((u : Int) < edge.1))).map
      (fun edge => (edge.2, (u : Int), edge.1)))

/-- The edge list after `std::sort`.  The order is total and only equal tuples tie, so
the sorted list does not depend on the sorting algorithm. -/
def kruskalSortedEdges (graph : Graph) : List Edge :=
  (kruskalEdgeList graph).insertionSort tupleLe

/-- The variables of the main loop of `kruskalMST`. -/
structure KruskalState where
  ds : DisjointSet
  mst : List (Int × Int)
  visited : List Int
  steps : List GraphSnapshot

/-- One round of the loop over the sorted edges in `kruskalMST`.  In
`ds.find(u) != ds.find(v)` the left call is taken first; both calls only shorten
parent chains, so the order does not change the roots or the resulting set. -/
def kruskalStep (s : KruskalState) (edge : Edge) : Except Fault KruskalState :=
  let weight := edge.1
  let u := edge.2.1
  let v := edge.2.2
  let steps1 := s.steps ++
    [graphStateToJson s.visited (-1) (GraphStatus.consideringWeighted u v weight)]
  match DisjointSet.find s.ds.parent.length s.ds u with
  | Except.error e => Except.error e
  | Except.ok (ru, ds1) =>
    match DisjointSet.find ds1.parent.length ds1 v with
    | Except.error e => Except.error e
    | Except.ok (rv, ds2) =>
      if ru ≠ rv then
        match DisjointSet.unionSets ds2 u v with
        | Except.error e => Except.error e
        | Except.ok ds3 =>
          let visited1 := s.visited ++ [u]
          let visited2 := if v ∈ visited1 then visited1 else visited1 ++ [v]
          Except.ok
            { ds := ds3
              mst := s.mst ++ [(u, v)]
              visited := visited2
              steps := steps1 ++
                [graphStateToJson visited2 (-1) (GraphStatus.addedEdge u v weight)] }
      else
        Except.ok
          { s with
            ds := ds2
            steps := steps1 ++ [graphStateToJson s.visited (-1) (GraphStatus.cycleSkip u v)] }

/-- One round of the loop that adds up `totalWeight`: the weight of the first entry of
`graph[edge.first]` whose target is `edge.second` is added, if there is one. -/
def kruskalAddWeight (graph : Graph) (total : Int) (edge : Int × Int) : Int :=
  match (graph.getD edge.1.toNat []).find? (fun adj => decide (adj.1 = edge.2)) with
  | some adj => wrapInt (total + adj.2)
  | none => total

/-- The state of `kruskalMST(graph)` after its main loop. -/
def kruskalRun (graph : Graph) : Except Fault KruskalState :=
  (kruskalSortedEdges graph).foldlM kruskalStep
    { ds := DisjointSet.init graph.length
      mst := []
      visited := []
      steps := [graphStateToJson [] (-1) GraphStatus.kruskalStart] }

/-- `kruskalMST(graph)`: the steps, ending with the snapshot that reports the total. -/
def kruskalMST (graph : Graph) : Except Fault (List GraphSnapshot) :=
  match kruskalRun graph with
  | Except.error e => Except.error e
  | Except.ok s =>
    Except.ok (s.steps ++
      [graphStateToJson s.visited (-1)
        (GraphStatus.kruskalComplete (s.mst.foldl (kruskalAddWeight graph) 0))])

/-- The total weight `kruskalMST(graph)` reports. -/
def kruskalTotal (graph : Graph) : Option Int :=
  match kruskalRun graph with
  | Except.error _ => none
  | Except.ok s => some (s.mst.foldl (kruskalAddWeight graph) 0)

/-- The status of every snapshot `kruskalMST(graph)` returns, in order. -/
def kruskalTrace (graph : Graph) : Option (List GraphStatus) :=
  match kruskalMST graph with
  | Except.error _ => none
  | Except.ok steps => some (steps.map (fun s => s.status))

/-! ## Breadth-first and depth-first search (`graph.h`) -/

/-- The variables of `breadthFirstSearch`: the queue `q` is kept front first. -/
structure BfsState where
  visited : List Int
  q : List Int
  steps : List GraphSnapshot

/-- One round of the loop over `graph[current]` in `breadthFirstSearch`. -/
def bfsNeighbor (current : Int) (s : BfsState) (edge : Int × Int) : BfsState :=
  let neighbor := edge.1
  if neighbor ∈ s.visited then
    s
  else
    let steps1 := s.steps ++
      [graphStateToJson s.visited current (GraphStatus.discoveringEdge current neighbor)]
    let visited1 := s.visited ++ [neighbor]
    { visited := visited1
      q := s.q ++ [neighbor]
      steps := steps1 ++ [graphStateToJson visited1 neighbor (GraphStatus.discovered neighbor)] }

/-- The body of the `while (!q.empty())` loop of `breadthFirstSearch` for the front
entry `current`, `rest` being the queue after `q.pop()`. -/
def bfsStep (graph : Graph) (s : BfsState) (current : Int) (rest : List Int) :
    Except Fault BfsState :=
  let steps1 := s.steps ++
    [graphStateToJson s.visited current (GraphStatus.processing current)]
  if 0 ≤ current ∧ current < graph.length then
    Except.ok ((graph.getD current.toNat []).foldl (bfsNeighbor current)
      { s with q := rest, steps := steps1 })
  else
    Except.error Fault.outOfBounds

/-- The `while (!q.empty())` loop of `breadthFirstSearch`. -/
def bfsLoop (graph : Graph) : Nat → BfsState → Except Fault BfsState
  | fuel, s =>
    match s.q with
    | [] => Except.ok s
    | current :: rest =>
      match fuel with
      | 0 => Except.error Fault.outOfFuel
      | fuel + 1 =>
        match bfsStep graph s current rest with
        | Except.error e => Except.error e
        | Except.ok s1 => bfsLoop graph fuel s1

/-- The variables of `breadthFirstSearch(graph, start)` when its loop is entered: the
starting snapshot is recorded, `start` is queued and marked visited. -/
def bfsInit (start : Int) : BfsState :=
  { visited := [start]
    q := [start]
    steps := [graphStateToJson [] start (GraphStatus.bfsStart start)] }

/-- `breadthFirstSearch(graph, start)`.  A node is queued once, when it is marked
visited, and a queued index outside the graph stops the run, so `graph.size() + 1`
rounds of fuel are supplied. -/
def breadthFirstSearch (graph : Graph) (start : Int) : Except Fault (List GraphSnapshot) :=
  match bfsLoop graph (graph.length + 1) (bfsInit start) with
  | Except.error e => Except.error e
  | Except.ok s => Except.ok (s.steps ++ [graphStateToJson s.visited (-1) GraphStatus.bfsComplete])

/-- The variables of `depthFirstSearch`: the stack `s` is kept top first. -/
structure DfsState where
  visited : List Int
  stack : List Int
  steps : List GraphSnapshot

/-- One round of the loop over `graph[current]` (taken in reverse) in
`depthFirstSearch`. -/
def dfsNeighbor (current : Int) (s : DfsState) (edge : Int × Int) : DfsState :=
  let neighbor := edge.1
  if neighbor ∈ s.visited then
    s
  else
    { s with
      stack := neighbor :: s.stack
      steps := s.steps ++
        [graphStateToJson s.visited current (GraphStatus.consideringEdge current neighbor)] }

/-- The body of the `while (!s.empty())` loop of `depthFirstSearch` for the top entry
`current`, `rest` being the stack after `s.pop()`. -/
def dfsStep (graph : Graph) (s : DfsState) (current : Int) (rest : List Int) :
    Except Fault DfsState :=
  if current ∈ s.visited then
    Except.ok { s with stack := rest }
  else
    let visited1 := s.visited ++ [current]
    let steps1 := s.steps ++
      [graphStateToJson visited1 current (GraphStatus.processing current)]
    if 0 ≤ current ∧ current < graph.length then
      Except.ok ((graph.getD current.toNat []).reverse.foldl (dfsNeighbor current)
        { visited := visited1, stack := rest, steps := steps1 })
    else
      Except.error Fault.outOfBounds

/-- The `while (!s.empty())` loop of `depthFirstSearch`. -/
def dfsLoop (graph : Graph) : Nat → DfsState → Except Fault DfsState
  | fuel, s =>
    match s.stack with
    | [] => Except.ok s
    | current :: rest =>
      match fuel with
      | 0 => Except.error Fault.outOfFuel
      | fuel + 1 =>
        match dfsStep graph s current rest with
        | Except.error e => Except.error e
        | Except.ok s1 => dfsLoop graph fuel s1

/-- The variables of `depthFirstSearch(graph, start)` when its loop is entered. -/
def dfsInit (start : Int) : DfsState :=
  { visited := []
    stack := [start]
    steps := [graphStateToJson [] start (GraphStatus.dfsStart start)] }

/-- `depthFirstSearch(graph, start)`.  Every stack entry is pushed by the start or by
one adjacency entry of a node processed once, so `edgeCount graph + 1` rounds of fuel
are supplied. -/
def depthFirstSearch (graph : Graph) (start : Int) : Except Fault (List GraphSnapshot) :=
  match dfsLoop graph (edgeCount graph + 1) (dfsInit start) with
  | Except.error e => Except.error e
  | Except.ok s => Except.ok (s.steps ++ [graphStateToJson s.visited (-1) GraphStatus.dfsComplete])

/-- The current nodes of the "Processing node" snapshots of a trace, in order. -/
def processingOrder (steps : List GraphSnapshot) : List Int :=
  steps.filterMap (fun s =>
    match s.status with
    | GraphStatus.processing _ => some s.current
    | _ => none)

/-! ## Prim (`graph.h`) -/

/-- The variables of `primMST`: the queue holds `(weight, to, from)` tuples. -/
structure PrimState where
  visited : List Int
  pq : List Edge
  totalWeight : Int
  steps : List GraphSnapshot

/-- `pq.top()` of the min-queue of tuples: the least tuple held, `none` when the queue
is empty. -/
def primTop : List Edge → Option Edge
  | [] => none
  | x :: xs => some (xs.foldl (fun m y => if tupleLe y m then y else m) x)

/-- The body of the loop of `primMST` for the top entry `(weight, to, from)`. -/
def primStep (graph : Graph) (s : PrimState) (top : Edge) : Except Fault PrimState :=
  let weight := top.1
  let dst := top.2.1
  let src := top.2.2
  let pq1 := s.pq.erase top
  if dst ∈ s.visited then
    Except.ok
      { s with
        pq := pq1
        steps := s.steps ++ [graphStateToJson s.visited (-1) (GraphStatus.primSkip src dst)] }
  else
    let total1 := wrapInt (s.totalWeight + weight)
    let visited1 := s.visited ++ [dst]
    let steps1 := s.steps ++
      [graphStateToJson visited1 dst (GraphStatus.addedEdge src dst weight)]
    if 0 ≤ dst ∧ dst < graph.length then
      Except.ok
        { visited := visited1
          pq := pq1 ++
            ((graph.getD dst.toNat []).filter (fun edge => decide (edge.1 ∉ visited1))).map
              (fun edge => (edge.2, edge.1, dst))
          totalWeight := total1
          steps := steps1 ++ [graphStateToJson visited1 dst (GraphStatus.primQueued dst)] }
    else
      Except.error Fault.outOfBounds

/-- The loop `while (!pq.empty() && visited.size() < graph.size())` of `primMST`. -/
def primLoop (graph : Graph) : Nat → PrimState → Except Fault PrimState
  | fuel, s =>
    match primTop s.pq with
    | none => Except.ok s
    | some top =>
      if s.visited.length < graph.length then
        match fuel with
        | 0 => Except.error Fault.outOfFuel
        | fuel + 1 =>
          match primStep graph s top with
          | Except.error e => Except.error e
          | Except.ok s1 => primLoop graph fuel s1
      else
        Except.ok s

/-- The variables of `primMST(graph)` when its loop is entered (`graph` is not empty):
node 0 is visited and all its adjacency entries are queued. -/
def primInit (graph : Graph) : PrimState :=
  { visited := [0]
    pq := (graph.getD 0 []).map (fun edge => (edge.2, edge.1, 0))
    totalWeight := 0
    steps := [graphStateToJson [] 0 (GraphStatus.primStart 0),
      graphStateToJson [0] 0 (GraphStatus.primQueued 0)] }

/-- The state of `primMST(graph)` when its loop ends, `none` for the empty graph (which
returns no steps).  Every queue entry is pushed by one adjacency entry of a node
visited once, so `edgeCount graph + 1` rounds of fuel are supplied. -/
def primRun (graph : Graph) : Except Fault (Option PrimState) :=
  if graph = [] then
    Except.ok none
  else
    match primLoop graph (edgeCount graph + 1) (primInit graph) with
    | Except.error e => Except.error e
    | Except.ok s => Except.ok (some s)

/-- `primMST(graph)`: the steps, ending with the snapshot that reports the total. -/
def primMST (graph : Graph) : Except Fault (List GraphSnapshot) :=
  match primRun graph with
  | Except.error e => Except.error e
  | Except.ok none => Except.ok []
  | Except.ok (some s) =>
    Except.ok (s.steps ++
      [graphStateToJson s.visited (-1) (GraphStatus.primComplete s.totalWeight)])

/-- The total weight `primMST(graph)` reports. -/
def primTotal (graph : Graph) : Option Int :=
  match primRun graph with
  | Except.ok (some s) => some s.totalWeight
  | _ => none

/-- The edges of the "Added edge" snapshots of a trace, in order, as
`(weight, source, target)`. -/
def addedEdges (steps : List GraphSnapshot) : List Edge :=
  steps.filterMap (fun s =>
    match s.status with
    | GraphStatus.addedEdge src dst weight => some (weight, src, dst)
    | _ => none)

/-! ## Binary search tree (`tree.h`) -/

/-- A `std::shared_ptr<TreeNode>`: `nil` is the null pointer.  No node is shared between
two parents, so the pointer structure is a tree. -/
inductive TreeNode where
  | nil
  | node (value : Int) (left right : TreeNode)
deriving DecidableEq

/-- What `treeToJson` renders: `null`, or a node with its value, its `highlight` and
`found` flags and its rendered children. -/
inductive TreeJson where
  | null
  | node (value : Int) (highlight found : Bool) (left right : TreeJson)
deriving DecidableEq

/-- The renderer `treeToJson(root, highlightValue, isFound)`. -/
def treeToJson : TreeNode → Int → Bool → TreeJson
  | TreeNode.nil, _, _ => TreeJson.null
  | TreeNode.node value left right, highlightValue, isFound =>
    TreeJson.node value (decide (value = highlightValue))
      (isFound && decide (value = highlightValue))
      (treeToJson left highlightValue isFound) (treeToJson right highlightValue isFound)

/-- The status text of a tree snapshot. -/
inductive TreeStatus where
  /-- Text "Starting insertion of v" -/
  | insertStart (value : Int)
  /-- Text "Created new tree with root v" -/
  | createdRoot (value : Int)
  /-- Text "Comparing v with x" (insert and search) -/
  | comparing (value node : Int)
  /-- Text "v < x, moving to left child" (insert and search) -/
  | movingLeft (value node : Int)
  /-- Text "v >= x, moving to right child" (insert) -/
  | movingRightGe (value node : Int)
  /-- Text "v > x, moving to right child" (search) -/
  | movingRightGt (value node : Int)
  /-- Text "Inserted v as left child of p" -/
  | insertedLeft (value parent : Int)
  /-- Text "Inserted v as right child of p" -/
  | insertedRight (value parent : Int)
  /-- Text "Insertion complete" -/
  | insertionComplete
  /-- Text "Starting search for v" -/
  | searchStart (value : Int)
  /-- Text "Tree is empty, value not found" -/
  | emptyNotFound
  /-- Text "Found v in the tree" -/
  | found (value : Int)
  /-- Text "v not found in the tree" -/
  | notFound (value : Int)
  /-- Text "Starting deletion of v" -/
  | deleteStart (value : Int)
  /-- Text "Tree is empty, nothing to delete" -/
  | emptyNothingToDelete
  /-- Text "Examining node x" -/
  | examining (node : Int)
  /-- Text "v < x, moving to left subtree" -/
  | leftSubtree (value node : Int)
  /-- Text "v > x, moving to right subtree" -/
  | rightSubtree (value node : Int)
  /-- Text "Found node to delete: x" -/
  | foundToDelete (node : Int)
  /-- Text "Node x has no left child, replacing with right child" -/
  | noLeftChild (node : Int)
  /-- Text "Node x has no right child, replacing with left child" -/
  | noRightChild (node : Int)
  /-- Text "Node x has two children, finding successor" -/
  | twoChildren (node : Int)
  /-- Text "Inorder successor is s" -/
  | successorIs (successor : Int)
  /-- Text "Replaced value with successor s" -/
  | replacedWith (successor : Int)
  /-- Text "Now deleting the successor node s from right subtree" -/
  | deletingSuccessor (successor : Int)
  /-- Text "Deletion complete" -/
  | deletionComplete
  /-- Text "Clearing the tree" -/
  | clearing
  /-- Text "Tree cleared" -/
  | cleared
deriving DecidableEq

/-- One entry of `steps`: the rendered tree and the status text. -/
structure TreeSnapshot where
  tree : TreeJson
  status : TreeStatus
deriving DecidableEq

/-- The `while (current)` loop of `bstInsert`: from `current` down to a null child.
Returns `parent->value` of the last node passed, and the steps. -/
def bstInsertWalk (bstRoot : TreeNode) (value : Int) :
    TreeNode → Int → List TreeSnapshot → Int × List TreeSnapshot
  | TreeNode.nil, parent, steps => (parent, steps)
  | TreeNode.node x left right, _, steps =>
    let steps1 := steps ++ [⟨treeToJson bstRoot x false, TreeStatus.comparing value x⟩]
    if value < x then
      bstInsertWalk bstRoot value left x
        (steps1 ++ [⟨treeToJson bstRoot x false, TreeStatus.movingLeft value x⟩])
    else
      bstInsertWalk bstRoot value right x
        (steps1 ++ [⟨treeToJson bstRoot x false, TreeStatus.movingRightGe value x⟩])

/-- The tree after `parent->left` (or `parent->right`) of the node where the walk of
`bstInsert` ended received the new leaf: the walk goes left when `value < node`, right
otherwise, and the leaf takes the null slot it reached. -/
def insertLeaf (value : Int) : TreeNode → TreeNode
  | TreeNode.nil => TreeNode.node value TreeNode.nil TreeNode.nil
  | TreeNode.node x left right =>
    if value < x then TreeNode.node x (insertLeaf value left) right
    else TreeNode.node x left (insertLeaf value right)

/-- `bstInsert(value)` on the tree `bstRoot`: the new `bstRoot` and the steps. -/
def bstInsert (bstRoot : TreeNode) (value : Int) : TreeNode × List TreeSnapshot :=
  let steps := [⟨treeToJson bstRoot (-1) false, TreeStatus.insertStart value⟩]
  match bstRoot with
  | TreeNode.nil =>
    let root1 := TreeNode.node value TreeNode.nil TreeNode.nil
    (root1, steps ++ [⟨treeToJson root1 value false, TreeStatus.createdRoot value⟩])
  | TreeNode.node x _ _ =>
    let walk := bstInsertWalk bstRoot value bstRoot x steps
    let parent := walk.1
    let root1 := insertLeaf value bstRoot
    let steps1 := walk.2 ++
      [⟨treeToJson root1 value false,
        if value < parent then TreeStatus.insertedLeft value parent
        else TreeStatus.insertedRight value parent⟩]
    (root1, steps1 ++ [⟨treeToJson root1 (-1) false, TreeStatus.insertionComplete⟩])

/-- The `while (current)` loop of `bstSearch`, with the snapshot that follows it when
the value is not found. -/
def bstSearchLoop (bstRoot : TreeNode) (value : Int) :
    TreeNode → List TreeSnapshot → List TreeSnapshot
  | TreeNode.nil, steps =>
    steps ++ [⟨treeToJson bstRoot (-1) false, TreeStatus.notFound value⟩]
  | TreeNode.node x left right, steps =>
    let steps1 := steps ++ [⟨treeToJson bstRoot x false, TreeStatus.comparing value x⟩]
    if value = x then
      steps1 ++ [⟨treeToJson bstRoot x true, TreeStatus.found value⟩]
    else if value < x then
      bstSearchLoop bstRoot value left
        (match left with
          | TreeNode.nil => steps1
          | TreeNode.node y _ _ =>
            steps1 ++ [⟨treeToJson bstRoot y false, TreeStatus.movingLeft value y⟩])
    else
      bstSearchLoop bstRoot value right
        (match right with
          | TreeNode.nil => steps1
          | TreeNode.node y _ _ =>
            steps1 ++ [⟨treeToJson bstRoot y false, TreeStatus.movingRightGt value y⟩])

/-- `bstSearch(value)` on the tree `bstRoot`: the steps (the tree is not changed). -/
def bstSearch (bstRoot : TreeNode) (value : Int) : List TreeSnapshot :=
  let steps := [⟨treeToJson bstRoot (-1) false, TreeStatus.searchStart value⟩]
  match bstRoot with
  | TreeNode.nil => steps ++ [⟨TreeJson.null, TreeStatus.emptyNotFound⟩]
  | TreeNode.node _ _ _ => bstSearchLoop bstRoot value bstRoot steps

/-- `findMinValueNode(node)`: the leftmost node below `node` (null for null). -/
def findMinValueNode : TreeNode → TreeNode
  | TreeNode.nil => TreeNode.nil
  | TreeNode.node x left right =>
    match left with
    | TreeNode.nil => TreeNode.node x left right
    | TreeNode.node _ _ _ => findMinValueNode left

/-- `deleteNodeHelper(root, value, steps)`: the pointer it returns and the steps.
The snapshots render the global `bstRoot`, which the C++ changes in place; `ctx` gives
`bstRoot` for each state of the subtree at `root` (the nodes above it are changed only
after the call returns, and no snapshot is taken after a nested call returns). -/
def deleteNodeHelper (ctx : TreeNode → TreeNode) :
    TreeNode → Int → List TreeSnapshot → TreeNode × List TreeSnapshot
  | TreeNode.nil, _, steps => (TreeNode.nil, steps)
  | TreeNode.node x left right, value, steps =>
    let here := ctx (TreeNode.node x left right)
    let steps1 := steps ++ [⟨treeToJson here x false, TreeStatus.examining x⟩]
    if value < x then
      let res := deleteNodeHelper (fun t => ctx (TreeNode.node x t right)) left value
        (steps1 ++ [⟨treeToJson here x false, TreeStatus.leftSubtree value x⟩])
      (TreeNode.node x res.1 right, res.2)
    else if value > x then
      let res := deleteNodeHelper (fun t => ctx (TreeNode.node x left t)) right value
        (steps1 ++ [⟨treeToJson here x false, TreeStatus.rightSubtree value x⟩])
      (TreeNode.node x left res.1, res.2)
    else
      let steps2 := steps1 ++ [⟨treeToJson here x true, TreeStatus.foundToDelete x⟩]
      match left, right with
      | TreeNode.nil, _ =>
        (right, steps2 ++ [⟨treeToJson here x false, TreeStatus.noLeftChild x⟩])
      | TreeNode.node _ _ _, TreeNode.nil =>
        (left, steps2 ++ [⟨treeToJson here x false, TreeStatus.noRightChild x⟩])
      | TreeNode.node _ _ _, TreeNode.node _ _ _ =>
        let steps3 := steps2 ++ [⟨treeToJson here x false, TreeStatus.twoChildren x⟩]
        match findMinValueNode right with
        | TreeNode.nil => (TreeNode.node x left right, steps3)
        | TreeNode.node s _ _ =>
          let steps4 := steps3 ++ [⟨treeToJson here s false, TreeStatus.successorIs s⟩]
          let here1 := ctx (TreeNode.node s left right)
          let steps5 := steps4 ++
            [⟨treeToJson here1 s false, TreeStatus.replacedWith s⟩,
             ⟨treeToJson here1 s false, TreeStatus.deletingSuccessor s⟩]
          let res := deleteNodeHelper (fun t => ctx (TreeNode.node s left t)) right s steps5
          (TreeNode.node s left res.1, res.2)

/-- `bstDelete(value)` on the tree `bstRoot`: the new `bstRoot` and the steps. -/
def bstDelete (bstRoot : TreeNode) (value : Int) : TreeNode × List TreeSnapshot :=
  let steps := [⟨treeToJson bstRoot (-1) false, TreeStatus.deleteStart value⟩]
  match bstRoot with
  | TreeNode.nil => (TreeNode.nil, steps ++ [⟨TreeJson.null, TreeStatus.emptyNothingToDelete⟩])
  | TreeNode.node _ _ _ =>
    let res := deleteNodeHelper (fun t => t) bstRoot value steps
    (res.1, res.2 ++ [⟨treeToJson res.1 (-1) false, TreeStatus.deletionComplete⟩])

/-- `bstClear()`: the tree becomes empty. -/
def bstClear (bstRoot : TreeNode) : TreeNode × List TreeSnapshot :=
  (TreeNode.nil,
    [⟨treeToJson bstRoot (-1) false, TreeStatus.clearing⟩, ⟨TreeJson.null, TreeStatus.cleared⟩])

/-- An insert or delete request on the persistent tree. -/
inductive TreeOp where
  | insert (value : Int)
  | delete (value : Int)
deriving DecidableEq

/-- The tree after one request. -/
def applyTreeOp (bstRoot : TreeNode) : TreeOp → TreeNode
  | TreeOp.insert value => (bstInsert bstRoot value).1
  | TreeOp.delete value => (bstDelete bstRoot value).1

/-- The tree after a sequence of requests, starting from the empty tree. -/
def treeAfter (ops : List TreeOp) : TreeNode := ops.foldl applyTreeOp TreeNode.nil

/-- The in-order walk of a tree. -/
def inorder : TreeNode → List Int
  | TreeNode.nil => []
  | TreeNode.node x left right => inorder left ++ x :: inorder right

/-- Some node of the rendered tree has the value `v` and is marked `found`. -/
def TreeJson.marksFound : TreeJson → Int → Bool
  | TreeJson.null, _ => false
  | TreeJson.node value _ found left right, v =>
    (found && decide (value = v)) || TreeJson.marksFound left v || TreeJson.marksFound right v

/-- Some node of the rendered tree is marked `found`. -/
def TreeJson.anyFound : TreeJson → Bool
  | TreeJson.null => false
  | TreeJson.node _ _ found left right =>
    found || TreeJson.anyFound left || TreeJson.anyFound right

/-! ## Binary max-heap (`heap.h`) -/

/-- What `heapToJson(heap, highlightIndex, highlightIndex2)` renders: the values, each
highlighted when its index is one of the two highlight arguments (`-1` for none). -/
structure HeapJson where
  heap : List Int
  highlightIndex : Int
  highlightIndex2 : Int
deriving DecidableEq

/-- The renderer `heapToJson`. -/
def heapToJson (heap : List Int) (highlightIndex highlightIndex2 : Int) : HeapJson :=
  ⟨heap, highlightIndex, highlightIndex2⟩

/-- The status text of a heap snapshot. -/
inductive HeapStatus where
  /-- Text "Heapifying at index i" -/
  | heapifying (i : Int)
  /-- Text "Comparing a with left child b" -/
  | comparingLeft (node child : Int)
  /-- Text "Left child is larger, updating largest to index l" -/
  | leftLarger (largest : Int)
  /-- Text "Comparing a with right child b" -/
  | comparingRight (node child : Int)
  /-- Text "Right child is larger, updating largest to index l" -/
  | rightLarger (largest : Int)
  /-- Text "Swapping a with b" -/
  | swapping (a b : Int)
  /-- Text "Swapped elements, now heapifying the affected subtree" -/
  | swappedNowHeapifying
  /-- Text "Node at index i is already a max heap" -/
  | alreadyMaxHeap (i : Int)
  /-- Text "Starting to build max heap from array" -/
  | buildStart
  /-- Text "Processing node at index i" -/
  | processingNode (i : Int)
  /-- Text "Max heap built successfully" -/
  | built
  /-- Text "Starting insertion of v" -/
  | insertStart (value : Int)
  /-- Text "Inserted v at the end of heap" -/
  | insertedAtEnd (value : Int)
  /-- Text "Comparing a with parent b" -/
  | comparingParent (child parent : Int)
  /-- Text "Heap property satisfied, stopping" -/
  | propertySatisfied
  /-- Text "Child is greater than parent, swapping" -/
  | childGreater
  /-- Text "Swapped a with b" -/
  | swapped (a b : Int)
  /-- Text "Insertion complete, heap property restored" -/
  | insertionComplete
  /-- Text "Starting extract max operation" -/
  | extractStart
  /-- Text "Heap is empty, nothing to extract" -/
  | heapEmpty
  /-- Text "Maximum value is m (at root)" -/
  | maximumIs (maxValue : Int)
  /-- Text "Replaced root with last element x" -/
  | replacedRoot (value : Int)
  /-- Text "Heap is now empty" -/
  | nowEmpty
  /-- Text "Extracted m, heap property restored" -/
  | extracted (maxValue : Int)
  /-- Text "Creating new heap from array" -/
  | creating
  /-- Text "Copied array to heap, now building max heap" -/
  | copied
  /-- Text "Clearing the heap" -/
  | clearing
  /-- Text "Heap cleared" -/
  | cleared
deriving DecidableEq

/-- One entry of `steps`: the rendered heap and the status text. -/
structure HeapSnapshot where
  json : HeapJson
  status : HeapStatus
deriving DecidableEq

/-- The heap vector together with the `steps` recorded so far. -/
abbrev HeapState := List Int × List HeapSnapshot

/-- `heapifyWithVisualization(heap, n, i, steps)`.  The recursion moves to a child
index, so it ends within `n` levels; `none` when the fuel runs out first. -/
def heapifyWithVisualization (n : Nat) : Nat → HeapState → Nat → Option HeapState
  | fuel, st, i =>
    let left := 2 * i + 1
    let right := 2 * i + 2
    let steps1 := st.2 ++ [⟨heapToJson st.1 i (-1), HeapStatus.heapifying i⟩]
    let c1 : Nat × List HeapSnapshot :=
      if left < n then
        let s := steps1 ++ [⟨heapToJson st.1 i left,
          HeapStatus.comparingLeft (st.1.getD i 0) (st.1.getD left 0)⟩]
        if st.1.getD left 0 > st.1.getD i 0 then
          (left, s ++ [⟨heapToJson st.1 left (-1), HeapStatus.leftLarger left⟩])
        else (i, s)
      else (i, steps1)
    let c2 : Nat × List HeapSnapshot :=
      if right < n then
        let s := c1.2 ++ [⟨heapToJson st.1 c1.1 right,
          HeapStatus.comparingRight (st.1.getD c1.1 0) (st.1.getD right 0)⟩]
        if st.1.getD right 0 > st.1.getD c1.1 0 then
          (right, s ++ [⟨heapToJson st.1 right (-1), HeapStatus.rightLarger right⟩])
        else (c1.1, s)
      else c1
    if c2.1 ≠ i then
      match fuel with
      | 0 => none
      | fuel + 1 =>
        let steps2 := c2.2 ++ [⟨heapToJson st.1 i c2.1,
          HeapStatus.swapping (st.1.getD i 0) (st.1.getD c2.1 0)⟩]
        let heap1 := swap st.1 i c2.1
        heapifyWithVisualization n fuel
          (heap1, steps2 ++ [⟨heapToJson heap1 i c2.1, HeapStatus.swappedNowHeapifying⟩]) c2.1
    else
      some (st.1, c2.2 ++ [⟨heapToJson st.1 i (-1), HeapStatus.alreadyMaxHeap i⟩])

/-- One round of the loop of `buildHeapWithVisualization` at index `i`. -/
def buildHeapStep (n : Nat) (st : HeapState) (i : Nat) : Option HeapState :=
  heapifyWithVisualization n n
    (st.1, st.2 ++ [⟨heapToJson st.1 i (-1), HeapStatus.processingNode i⟩]) i

/-- `buildHeapWithVisualization(heap, steps)`: `i` runs over `n/2-1 .. 0`. -/
def buildHeapWithVisualization (st : HeapState) : Option HeapState :=
  let n := st.1.length
  ((List.range (n / 2)).reverse.foldlM (buildHeapStep n)
    (st.1, st.2 ++ [⟨heapToJson st.1 (-1) (-1), HeapStatus.buildStart⟩])).map
    (fun st1 => (st1.1, st1.2 ++ [⟨heapToJson st1.1 (-1) (-1), HeapStatus.built⟩]))

/-- The `while (i > 0)` loop of `heapInsert`; every round that continues moves `i` to
its parent, so `i` rounds of fuel always suffice. -/
def heapInsertLoop : Nat → HeapState → Nat → Option HeapState
  | fuel, st, i =>
    if i > 0 then
      let parent := (i - 1) / 2
      let steps1 := st.2 ++ [⟨heapToJson st.1 i parent,
        HeapStatus.comparingParent (st.1.getD i 0) (st.1.getD parent 0)⟩]
      if st.1.getD i 0 ≤ st.1.getD parent 0 then
        some (st.1, steps1 ++ [⟨heapToJson st.1 i (-1), HeapStatus.propertySatisfied⟩])
      else
        match fuel with
        | 0 => none
        | fuel + 1 =>
          let steps2 := steps1 ++ [⟨heapToJson st.1 i parent, HeapStatus.childGreater⟩]
          let heap1 := swap st.1 i parent
          heapInsertLoop fuel
            (heap1, steps2 ++ [⟨heapToJson heap1 parent (-1),
              HeapStatus.swapped (heap1.getD parent 0) (heap1.getD i 0)⟩]) parent
    else
      some st

/-- `heapInsert(value)` on the persistent `heapArray`: the new vector and the steps. -/
def heapInsert (heapArray : List Int) (value : Int) : Option HeapState :=
  let steps := [⟨heapToJson heapArray (-1) (-1), HeapStatus.insertStart value⟩]
  let heap1 := heapArray ++ [value]
  let steps1 := steps ++
    [⟨heapToJson heap1 ((heap1.length : Int) - 1) (-1), HeapStatus.insertedAtEnd value⟩]
  (heapInsertLoop (heap1.length - 1) (heap1, steps1) (heap1.length - 1)).map
    (fun st => (st.1, st.2 ++ [⟨heapToJson st.1 (-1) (-1), HeapStatus.insertionComplete⟩]))

/-- `heapExtractMax()` on the persistent `heapArray`: the new vector, the steps, and the
captured `maxValue` (`none` when the heap was empty). -/
def heapExtractMax (heapArray : List Int) : Option (HeapState × Option Int) :=
  let steps := [⟨heapToJson heapArray (-1) (-1), HeapStatus.extractStart⟩]
  match heapArray with
  | [] => some (([], steps ++ [⟨heapToJson [] (-1) (-1), HeapStatus.heapEmpty⟩]), none)
  | maxValue :: _ =>
    let steps1 := steps ++ [⟨heapToJson heapArray 0 (-1), HeapStatus.maximumIs maxValue⟩]
    let heap1 := (heapArray.set 0 (heapArray.getLastD maxValue)).dropLast
    if heap1 ≠ [] then
      let steps2 := steps1 ++
        [⟨heapToJson heap1 0 (-1), HeapStatus.replacedRoot (heap1.getD 0 0)⟩]
      (heapifyWithVisualization heap1.length heap1.length (heap1, steps2) 0).map
        (fun st =>
          ((st.1, st.2 ++ [⟨heapToJson st.1 (-1) (-1), HeapStatus.extracted maxValue⟩]),
            some maxValue))
    else
      let steps2 := steps1 ++ [⟨heapToJson [] (-1) (-1), HeapStatus.nowEmpty⟩]
      some ((heap1, steps2 ++ [⟨heapToJson heap1 (-1) (-1), HeapStatus.extracted maxValue⟩]),
        some maxValue)

/-- `createHeap(array)`: the persistent vector is replaced by `array` and heapified. -/
def createHeap (array : List Int) : Option HeapState :=
  buildHeapWithVisualization
    (array, [⟨heapToJson [] (-1) (-1), HeapStatus.creating⟩,
      ⟨heapToJson array (-1) (-1), HeapStatus.copied⟩])

/-- `clearHeap()`: the persistent vector becomes empty. -/
def clearHeap (heapArray : List Int) : HeapState :=
  ([], [⟨heapToJson heapArray (-1) (-1), HeapStatus.clearing⟩,
    ⟨heapToJson [] (-1) (-1), HeapStatus.cleared⟩])

/-- A request on the persistent heap. -/
inductive HeapOp where
  | create (array : List Int)
  | insert (value : Int)
  | extractMax
  | clear
deriving DecidableEq

/-- The persistent vector after one request. -/
def applyHeapOp (heapArray : List Int) : HeapOp → Option (List Int)
  | HeapOp.create array => (createHeap array).map (fun st => st.1)
  | HeapOp.insert value => (heapInsert heapArray value).map (fun st => st.1)
  | HeapOp.extractMax => (heapExtractMax heapArray).map (fun r => r.1.1)
  | HeapOp.clear => some (clearHeap heapArray).1

/-- The persistent vector after a sequence of requests, starting from the empty heap. -/
def heapAfter (ops : List HeapOp) : Option (List Int) := ops.foldlM applyHeapOp []

/-! ## Invariants and specification predicates used by the proofs -/

/-- Every pair of positions from `s` on is in order. -/
def SortedFrom (a : List Int) (s : Nat) : Prop :=
  ∀ p q, s ≤ p → p < q → q < a.length → a.getD p 0 ≤ a.getD q 0

/-- Every position before `s` holds a value at most every value from `s` on. -/
def PrefixLe (a : List Int) (s : Nat) : Prop :=
  ∀ p q, p < s → s ≤ q → q < a.length → a.getD p 0 ≤ a.getD q 0

/-- Every pair of positions before `s` is in order. -/
def SortedBefore (a : List Int) (s : Nat) : Prop :=
  ∀ p q, p < q → q < s → a.getD p 0 ≤ a.getD q 0

/-- The adjacency entries of node `u` (none for an index outside the graph). -/
def adj (g : Graph) (u : Int) : List (Int × Int) :=
  if 0 ≤ u ∧ u < g.length then g.getD u.toNat [] else []

/-- Every edge target is a node index of the graph. -/
def ValidGraph (g : Graph) : Prop :=
  ∀ l ∈ g, ∀ e ∈ l, 0 ≤ e.1 ∧ e.1 < (g.length : Int)

/-- The list `p` of adjacency entries is a walk that starts at `u`: the first entry
belongs to `u`, each next one to the target of the entry before. -/
def IsWalk (g : Graph) : Int → List (Int × Int) → Prop
  | _, [] => True
  | u, e :: p => e ∈ adj g u ∧ IsWalk g e.1 p

/-- The node where the walk `p` from `u` ends. -/
def walkEnd : Int → List (Int × Int) → Int
  | u, [] => u
  | _, e :: p => walkEnd e.1 p

/-- The total weight of a walk. -/
def walkWeight (p : List (Int × Int)) : Int := (p.map Prod.snd).sum

/-- The nodes a walk from `u` passes, in order. -/
def walkNodes (u : Int) (p : List (Int × Int)) : List Int := u :: p.map Prod.fst

/-- A simple path from `s` to `v`: a walk that passes no node twice. -/
def IsSimplePath (g : Graph) (s v : Int) (p : List (Int × Int)) : Prop :=
  IsWalk g s p ∧ walkEnd s p = v ∧ (walkNodes s p).Nodup

/-- The entry of `v` in a `distances` vector. -/
def distAt (dist : List Int) (v : Int) : Int := dist.getD v.toNat 0

/-- Every weight is non-negative and small enough that no sum along a simple path
reaches `INT_MAX`: `weight * nodeCount < INT_MAX`. -/
def BoundedWeights (g : Graph) : Prop :=
  ∀ l ∈ g, ∀ e ∈ l, 0 ≤ e.2 ∧ e.2 * (g.length : Int) < INT_MAX

/-- The adjacency entries of the nodes not yet in `visited`, counted. -/
def pendingDeg (g : Graph) (visited : List Int) : Nat :=
  ((List.range g.length).map
    (fun (i : Nat) => if (i : Int) ∈ visited then 0 else (g.getD i []).length)).sum

/-- The measure that every round of the loop of `dijkstraAlgorithm` decreases. -/
def dijkstraMeasure (g : Graph) (s : DijkstraState) : Nat :=
  s.pq.length + pendingDeg g s.visited

/-- The invariant of the loop of `dijkstraAlgorithm` on graphs with non-negative,
bounded weights: `S` is the visited list, `dist` the distances vector, `pq` the queue. -/
structure DijkInv (g : Graph) (start : Int) (S : List Int) (dist : List Int)
    (pq : List (Int × Int)) : Prop where
  len : dist.length = g.length
  start0 : distAt dist start = 0
  valid : ∀ v ∈ S, 0 ≤ v ∧ v < (g.length : Int)
  nodup : S.Nodup
  realized : ∀ v : Int, 0 ≤ v → v < (g.length : Int) → distAt dist v ≠ INT_MAX →
    ∃ p, IsSimplePath g start v p ∧ walkWeight p = distAt dist v ∧
      ∀ x ∈ walkNodes start p, x = v ∨ x ∈ S
  final : ∀ v ∈ S, distAt dist v ≠ INT_MAX ∧
    ∀ p, IsWalk g start p → walkEnd start p = v → distAt dist v ≤ walkWeight p
  pqValid : ∀ e ∈ pq, 0 ≤ e.2 ∧ e.2 < (g.length : Int) ∧ distAt dist e.2 ≤ e.1 ∧ e.1 < INT_MAX
  pqHas : ∀ v : Int, 0 ≤ v → v < (g.length : Int) → v ∉ S → distAt dist v ≠ INT_MAX →
    (distAt dist v, v) ∈ pq

/-- The adjacency entries `edges` of `u` have been relaxed: no target is farther than
`u` plus the weight. -/
def Relaxed (dist : List Int) (u : Int) (edges : List (Int × Int)) : Prop :=
  ∀ e ∈ edges, distAt dist e.1 ≤ distAt dist u + e.2 ∧ distAt dist e.1 ≠ INT_MAX

/-- The invariant of the loop over `graph[current]` inside a round of Dijkstra: `done`
are the entries handled so far, `L` the queue length when the loop started. -/
structure RelaxInv (g : Graph) (start cur d : Int) (S : List Int) (L : Nat)
    (done : List (Int × Int)) (s : DijkstraState) : Prop where
  vis : s.visited = S
  core : DijkInv g start S s.distances s.pq
  others : ∀ u ∈ S, u ≠ cur → Relaxed s.distances u (adj g u)
  here : Relaxed s.distances cur done
  dcur : distAt s.distances cur = d
  qlen : s.pq.length ≤ L + done.length

/-- The invariant of the loop of `dijkstraAlgorithm` between rounds: the core
invariant, and every adjacency entry of a visited node has been relaxed. -/
def DijkOuter (g : Graph) (start : Int) (s : DijkstraState) : Prop :=
  DijkInv g start s.visited s.distances s.pq ∧
    ∀ u ∈ s.visited, Relaxed s.distances u (adj g u)

/-- Nodes `x` and `y` are joined by a chain of edges of `es`, taken in either direction. -/
def Joined (es : List Edge) : Int → Int → Prop :=
  Relation.EqvGen (fun x y => ∃ w, ((w, x, y) : Edge) ∈ es)

/-- The total weight of a list of edges. -/
def treeWeight (T : List Edge) : Int := (T.map (fun e => e.1)).sum

/-- A spanning tree of the graph: `nodeCount - 1` adjacency entries, written
`(weight, u, v)` for the entry `(v, weight)` of node `u`, that join every two nodes. -/
def IsSpanningTree (g : Graph) (T : List Edge) : Prop :=
  (∀ e ∈ T, (e.2.2, e.1) ∈ adj g e.2.1) ∧
  (∀ x y : Int, 0 ≤ x → x < (g.length : Int) → 0 ≤ y → y < (g.length : Int) → Joined T x y) ∧
  T.length = g.length - 1

/-- The adjacency list is symmetric: every entry has its mirror entry, same weight. -/
def SymmetricGraph (g : Graph) : Prop :=
  ∀ (u v w : Int), (v, w) ∈ adj g u → (u, w) ∈ adj g v

/-- At most one edge per pair of nodes: no node lists a target twice. -/
def SimpleAdjacency (g : Graph) : Prop :=
  ∀ l ∈ g, (l.map Prod.fst).Nodup

/-- The graph is connected: a walk leads from every node to every node. -/
def ConnectedGraph (g : Graph) : Prop :=
  ∀ x y : Int, 0 ≤ x → x < (g.length : Int) → 0 ≤ y → y < (g.length : Int) →
    ∃ p, IsWalk g x p ∧ walkEnd x p = y

/-- No sum of fewer than `nodeCount` weights leaves the range of `int`:
`|weight| * nodeCount <= INT_MAX` for every adjacency entry. -/
def SummableWeights (g : Graph) : Prop :=
  ∀ l ∈ g, ∀ e ∈ l, -INT_MAX ≤ e.2 * (g.length : Int) ∧ e.2 * (g.length : Int) ≤ INT_MAX

/-- Both end points of the edge are node indices below `n`. -/
def EdgeValid (n : Nat) (e : Edge) : Prop :=
  0 ≤ e.2.1 ∧ e.2.1 < (n : Int) ∧ 0 ≤ e.2.2 ∧ e.2.2 < (n : Int)

/-- The component label of node `x` in a labelling. -/
def labelAt (lab : List Int) (x : Int) : Int := lab.getD x.toNat 0

/-- Joining the components of the two end points of `e`: every node labelled like
`e.v` takes the label of `e.u`. -/
def mergeLabels (lab : List Int) (e : Edge) : List Int :=
  lab.map (fun x => if x = labelAt lab e.2.2 then labelAt lab e.2.1 else x)

/-- Every node is its own component. -/
def initLabels (n : Nat) : List Int := (List.range n).map (fun (i : Nat) => (i : Int))

/-- The component labels after joining along all edges of `es`. -/
def labelsOf (n : Nat) (es : List Edge) : List Int := es.foldl mergeLabels (initLabels n)

/-- The greedy forest: the edges of the list that join two different components of the
edges taken before them. -/
def greedyFrom : List Int → List Edge → List Edge
  | _, [] => []
  | lab, e :: es =>
    if labelAt lab e.2.1 ≠ labelAt lab e.2.2 then e :: greedyFrom (mergeLabels lab e) es
    else greedyFrom lab es

/-- The number of components of a labelling: the nodes that are their own label. -/
def rootCount (lab : List Int) : Nat :=
  ((Finset.range lab.length).filter (fun i => lab.getD i 0 = (i : Int))).card

/-- A well-formed labelling of `n` nodes: labels are node indices, and the label of a
label is itself. -/
def LabOK (n : Nat) (lab : List Int) : Prop :=
  lab.length = n ∧ ∀ x : Int, 0 ≤ x → x < (n : Int) →
    0 ≤ labelAt lab x ∧ labelAt lab x < (n : Int) ∧ labelAt lab (labelAt lab x) = labelAt lab x

/-- The entry of `x` in the `parent` vector. -/
def parentAt (ds : DisjointSet) (x : Int) : Int := ds.parent.getD x.toNat 0

/-- The entry of `x` in the `rank` vector. -/
def rankAt (ds : DisjointSet) (x : Int) : Int := ds.rank.getD x.toNat 0

/-- The invariant of the `DisjointSet` of `n` nodes: `root` names the end of every
parent chain, ranks grow strictly along the chains and stay within `R`, and two nodes
have one root exactly when the labelling `lab` gives them one label. -/
structure DSInv (n : Nat) (R : Int) (root : Int → Int) (ds : DisjointSet) (lab : List Int) :
    Prop where
  plen : ds.parent.length = n
  rlen : ds.rank.length = n
  pvalid : ∀ x : Int, 0 ≤ x → x < (n : Int) → 0 ≤ parentAt ds x ∧ parentAt ds x < (n : Int)
  rvalid : ∀ x : Int, 0 ≤ x → x < (n : Int) →
    0 ≤ root x ∧ root x < (n : Int) ∧ parentAt ds (root x) = root x
  rfix : ∀ x : Int, 0 ≤ x → x < (n : Int) → parentAt ds x = x → root x = x
  rstep : ∀ x : Int, 0 ≤ x → x < (n : Int) → root (parentAt ds x) = root x
  rankLt : ∀ x : Int, 0 ≤ x → x < (n : Int) → parentAt ds x ≠ x →
    rankAt ds x < rankAt ds (parentAt ds x)
  rankBd : ∀ x : Int, 0 ≤ x → x < (n : Int) → 0 ≤ rankAt ds x ∧ rankAt ds x ≤ R
  link : ∀ x y : Int, 0 ≤ x → x < (n : Int) → 0 ≤ y → y < (n : Int) →
    (root x = root y ↔ labelAt lab x = labelAt lab y)

/-- The invariant of the main loop of `kruskalMST` after the edges `P`: the disjoint set
describes the components of `P`, and `mst` holds the greedy forest of `P`. -/
def KruskalInv (n : Nat) (P : List Edge) (s : KruskalState) : Prop :=
  (∃ root, DSInv n ((greedyFrom (initLabels n) P).length : Int) root s.ds (labelsOf n P)) ∧
    s.mst = (greedyFrom (initLabels n) P).map (fun e => (e.2.1, e.2.2))

/-- The invariant of the inner loop at index `j` in round `i` over an array of length `n`. -/
def BubbleInv (arr : List Int) (t j : Nat) (st : SortState) : Prop :=
  st.1.length = arr.length ∧ st.1.Perm arr ∧ SortedFrom st.1 t ∧ PrefixLe st.1 t ∧
    ∀ k, k < j → st.1.getD k 0 ≤ st.1.getD j 0

/-- The invariant of the outer loop before round `i`: the last `i` positions are final. -/
def BubbleOuterInv (arr : List Int) (i : Nat) (st : SortState) : Prop :=
  st.1.length = arr.length ∧ st.1.Perm arr ∧
    SortedFrom st.1 (arr.length - i) ∧ PrefixLe st.1 (arr.length - i)

/-- The invariant of the shifting loop of `insertionSort`: `b` is the array with the
slot `c` free, `a` the array at the start of round `i`. -/
def InsInv (a : List Int) (key : Int) (i c : Nat) (b : List Int) : Prop :=
  b.length = a.length ∧ c ≤ i ∧
  (∀ x, b.count x + (if key = x then 1 else 0) =
    a.count x + (if b.getD c 0 = x then 1 else 0)) ∧
  (∀ p q, p < q → q ≤ i → p ≠ c → q ≠ c → b.getD p 0 ≤ b.getD q 0) ∧
  (∀ q, c < q → q ≤ i → key < b.getD q 0)

/-- The invariant of the outer loop of `insertionSort` before round `i`. -/
def InsOuterInv (arr : List Int) (i : Nat) (st : SortState) : Prop :=
  st.1.length = arr.length ∧ st.1.Perm arr ∧ SortedBefore st.1 i

/-- The invariant of the inner loop of `selectionSort` at index `j` in round `i`. -/
def SelInnerInv (a : List Int) (i j : Nat) (ms : Nat × List ArraySnapshot) : Prop :=
  i ≤ ms.1 ∧ ms.1 < j ∧ ∀ k, i ≤ k → k < j → a.getD ms.1 0 ≤ a.getD k 0

/-- The invariant of the outer loop of `selectionSort` before round `i`. -/
def SelOuterInv (arr : List Int) (i : Nat) (st : SortState) : Prop :=
  st.1.length = arr.length ∧ st.1.Perm arr ∧ SortedBefore st.1 i ∧ PrefixLe st.1 i

/-- The invariant of the `for` loop of `partition` before the round at index `j`. -/
def PartInv (arr0 : List Int) (low high pivot j : Int) (s : PartState) : Prop :=
  s.2.1.length = arr0.length ∧ s.2.1.Perm arr0 ∧ low - 1 ≤ s.1 ∧ s.1 < j ∧
  (∀ idx : Nat, low ≤ idx → (idx : Int) ≤ s.1 → s.2.1.getD idx 0 < pivot) ∧
  (∀ idx : Nat, s.1 < idx → (idx : Int) < j → pivot ≤ s.2.1.getD idx 0) ∧
  s.2.1.getD high.toNat 0 = pivot ∧
  (∀ idx : Nat, (idx : Int) < low ∨ high < idx → s.2.1.getD idx 0 = arr0.getD idx 0)

/-- What a run of `quickSortHelper` with enough fuel establishes on `low .. high`. -/
def QuickPost (st : SortState) (low high : Int) (st' : SortState) : Prop :=
  st'.1.length = st.1.length ∧ st'.1.Perm st.1 ∧
  (∀ idx : Nat, (idx : Int) < low ∨ high < idx → st'.1.getD idx 0 = st.1.getD idx 0) ∧
  (∀ p q : Nat, low ≤ p → p < q → (q : Int) ≤ high → st'.1.getD p 0 ≤ st'.1.getD q 0)

/-- The invariant of the loops of `merge`: `A` and `B` are the untouched parts before
`left` and after `right`, `P` the values placed so far, `i` and `j` the read positions
in the temporaries `L` and `R`. -/
def MergeInv (A B L R P : List Int) (i j : Nat) (k : Int) (arr : List Int) : Prop :=
  i ≤ L.length ∧ j ≤ R.length ∧ k = ((A.length + P.length : Nat) : Int) ∧
  ∃ G, arr = A ++ P ++ G ++ B ∧ G.length = (L.length - i) + (R.length - j)

/-- Node `j` of the heap of size `n` stored in `a` is at least both of its children. -/
def HeapAt (a : List Int) (n j : Nat) : Prop :=
  (2 * j + 1 < n → a.getD (2 * j + 1) 0 ≤ a.getD j 0) ∧
  (2 * j + 2 < n → a.getD (2 * j + 2) 0 ≤ a.getD j 0)

/-- The precondition of `heapify(arr, n, i)`: among the nodes from `s` on, only `i` may
be smaller than a child, and the parent of `i` is at least the children of `i`. -/
def SiftPre (a : List Int) (n s i : Nat) : Prop :=
  (∀ j, s ≤ j → j ≠ i → HeapAt a n j) ∧
  (∀ p c, s ≤ p → (i = 2 * p + 1 ∨ i = 2 * p + 2) → (c = 2 * i + 1 ∨ c = 2 * i + 2) →
    c < n → a.getD c 0 ≤ a.getD p 0)

/-- What `heapify(arr, n, i)` establishes, relative to the array `a` it started from. -/
def SiftPost (a : List Int) (n s i : Nat) (a' : List Int) : Prop :=
  a'.length = a.length ∧ a'.Perm a ∧
  (∀ k, k < i ∨ n ≤ k → a'.getD k 0 = a.getD k 0) ∧
  (∀ j, s ≤ j → HeapAt a' n j)

/-- The invariant of the build loop of `heapSort`: every node from `i` on is at least
its children. -/
def HeapBuildInv (arr : List Int) (i : Nat) (st : SortState) : Prop :=
  st.1.length = arr.length ∧ st.1.Perm arr ∧ ∀ j, i ≤ j → HeapAt st.1 arr.length j

/-- The invariant of the extraction loop of `heapSort`: the first `m` slots form a heap,
the slots from `m` on are final. -/
def HeapExtractInv (arr : List Int) (m : Nat) (st : SortState) : Prop :=
  st.1.length = arr.length ∧ st.1.Perm arr ∧ (∀ j, HeapAt st.1 m j) ∧
    SortedFrom st.1 m ∧ PrefixLe st.1 m

/-- The edge written with its smaller end point first, as `kruskalMST` lists it. -/
def normEdge (e : Edge) : Edge := if e.2.1 < e.2.2 then e else (e.1, e.2.2, e.2.1)

/-- The triangle `0-1` (weight 1), `1-2` (weight 2), `0-2` (weight 3). -/
def triangleGraph : Graph := [[(1, 1), (2, 3)], [(0, 1), (2, 2)], [(0, 3), (1, 2)]]

/-- The path `0-1-2` whose two edges both weigh `INT_MAX`. -/
def heavyPathGraph : Graph :=
  [[(1, 2147483647)], [(0, 2147483647), (2, 2147483647)], [(1, 2147483647)]]

/-- The ordering `bstInsert` keeps: everything in the left subtree is smaller than the
node, everything in the right subtree is at least the node. -/
def IsBST : TreeNode → Prop
  | TreeNode.nil => True
  | TreeNode.node x left right =>
    IsBST left ∧ IsBST right ∧ (∀ y ∈ inorder left, y < x) ∧ (∀ y ∈ inorder right, x ≤ y)

/-- The descent of `bstSearch` for `v` from this node meets a node holding `v`. -/
def SearchHits (v : Int) : TreeNode → Prop
  | TreeNode.nil => False
  | TreeNode.node x left right =>
    v = x ∨ (v < x ∧ SearchHits v left) ∨ (x < v ∧ SearchHits v right)

/-- The max-heap property of the persistent vector: `heap[i] >= heap[2i+1]` and
`heap[i] >= heap[2i+2]` for every child index within the vector. -/
def IsMaxHeap (heap : List Int) : Prop := ∀ i, HeapAt heap heap.length i

/-- The state of the sift-up loop of `heapInsert` at index `i`: every child other than
`i` is at most its parent, and the children of `i` are at most the parent of `i`. -/
def SiftUpPre (a : List Int) (i : Nat) : Prop :=
  (∀ j c, (c = 2 * j + 1 ∨ c = 2 * j + 2) → c < a.length → c ≠ i →
    a.getD c 0 ≤ a.getD j 0) ∧
  (∀ c, (c = 2 * i + 1 ∨ c = 2 * i + 2) → c < a.length → 0 < i →
    a.getD c 0 ≤ a.getD ((i - 1) / 2) 0)

/-- Node `v` is reachable from `start`: some walk along adjacency entries leads from
`start` to `v`. -/
def Reachable (g : Graph) (start v : Int) : Prop :=
  ∃ p, IsWalk g start p ∧ walkEnd start p = v

/-- The invariant of the loop of `breadthFirstSearch`: the visited list is the list of
processed nodes followed by the queue. -/
structure BfsInv (g : Graph) (start : Int) (s : BfsState) : Prop where
  order : s.visited = processingOrder s.steps ++ s.q
  nodup : s.visited.Nodup
  reach : ∀ v ∈ s.visited, Reachable g start v
  hasStart : start ∈ s.visited
  closed : ∀ u ∈ processingOrder s.steps, ∀ e ∈ adj g u, e.1 ∈ s.visited

/-- The invariant of the loop of `depthFirstSearch`. -/
structure DfsInv (g : Graph) (start : Int) (s : DfsState) : Prop where
  order : s.visited = processingOrder s.steps
  nodup : s.visited.Nodup
  reachV : ∀ v ∈ s.visited, Reachable g start v
  reachS : ∀ v ∈ s.stack, Reachable g start v
  hasStart : start ∈ s.visited ∨ start ∈ s.stack
  closed : ∀ u ∈ s.visited, ∀ e ∈ adj g u, e.1 ∈ s.visited ∨ e.1 ∈ s.stack

/-- Nodes `x` and `y` are joined by a chain of adjacency entries of weight at most `c`,
taken in either direction. -/
def LightJoined (g : Graph) (c : Int) : Int → Int → Prop :=
  Relation.EqvGen (fun x y => ∃ w, w ≤ c ∧ (y, w) ∈ adj g x)

/-- The invariant of the loop of `primMST`; the tree built so far is the list of edges of
the "Added edge" snapshots. -/
structure PrimInv (g : Graph) (s : PrimState) : Prop where
  nodup : s.visited.Nodup
  valid : ∀ v ∈ s.visited, 0 ≤ v ∧ v < (g.length : Int)
  count : (addedEdges s.steps).length + 1 = s.visited.length
  total : s.totalWeight = treeWeight (addedEdges s.steps)
  entries : ∀ e ∈ addedEdges s.steps, (e.2.2, e.1) ∈ adj g e.2.1
  joined : ∀ v ∈ s.visited, Joined (addedEdges s.steps) 0 v
  pqFrom : ∀ e ∈ s.pq, e.2.2 ∈ s.visited ∧ (e.2.1, e.1) ∈ adj g e.2.2
  pqHas : ∀ x ∈ s.visited, ∀ a ∈ adj g x, a.1 ∉ s.visited → (a.2, a.1, x) ∈ s.pq
  light : ∀ (c a b : Int), a ∈ s.visited → b ∈ s.visited → LightJoined g c a b →
    Joined ((addedEdges s.steps).filter (fun e => decide (e.1 ≤ c))) a b
  hasStart : (0 : Int) ∈ s.visited

/-- The visited list after the neighbours `nbrs` of a processed node were offered in
stored order: each one not yet in the list is appended. -/
def appendUndiscovered (visited : List Int) (nbrs : List (Int × Int)) : List Int :=
  nbrs.foldl (fun vis e => if e.1 ∈ vis then vis else vis ++ [e.1]) visited

/-- The order of discovery the specification describes: the list starts as `[start]`,
and the nodes of the list are taken in turn (`i` is the position of the next one), each
appending its undiscovered neighbours in stored adjacency order.  `fuel` bounds the
number of nodes taken. -/
def bfsDiscoveryOrder (g : Graph) : Nat → List Int → Nat → List Int
  | 0, visited, _ => visited
  | fuel + 1, visited, i =>
    if i < visited.length then
      bfsDiscoveryOrder g fuel (appendUndiscovered visited (adj g (visited.getD i 0))) (i + 1)
    else
      visited

/-- The recursive depth-first search of the specification: a visit of `u` does nothing
when `u` is already visited; otherwise it records `u` and visits the neighbours of `u`
in stored adjacency order.  The result is the list of visited nodes in the order they
were recorded (the preorder); `none` when the nesting exceeds the fuel. -/
def dfsVisit (g : Graph) : Nat → List Int → Int → Option (List Int)
  | 0, _, _ => none
  | fuel + 1, visited, u =>
    if u ∈ visited then some visited
    else (adj g u).foldlM (fun vis e => dfsVisit g fuel vis e.1) (visited ++ [u])

/-- Rounds of the loop of `depthFirstSearch` lead from the first state to the second. -/
inductive DfsRuns (g : Graph) : DfsState → DfsState → Prop where
  | refl (s : DfsState) : DfsRuns g s s
  | step (s s1 s2 : DfsState) (cur : Int) (rest : List Int) :
      s.stack = cur :: rest → dfsStep g s cur rest = Except.ok s1 → DfsRuns g s1 s2 →
      DfsRuns g s s2

/-- The invariant of the loop of `primMST` that needs neither symmetry nor
connectivity: the visited nodes are reachable from node 0, every adjacency entry that
leaves the visited set is queued, and one edge was added per visited node but 0. -/
structure PrimReachInv (g : Graph) (s : PrimState) : Prop where
  nodup : s.visited.Nodup
  valid : ∀ v ∈ s.visited, 0 ≤ v ∧ v < (g.length : Int)
  count : (addedEdges s.steps).length + 1 = s.visited.length
  total : s.totalWeight = treeWeight (addedEdges s.steps)
  entries : ∀ e ∈ addedEdges s.steps, (e.2.2, e.1) ∈ adj g e.2.1
  pqFrom : ∀ e ∈ s.pq, e.2.2 ∈ s.visited ∧ (e.2.1, e.1) ∈ adj g e.2.2
  pqHas : ∀ x ∈ s.visited, ∀ a ∈ adj g x, a.1 ∉ s.visited → (a.2, a.1, x) ∈ s.pq
  hasStart : (0 : Int) ∈ s.visited
  reach : ∀ v ∈ s.visited, Reachable g 0 v

/-- The invariant of the `DisjointSet` of `n` nodes that does not rely on the `rank`
vector: `root` names the end of every parent chain, the height `ht` grows strictly
along the chains and stays within `R`, and two nodes have one root exactly when the
labelling `lab` gives them one label. -/
structure DSForest (n : Nat) (R : Int) (root : Int → Int) (ht : Int → Int)
    (ds : DisjointSet) (lab : List Int) : Prop where
  plen : ds.parent.length = n
  pvalid : ∀ x : Int, 0 ≤ x → x < (n : Int) → 0 ≤ parentAt ds x ∧ parentAt ds x < (n : Int)
  rvalid : ∀ x : Int, 0 ≤ x → x < (n : Int) →
    0 ≤ root x ∧ root x < (n : Int) ∧ parentAt ds (root x) = root x
  rfix : ∀ x : Int, 0 ≤ x → x < (n : Int) → parentAt ds x = x → root x = x
  rstep : ∀ x : Int, 0 ≤ x → x < (n : Int) → root (parentAt ds x) = root x
  htLt : ∀ x : Int, 0 ≤ x → x < (n : Int) → parentAt ds x ≠ x → ht x < ht (parentAt ds x)
  htBd : ∀ x : Int, 0 ≤ x → x < (n : Int) → 0 ≤ ht x ∧ ht x ≤ R
  link : ∀ x y : Int, 0 ≤ x → x < (n : Int) → 0 ≤ y → y < (n : Int) →
    (root x = root y ↔ labelAt lab x = labelAt lab y)

/-- The statuses the loop of `kruskalMST` emits for a list of edges, told by the
component labels: every edge is considered, then added when its end points carry
different labels and skipped otherwise. -/
def kruskalReports : List Int → List Edge → List GraphStatus
  | _, [] => []
  | lab, e :: es =>
    GraphStatus.consideringWeighted e.2.1 e.2.2 e.1 ::
      (if labelAt lab e.2.1 ≠ labelAt lab e.2.2 then
        GraphStatus.addedEdge e.2.1 e.2.2 e.1 :: kruskalReports (mergeLabels lab e) es
      else
        GraphStatus.cycleSkip e.2.1 e.2.2 :: kruskalReports lab es)

/-- The invariant of the main loop of `kruskalMST` after the edges `P`, with the
statuses emitted so far. -/
def KruskalTraceInv (n : Nat) (P : List Edge) (s : KruskalState) : Prop :=
  (∃ root ht, DSForest n ((greedyFrom (initLabels n) P).length : Int) root ht s.ds
    (labelsOf n P)) ∧
  s.mst = (greedyFrom (initLabels n) P).map (fun e => (e.2.1, e.2.2)) ∧
  s.steps.map (fun x => x.status) =
    GraphStatus.kruskalStart :: kruskalReports (initLabels n) P

/-- The edge of a "Considering edge u -> v with weight w" status, as `(w, u, v)`. -/
def statusConsidered : GraphStatus → Option Edge
  | GraphStatus.consideringWeighted u v w => some (w, u, v)
  | _ => none

/-- The edges of the "Considering edge" snapshots of a trace, in order, as
`(weight, source, target)`. -/
def consideredEdges (steps : List GraphSnapshot) : List Edge :=
  steps.filterMap (fun s => statusConsidered s.status)

/-- The edge of an "Added edge u -> v to MST (weight: w)" status, as `(w, u, v)`. -/
def statusAdded : GraphStatus → Option Edge
  | GraphStatus.addedEdge u v w => some (w, u, v)
  | _ => none

/-- No edge of the list closes a cycle: its end points are not joined by the edges
before it.  -/
def IsForest (es : List Edge) : Prop :=
  ∀ (A : List Edge) (e : Edge) (B : List Edge), es = A ++ e :: B → ¬ Joined A e.2.1 e.2.2

/-- No node lists a target again with a smaller weight: among the entries of a node
with one target, the first is the lightest. -/
def LightestFirst (g : Graph) : Prop :=
  ∀ l ∈ g, l.Pairwise (fun a b => a.1 = b.1 → a.2 ≤ b.2)

/-- The pairs `(node, distance)` of the "Processing node c with distance d" snapshots
of a trace, in order. -/
def dijkstraProcessed (steps : List GraphSnapshot) : List (Int × Int) :=
  steps.filterMap (fun s =>
    match s.status with
    | GraphStatus.processingDist c d => some (c, d)
    | _ => none)

/-- The part of the invariant of `dijkstraAlgorithm` that holds for any weights, between
rounds and inside the loop over the adjacency entries. -/
structure DijkCore (g : Graph) (start : Int) (s : DijkstraState) : Prop where
  len : s.distances.length = g.length
  dmax : ∀ v : Int, distAt s.distances v ≤ INT_MAX
  startFin : distAt s.distances start ≠ INT_MAX
  nodup : s.visited.Nodup
  valid : ∀ v ∈ s.visited, 0 ≤ v ∧ v < (g.length : Int)
  reach : ∀ v ∈ s.visited, Reachable g start v
  pqOk : ∀ e ∈ s.pq, 0 ≤ e.2 ∧ e.2 < (g.length : Int) ∧ Reachable g start e.2 ∧
    distAt s.distances e.2 ≤ e.1 ∧ e.1 < INT_MAX
  pqHas : ∀ v : Int, 0 ≤ v → v < (g.length : Int) → v ∉ s.visited →
    distAt s.distances v ≠ INT_MAX → (distAt s.distances v, v) ∈ s.pq
  procOrder : (dijkstraProcessed s.steps).map Prod.fst = s.visited
  procDist : ∀ p ∈ dijkstraProcessed s.steps, distAt s.distances p.1 = p.2

/-- The invariant of the loop over `graph[cur]` inside a round of Dijkstra that popped
`(d, cur)`; `done` are the entries handled so far.  The last four fields need the
weights to satisfy `|weight| * nodeCount <= INT_MAX`. -/
structure DijkRelaxing (g : Graph) (start cur d : Int) (done : List (Int × Int))
    (s : DijkstraState) : Prop where
  core : DijkCore g start s
  curIn : cur ∈ s.visited
  closedOther : SummableWeights g → ∀ u ∈ s.visited, u ≠ cur → ∀ e ∈ adj g u,
    e.1 ∈ s.visited ∨ distAt s.distances e.1 ≠ INT_MAX
  closedHere : SummableWeights g → ∀ e ∈ done,
    e.1 ∈ s.visited ∨ distAt s.distances e.1 ≠ INT_MAX
  bound : SummableWeights g → ∀ e ∈ s.pq,
    -((s.visited.length : Int) * INT_MAX) ≤ e.1 * (g.length : Int) ∧
      e.1 * (g.length : Int) ≤ (s.visited.length : Int) * INT_MAX
  dbound : SummableWeights g →
    -(((s.visited.length : Int) - 1) * INT_MAX) ≤ d * (g.length : Int) ∧
      d * (g.length : Int) ≤ ((s.visited.length : Int) - 1) * INT_MAX

/-- The invariant of the loop of `dijkstraAlgorithm` between rounds. -/
def DijkBetween (g : Graph) (start : Int) (s : DijkstraState) : Prop :=
  DijkCore g start s ∧
  (SummableWeights g →
    (∀ u ∈ s.visited, ∀ e ∈ adj g u,
      e.1 ∈ s.visited ∨ distAt s.distances e.1 ≠ INT_MAX) ∧
    ∀ e ∈ s.pq, -((s.visited.length : Int) * INT_MAX) ≤ e.1 * (g.length : Int) ∧
      e.1 * (g.length : Int) ≤ (s.visited.length : Int) * INT_MAX)

/-- A highlight argument for an array of `len` elements that is the marker `-1` or an
index of the array. -/
def ValidHighlight (len : Nat) (h : Int) : Prop :=
  h = -1 ∨ (0 ≤ h ∧ h < (len : Int))

instance validHighlight_decidable (len : Nat) (h : Int) : Decidable (ValidHighlight len h) := by
  unfold ValidHighlight
  exact inferInstance

/-- Both highlight positions of an array snapshot are `-1` or indices of its array. -/
def ArraySnapshot.ValidHighlights (s : ArraySnapshot) : Prop :=
  ValidHighlight s.arr.length s.highlightPos ∧ ValidHighlight s.arr.length s.highlightPos2

instance arrayValid_decidable (s : ArraySnapshot) : Decidable s.ValidHighlights := by
  unfold ArraySnapshot.ValidHighlights
  exact inferInstance

/-- The position of a search snapshot is `-1` or an index of its array. -/
def SearchSnapshot.ValidHighlights (s : SearchSnapshot) : Prop :=
  ValidHighlight s.arr.length s.pos

instance searchValid_decidable (s : SearchSnapshot) : Decidable s.ValidHighlights := by
  unfold SearchSnapshot.ValidHighlights
  exact inferInstance

/-- Both highlight indices of a heap snapshot are `-1` or indices of its heap. -/
def HeapSnapshot.ValidHighlights (s : HeapSnapshot) : Prop :=
  ValidHighlight s.json.heap.length s.json.highlightIndex ∧
    ValidHighlight s.json.heap.length s.json.highlightIndex2

instance heapValid_decidable (s : HeapSnapshot) : Decidable s.ValidHighlights := by
  unfold HeapSnapshot.ValidHighlights
  exact inferInstance

/-- The state of a sort on an array of `n` elements whose snapshots so far all have
valid highlights. -/
def SortOK (n : Nat) (st : SortState) : Prop :=
  st.1.length = n ∧ ∀ s ∈ st.2, s.ValidHighlights

/-- The invariant of the first loop of `merge` on an array of `n` elements. -/
def MergeOK (n : Nat) (left n1 n2 : Int) (s : MergeState) : Prop :=
  0 ≤ s.i ∧ s.i ≤ n1 ∧ 0 ≤ s.j ∧ s.j ≤ n2 ∧ s.k = left + s.i + s.j ∧
    s.arr.length = n ∧ ∀ x ∈ s.steps, x.ValidHighlights

/-- The list `steps'` is `steps` followed by snapshots that all satisfy `valid`. -/
def EmitsValid {α : Type} (valid : α → Prop) (steps steps' : List α) : Prop :=
  ∃ emitted, steps' = steps ++ emitted ∧ ∀ s ∈ emitted, valid s

/-- The request sequence "`heapExtractMax()` `k` times" on the persistent heap: the heap
left at the end and the values captured as `maxValue`, in the order of the calls. -/
def extractMaxTimes : Nat → List Int → Option (List Int × List (Option Int))
  | 0, heapArray => some (heapArray, [])
  | k + 1, heapArray =>
    (heapExtractMax heapArray).bind (fun r =>
      (extractMaxTimes k r.1.1).map (fun rest => (rest.1, r.2 :: rest.2)))

/-- The sift-up in the words of the specification: while the element at `i` is not at
the root and is strictly greater than its parent at `(i - 1) / 2`, swap the two and
continue at the parent; stop at the root or at the first parent that is at least the
element.  The index decreases in every round, so `i` rounds suffice. -/
def siftUpSpec : Nat → List Int → Nat → List Int
  | 0, heap, _ => heap
  | fuel + 1, heap, i =>
    if 0 < i ∧ heap.getD ((i - 1) / 2) 0 < heap.getD i 0 then
      siftUpSpec fuel (swap heap i ((i - 1) / 2)) ((i - 1) / 2)
    else heap

/-- What a snapshot of the sift-up of the inserted value `v` shows: a comparison is
between `v`, at some index `i > 0`, and its parent at `(i - 1) / 2`; a swap exchanges
`v` at `i` with a parent at `(i - 1) / 2` that is strictly smaller. -/
def SiftUpSnapshot (v : Int) (s : HeapSnapshot) : Prop :=
  (∀ c p, s.status = HeapStatus.comparingParent c p →
    ∃ (a : List Int) (i : Nat), 0 < i ∧ i < a.length ∧ a.getD i 0 = v ∧ c = v ∧
      p = a.getD ((i - 1) / 2) 0 ∧ s.json = heapToJson a i (((i - 1) / 2 : Nat) : Int)) ∧
  (∀ x y, s.status = HeapStatus.swapped x y →
    ∃ (a : List Int) (i : Nat), 0 < i ∧ i < a.length ∧ a.getD i 0 = v ∧
      a.getD ((i - 1) / 2) 0 < v ∧ x = v ∧ y = a.getD ((i - 1) / 2) 0 ∧
      s.json = heapToJson (swap a i ((i - 1) / 2)) (((i - 1) / 2 : Nat) : Int) (-1))

/-- The node at which the descent of `bstDelete(v)` finds `v`: left when `v` is smaller
than the node, right when it is greater (null when the descent leaves the tree). -/
def foundNode (v : Int) : TreeNode → TreeNode
  | TreeNode.nil => TreeNode.nil
  | TreeNode.node x left right =>
    if v < x then foundNode v left
    else if v > x then foundNode v right
    else TreeNode.node x left right

/-- The tree with the node found by the descent for `v` replaced by `new`; every other
node stays in place. -/
def replaceFound (v : Int) (new : TreeNode) : TreeNode → TreeNode
  | TreeNode.nil => TreeNode.nil
  | TreeNode.node x left right =>
    if v < x then TreeNode.node x (replaceFound v new left) right
    else if v > x then TreeNode.node x left (replaceFound v new right)
    else new

/-- The tree without its leftmost node, whose right child takes its place. -/
def removeLeftmost : TreeNode → TreeNode
  | TreeNode.nil => TreeNode.nil
  | TreeNode.node x left right =>
    match left with
    | TreeNode.nil => right
    | TreeNode.node _ _ _ => TreeNode.node x (removeLeftmost left) right

/-- The position reached from the root by descending left (`false`) when `v` is smaller
than the node's value and right (`true`) when it is greater or equal, until a null
child is reached. -/
def descentPath (v : Int) : TreeNode → List Bool
  | TreeNode.nil => []
  | TreeNode.node x left right =>
    if v < x then false :: descentPath v left else true :: descentPath v right

/-- The value of the node at position `p` (`false` = left child, `true` = right child),
`none` when the tree has no node there. -/
def valueAt : TreeNode → List Bool → Option Int
  | TreeNode.nil, _ => none
  | TreeNode.node x _ _, [] => some x
  | TreeNode.node _ left right, b :: p => if b then valueAt right p else valueAt left p

/-- The subtree at position `p` (null when the tree has no node there). -/
def subtreeAt : TreeNode → List Bool → TreeNode
  | TreeNode.nil, _ => TreeNode.nil
  | TreeNode.node x left right, [] => TreeNode.node x left right
  | TreeNode.node _ left right, b :: p => if b then subtreeAt right p else subtreeAt left p

/-- The values of the nodes of a rendered tree that are marked `highlight`, in order. -/
def TreeJson.highlighted : TreeJson → List Int
  | TreeJson.null => []
  | TreeJson.node value highlight _ left right =>
    TreeJson.highlighted left ++ (if highlight then [value] else []) ++
      TreeJson.highlighted right

/-- The statuses of the snapshots that `bstInsert`, `bstSearch` and `bstDelete` render
with `treeToJson(bstRoot)`, naming no node to highlight: the initial snapshots and the
final "Insertion complete", "not found" and "Deletion complete" ones. -/
def TreeStatus.rendersDefault : TreeStatus → Bool
  | TreeStatus.insertStart _ => true
  | TreeStatus.insertionComplete => true
  | TreeStatus.searchStart _ => true
  | TreeStatus.notFound _ => true
  | TreeStatus.deleteStart _ => true
  | TreeStatus.deletionComplete => true
  | _ => false

/-- Every snapshot of `steps` that is rendered without naming a node satisfies `R`. -/
def DefaultRendered (R : TreeSnapshot → Prop) (steps : List TreeSnapshot) : Prop :=
  ∀ s ∈ steps, s.status.rendersDefault = true → R s

/-- What a snapshot `s` rendered without naming a node shows, for the tree `t` before
the call and the value `v`: a tree `u` with values among `v` and those of `t`, in which
exactly the nodes holding `-1` are marked; no node when `-1` is not among the values. -/
def DefaultShown (t : TreeNode) (v : Int) (s : TreeSnapshot) : Prop :=
  (∃ u, s.tree = treeToJson u (-1) false ∧ (∀ y ∈ inorder u, y = v ∨ y ∈ inorder t) ∧
    s.tree.highlighted = (inorder u).filter (fun y => decide (y = -1))) ∧
  (-1 ∉ inorder t → v ≠ -1 → s.tree.highlighted = [])

/-- The number `d` is the hop distance of `v` from `start`: some walk from `start` to
`v` has `d` edges, and no walk from `start` to `v` has fewer. -/
def IsHopDist (g : Graph) (start v : Int) (d : Nat) : Prop :=
  (∃ p, IsWalk g start p ∧ walkEnd start p = v ∧ p.length = d) ∧
  ∀ p, IsWalk g start p → walkEnd start p = v → d ≤ p.length

/-- The invariant of the loop of `breadthFirstSearch` with a level attached to every
visited node: `done` are the processed nodes, `pend` the queued ones, in order.  Levels
do not decrease along the two lists, the queued levels differ by at most one, each level
is the length of a walk from `start`, and a neighbour of a processed node is visited
with a level at most one more. -/
structure BfsLevels (g : Graph) (start : Int) (s : BfsState) (done pend : List (Int × Nat)) :
    Prop where
  hdone : done.map Prod.fst = processingOrder s.steps
  hpend : pend.map Prod.fst = s.q
  mono : (done ++ pend).Pairwise (fun a b => a.2 ≤ b.2)
  span : ∀ a ∈ pend, ∀ b ∈ pend, b.2 ≤ a.2 + 1
  walk : ∀ a ∈ done ++ pend, ∃ p, IsWalk g start p ∧ walkEnd start p = a.1 ∧ p.length = a.2
  closed : ∀ a ∈ done, ∀ e ∈ adj g a.1, ∃ b ∈ done ++ pend, b.1 = e.1 ∧ b.2 ≤ a.2 + 1
  hstart : (start, 0) ∈ done ++ pend

/-- Every edge weight is non-negative. -/
def NonnegWeights (g : Graph) : Prop := ∀ l ∈ g, ∀ e ∈ l, (0 : Int) ≤ e.2

/-- Every simple path that starts at `start` has a total weight below `INT_MAX`, the
value `dijkstraAlgorithm` uses for "infinite": no sum along a path overflows or reaches
that value. -/
def PathsBelowMax (g : Graph) (start : Int) : Prop :=
  ∀ p, IsWalk g start p → (walkNodes start p).Nodup → walkWeight p < INT_MAX

/-! ## Index lemmas shared by the proofs -/

theorem getD_eq_get (a : List Int) (i : Nat) (h : i < a.length) : a.getD i 0 = a[i] :=
  List.getD_eq_getElem a 0 h

theorem mem_iff_getD (a : List Int) (x : Int) :
    x ∈ a ↔ ∃ i, i < a.length ∧ a.getD i 0 = x := by
  constructor
  · intro h
    obtain ⟨i, hi, hx⟩ := List.getElem_of_mem h
    exact ⟨i, hi, by rw [getD_eq_get a i hi]; exact hx⟩
  · rintro ⟨i, hi, hx⟩
    rw [getD_eq_get a i hi] at hx
    exact hx ▸ List.getElem_mem hi

theorem sorted_getD_le (a : List Int) (hs : List.Sorted (· ≤ ·) a) (i j : Nat)
    (hij : i ≤ j) (hj : j < a.length) : a.getD i 0 ≤ a.getD j 0 := by
  rcases Nat.eq_or_lt_of_le hij with h | h
  · subst h; exact le_refl _
  · rw [getD_eq_get a i (by omega), getD_eq_get a j hj]
    exact (List.pairwise_iff_getElem.mp hs) i j (by omega) hj h

theorem sorted_of_getD_le (a : List Int)
    (h : ∀ i j, i < j → j < a.length → a.getD i 0 ≤ a.getD j 0) : List.Sorted (· ≤ ·) a := by
  refine List.pairwise_iff_getElem.mpr ?_
  intro i j hi hj hij
  have := h i j hij hj
  rwa [getD_eq_get a i hi, getD_eq_get a j hj] at this

theorem getD_of_le (a : List Int) (k : Nat) (h : a.length ≤ k) : a.getD k 0 = 0 :=
  List.getD_eq_default a 0 h

theorem getD_set (a : List Int) (i k : Nat) (x : Int) (hi : i < a.length) :
    (a.set i x).getD k 0 = if k = i then x else a.getD k 0 := by
  by_cases hk : k < a.length
  · rw [getD_eq_get _ k (by rw [List.length_set]; exact hk), List.getElem_set]
    by_cases hki : k = i
    · subst hki; simp
    · have hik : ¬ i = k := fun h => hki h.symm
      rw [if_neg hik, if_neg hki, getD_eq_get a k hk]
  · have hki : ¬ k = i := by omega
    rw [if_neg hki, getD_of_le _ k (by rw [List.length_set]; omega), getD_of_le a k (by omega)]

theorem length_swap (a : List Int) (i j : Nat) : (swap a i j).length = a.length := by
  unfold swap
  rw [List.length_set, List.length_set]

theorem getD_swap (a : List Int) (i j k : Nat) (hi : i < a.length) (hj : j < a.length) :
    (swap a i j).getD k 0 =
      if k = j then a.getD i 0 else if k = i then a.getD j 0 else a.getD k 0 := by
  unfold swap
  rw [getD_set _ j k _ (by rw [List.length_set]; exact hj), getD_set _ i k _ hi]

theorem count_set_getD (a : List Int) (i : Nat) (x b : Int) (hi : i < a.length) :
    (a.set i x).count b + (if a.getD i 0 = b then 1 else 0) =
      a.count b + (if x = b then 1 else 0) := by
  rw [List.count_set x b a i hi, getD_eq_get a i hi]
  have hpos : (if a[i] = b then 1 else 0) ≤ a.count b := by
    by_cases h : a[i] = b
    · rw [if_pos h]
      have hmem : b ∈ a := h ▸ List.getElem_mem hi
      exact List.count_pos_iff.mpr hmem
    · rw [if_neg h]; exact Nat.zero_le _
  simp only [beq_iff_eq]
  omega

theorem swap_perm (a : List Int) (i j : Nat) (hi : i < a.length) (hj : j < a.length) :
    (swap a i j).Perm a := by
  rw [List.perm_iff_count]
  intro b
  have h1 := count_set_getD a i (a.getD j 0) b hi
  have h2 := count_set_getD (a.set i (a.getD j 0)) j (a.getD i 0) b
    (by rw [List.length_set]; exact hj)
  rw [getD_set a i j _ hi] at h2
  unfold swap
  by_cases hji : j = i
  · subst hji
    rw [if_pos rfl] at h2
    omega
  · rw [if_neg hji] at h2
    omega

/-! ## Loop invariants over index ranges -/

theorem foldl_range'_inv {σ : Type} (P : Nat → σ → Prop) (f : σ → Nat → σ) :
    ∀ (n s : Nat) (st : σ), P s st →
      (∀ i st, s ≤ i → i < s + n → P i st → P (i + 1) (f st i)) →
      P (s + n) ((List.range' s n).foldl f st) := by
  intro n
  induction n with
  | zero => intro s st h _; simpa using h
  | succ n ih =>
    intro s st h hstep
    rw [List.range'_succ, List.foldl_cons]
    have h1 := hstep s st (le_refl s) (by omega) h
    have h2 := ih (s + 1) (f st s) h1 (fun i st' hi1 hi2 hp => hstep i st' (by omega) (by omega) hp)
    have he : s + 1 + n = s + (n + 1) := by omega
    rw [he] at h2
    exact h2

theorem foldl_range_inv {σ : Type} (P : Nat → σ → Prop) (f : σ → Nat → σ)
    (n : Nat) (st : σ) (h0 : P 0 st)
    (hstep : ∀ i st, i < n → P i st → P (i + 1) (f st i)) :
    P n ((List.range n).foldl f st) := by
  rw [List.range_eq_range']
  have h := foldl_range'_inv P f n 0 st h0 (fun i st' _ hi hp => hstep i st' (by omega) hp)
  rwa [Nat.zero_add] at h

theorem finalArray_concat (steps : List ArraySnapshot) (a : List Int) (h1 h2 : Int) :
    finalArray (steps ++ [arrayToJson a h1 h2]) = some a := by
  unfold finalArray
  rw [List.getLast?_concat]
  rfl

/-! ## Segments of an array -/

theorem getElem?_eq_of_getD (a b : List Int) (n : Nat) (hlen : b.length = a.length)
    (h : b.getD n 0 = a.getD n 0) : b[n]? = a[n]? := by
  by_cases hn : n < a.length
  · rw [getD_eq_get a n hn, getD_eq_get b n (by omega)] at h
    rw [List.getElem?_eq_getElem hn, List.getElem?_eq_getElem (show n < b.length by omega), h]
  · rw [List.getElem?_eq_none (by omega), List.getElem?_eq_none (by omega)]

theorem split_segment (a : List Int) (lo hi : Nat) (h : lo ≤ hi) :
    a.take lo ++ ((a.take hi).drop lo ++ a.drop hi) = a := by
  have h1 : (a.take hi).take lo = a.take lo := by
    rw [List.take_take, Nat.min_eq_left h]
  rw [← List.append_assoc, ← h1, List.take_append_drop, List.take_append_drop]

theorem seg_perm (a b : List Int) (lo hi : Nat) (hlen : b.length = a.length)
    (hperm : b.Perm a)
    (hout : ∀ k, k < lo ∨ hi ≤ k → b.getD k 0 = a.getD k 0) :
    ((b.take hi).drop lo).Perm ((a.take hi).drop lo) := by
  by_cases h : lo ≤ hi
  · have htake : b.take lo = a.take lo := by
      apply List.ext_getElem?
      intro n
      rw [List.getElem?_take, List.getElem?_take]
      by_cases hn : n < lo
      · rw [if_pos hn, if_pos hn]
        exact getElem?_eq_of_getD a b n hlen (hout n (Or.inl hn))
      · rw [if_neg hn, if_neg hn]
    have hdrop : b.drop hi = a.drop hi := by
      apply List.ext_getElem?
      intro n
      rw [List.getElem?_drop, List.getElem?_drop]
      exact getElem?_eq_of_getD a b _ hlen (hout _ (Or.inr (by omega)))
    have ha := split_segment a lo hi h
    have hb := split_segment b lo hi h
    rw [htake, hdrop] at hb
    have hp : (a.take lo ++ ((b.take hi).drop lo ++ a.drop hi)).Perm
        (a.take lo ++ ((a.take hi).drop lo ++ a.drop hi)) := by
      rw [ha, hb]; exact hperm
    exact (List.perm_append_right_iff _).mp ((List.perm_append_left_iff _).mp hp)
  · have e1 : (b.take hi).drop lo = [] := by
      apply List.drop_eq_nil_of_le
      rw [List.length_take]; omega
    have e2 : (a.take hi).drop lo = [] := by
      apply List.drop_eq_nil_of_le
      rw [List.length_take]; omega
    rw [e1, e2]

theorem mem_segment (a : List Int) (lo hi : Nat) (x : Int) :
    x ∈ (a.take hi).drop lo ↔
      ∃ k, lo ≤ k ∧ k < hi ∧ k < a.length ∧ a.getD k 0 = x := by
  constructor
  · intro h
    obtain ⟨n, hn, hx⟩ := List.getElem_of_mem h
    rw [List.getElem_drop, List.getElem_take] at hx
    rw [List.length_drop, List.length_take] at hn
    refine ⟨lo + n, by omega, by omega, by omega, ?_⟩
    rw [getD_eq_get a (lo + n) (by omega)]
    exact hx
  · rintro ⟨k, h1, h2, h3, hx⟩
    have hlen : k - lo < ((a.take hi).drop lo).length := by
      rw [List.length_drop, List.length_take]; omega
    have : ((a.take hi).drop lo)[k - lo] = x := by
      rw [List.getElem_drop, List.getElem_take]
      rw [getD_eq_get a k h3] at hx
      have e : lo + (k - lo) = k := by omega
      simp only [e]
      exact hx
    exact this ▸ List.getElem_mem hlen

/-- A property of all values in positions `lo .. hi-1` survives a rearrangement that
leaves the positions outside that range alone. -/
theorem seg_transfer (a b : List Int) (lo hi : Nat) (hlen : b.length = a.length)
    (hperm : b.Perm a)
    (hout : ∀ k, k < lo ∨ hi ≤ k → b.getD k 0 = a.getD k 0)
    (P : Int → Prop)
    (hP : ∀ k, lo ≤ k → k < hi → k < a.length → P (a.getD k 0)) :
    ∀ k, lo ≤ k → k < hi → k < a.length → P (b.getD k 0) := by
  intro k h1 h2 h3
  have hmem : b.getD k 0 ∈ (b.take hi).drop lo :=
    (mem_segment b lo hi _).mpr ⟨k, h1, h2, by omega, rfl⟩
  have hmem2 := (seg_perm a b lo hi hlen hperm hout).mem_iff.mp hmem
  obtain ⟨k', h1', h2', h3', hx⟩ := (mem_segment a lo hi _).mp hmem2
  rw [← hx]
  exact hP k' h1' h2' h3'

/-- Invariant rule for a downward counting loop whose body may fail. -/
theorem foldlM_reverse_range'_inv {σ : Type} (P : Nat → σ → Prop) (f : σ → Nat → Option σ) :
    ∀ (n s : Nat) (st : σ), P (s + n) st →
      (∀ i st, s ≤ i → i < s + n → P (i + 1) st → ∃ st', f st i = some st' ∧ P i st') →
      ∃ st', (List.range' s n).reverse.foldlM f st = some st' ∧ P s st' := by
  intro n
  induction n with
  | zero =>
    intro s st h _
    exact ⟨st, rfl, by simpa using h⟩
  | succ n ih =>
    intro s st h hstep
    rw [List.range'_concat, List.reverse_append, List.reverse_singleton, List.singleton_append,
      List.foldlM_cons, Nat.one_mul]
    obtain ⟨st1, hrun1, hp1⟩ := hstep (s + n) st (by omega) (by omega) h
    obtain ⟨st2, hrun2, hp2⟩ := ih s st1 hp1
      (fun i st' hi1 hi2 hp => hstep i st' hi1 (by omega) hp)
    refine ⟨st2, ?_, hp2⟩
    rw [hrun1]
    exact hrun2

/-! ## Walks in a weighted adjacency list -/

/-! ## Spanning trees, and a labelling model of connected components -/

/-! ## Linear search -/

theorem linearSearchLoop_spec (arr : List Int) (target : Int) :
    ∀ (k i : Nat) (steps : List SearchSnapshot), i + k = arr.length →
      (∀ j, j < i → arr.getD j 0 ≠ target) →
      ((linearSearchLoop arr target k i steps).1 = -1 ∧ target ∉ arr) ∨
      (∃ idx : Nat, (linearSearchLoop arr target k i steps).1 = (idx : Int) ∧
        idx < arr.length ∧ arr.getD idx 0 = target) := by
  intro k
  induction k with
  | zero =>
    intro i steps hik hno
    left
    refine ⟨rfl, ?_⟩
    intro hmem
    obtain ⟨j, hj, hx⟩ := (mem_iff_getD arr target).mp hmem
    exact hno j (by omega) hx
  | succ k ih =>
    intro i steps hik hno
    unfold linearSearchLoop
    by_cases hEq : arr.getD i 0 = target
    · right
      exact ⟨i, by simp only [hEq, if_true], by omega, hEq⟩
    · simp only [hEq, if_false]
      apply ih (i + 1) _ (by omega)
      intro j hj
      rcases Nat.eq_or_lt_of_le (Nat.le_of_lt_succ hj) with h | h
      · subst h; exact hEq
      · exact hno j h

/-- C8: for every array and target, `linearSearch` returns `-1` or an index `i`
with `arr[i] == target`, and it returns `-1` only when `target` does not occur in `arr`. -/
theorem linearSearch_correct (arr : List Int) (target : Int) (steps : List SearchSnapshot) :
    ((linearSearch arr target steps).1 = -1 ∨
      ∃ i : Nat, (linearSearch arr target steps).1 = (i : Int) ∧ i < arr.length ∧
        arr[i]? = some target) ∧
    ((linearSearch arr target steps).1 = -1 → target ∉ arr) := by
  have h := linearSearchLoop_spec arr target arr.length 0 steps (by omega)
    (fun j hj => absurd hj (Nat.not_lt_zero j))
  unfold linearSearch
  rcases h with ⟨h1, h2⟩ | ⟨idx, h1, h2, h3⟩
  · exact ⟨Or.inl h1, fun _ => h2⟩
  · refine ⟨Or.inr ⟨idx, h1, h2, ?_⟩, ?_⟩
    · rw [getD_eq_get arr idx h2] at h3
      rw [List.getElem?_eq_getElem h2, h3]
    · intro hneg
      rw [h1] at hneg
      omega

/-! ## Binary search -/

theorem binarySearchLoop_spec (arr : List Int) (target : Int)
    (hs : List.Sorted (· ≤ ·) arr) :
    ∀ (fuel : Nat) (left right : Int) (steps : List SearchSnapshot),
      0 ≤ left → right < arr.length → right - left + 1 ≤ fuel →
      (∀ idx : Nat, idx < arr.length → arr.getD idx 0 = target →
        left ≤ idx ∧ (idx : Int) ≤ right) →
      ∃ r steps', binarySearchLoop arr target fuel left right steps = some (r, steps') ∧
        ((r = -1 ∧ target ∉ arr) ∨
         (0 ≤ r ∧ r < arr.length ∧ arr.getD r.toNat 0 = target)) := by
  intro fuel
  induction fuel with
  | zero =>
    intro left right steps h0 hr hf hin
    have hlr : ¬ left ≤ right := by omega
    refine ⟨-1, _, by unfold binarySearchLoop; rw [if_neg hlr], Or.inl ⟨rfl, ?_⟩⟩
    intro hmem
    obtain ⟨j, hj, hx⟩ := (mem_iff_getD arr target).mp hmem
    have := hin j hj hx
    omega
  | succ fuel ih =>
    intro left right steps h0 hr hf hin
    by_cases hlr : left ≤ right
    · have hmid : left + (right - left).tdiv 2 = left + (right - left) / 2 := by
        rw [Int.tdiv_eq_ediv (by omega) (by decide)]
      unfold binarySearchLoop
      rw [if_pos hlr]
      simp only [hmid]
      have hm0 : 0 ≤ left + (right - left) / 2 := by omega
      have hm1 : left ≤ left + (right - left) / 2 := by omega
      have hm2 : left + (right - left) / 2 ≤ right := by omega
      have hmN : ((left + (right - left) / 2).toNat : Int) = left + (right - left) / 2 := by
        omega
      by_cases hEq : arr.getD (left + (right - left) / 2).toNat 0 = target
      · rw [if_pos hEq]
        exact ⟨_, _, rfl, Or.inr ⟨hm0, by omega, hEq⟩⟩
      · rw [if_neg hEq]
        by_cases hLt : arr.getD (left + (right - left) / 2).toNat 0 < target
        · rw [if_pos hLt]
          apply ih _ _ _ (by omega) hr (by omega)
          intro idx hidx hx
          have hb := hin idx hidx hx
          refine ⟨?_, hb.2⟩
          by_contra hcon
          have hle : idx ≤ (left + (right - left) / 2).toNat := by omega
          have := sorted_getD_le arr hs idx _ hle (by omega)
          rw [hx] at this
          exact absurd hLt (not_lt.mpr this)
        · rw [if_neg hLt]
          apply ih _ _ _ h0 (by omega) (by omega)
          intro idx hidx hx
          have hb := hin idx hidx hx
          refine ⟨hb.1, ?_⟩
          by_contra hcon
          have hle : (left + (right - left) / 2).toNat ≤ idx := by omega
          have := sorted_getD_le arr hs _ idx hle hidx
          rw [hx] at this
          have hne : arr.getD (left + (right - left) / 2).toNat 0 ≠ target := hEq
          exact hLt (lt_of_le_of_ne this hne)
    · refine ⟨-1, _, by unfold binarySearchLoop; rw [if_neg hlr], Or.inl ⟨rfl, ?_⟩⟩
      intro hmem
      obtain ⟨j, hj, hx⟩ := (mem_iff_getD arr target).mp hmem
      have := hin j hj hx
      omega

/-- C7: on an array sorted in ascending order `binarySearch` returns, and its result
is an index `i` with `0 <= i < len(arr)` and `arr[i] == target` whenever `target`
occurs in `arr`, and is `-1` exactly when `target` does not occur. -/
theorem binarySearch_correct (arr : List Int) (target : Int) (steps : List SearchSnapshot)
    (hs : List.Sorted (· ≤ ·) arr) :
    ∃ r steps', binarySearch arr target steps = some (r, steps') ∧
      (target ∈ arr → 0 ≤ r ∧ r < arr.length ∧ arr[r.toNat]? = some target) ∧
      (r = -1 ↔ target ∉ arr) := by
  obtain ⟨r, steps', hrun, hres⟩ := binarySearchLoop_spec arr target hs arr.length 0
    ((arr.length : Int) - 1) steps (le_refl 0) (by omega) (by omega)
    (fun idx hidx _ => ⟨by omega, by omega⟩)
  refine ⟨r, steps', hrun, ?_, ?_⟩
  · intro hmem
    rcases hres with ⟨_, hno⟩ | ⟨h0, h1, h2⟩
    · exact absurd hmem hno
    · have hlt : r.toNat < arr.length := by omega
      refine ⟨h0, h1, ?_⟩
      rw [getD_eq_get arr _ hlt] at h2
      rw [List.getElem?_eq_getElem hlt, h2]
  · rcases hres with ⟨hr, hno⟩ | ⟨h0, h1, h2⟩
    · exact ⟨fun _ => hno, fun _ => hr⟩
    · constructor
      · intro hr; omega
      · intro hno
        exact absurd ((mem_iff_getD arr target).mpr ⟨r.toNat, by omega, h2⟩) hno

/-- C7 at `[1,3,5,8]`, target `5`: the array is sorted and the search returns index `2`. -/
theorem binarySearch_correct_witness :
    (binarySearch [1, 3, 5, 8] 5 []).map Prod.fst = some 2 ∧
    ∃ r steps', binarySearch [1, 3, 5, 8] 5 [] = some (r, steps') ∧
      ((5 : Int) ∈ [1, 3, 5, 8] → 0 ≤ r ∧ r < ([1, 3, 5, 8] : List Int).length ∧
        ([1, 3, 5, 8] : List Int)[r.toNat]? = some 5) ∧
      (r = -1 ↔ (5 : Int) ∉ [1, 3, 5, 8]) :=
  ⟨by decide, binarySearch_correct [1, 3, 5, 8] 5 [] (by decide)⟩

/-! ## Bubble sort -/

theorem bubbleInner_fst (st : SortState) (j : Nat) :
    (bubbleInner st j).1 =
      if st.1.getD j 0 > st.1.getD (j + 1) 0 then swap st.1 j (j + 1) else st.1 := by
  unfold bubbleInner
  by_cases h : st.1.getD j 0 > st.1.getD (j + 1) 0
  · simp only [h, if_true]
  · simp only [h, if_false]

theorem bubbleInner_inv (arr : List Int) (t j : Nat) (st : SortState)
    (hj : j + 1 < t) (ht : t ≤ arr.length) (h : BubbleInv arr t j st) :
    BubbleInv arr t (j + 1) (bubbleInner st j) := by
  obtain ⟨hlen, hperm, hsf, hpl, hmax⟩ := h
  unfold BubbleInv
  rw [bubbleInner_fst]
  by_cases hgt : st.1.getD j 0 > st.1.getD (j + 1) 0
  · rw [if_pos hgt]
    have hjl : j < st.1.length := by omega
    have hjl1 : j + 1 < st.1.length := by omega
    refine ⟨by rw [length_swap]; exact hlen, (swap_perm _ _ _ hjl hjl1).trans hperm, ?_, ?_, ?_⟩
    · intro p q hp hpq hq
      rw [length_swap] at hq
      have := hsf p q hp hpq hq
      simp only [getD_swap _ _ _ _ hjl hjl1]
      split_ifs <;> omega
    · intro p q hp hq hql
      rw [length_swap] at hql
      have h1 := hpl j q (by omega) hq hql
      have h2 := hpl (j + 1) q (by omega) hq hql
      have h3 := hpl p q hp hq hql
      simp only [getD_swap _ _ _ _ hjl hjl1]
      split_ifs <;> omega
    · intro k hk
      have h1 : k < j → st.1.getD k 0 ≤ st.1.getD j 0 := hmax k
      simp only [getD_swap _ _ _ _ hjl hjl1]
      split_ifs <;> omega
  · rw [if_neg hgt]
    refine ⟨hlen, hperm, hsf, hpl, ?_⟩
    intro k hk
    rcases Nat.eq_or_lt_of_le (Nat.le_of_lt_succ hk) with h1 | h1
    · subst h1; exact not_lt.mp hgt
    · exact le_trans (hmax k h1) (not_lt.mp hgt)

theorem bubbleOuter_inv (arr : List Int) (i : Nat) (st : SortState)
    (hi : i < arr.length - 1) (h : BubbleOuterInv arr i st) :
    BubbleOuterInv arr (i + 1) (bubbleOuter arr.length st i) := by
  obtain ⟨hlen, hperm, hsf, hpl⟩ := h
  have hinner := foldl_range_inv (fun j s => BubbleInv arr (arr.length - i) j s) bubbleInner
    (arr.length - i - 1) st ⟨hlen, hperm, hsf, hpl, fun k hk => absurd hk (Nat.not_lt_zero k)⟩
    (fun j s hj hs => bubbleInner_inv arr (arr.length - i) j s (by omega) (by omega) hs)
  obtain ⟨hlen', hperm', hsf', hpl', hmax'⟩ := hinner
  unfold bubbleOuter
  refine ⟨hlen', hperm', ?_, ?_⟩
  · intro p q hp hpq hq
    rcases Nat.eq_or_lt_of_le hp with h1 | h1
    · have hpe : p = arr.length - i - 1 := by omega
      subst hpe
      by_cases hq2 : q < arr.length - i
      · omega
      · exact hpl' _ q (by omega) (by omega) hq
    · exact hsf' p q (by omega) hpq hq
  · intro p q hp hq hql
    rcases Nat.eq_or_lt_of_le hq with h1 | h1
    · have hqe : q = arr.length - i - 1 := by omega
      subst hqe
      exact hmax' p (by omega)
    · exact hpl' p q (by omega) (by omega) hql

theorem bubbleSort_loop (arr : List Int) :
    BubbleOuterInv arr (arr.length - 1)
      ((List.range (arr.length - 1)).foldl (bubbleOuter arr.length)
        (arr, [arrayToJson arr (-1) (-1)])) := by
  apply foldl_range_inv (fun i s => BubbleOuterInv arr i s)
  · refine ⟨rfl, List.Perm.refl _, ?_, ?_⟩
    · intro p q hp hpq hq
      simp only [Nat.sub_zero] at hp
      change q < arr.length at hq
      omega
    · intro p q hp hq hql
      simp only [Nat.sub_zero] at hq
      change q < arr.length at hql
      omega
  · intro i s hi hs
    exact bubbleOuter_inv arr i s hi hs

/-- C1: for every integer sequence `arr`, the array in the last snapshot of
`bubbleSort(arr)` is in ascending order and is a rearrangement of `arr` (so it is `arr`
sorted); `[5,3,8,1]` ends as `[1,3,5,8]`. -/
theorem bubbleSort_sorts :
    (∀ arr : List Int, ∃ out, finalArray (bubbleSort arr) = some out ∧
      List.Sorted (· ≤ ·) out ∧ out.Perm arr) ∧
    finalArray (bubbleSort [5, 3, 8, 1]) = some [1, 3, 5, 8] := by
  refine ⟨?_, by decide!⟩
  intro arr
  obtain ⟨hlen, hperm, hsf, hpl⟩ := bubbleSort_loop arr
  refine ⟨_, finalArray_concat _ _ _ _, ?_, hperm⟩
  apply sorted_of_getD_le
  intro p q hpq hq
  rw [hlen] at hq
  by_cases hp : arr.length - (arr.length - 1) ≤ p
  · exact hsf p q hp hpq (by rw [hlen]; exact hq)
  · exact hpl p q (by omega) (by omega) (by rw [hlen]; exact hq)

/-! ## Insertion sort -/

theorem insertionWhile_inv (a : List Int) (key : Int) (i : Nat) (hi : i < a.length) :
    ∀ (c : Nat) (st : SortState), InsInv a key i c st.1 →
      InsInv a key i (insertionWhile key i c st).1 (insertionWhile key i c st).2.1 ∧
      ((insertionWhile key i c st).1 = 0 ∨
        (insertionWhile key i c st).2.1.getD ((insertionWhile key i c st).1 - 1) 0 ≤ key) := by
  intro c
  induction c with
  | zero =>
    intro st h
    exact ⟨h, Or.inl rfl⟩
  | succ j ih =>
    intro st h
    unfold insertionWhile
    by_cases hgt : st.1.getD j 0 > key
    · simp only [hgt, if_true]
      apply ih
      obtain ⟨hlen, hci, hcnt, hsrt, hkey⟩ := h
      have hjl : j + 1 < st.1.length := by omega
      refine ⟨by rw [List.length_set]; exact hlen, by omega, ?_, ?_, ?_⟩
      · intro x
        have h1 := hcnt x
        have h2 := count_set_getD st.1 (j + 1) (st.1.getD j 0) x hjl
        dsimp only
        rw [getD_set _ _ _ _ hjl, if_neg (show ¬ j = j + 1 by omega)]
        omega
      · intro p q hpq hq hp hqj
        have h1 : p < j → st.1.getD p 0 ≤ st.1.getD j 0 :=
          fun hh => hsrt p j hh (by omega) (by omega) (by omega)
        have h2 : j + 1 < q → st.1.getD j 0 ≤ st.1.getD q 0 :=
          fun hh => hsrt j q (by omega) hq (by omega) (by omega)
        have h3 : p ≠ j + 1 → q ≠ j + 1 → st.1.getD p 0 ≤ st.1.getD q 0 :=
          fun hh1 hh2 => hsrt p q hpq hq hh1 hh2
        simp only [getD_set _ _ _ _ hjl]
        split_ifs <;> omega
      · intro q hq1 hq2
        have h1 : j + 1 < q → key < st.1.getD q 0 := fun hh => hkey q hh hq2
        simp only [getD_set _ _ _ _ hjl]
        split_ifs <;> omega
    · simp only [hgt, if_false]
      refine ⟨h, Or.inr ?_⟩
      simp only [Nat.add_sub_cancel]
      exact not_lt.mp hgt

theorem insertionOuter_inv (arr : List Int) (i : Nat) (st : SortState)
    (hi : i < arr.length) (h : InsOuterInv arr i st) :
    InsOuterInv arr (i + 1) (insertionOuter st i) := by
  obtain ⟨hlen, hperm, hsb⟩ := h
  have hil : i < st.1.length := by omega
  have hstart : InsInv st.1 (st.1.getD i 0) i i st.1 := by
    refine ⟨rfl, le_refl i, fun x => rfl, ?_, ?_⟩
    · intro p q hpq hq _ hqi
      exact hsb p q hpq (by omega)
    · intro q hq1 hq2
      omega
  obtain ⟨hinv, hstop⟩ := insertionWhile_inv st.1 (st.1.getD i 0) i hil i
    (st.1, st.2 ++ [arrayToJson st.1 i (-1)]) hstart
  unfold insertionOuter
  simp only []
  generalize insertionWhile (st.1.getD i 0) i i (st.1, st.2 ++ [arrayToJson st.1 i (-1)]) = r
    at hinv hstop
  obtain ⟨hlen', hci, hcnt, hsrt, hkey⟩ := hinv
  have hcl : r.1 < r.2.1.length := by omega
  refine ⟨by rw [List.length_set, hlen']; exact hlen, ?_, ?_⟩
  · refine List.Perm.trans ?_ hperm
    rw [List.perm_iff_count]
    intro x
    have h1 := hcnt x
    have h2 := count_set_getD r.2.1 r.1 (st.1.getD i 0) x hcl
    dsimp only
    omega
  · intro p q hpq hq
    have h1 : p ≠ r.1 → q ≠ r.1 → r.2.1.getD p 0 ≤ r.2.1.getD q 0 :=
      fun hh1 hh2 => hsrt p q hpq (by omega) hh1 hh2
    have h2 : r.1 < q → st.1.getD i 0 < r.2.1.getD q 0 := fun hh => hkey q hh (by omega)
    have h3 : p < r.1 → r.2.1.getD p 0 ≤ st.1.getD i 0 := by
      intro hh
      rcases hstop with h0 | hle
      · omega
      · by_cases hp : p = r.1 - 1
        · rw [hp]; exact hle
        · have := hsrt p (r.1 - 1) (by omega) (by omega) (by omega) (by omega)
          omega
    simp only [getD_set _ _ _ _ hcl]
    split_ifs <;> omega

theorem insertionSort_loop (arr : List Int) :
    InsOuterInv arr (1 + (arr.length - 1))
      ((List.range' 1 (arr.length - 1)).foldl insertionOuter
        (arr, [arrayToJson arr (-1) (-1)])) := by
  apply foldl_range'_inv (fun i s => InsOuterInv arr i s)
  · refine ⟨rfl, List.Perm.refl _, ?_⟩
    intro p q hpq hq
    omega
  · intro i s _ hi hs
    exact insertionOuter_inv arr i s (by omega) hs

/-- C5: for every integer sequence `arr`, the array in the last snapshot of
`insertionSort(arr)` is in ascending order and is a rearrangement of `arr`. -/
theorem insertionSort_sorts (arr : List Int) :
    ∃ out, finalArray (insertionSort arr) = some out ∧
      List.Sorted (· ≤ ·) out ∧ out.Perm arr := by
  obtain ⟨hlen, hperm, hsb⟩ := insertionSort_loop arr
  refine ⟨_, finalArray_concat _ _ _ _, ?_, hperm⟩
  apply sorted_of_getD_le
  intro p q hpq hq
  exact hsb p q hpq (by rw [hlen] at hq; omega)

/-! ## Selection sort -/

theorem selectionInner_inv (a : List Int) (i j : Nat) (ms : Nat × List ArraySnapshot)
    (hij : i < j) (h : SelInnerInv a i j ms) :
    SelInnerInv a i (j + 1) (selectionInner a ms j) := by
  obtain ⟨h1, h2, h3⟩ := h
  unfold selectionInner SelInnerInv
  by_cases hlt : a.getD j 0 < a.getD ms.1 0
  · simp only [hlt, if_true]
    refine ⟨by omega, by omega, ?_⟩
    intro k hk1 hk2
    rcases Nat.eq_or_lt_of_le (Nat.le_of_lt_succ hk2) with e | e
    · subst e; exact le_refl _
    · have := h3 k hk1 e
      omega
  · simp only [hlt, if_false]
    refine ⟨h1, by omega, ?_⟩
    intro k hk1 hk2
    rcases Nat.eq_or_lt_of_le (Nat.le_of_lt_succ hk2) with e | e
    · subst e; exact not_lt.mp hlt
    · exact h3 k hk1 e

theorem selectionOuter_inv (arr : List Int) (i : Nat) (st : SortState)
    (hi : i < arr.length - 1) (h : SelOuterInv arr i st) :
    SelOuterInv arr (i + 1) (selectionOuter arr.length st i) := by
  obtain ⟨hlen, hperm, hsb, hpl⟩ := h
  have hinner := foldl_range'_inv (fun j ms => SelInnerInv st.1 i j ms) (selectionInner st.1)
    (arr.length - (i + 1)) (i + 1) (i, st.2 ++ [arrayToJson st.1 i (-1)])
    ⟨le_refl i, Nat.lt_succ_self i, fun k hk1 hk2 => by
      have : k = i := by omega
      subst this; exact le_refl _⟩
    (fun j ms hj1 _ hs => selectionInner_inv st.1 i j ms (by omega) hs)
  have hend : i + 1 + (arr.length - (i + 1)) = arr.length := by omega
  rw [hend] at hinner
  obtain ⟨hm1, hm2, hm3⟩ := hinner
  unfold selectionOuter
  simp only []
  generalize ((List.range' (i + 1) (arr.length - (i + 1))).foldl (selectionInner st.1)
    (i, st.2 ++ [arrayToJson st.1 i (-1)])).1 = m at hm1 hm2 hm3
  have hml : m < st.1.length := by omega
  have hil : i < st.1.length := by omega
  refine ⟨by rw [length_swap]; exact hlen, (swap_perm _ _ _ hml hil).trans hperm, ?_, ?_⟩
  · intro p q hpq hq
    have h1 : q < i → st.1.getD p 0 ≤ st.1.getD q 0 := fun hh => hsb p q hpq hh
    have h2 : st.1.getD p 0 ≤ st.1.getD m 0 := by
      rcases Nat.eq_or_lt_of_le (Nat.le_of_lt_succ hq) with e | e
      · exact hpl p m (by omega) hm1 hml
      · exact hpl p m (by omega) hm1 hml
    simp only [getD_swap _ _ _ _ hml hil]
    split_ifs <;> omega
  · intro p q hp hq hql
    rw [length_swap] at hql
    have h1 : st.1.getD m 0 ≤ st.1.getD q 0 := hm3 q (by omega) (by omega)
    have h2 : st.1.getD m 0 ≤ st.1.getD i 0 := hm3 i (le_refl i) (by omega)
    have h3 : p < i → st.1.getD p 0 ≤ st.1.getD q 0 := fun hh => hpl p q hh (by omega) hql
    have h4 : p < i → st.1.getD p 0 ≤ st.1.getD i 0 := fun hh => hpl p i hh (le_refl i) hil
    simp only [getD_swap _ _ _ _ hml hil]
    split_ifs <;> omega

theorem selectionSort_loop (arr : List Int) :
    SelOuterInv arr (arr.length - 1)
      ((List.range (arr.length - 1)).foldl (selectionOuter arr.length)
        (arr, [arrayToJson arr (-1) (-1)])) := by
  apply foldl_range_inv (fun i s => SelOuterInv arr i s)
  · exact ⟨rfl, List.Perm.refl _, fun p q _ hq => absurd hq (Nat.not_lt_zero q),
      fun p q hp _ _ => absurd hp (Nat.not_lt_zero p)⟩
  · intro i s hi hs
    exact selectionOuter_inv arr i s hi hs

/-- C6: for every integer sequence `arr`, the array in the last snapshot of
`selectionSort(arr)` is in ascending order and is a rearrangement of `arr`. -/
theorem selectionSort_sorts (arr : List Int) :
    ∃ out, finalArray (selectionSort arr) = some out ∧
      List.Sorted (· ≤ ·) out ∧ out.Perm arr := by
  obtain ⟨hlen, hperm, hsb, hpl⟩ := selectionSort_loop arr
  refine ⟨_, finalArray_concat _ _ _ _, ?_, hperm⟩
  apply sorted_of_getD_le
  intro p q hpq hq
  by_cases hq2 : q < arr.length - 1
  · exact hsb p q hpq hq2
  · exact hpl p q (by rw [hlen] at hq; omega) (by omega) hq

/-! ## Quick sort -/

theorem partitionStep_inv (arr0 : List Int) (low high pivot j : Int) (s : PartState)
    (h0 : 0 ≤ low) (hlj : low ≤ j) (hjh : j < high) (hh : high < arr0.length)
    (h : PartInv arr0 low high pivot j s) :
    PartInv arr0 low high pivot (j + 1) (partitionStep pivot high s j) := by
  obtain ⟨hlen, hperm, hi1, hi2, hsm, hbg, hpv, hout⟩ := h
  unfold partitionStep PartInv
  by_cases hlt : s.2.1.getD j.toNat 0 < pivot
  · simp only [hlt, if_true]
    have hil : (s.1 + 1).toNat < s.2.1.length := by omega
    have hjl : j.toNat < s.2.1.length := by omega
    refine ⟨by rw [length_swap]; exact hlen, (swap_perm _ _ _ hil hjl).trans hperm,
      by omega, by omega, ?_, ?_, ?_, ?_⟩
    · intro idx h1 h2
      have f1 : (idx : Int) ≤ s.1 → s.2.1.getD idx 0 < pivot := fun hh => hsm idx h1 hh
      simp only [getD_swap _ _ _ _ hil hjl]
      split_ifs with c1 c2
      · have f2 := hbg (s.1 + 1).toNat (by omega)
        have e : j.toNat = (s.1 + 1).toNat := by omega
        rw [← e]; exact hlt
      · exact hlt
      · exact f1 (by omega)
    · intro idx h1 h2
      have f1 : (idx : Int) < j → pivot ≤ s.2.1.getD idx 0 := fun hh => hbg idx (by omega) hh
      simp only [getD_swap _ _ _ _ hil hjl]
      split_ifs with c1 c2
      · exact hbg (s.1 + 1).toNat (by omega) (by omega)
      · omega
      · exact f1 (by omega)
    · rw [getD_swap _ _ _ _ hil hjl, if_neg (by omega), if_neg (by omega)]
      exact hpv
    · intro idx h1
      rw [getD_swap _ _ _ _ hil hjl, if_neg (by omega), if_neg (by omega)]
      exact hout idx h1
  · simp only [hlt, if_false]
    refine ⟨hlen, hperm, hi1, by omega, hsm, ?_, hpv, hout⟩
    intro idx h1 h2
    by_cases hj : (idx : Int) = j
    · have e : idx = j.toNat := by omega
      rw [e]; exact not_lt.mp hlt
    · exact hbg idx h1 (by omega)

theorem partition_loop (st : SortState) (low high : Int) (steps1 : List ArraySnapshot)
    (h0 : 0 ≤ low) (hlh : low < high) (hh : high < st.1.length) :
    PartInv st.1 low high (st.1.getD high.toNat 0) high
      (((List.range (high - low).toNat).map (fun (k : Nat) => low + (k : Int))).foldl
        (partitionStep (st.1.getD high.toNat 0) high) (low - 1, st.1, steps1)) := by
  rw [List.foldl_map (fun k : Nat => low + (k : Int))
    (partitionStep (st.1.getD high.toNat 0) high) (List.range (high - low).toNat)]
  have h := foldl_range_inv
    (fun k s => PartInv st.1 low high (st.1.getD high.toNat 0) (low + (k : Int)) s)
    (fun s (k : Nat) => partitionStep (st.1.getD high.toNat 0) high s (low + (k : Int)))
    (high - low).toNat (low - 1, st.1, steps1)
    ⟨rfl, List.Perm.refl _, le_refl _, by simp, fun idx h1 h2 => by simp at h2; omega,
      fun idx h1 h2 => by simp at h1 h2; omega, rfl, fun idx _ => rfl⟩
    (fun k s hk hs => by
      have := partitionStep_inv st.1 low high (st.1.getD high.toNat 0) (low + (k : Int)) s
        h0 (by omega) (by omega) hh hs
      have e : low + ((k + 1 : Nat) : Int) = low + (k : Int) + 1 := by push_cast; ring
      show PartInv st.1 low high (st.1.getD high.toNat 0) (low + ((k + 1 : Nat) : Int)) _
      rw [e]; exact this)
  have e : low + (((high - low).toNat : Nat) : Int) = high := by omega
  have h' : PartInv st.1 low high (st.1.getD high.toNat 0)
      (low + (((high - low).toNat : Nat) : Int)) _ := h
  rw [e] at h'
  exact h'

/-- What `partition` establishes on the range `low .. high`. -/
theorem partition_spec (st : SortState) (low high : Int)
    (h0 : 0 ≤ low) (hlh : low < high) (hh : high < st.1.length) :
    low ≤ (partition st low high).1 ∧ (partition st low high).1 ≤ high ∧
    (partition st low high).2.1.length = st.1.length ∧
    (partition st low high).2.1.Perm st.1 ∧
    (∀ idx : Nat, (idx : Int) < low ∨ high < idx →
      (partition st low high).2.1.getD idx 0 = st.1.getD idx 0) ∧
    (∀ idx : Nat, low ≤ idx → (idx : Int) < (partition st low high).1 →
      (partition st low high).2.1.getD idx 0 <
        (partition st low high).2.1.getD (partition st low high).1.toNat 0) ∧
    (∀ idx : Nat, (partition st low high).1 < idx → (idx : Int) ≤ high →
      (partition st low high).2.1.getD (partition st low high).1.toNat 0 ≤
        (partition st low high).2.1.getD idx 0) := by
  have hloop := partition_loop st low high (st.2 ++ [arrayToJson st.1 high (-1)]) h0 hlh hh
  unfold partition
  simp only []
  generalize (((List.range (high - low).toNat).map (fun (k : Nat) => low + (k : Int))).foldl
        (partitionStep (st.1.getD high.toNat 0) high)
        (low - 1, st.1, st.2 ++ [arrayToJson st.1 high (-1)])) = s at hloop
  obtain ⟨hlen, hperm, hi1, hi2, hsm, hbg, hpv, hout⟩ := hloop
  have hil : (s.1 + 1).toNat < s.2.1.length := by omega
  have hhl : high.toNat < s.2.1.length := by omega
  refine ⟨by omega, by omega, by rw [length_swap]; exact hlen,
    (swap_perm _ _ _ hil hhl).trans hperm, ?_, ?_, ?_⟩
  · intro idx h1
    rw [getD_swap _ _ _ _ hil hhl, if_neg (by omega), if_neg (by omega)]
    exact hout idx h1
  · intro idx h1 h2
    have f1 := hsm idx h1 (by omega)
    have f3 : s.1 + 1 = high → s.2.1.getD (s.1 + 1).toNat 0 = st.1.getD high.toNat 0 :=
      fun e => by rw [e]; exact hpv
    simp only [getD_swap _ _ _ _ hil hhl]
    split_ifs <;> omega
  · intro idx h1 h2
    have f1 : (idx : Int) < high → s.2.1.getD high.toNat 0 ≤ s.2.1.getD idx 0 :=
      fun hh => by rw [hpv]; exact hbg idx (by omega) hh
    have f2 : s.1 + 1 < high → s.2.1.getD high.toNat 0 ≤ s.2.1.getD (s.1 + 1).toNat 0 :=
      fun hh => by rw [hpv]; exact hbg (s.1 + 1).toNat (by omega) (by omega)
    have f3 : s.1 + 1 = high → s.2.1.getD (s.1 + 1).toNat 0 = s.2.1.getD high.toNat 0 :=
      fun e => by rw [e]
    simp only [getD_swap _ _ _ _ hil hhl]
    split_ifs <;> omega

theorem quickSortHelper_spec :
    ∀ (fuel : Nat) (st : SortState) (low high : Int),
      0 ≤ low → high < st.1.length → high - low + 1 ≤ fuel →
      ∃ st', quickSortHelper fuel st low high = some st' ∧ QuickPost st low high st' := by
  intro fuel
  induction fuel with
  | zero =>
    intro st low high h0 hh hf
    have hlh : ¬ low < high := by omega
    refine ⟨st, by unfold quickSortHelper; rw [if_neg hlh], rfl, List.Perm.refl _,
      fun _ _ => rfl, ?_⟩
    intro p q h1 h2 h3
    omega
  | succ fuel ih =>
    intro st low high h0 hh hf
    by_cases hlh : low < high
    · have hp := partition_spec (st.1, st.2 ++ [arrayToJson st.1 low high]) low high h0 hlh hh
      unfold quickSortHelper
      rw [if_pos hlh]
      simp only []
      generalize partition (st.1, st.2 ++ [arrayToJson st.1 low high]) low high = r at hp
      obtain ⟨hp1, hp2, hlen1, hperm1, hout1, hsm1, hbg1⟩ := hp
      simp only [] at hlen1 hperm1 hout1
      obtain ⟨st2, hrun2, hlen2, hperm2, hout2, hsrt2⟩ :=
        ih r.2 low (r.1 - 1) h0 (by omega) (by omega)
      obtain ⟨st3, hrun3, hlen3, hperm3, hout3, hsrt3⟩ :=
        ih st2 (r.1 + 1) high (by omega) (by omega) (by omega)
      rw [hrun2, Option.some_bind, hrun3]
      refine ⟨st3, rfl, by omega, (hperm3.trans hperm2).trans hperm1, ?_, ?_⟩
      · intro idx hidx
        rw [hout3 idx (by omega), hout2 idx (by omega), hout1 idx hidx]
      · have hpiv2 : st2.1.getD r.1.toNat 0 = r.2.1.getD r.1.toNat 0 :=
          hout2 r.1.toNat (by omega)
        have hsm2 : ∀ k : Nat, low ≤ k → (k : Int) < r.1 →
            st2.1.getD k 0 < r.2.1.getD r.1.toNat 0 := by
          intro k hk1 hk2
          exact seg_transfer r.2.1 st2.1 low.toNat r.1.toNat hlen2 hperm2
            (fun j hj => hout2 j (by omega)) (fun x => x < r.2.1.getD r.1.toNat 0)
            (fun j hj1 hj2 _ => hsm1 j (by omega) (by omega)) k (by omega) (by omega) (by omega)
        have hbg3 : ∀ k : Nat, r.1 < k → (k : Int) ≤ high →
            r.2.1.getD r.1.toNat 0 ≤ st3.1.getD k 0 := by
          intro k hk1 hk2
          exact seg_transfer st2.1 st3.1 (r.1 + 1).toNat (high + 1).toNat hlen3 hperm3
            (fun j hj => hout3 j (by omega)) (fun x => r.2.1.getD r.1.toNat 0 ≤ x)
            (fun j hj1 hj2 _ => by
              rw [hout2 j (by omega)]
              exact hbg1 j (by omega) (by omega))
            k (by omega) (by omega) (by omega)
        intro p q h1 h2 h3
        by_cases hq : (q : Int) < r.1
        · rw [hout3 p (by omega), hout3 q (by omega)]
          exact hsrt2 p q h1 h2 (by omega)
        · by_cases hq2 : (q : Int) = r.1
          · have e : q = r.1.toNat := by omega
            rw [hout3 p (by omega), hout3 q (by omega), e, hpiv2]
            exact le_of_lt (hsm2 p h1 (by omega))
          · by_cases hp : (p : Int) < r.1
            · rw [hout3 p (by omega)]
              exact le_trans (le_of_lt (hsm2 p h1 hp)) (hbg3 q (by omega) h3)
            · by_cases hp2 : (p : Int) = r.1
              · have e : p = r.1.toNat := by omega
                rw [hout3 p (by omega), e, hpiv2]
                exact hbg3 q (by omega) h3
              · exact hsrt3 p q (by omega) h2 h3
    · refine ⟨st, by unfold quickSortHelper; rw [if_neg hlh], rfl, List.Perm.refl _,
        fun _ _ => rfl, ?_⟩
      intro p q h1 h2 h3
      omega

/-- C2: for every integer sequence `arr` (the empty one included, where the helper is
called with `high = -1`), `quickSort(arr)` returns and the array in its last snapshot is
in ascending order and is a rearrangement of `arr`. -/
theorem quickSort_sorts (arr : List Int) :
    ∃ steps out, quickSort arr = some steps ∧ finalArray steps = some out ∧
      List.Sorted (· ≤ ·) out ∧ out.Perm arr := by
  obtain ⟨st, hrun, hlen, hperm, -, hsrt⟩ := quickSortHelper_spec arr.length
    (arr, [arrayToJson arr (-1) (-1)]) 0 ((arr.length : Int) - 1) (le_refl 0)
    (by simp) (by omega)
  refine ⟨_, st.1, by unfold quickSort; simp only []; rw [hrun]; rfl,
    finalArray_concat _ _ _ _, ?_, hperm⟩
  apply sorted_of_getD_le
  intro p q hpq hq
  exact hsrt p q (by omega) hpq (by simp only [] at hlen; omega)

/-! ## Merge sort -/

theorem set_mid (A P G B : List Int) (g x : Int) :
    (A ++ P ++ (g :: G) ++ B).set (A.length + P.length) x = A ++ (P ++ [x]) ++ G ++ B := by
  have h : A.length + P.length = (A ++ P).length := by rw [List.length_append]
  rw [h, List.append_assoc (A ++ P) (g :: G) B, List.set_append_right _ _ (le_refl _)]
  simp

theorem getD_mid (A S B : List Int) (i : Nat) (h : i < S.length) :
    (A ++ S ++ B).getD (A.length + i) 0 = S.getD i 0 := by
  rw [List.append_assoc, List.getD_append_right _ _ _ _ (by omega)]
  rw [List.getD_append _ _ _ _ (by omega)]
  congr 1
  omega

theorem map_getD_range (arr A S B : List Int) (off : Int) (h : arr = A ++ S ++ B)
    (hoff : off = (A.length : Int)) :
    (List.range S.length).map (fun (i : Nat) => arr.getD (off + (i : Int)).toNat 0) = S := by
  apply List.ext_getElem
  · simp
  · intro n h1 h2
    rw [List.getElem_map, List.getElem_range]
    have e : (off + (n : Int)).toNat = A.length + n := by omega
    rw [e, h, getD_mid A S B n h2, getD_eq_get S n h2]

theorem drop_eq_getD_cons (T : List Int) (i : Nat) (h : i < T.length) :
    T.drop i = T.getD i 0 :: T.drop (i + 1) := by
  rw [getD_eq_get T i h]
  exact List.drop_eq_getElem_cons h

theorem mergeInv_place (A B L R P : List Int) (i j i' j' : Nat) (k : Int) (arr : List Int)
    (x : Int) (h : MergeInv A B L R P i j k arr)
    (hi : i' ≤ L.length) (hj : j' ≤ R.length)
    (hstep : (L.length - i') + (R.length - j') + 1 = (L.length - i) + (R.length - j)) :
    MergeInv A B L R (P ++ [x]) i' j' (k + 1) (arr.set k.toNat x) := by
  obtain ⟨_, _, hk, G, harr, hG⟩ := h
  cases G with
  | nil => simp at hG; omega
  | cons g G =>
    refine ⟨hi, hj, by rw [hk, List.length_append]; simp; omega, G, ?_, ?_⟩
    · have e : k.toNat = A.length + P.length := by omega
      rw [e, harr, set_mid]
    · simp at hG; omega

theorem mergeLoop_spec (A B L R : List Int) (left mid : Int) :
    ∀ (fuel : Nat) (s : MergeState) (i j : Nat) (P : List Int),
      s.i = (i : Int) → s.j = (j : Int) → MergeInv A B L R P i j s.k s.arr →
      (L.length - i) + (R.length - j) ≤ fuel →
      ∃ (s' : MergeState) (i' j' : Nat) (P' : List Int),
        mergeLoop L R left mid L.length R.length fuel s = some s' ∧
        s'.i = (i' : Int) ∧ s'.j = (j' : Int) ∧ MergeInv A B L R P' i' j' s'.k s'.arr ∧
        (i' = L.length ∨ j' = R.length) ∧
        P' ++ List.merge (L.drop i') (R.drop j') (fun a b => decide (a ≤ b)) =
          P ++ List.merge (L.drop i) (R.drop j) (fun a b => decide (a ≤ b)) := by
  intro fuel
  induction fuel with
  | zero =>
    intro s i j P hi hj hinv hf
    have hc : ¬ (s.i < (L.length : Int) ∧ s.j < (R.length : Int)) := by
      have := hinv.1; have := hinv.2.1
      omega
    refine ⟨s, i, j, P, by unfold mergeLoop; rw [if_neg hc], hi, hj, hinv, ?_, rfl⟩
    have := hinv.1; have := hinv.2.1
    omega
  | succ fuel ih =>
    intro s i j P hi hj hinv hf
    by_cases hc : s.i < (L.length : Int) ∧ s.j < (R.length : Int)
    · have hiL : i < L.length := by omega
      have hjR : j < R.length := by omega
      have ei : s.i.toNat = i := by omega
      have ej : s.j.toNat = j := by omega
      unfold mergeLoop
      rw [if_pos hc]
      simp only [ei, ej]
      by_cases hle : L.getD i 0 ≤ R.getD j 0
      · rw [if_pos hle]
        obtain ⟨s', i', j', P', hrun, h1, h2, h3, h4, h5⟩ := ih
          ⟨s.i + 1, s.j, s.k + 1, s.arr.set s.k.toNat (L.getD i 0),
            s.steps ++ [arrayToJson s.arr (left + s.i) (mid + 1 + s.j)] ++
              [arrayToJson (s.arr.set s.k.toNat (L.getD i 0)) (s.k + 1 - 1) (-1)]⟩
          (i + 1) j (P ++ [L.getD i 0]) (by simp [hi]) hj
          (mergeInv_place A B L R P i j (i + 1) j s.k s.arr _ hinv (by omega) (by omega)
            (by omega))
          (by omega)
        refine ⟨s', i', j', P', hrun, h1, h2, h3, h4, ?_⟩
        rw [h5, drop_eq_getD_cons L i hiL, drop_eq_getD_cons R j hjR,
          List.cons_merge_cons_pos _ _ _ (by simpa using hle)]
        simp
      · rw [if_neg hle]
        obtain ⟨s', i', j', P', hrun, h1, h2, h3, h4, h5⟩ := ih
          ⟨s.i, s.j + 1, s.k + 1, s.arr.set s.k.toNat (R.getD j 0),
            s.steps ++ [arrayToJson s.arr (left + s.i) (mid + 1 + s.j)] ++
              [arrayToJson (s.arr.set s.k.toNat (R.getD j 0)) (s.k + 1 - 1) (-1)]⟩
          i (j + 1) (P ++ [R.getD j 0]) hi (by simp [hj])
          (mergeInv_place A B L R P i j i (j + 1) s.k s.arr _ hinv (by omega) (by omega)
            (by omega))
          (by omega)
        refine ⟨s', i', j', P', hrun, h1, h2, h3, h4, ?_⟩
        rw [h5, drop_eq_getD_cons L i hiL, drop_eq_getD_cons R j hjR,
          List.cons_merge_cons_neg _ _ _ (by simpa using hle)]
        simp
    · refine ⟨s, i, j, P, by unfold mergeLoop; rw [if_neg hc], hi, hj, hinv, ?_, rfl⟩
      have := hinv.1; have := hinv.2.1
      omega

theorem mergeCopy_spec (A B T : List Int) :
    ∀ (c i : Nat) (k : Int) (st : SortState) (P G : List Int),
      c + i = T.length → c ≤ G.length → st.1 = A ++ P ++ G ++ B →
      k = ((A.length + P.length : Nat) : Int) →
      (mergeCopy T c (i : Int) k st).2.1 = A ++ (P ++ T.drop i) ++ G.drop c ++ B ∧
      (mergeCopy T c (i : Int) k st).1 = ((A.length + (P ++ T.drop i).length : Nat) : Int) := by
  intro c
  induction c with
  | zero =>
    intro i k st P G hc _ harr hk
    have e : T.drop i = [] := List.drop_eq_nil_of_le (by omega)
    unfold mergeCopy
    rw [e]
    simp [harr, hk]
  | succ c ih =>
    intro i k st P G hc hG harr hk
    cases G with
    | nil => simp at hG
    | cons g G =>
      unfold mergeCopy
      simp only []
      have ek : k.toNat = A.length + P.length := by omega
      have ei : ((i : Int)).toNat = i := by omega
      have h := ih (i + 1) (k + 1)
        (st.1.set k.toNat (T.getD (i : Int).toNat 0),
          st.2 ++ [arrayToJson (st.1.set k.toNat (T.getD (i : Int).toNat 0)) k (-1)])
        (P ++ [T.getD i 0]) G (by omega) (by simp at hG; omega)
        (by simp only []; rw [ek, ei, harr, set_mid])
        (by rw [hk, List.length_append]; simp; omega)
      have ec : ((i + 1 : Nat) : Int) = (i : Int) + 1 := by push_cast; ring
      rw [ec] at h
      rw [h.1, h.2, drop_eq_getD_cons T i (by omega)]
      simp

/-- What `merge` does to an array whose range `left .. right` is `S1` followed by `S2`:
it replaces the range by the merge of the two runs. -/
theorem merge_spec (st : SortState) (A S1 S2 B : List Int) (left mid right : Int)
    (harr : st.1 = A ++ S1 ++ S2 ++ B) (hl : left = (A.length : Int))
    (hm : mid + 1 = (A.length : Int) + S1.length)
    (hr : right + 1 = (A.length : Int) + S1.length + S2.length) :
    ∃ st', merge st left mid right = some st' ∧
      st'.1 = A ++ List.merge S1 S2 (fun a b => decide (a ≤ b)) ++ B := by
  have e1 : mid - left + 1 = (S1.length : Int) := by omega
  have e2 : right - mid = (S2.length : Int) := by omega
  have hL := map_getD_range st.1 A S1 (S2 ++ B) left (by rw [harr]; simp) hl
  have hR := map_getD_range st.1 (A ++ S1) S2 B (mid + 1) harr
    (by rw [List.length_append]; push_cast; omega)
  obtain ⟨s', i', j', P', hrun, hi', hj', hinv, hdone, hmerge⟩ :=
    mergeLoop_spec A B S1 S2 left mid (S1.length + S2.length) ⟨0, 0, left, st.1, st.2⟩ 0 0 []
      rfl rfl ⟨Nat.zero_le _, Nat.zero_le _, by simp [hl], S1 ++ S2, by simp [harr], by simp⟩
      (by omega)
  obtain ⟨hiL, hjR, hk, G, hG, hGlen⟩ := hinv
  unfold merge
  simp only [e1, e2, Int.toNat_ofNat, hL, hR, hrun, Option.map_some']
  refine ⟨_, rfl, ?_⟩
  have c1 : ((S1.length : Int) - s'.i).toNat + i' = S1.length := by omega
  have c2 : ((S2.length : Int) - s'.j).toNat + j' = S2.length := by omega
  have hcopy1 := mergeCopy_spec A B S1 ((S1.length : Int) - s'.i).toNat i' s'.k
    (s'.arr, s'.steps) P' G c1 (by omega) hG hk
  rw [← hi'] at hcopy1
  have hcopy2 := mergeCopy_spec A B S2 ((S2.length : Int) - s'.j).toNat j'
    (mergeCopy S1 ((S1.length : Int) - s'.i).toNat s'.i s'.k (s'.arr, s'.steps)).1
    (mergeCopy S1 ((S1.length : Int) - s'.i).toNat s'.i s'.k (s'.arr, s'.steps)).2
    (P' ++ S1.drop i') (G.drop ((S1.length : Int) - s'.i).toNat) c2
    (by rw [List.length_drop]; omega) hcopy1.1 hcopy1.2
  rw [← hj'] at hcopy2
  rw [hcopy2.1]
  have hnil : (G.drop ((S1.length : Int) - s'.i).toNat).drop ((S2.length : Int) - s'.j).toNat
      = [] := by
    apply List.drop_eq_nil_of_le
    rw [List.length_drop]; omega
  rw [hnil]
  have hfin : P' ++ S1.drop i' ++ S2.drop j' =
      List.merge S1 S2 (fun a b => decide (a ≤ b)) := by
    have hm0 := hmerge
    simp only [List.drop_zero, List.nil_append] at hm0
    rw [← hm0]
    rcases hdone with h | h
    · rw [h, List.drop_length, List.nil_merge]; simp
    · rw [h, List.drop_length, List.merge_right]; simp
  rw [hfin]
  simp

theorem sorted_of_length_le_one (S : List Int) (h : S.length ≤ 1) : List.Sorted (· ≤ ·) S := by
  match S, h with
  | [], _ => exact List.sorted_nil
  | [x], _ => exact List.sorted_singleton x

theorem mergeSortHelper_spec :
    ∀ (fuel : Nat) (st : SortState) (A S B : List Int) (left right : Int),
      st.1 = A ++ S ++ B → left = (A.length : Int) →
      right + 1 = (A.length : Int) + S.length → S.length ≤ fuel →
      ∃ st' S', mergeSortHelper fuel st left right = some st' ∧
        st'.1 = A ++ S' ++ B ∧ List.Sorted (· ≤ ·) S' ∧ S'.Perm S := by
  intro fuel
  induction fuel with
  | zero =>
    intro st A S B left right harr hl hr hf
    have hlr : ¬ left < right := by omega
    exact ⟨st, S, by unfold mergeSortHelper; rw [if_neg hlr], harr,
      sorted_of_length_le_one S (by omega), List.Perm.refl _⟩
  | succ fuel ih =>
    intro st A S B left right harr hl hr hf
    by_cases hlr : left < right
    · have hmid : left + (right - left).tdiv 2 = left + (right - left) / 2 := by
        rw [Int.tdiv_eq_ediv (by omega) (by decide)]
      unfold mergeSortHelper
      rw [if_pos hlr]
      simp only [hmid]
      generalize hmd : left + (right - left) / 2 = mid
      have hm1 : left ≤ mid := by omega
      have hm2 : mid < right := by omega
      have hS : S = S.take (mid - left + 1).toNat ++ S.drop (mid - left + 1).toNat :=
        (List.take_append_drop _ S).symm
      have hlen1 : (S.take (mid - left + 1).toNat).length = (mid - left + 1).toNat := by
        rw [List.length_take]; omega
      have hlen2 : (S.drop (mid - left + 1).toNat).length = (right - mid).toNat := by
        rw [List.length_drop]; omega
      generalize S.take (mid - left + 1).toNat = S1 at hS hlen1
      generalize S.drop (mid - left + 1).toNat = S2 at hS hlen2
      obtain ⟨st1, S1', hrun1, harr1, hsrt1, hperm1⟩ :=
        ih (st.1, st.2 ++ [arrayToJson st.1 left right]) A S1 (S2 ++ B) left mid
          (by rw [harr, hS]; simp) hl (by omega) (by omega)
      have hl1 : S1'.length = S1.length := hperm1.length_eq
      obtain ⟨st2, S2', hrun2, harr2, hsrt2, hperm2⟩ :=
        ih st1 (A ++ S1') S2 B (mid + 1) right
          (by rw [harr1]; simp) (by rw [List.length_append]; push_cast; omega)
          (by rw [List.length_append]; push_cast; omega) (by omega)
      have hl2 : S2'.length = S2.length := hperm2.length_eq
      obtain ⟨st3, hrun3, harr3⟩ :=
        merge_spec (st2.1, st2.2 ++ [arrayToJson st2.1 left right]) A S1' S2' B left mid right
          (by rw [harr2]) hl (by omega) (by omega)
      rw [hrun1, Option.some_bind, hrun2, Option.some_bind, hrun3]
      refine ⟨st3, _, rfl, harr3, List.Sorted.merge hsrt1 hsrt2, ?_⟩
      rw [hS]
      exact (List.merge_perm_append _).trans (hperm1.append hperm2)
    · exact ⟨st, S, by unfold mergeSortHelper; rw [if_neg hlr], harr,
        sorted_of_length_le_one S (by omega), List.Perm.refl _⟩

/-- C3: for every integer sequence `arr` (the empty one included, where the helper is
called with `right = -1`), `mergeSort(arr)` returns and the array in its last snapshot
is in ascending order and is a rearrangement of `arr`. -/
theorem mergeSort_sorts (arr : List Int) :
    ∃ steps out, mergeSort arr = some steps ∧ finalArray steps = some out ∧
      List.Sorted (· ≤ ·) out ∧ out.Perm arr := by
  obtain ⟨st, S', hrun, harr, hsrt, hperm⟩ := mergeSortHelper_spec arr.length
    (arr, [arrayToJson arr (-1) (-1)]) [] arr [] 0 ((arr.length : Int) - 1)
    (by simp) (by simp) (by simp) (le_refl _)
  simp only [List.nil_append, List.append_nil] at harr
  refine ⟨_, st.1, by unfold mergeSort; simp only []; rw [hrun]; rfl,
    finalArray_concat _ _ _ _, ?_, ?_⟩
  · rw [harr]; exact hsrt
  · rw [harr]; exact hperm

/-! ## Heap sort -/

theorem sift_swap_pre (a : List Int) (n s i lg : Nat) (hsi : s ≤ i) (hn : n ≤ a.length)
    (hlg : lg = 2 * i + 1 ∨ lg = 2 * i + 2) (hlgn : lg < n)
    (hmax0 : a.getD i 0 ≤ a.getD lg 0)
    (hmax1 : 2 * i + 1 < n → a.getD (2 * i + 1) 0 ≤ a.getD lg 0)
    (hmax2 : 2 * i + 2 < n → a.getD (2 * i + 2) 0 ≤ a.getD lg 0)
    (hpre : SiftPre a n s i) : SiftPre (swap a i lg) n s lg := by
  obtain ⟨hheap, hpar⟩ := hpre
  have hil : i < a.length := by omega
  have hll : lg < a.length := by omega
  constructor
  · intro j hj hjl
    by_cases hji : j = i
    · subst hji
      unfold HeapAt
      simp only [getD_swap _ _ _ _ hil hll]
      constructor <;> intro hc <;> split_ifs <;> omega
    · have hj1 := (hheap j hj hji).1
      have hj2 := (hheap j hj hji).2
      have hp1 := hpar j lg hj
      unfold HeapAt
      simp only [getD_swap _ _ _ _ hil hll]
      constructor <;> intro hc <;> split_ifs <;> omega
  · intro p c hp hpl hc hcn
    have h1 := (hheap lg (by omega) (by omega)).1
    have h2 := (hheap lg (by omega) (by omega)).2
    rcases hc with rfl | rfl <;> simp only [getD_swap _ _ _ _ hil hll] <;> split_ifs <;> omega

theorem sift_post_of_rec (a : List Int) (n s i lg : Nat) (a2 : List Int)
    (hil : i < lg) (hlgn : lg < n) (hn : n ≤ a.length)
    (hpost : SiftPost (swap a i lg) n s lg a2) : SiftPost a n s i a2 := by
  obtain ⟨hlen, hperm, hsame, hheap⟩ := hpost
  have hi' : i < a.length := by omega
  have hl' : lg < a.length := by omega
  refine ⟨by rw [hlen, length_swap], hperm.trans (swap_perm a i lg hi' hl'), ?_, hheap⟩
  intro k hk
  rw [hsame k (by omega), getD_swap _ _ _ _ hi' hl', if_neg (by omega), if_neg (by omega)]

theorem sift_post_refl (a : List Int) (n s i : Nat) (hpre : SiftPre a n s i)
    (hi : HeapAt a n i) : SiftPost a n s i a := by
  refine ⟨rfl, List.Perm.refl _, fun _ _ => rfl, ?_⟩
  intro j hj
  by_cases hji : j = i
  · rw [hji]; exact hi
  · exact hpre.1 j hj hji

theorem heapify_spec (n s : Nat) :
    ∀ (fuel : Nat) (st : SortState) (i : Nat), s ≤ i → n ≤ st.1.length → n - i ≤ fuel →
      SiftPre st.1 n s i →
      ∃ st', heapify n fuel st i = some st' ∧ SiftPost st.1 n s i st'.1 := by
  intro fuel
  induction fuel with
  | zero =>
    intro st i hsi hn hf hpre
    have h1 : ¬ (2 * i + 1 < n ∧ st.1.getD (2 * i + 1) 0 > st.1.getD i 0) := by omega
    have h2 : ¬ (2 * i + 2 < n ∧ st.1.getD (2 * i + 2) 0 > st.1.getD i 0) := by omega
    unfold heapify
    simp only [h1, h2, if_false, ne_eq, not_true_eq_false]
    exact ⟨_, rfl, sift_post_refl st.1 n s i hpre ⟨fun h => by omega, fun h => by omega⟩⟩
  | succ fuel ih =>
    intro st i hsi hn hf hpre
    unfold heapify
    by_cases h1 : 2 * i + 1 < n ∧ st.1.getD (2 * i + 1) 0 > st.1.getD i 0
    · by_cases h2 : 2 * i + 2 < n ∧ st.1.getD (2 * i + 2) 0 > st.1.getD (2 * i + 1) 0
      · simp only [h1, h2, and_self, if_true]
        have hne : 2 * i + 2 ≠ i := by omega
        simp only [ne_eq, hne, not_false_eq_true, if_true]
        obtain ⟨st', hrun, hpost⟩ := ih
          (swap st.1 i (2 * i + 2), _) (2 * i + 2) (by omega)
          (by rw [length_swap]; exact hn) (by omega)
          (sift_swap_pre st.1 n s i (2 * i + 2) hsi hn (Or.inr rfl) h2.1 (by omega) (by omega)
            (by omega) hpre)
        exact ⟨st', hrun, sift_post_of_rec st.1 n s i (2 * i + 2) st'.1 (by omega) h2.1 hn hpost⟩
      · simp only [h1, h2, and_self, if_true, if_false]
        have hne : 2 * i + 1 ≠ i := by omega
        simp only [ne_eq, hne, not_false_eq_true, if_true]
        obtain ⟨st', hrun, hpost⟩ := ih
          (swap st.1 i (2 * i + 1), _) (2 * i + 1) (by omega)
          (by rw [length_swap]; exact hn) (by omega)
          (sift_swap_pre st.1 n s i (2 * i + 1) hsi hn (Or.inl rfl) h1.1 (by omega) (by omega)
            (by omega) hpre)
        exact ⟨st', hrun, sift_post_of_rec st.1 n s i (2 * i + 1) st'.1 (by omega) h1.1 hn hpost⟩
    · by_cases h2 : 2 * i + 2 < n ∧ st.1.getD (2 * i + 2) 0 > st.1.getD i 0
      · simp only [h1, h2, and_self, if_true, if_false]
        have hne : 2 * i + 2 ≠ i := by omega
        simp only [ne_eq, hne, not_false_eq_true, if_true]
        obtain ⟨st', hrun, hpost⟩ := ih
          (swap st.1 i (2 * i + 2), _) (2 * i + 2) (by omega)
          (by rw [length_swap]; exact hn) (by omega)
          (sift_swap_pre st.1 n s i (2 * i + 2) hsi hn (Or.inr rfl) h2.1 (by omega) (by omega)
            (by omega) hpre)
        exact ⟨st', hrun, sift_post_of_rec st.1 n s i (2 * i + 2) st'.1 (by omega) h2.1 hn hpost⟩
      · simp only [h1, h2, if_false, ne_eq, not_true_eq_false]
        exact ⟨_, rfl, sift_post_refl st.1 n s i hpre ⟨fun h => by omega, fun h => by omega⟩⟩

theorem heap_root_max (a : List Int) (m : Nat) (hheap : ∀ j, HeapAt a m j) :
    ∀ k, k < m → a.getD k 0 ≤ a.getD 0 0 := by
  intro k
  induction k using Nat.strong_induction_on with
  | _ k ih =>
    intro hk
    by_cases h0 : k = 0
    · rw [h0]
    · have hp := ih ((k - 1) / 2) (by omega) (by omega)
      have h1 := (hheap ((k - 1) / 2)).1
      have h2 := (hheap ((k - 1) / 2)).2
      rcases Nat.even_or_odd k with he | ho
      · obtain ⟨r, hr⟩ := he
        have e : 2 * ((k - 1) / 2) + 2 = k := by omega
        rw [e] at h2
        exact le_trans (h2 hk) hp
      · obtain ⟨r, hr⟩ := ho
        have e : 2 * ((k - 1) / 2) + 1 = k := by omega
        rw [e] at h1
        exact le_trans (h1 hk) hp

theorem heapBuildStep_inv (arr : List Int) (i : Nat) (st : SortState)
    (h : HeapBuildInv arr (i + 1) st) :
    ∃ st', heapBuildStep arr.length st i = some st' ∧ HeapBuildInv arr i st' := by
  obtain ⟨hlen, hperm, hheap⟩ := h
  obtain ⟨st', hrun, hlen', hperm', -, hheap'⟩ := heapify_spec arr.length i arr.length
    (st.1, st.2 ++ [arrayToJson st.1 i (-1)]) i (le_refl i) (by simp only []; omega) (by omega)
    ⟨fun j hj hji => hheap j (by omega), fun p c hp hpi _ _ => by omega⟩
  exact ⟨st', hrun, by rw [hlen']; exact hlen, hperm'.trans hperm, hheap'⟩

theorem heapExtractStep_inv (arr : List Int) (i : Nat) (st : SortState)
    (hi1 : 1 ≤ i) (hi2 : i < arr.length) (h : HeapExtractInv arr (i + 1) st) :
    ∃ st', heapExtractStep st i = some st' ∧ HeapExtractInv arr i st' := by
  obtain ⟨hlen, hperm, hheap, hsf, hpl⟩ := h
  have h0l : 0 < st.1.length := by omega
  have hil : i < st.1.length := by omega
  have hroot := heap_root_max st.1 (i + 1) hheap
  have hpre : SiftPre (swap st.1 0 i) i 0 0 := by
    constructor
    · intro j _ hj0
      have h1 := (hheap j).1
      have h2 := (hheap j).2
      unfold HeapAt
      simp only [getD_swap _ _ _ _ h0l hil]
      constructor <;> intro hc <;> split_ifs <;> first | omega | contradiction
    · intro p c _ hp _ _
      omega
  obtain ⟨st', hrun, hlen', hperm', hsame', hheap'⟩ := heapify_spec i 0 i
    (swap st.1 0 i, st.2 ++ [arrayToJson st.1 0 i] ++ [arrayToJson (swap st.1 0 i) i (-1)]) 0
    (le_refl 0) (by simp only []; rw [length_swap]; omega) (by omega) hpre
  simp only [] at hlen' hperm' hsame' hheap'
  refine ⟨st', hrun, by rw [hlen', length_swap]; exact hlen,
    (hperm'.trans (swap_perm _ _ _ h0l hil)).trans hperm, fun j => hheap' j (Nat.zero_le j),
    ?_, ?_⟩
  · intro p q hp hpq hq
    rw [hlen', length_swap] at hq
    have f1 := hpl 0 q (by omega) (by omega) hq
    have f2 : i + 1 ≤ p → st.1.getD p 0 ≤ st.1.getD q 0 := fun hh => hsf p q hh hpq hq
    rw [hsame' p (Or.inr hp), hsame' q (Or.inr (by omega))]
    simp only [getD_swap _ _ _ _ h0l hil]
    split_ifs <;> omega
  · intro p q hp hq hql
    rw [hlen', length_swap] at hql
    rw [hsame' q (Or.inr hq)]
    refine seg_transfer (swap st.1 0 i) st'.1 0 i hlen' hperm'
      (fun k hk => hsame' k (Or.inr (by omega))) (fun x => x ≤ (swap st.1 0 i).getD q 0)
      ?_ p (Nat.zero_le p) hp (by rw [length_swap]; omega)
    intro k _ hk _
    have f1 := hroot k (by omega)
    have f2 := hroot i (by omega)
    have f3 : i + 1 ≤ q → st.1.getD k 0 ≤ st.1.getD q 0 := fun hh => hpl k q (by omega) hh hql
    have f4 : i + 1 ≤ q → st.1.getD i 0 ≤ st.1.getD q 0 := fun hh => hpl i q (by omega) hh hql
    simp only [getD_swap _ _ _ _ h0l hil]
    split_ifs <;> omega

/-- C4: for every integer sequence `arr`, `heapSort(arr)` returns and the array in its
last snapshot is in ascending order and is a rearrangement of `arr`. -/
theorem heapSort_sorts (arr : List Int) :
    ∃ steps out, heapSort arr = some steps ∧ finalArray steps = some out ∧
      List.Sorted (· ≤ ·) out ∧ out.Perm arr := by
  obtain ⟨st1, hrun1, hlen1, hperm1, hheap1⟩ := foldlM_reverse_range'_inv
    (fun i s => HeapBuildInv arr i s) (heapBuildStep arr.length) (arr.length / 2) 0
    (arr, [arrayToJson arr (-1) (-1)])
    ⟨rfl, List.Perm.refl _, fun j hj => ⟨fun h => by omega, fun h => by omega⟩⟩
    (fun i s _ _ hs => heapBuildStep_inv arr i s hs)
  have hstart : HeapExtractInv arr (1 + (arr.length - 1))
      (st1.1, st1.2 ++ [arrayToJson st1.1 (-1) (-1)]) := by
    refine ⟨hlen1, hperm1, ?_, ?_, ?_⟩
    · intro j
      by_cases hn : arr.length = 0
      · exact ⟨fun h => by omega, fun h => by omega⟩
      · have e : 1 + (arr.length - 1) = arr.length := by omega
        rw [e]; exact hheap1 j (Nat.zero_le j)
    · intro p q hp hpq hq
      simp only [] at hq
      omega
    · intro p q hp hq hql
      simp only [] at hql
      omega
  obtain ⟨st2, hrun2, hlen2, hperm2, -, hsf2, hpl2⟩ := foldlM_reverse_range'_inv
    (fun m s => HeapExtractInv arr m s) heapExtractStep (arr.length - 1) 1
    (st1.1, st1.2 ++ [arrayToJson st1.1 (-1) (-1)]) hstart
    (fun i s hi1 hi2 hs => heapExtractStep_inv arr i s hi1 (by omega) hs)
  refine ⟨st2.2 ++ [arrayToJson st2.1 (-1) (-1)], st2.1, ?_, finalArray_concat _ _ _ _, ?_,
    hperm2⟩
  · unfold heapSort
    simp only []
    rw [← List.range_eq_range'] at hrun1
    rw [hrun1, Option.some_bind, hrun2]
    rfl
  · apply sorted_of_getD_le
    intro p q hpq hq
    by_cases hp : 1 ≤ p
    · exact hsf2 p q hp hpq hq
    · exact hpl2 p q (by omega) (by omega) hq

/-! ## Walk lemmas -/

theorem mem_adj_valid (g : Graph) (hv : ValidGraph g) (u : Int) (e : Int × Int)
    (he : e ∈ adj g u) : 0 ≤ e.1 ∧ e.1 < (g.length : Int) := by
  unfold adj at he
  split_ifs at he with h
  · have hu : u.toNat < g.length := by omega
    have hmem : g.getD u.toNat [] ∈ g := by
      rw [List.getD_eq_getElem g [] hu]
      exact List.getElem_mem hu
    exact hv _ hmem e he
  · simp at he

theorem adj_eq_getD (g : Graph) (u : Int) (h : 0 ≤ u ∧ u < g.length) :
    adj g u = g.getD u.toNat [] := by
  unfold adj
  rw [if_pos h]

theorem isWalk_snoc (g : Graph) : ∀ (p : List (Int × Int)) (u : Int) (e : Int × Int),
    IsWalk g u (p ++ [e]) ↔ IsWalk g u p ∧ e ∈ adj g (walkEnd u p) := by
  intro p
  induction p with
  | nil => intro u e; simp [IsWalk, walkEnd]
  | cons a p ih =>
    intro u e
    simp only [List.cons_append, IsWalk, walkEnd, List.append_eq, ih a.1 e, and_assoc]

theorem walkEnd_snoc : ∀ (p : List (Int × Int)) (u : Int) (e : Int × Int),
    walkEnd u (p ++ [e]) = e.1 := by
  intro p
  induction p with
  | nil => intro u e; rfl
  | cons a p ih => intro u e; simp only [List.cons_append, walkEnd, List.append_eq, ih a.1 e]

theorem walkWeight_snoc (p : List (Int × Int)) (e : Int × Int) :
    walkWeight (p ++ [e]) = walkWeight p + e.2 := by
  unfold walkWeight
  simp

theorem walkWeight_cons (p : List (Int × Int)) (e : Int × Int) :
    walkWeight (e :: p) = e.2 + walkWeight p := by
  unfold walkWeight
  simp

theorem walkNodes_snoc (u : Int) (p : List (Int × Int)) (e : Int × Int) :
    walkNodes u (p ++ [e]) = walkNodes u p ++ [e.1] := by
  unfold walkNodes
  simp

theorem walkEnd_mem_nodes : ∀ (p : List (Int × Int)) (u : Int),
    walkEnd u p ∈ walkNodes u p := by
  intro p
  induction p with
  | nil => intro u; simp [walkEnd, walkNodes]
  | cons a p ih =>
    intro u
    have := ih a.1
    unfold walkNodes at this ⊢
    simp only [walkEnd, List.map_cons, List.mem_cons] at this ⊢
    exact Or.inr this

theorem walk_nodes_valid (g : Graph) (hv : ValidGraph g) :
    ∀ (p : List (Int × Int)) (u : Int), 0 ≤ u → u < (g.length : Int) → IsWalk g u p →
      ∀ x ∈ walkNodes u p, 0 ≤ x ∧ x < (g.length : Int) := by
  intro p
  induction p with
  | nil =>
    intro u h0 h1 _ x hx
    simp [walkNodes] at hx
    subst hx; exact ⟨h0, h1⟩
  | cons a p ih =>
    intro u h0 h1 hw x hx
    obtain ⟨ha, hp⟩ := hw
    have hav := mem_adj_valid g hv u a ha
    unfold walkNodes at hx
    simp only [List.map_cons, List.mem_cons] at hx
    rcases hx with rfl | hx
    · exact ⟨h0, h1⟩
    · exact ih a.1 hav.1 hav.2 hp x (by unfold walkNodes; simpa using hx)

theorem walk_weight_nonneg (g : Graph)
    (hw : ∀ l ∈ g, ∀ e ∈ l, (0 : Int) ≤ e.2) :
    ∀ (p : List (Int × Int)) (u : Int), IsWalk g u p → 0 ≤ walkWeight p := by
  intro p
  induction p with
  | nil => intro u _; simp [walkWeight]
  | cons a p ih =>
    intro u hwalk
    obtain ⟨ha, hp⟩ := hwalk
    rw [walkWeight_cons]
    have h1 := ih a.1 hp
    have h2 : 0 ≤ a.2 := by
      unfold adj at ha
      split_ifs at ha with h
      · have hu : u.toNat < g.length := by omega
        have hmem : g.getD u.toNat [] ∈ g := by
          rw [List.getD_eq_getElem g [] hu]
          exact List.getElem_mem hu
        exact hw _ hmem a ha
      · simp at ha
    omega

theorem nodup_length_le (n : Nat) (l : List Int) (hnd : l.Nodup)
    (hr : ∀ x ∈ l, 0 ≤ x ∧ x < (n : Int)) : l.length ≤ n := by
  have hsub : l ⊆ (List.range n).map (fun (i : Nat) => (i : Int)) := by
    intro x hx
    obtain ⟨h0, h1⟩ := hr x hx
    rw [List.mem_map]
    exact ⟨x.toNat, List.mem_range.mpr (by omega), by omega⟩
  have := (List.subperm_of_subset hnd hsub).length_le
  simpa using this

theorem mem_adj_mem_graph (g : Graph) (u : Int) (e : Int × Int) (he : e ∈ adj g u) :
    ∃ l ∈ g, e ∈ l := by
  unfold adj at he
  split_ifs at he with h
  · have hu : u.toNat < g.length := by omega
    refine ⟨g.getD u.toNat [], ?_, he⟩
    rw [List.getD_eq_getElem g [] hu]
    exact List.getElem_mem hu
  · simp at he

theorem walk_weight_mul_le (g : Graph) (hb : BoundedWeights g) :
    ∀ (p : List (Int × Int)) (u : Int), IsWalk g u p →
      walkWeight p * (g.length : Int) ≤ (p.length : Int) * 2147483646 := by
  intro p
  induction p with
  | nil => intro u _; simp [walkWeight]
  | cons a p ih =>
    intro u hwalk
    obtain ⟨ha, hp⟩ := hwalk
    obtain ⟨l, hl, hal⟩ := mem_adj_mem_graph g u a ha
    have h1 := (hb l hl a hal).2
    have h2 := ih a.1 hp
    rw [walkWeight_cons, List.length_cons]
    unfold INT_MAX at h1
    push_cast
    nlinarith

theorem simple_walk_weight_lt (g : Graph) (hv : ValidGraph g) (hb : BoundedWeights g)
    (s : Int) (p : List (Int × Int)) (h0 : 0 ≤ s) (h1 : s < (g.length : Int))
    (hwalk : IsWalk g s p) (hnd : (walkNodes s p).Nodup) : walkWeight p < INT_MAX := by
  have hlen := nodup_length_le g.length (walkNodes s p) hnd
    (walk_nodes_valid g hv p s h0 h1 hwalk)
  have hl : (p.length : Int) + 1 ≤ g.length := by
    unfold walkNodes at hlen
    simp only [List.length_cons, List.length_map] at hlen
    omega
  have hm := walk_weight_mul_le g hb p s hwalk
  unfold INT_MAX
  by_contra hcon
  have hge : (2147483647 : Int) ≤ walkWeight p := by omega
  have hn : (0 : Int) < g.length := by omega
  nlinarith

theorem bounded_nonneg (g : Graph) (hb : BoundedWeights g) :
    ∀ l ∈ g, ∀ e ∈ l, (0 : Int) ≤ e.2 :=
  fun l hl e he => (hb l hl e he).1

/-! ## The priority queue and the loop of Dijkstra -/

theorem wrapInt_eq (x : Int) (h0 : -2147483648 ≤ x) (h1 : x < 2147483648) : wrapInt x = x := by
  unfold wrapInt
  omega

theorem pairLe_fst_true (a b : Int × Int) (h : pairLe a b = true) : a.1 ≤ b.1 := by
  unfold pairLe at h
  simp only [Bool.or_eq_true, Bool.and_eq_true, decide_eq_true_eq] at h
  omega

theorem pairLe_fst_false (a b : Int × Int) (h : ¬ pairLe a b = true) : b.1 ≤ a.1 := by
  unfold pairLe at h
  simp only [Bool.or_eq_true, Bool.and_eq_true, decide_eq_true_eq] at h
  omega

theorem pqFold_spec : ∀ (xs : List (Int × Int)) (m : Int × Int),
    (xs.foldl (fun m y => if pairLe y m then y else m) m = m ∨
      xs.foldl (fun m y => if pairLe y m then y else m) m ∈ xs) ∧
    (xs.foldl (fun m y => if pairLe y m then y else m) m).1 ≤ m.1 ∧
    ∀ e ∈ xs, (xs.foldl (fun m y => if pairLe y m then y else m) m).1 ≤ e.1 := by
  intro xs
  induction xs with
  | nil => intro m; simp
  | cons x xs ih =>
    intro m
    rw [List.foldl_cons]
    by_cases h : pairLe x m = true
    · rw [if_pos h]
      obtain ⟨h1, h2, h3⟩ := ih x
      have hx := pairLe_fst_true x m h
      refine ⟨Or.inr ?_, by omega, ?_⟩
      · rcases h1 with e | e
        · rw [e]; exact List.mem_cons_self _ _
        · exact List.mem_cons_of_mem _ e
      · intro e he
        rcases List.mem_cons.mp he with rfl | he
        · exact h2
        · exact h3 e he
    · rw [if_neg h]
      obtain ⟨h1, h2, h3⟩ := ih m
      have hx := pairLe_fst_false x m h
      refine ⟨?_, h2, ?_⟩
      · rcases h1 with e | e
        · exact Or.inl e
        · exact Or.inr (List.mem_cons_of_mem _ e)
      · intro e he
        rcases List.mem_cons.mp he with rfl | he
        · omega
        · exact h3 e he

theorem pqTop_none (pq : List (Int × Int)) (h : pqTop pq = none) : pq = [] := by
  cases pq with
  | nil => rfl
  | cons x xs => simp [pqTop] at h

theorem pqTop_some (pq : List (Int × Int)) (t : Int × Int) (h : pqTop pq = some t) :
    t ∈ pq ∧ ∀ e ∈ pq, t.1 ≤ e.1 := by
  cases pq with
  | nil => simp [pqTop] at h
  | cons x xs =>
    simp only [pqTop, Option.some.injEq] at h
    obtain ⟨h1, h2, h3⟩ := pqFold_spec xs x
    rw [h] at h1 h2 h3
    constructor
    · rcases h1 with e | e
      · rw [e]; exact List.mem_cons_self _ _
      · exact List.mem_cons_of_mem _ e
    · intro e he
      rcases List.mem_cons.mp he with rfl | he
      · exact h2
      · exact h3 e he

/-- Invariant rule for the loop of `dijkstraAlgorithm`: a property kept by every round,
with a measure that every round decreases, holds when the loop ends, and the loop ends
within the fuel. -/
theorem dijkstraLoop_inv (g : Graph) (P : DijkstraState → Prop) (m : DijkstraState → Nat)
    (hstep : ∀ s top, P s → pqTop s.pq = some top →
      ∃ s', dijkstraStep g s top = Except.ok s' ∧ P s' ∧ m s' < m s) :
    ∀ (fuel : Nat) (s : DijkstraState), P s → m s ≤ fuel →
      ∃ s', dijkstraLoop g fuel s = Except.ok s' ∧ P s' ∧ s'.pq = [] := by
  intro fuel
  induction fuel with
  | zero =>
    intro s hp hm
    unfold dijkstraLoop
    cases htop : pqTop s.pq with
    | none => exact ⟨s, rfl, hp, pqTop_none _ htop⟩
    | some top =>
      obtain ⟨s', _, _, hlt⟩ := hstep s top hp htop
      omega
  | succ fuel ih =>
    intro s hp hm
    unfold dijkstraLoop
    cases htop : pqTop s.pq with
    | none => exact ⟨s, rfl, hp, pqTop_none _ htop⟩
    | some top =>
      obtain ⟨s', hrun, hp', hlt⟩ := hstep s top hp htop
      simp only [hrun]
      exact ih s' hp' (by omega)

theorem sum_map_update (f f' : Nat → Nat) (k d : Nat) :
    ∀ (l : List Nat), l.Nodup → k ∈ l → f k = d → f' k = 0 →
      (∀ i ∈ l, i ≠ k → f' i = f i) →
      (l.map f').sum + d = (l.map f).sum := by
  intro l
  induction l with
  | nil => intro _ hk; simp at hk
  | cons a l ih =>
    intro hnd hk hfk hfk' hsame
    rw [List.nodup_cons] at hnd
    simp only [List.map_cons, List.sum_cons]
    by_cases hak : a = k
    · subst hak
      have hrest : l.map f' = l.map f := by
        apply List.map_congr_left
        intro i hi
        exact hsame i (List.mem_cons_of_mem _ hi) (fun e => hnd.1 (e ▸ hi))
      rw [hrest, hfk, hfk']
      omega
    · have hk' : k ∈ l := by
        rcases List.mem_cons.mp hk with e | e
        · exact absurd e.symm hak
        · exact e
      have := ih hnd.2 hk' hfk hfk' (fun i hi hik => hsame i (List.mem_cons_of_mem _ hi) hik)
      rw [hsame a (List.mem_cons_self _ _) hak]
      omega

theorem pendingDeg_visit (g : Graph) (S : List Int) (cur : Int)
    (h0 : 0 ≤ cur) (h1 : cur < (g.length : Int)) (hcur : cur ∉ S) :
    pendingDeg g (S ++ [cur]) + (g.getD cur.toNat []).length = pendingDeg g S := by
  unfold pendingDeg
  apply sum_map_update _ _ cur.toNat _ _ (List.nodup_range _) (List.mem_range.mpr (by omega))
  · have e : ((cur.toNat : Nat) : Int) = cur := by omega
    rw [e, if_neg hcur]
  · have e : ((cur.toNat : Nat) : Int) = cur := by omega
    rw [e, if_pos (by simp)]
  · intro i _ hik
    have hne : (i : Int) ≠ cur := by omega
    by_cases hi : (i : Int) ∈ S
    · rw [if_pos hi, if_pos (List.mem_append_left _ hi)]
    · rw [if_neg hi, if_neg]
      intro hmem
      rcases List.mem_append.mp hmem with h | h
      · exact hi h
      · simp at h; exact hne h

/-! ## Dijkstra: the invariant is kept -/

theorem distAt_set (dist : List Int) (nb v x : Int) (hnb : nb.toNat < dist.length) :
    distAt (dist.set nb.toNat x) v = if v.toNat = nb.toNat then x else distAt dist v := by
  unfold distAt
  exact getD_set dist nb.toNat v.toNat x hnb

theorem frontier_bound (g : Graph) (hv : ValidGraph g) (hb : BoundedWeights g)
    (start : Int) (S dist : List Int) (pq : List (Int × Int))
    (hinv : DijkInv g start S dist pq)
    (hrel : ∀ u ∈ S, Relaxed dist u (adj g u))
    (d : Int) (hmin : ∀ e ∈ pq, d ≤ e.1) :
    ∀ (p : List (Int × Int)) (x : Int), x ∈ S → IsWalk g x p → walkEnd x p ∉ S →
      d ≤ distAt dist x + walkWeight p := by
  intro p
  induction p with
  | nil =>
    intro x hx _ hend
    exact absurd hx hend
  | cons e p ih =>
    intro x hx hwalk hend
    obtain ⟨he, hp⟩ := hwalk
    obtain ⟨hle, hfin⟩ := hrel x hx e he
    rw [walkWeight_cons]
    by_cases heS : e.1 ∈ S
    · have := ih e.1 heS hp hend
      omega
    · have hval := mem_adj_valid g hv x e he
      have hmem := hinv.pqHas e.1 hval.1 hval.2 heS hfin
      have h1 := hmin _ hmem
      have h2 := walk_weight_nonneg g (bounded_nonneg g hb) p e.1 hp
      simp only [] at h1
      omega

theorem pop_final (g : Graph) (hv : ValidGraph g) (hb : BoundedWeights g)
    (start : Int) (hs0 : 0 ≤ start) (hs1 : start < (g.length : Int))
    (S dist : List Int) (pq : List (Int × Int))
    (hinv : DijkInv g start S dist pq)
    (hrel : ∀ u ∈ S, Relaxed dist u (adj g u))
    (d cur : Int) (hmin : ∀ e ∈ pq, d ≤ e.1) (hcur : cur ∉ S) :
    ∀ p, IsWalk g start p → walkEnd start p = cur → d ≤ walkWeight p := by
  intro p hwalk hend
  by_cases hsS : start ∈ S
  · have := frontier_bound g hv hb start S dist pq hinv hrel d hmin p start hsS hwalk
      (by rw [hend]; exact hcur)
    rw [hinv.start0] at this
    omega
  · have hmem := hinv.pqHas start hs0 hs1 hsS (by rw [hinv.start0]; decide)
    have h1 := hmin _ hmem
    have h2 := walk_weight_nonneg g (bounded_nonneg g hb) p start hwalk
    rw [hinv.start0] at h1
    simp only [] at h1
    omega

theorem relaxEdge_inv (g : Graph) (hv : ValidGraph g) (hb : BoundedWeights g)
    (start : Int) (hs0 : 0 ≤ start) (hs1 : start < (g.length : Int))
    (cur d : Int) (S : List Int) (L : Nat) (hcurS : cur ∈ S)
    (done : List (Int × Int)) (s : DijkstraState) (e : Int × Int)
    (he : e ∈ adj g cur) (h : RelaxInv g start cur d S L done s) :
    ∃ s', relaxEdge cur d s e = Except.ok s' ∧ RelaxInv g start cur d S L (done ++ [e]) s' := by
  obtain ⟨hvis, hcore, hoth, hhere, hdcur, hqlen⟩ := h
  have hcurv := hcore.valid cur hcurS
  obtain ⟨hcfin, hcmin⟩ := hcore.final cur hcurS
  obtain ⟨pc, ⟨hpcw, hpce, hpcn⟩, hpcwt, hpcS⟩ := hcore.realized cur hcurv.1 hcurv.2 hcfin
  have hpcS' : ∀ x ∈ walkNodes start pc, x ∈ S := by
    intro x hx
    rcases hpcS x hx with rfl | h'
    · exact hcurS
    · exact h'
  have hext : IsWalk g start (pc ++ [e]) := (isWalk_snoc g pc start e).mpr ⟨hpcw, by rw [hpce]; exact he⟩
  have hextw : walkWeight (pc ++ [e]) = d + e.2 := by rw [walkWeight_snoc, hpcwt, hdcur]
  have hnbv := mem_adj_valid g hv cur e he
  by_cases hnb : e.1 ∈ S
  · refine ⟨s, by unfold relaxEdge; rw [hvis]; simp only [hnb, if_true], hvis, hcore, hoth, ?_,
      hdcur, by rw [List.length_append]; simp; omega⟩
    intro e' he'
    rcases List.mem_append.mp he' with h' | h'
    · exact hhere e' h'
    · simp only [List.mem_singleton] at h'
      subst h'
      obtain ⟨hfin, hmin⟩ := hcore.final e'.1 hnb
      have := hmin (pc ++ [e']) hext (walkEnd_snoc pc start e')
      rw [hextw, ← hdcur] at this
      exact ⟨this, hfin⟩
  · have hextn : (walkNodes start (pc ++ [e])).Nodup := by
      rw [walkNodes_snoc]
      apply List.Nodup.append hpcn (List.nodup_singleton _)
      intro x hx1 hx2
      simp only [List.mem_singleton] at hx2
      subst hx2
      exact hnb (hpcS' _ hx1)
    have hlt := simple_walk_weight_lt g hv hb start (pc ++ [e]) hs0 hs1 hext hextn
    have hge := walk_weight_nonneg g (bounded_nonneg g hb) (pc ++ [e]) start hext
    rw [hextw] at hlt hge
    have hwrap : wrapInt (d + e.2) = d + e.2 := by
      unfold INT_MAX at hlt
      exact wrapInt_eq _ (by omega) (by omega)
    have hidx : e.1.toNat < s.distances.length := by rw [hcore.len]; omega
    have hbnd : 0 ≤ e.1 ∧ e.1 < (s.distances.length : Int) := by rw [hcore.len]; exact hnbv
    have hne_of_S : ∀ u ∈ S, ¬ u.toNat = e.1.toNat := by
      intro u hu hcon
      have := hcore.valid u hu
      have : u = e.1 := by omega
      exact hnb (this ▸ hu)
    by_cases hless : d + e.2 < distAt s.distances e.1
    · refine ⟨_, by
        unfold relaxEdge
        rw [hvis]
        simp only [hnb, if_false, hbnd, and_self, if_true, hwrap]
        rw [if_pos (by unfold distAt at hless; exact hless)], ?_⟩
      have hD : ∀ v : Int, distAt (s.distances.set e.1.toNat (d + e.2)) v =
          if v.toNat = e.1.toNat then d + e.2 else distAt s.distances v :=
        fun v => distAt_set s.distances e.1 v (d + e.2) hidx
      have hsame : ∀ v : Int, v.toNat = e.1.toNat → distAt s.distances v = distAt s.distances e.1 := by
        intro v hveq; unfold distAt; rw [hveq]
      refine ⟨rfl, ?_, ?_, ?_, ?_, ?_⟩
      · refine ⟨by simp only [List.length_set]; exact hcore.len, ?_, hcore.valid, hcore.nodup,
          ?_, ?_, ?_, ?_⟩
        · simp only [hD]
          split_ifs with hc
          · have := hsame start hc
            rw [hcore.start0] at this
            omega
          · exact hcore.start0
        · intro v hv0 hv1 hvfin
          simp only [hD] at hvfin ⊢
          by_cases hc : v.toNat = e.1.toNat
          · have hve : v = e.1 := by omega
            rw [if_pos hc]
            refine ⟨pc ++ [e], ⟨hext, by rw [walkEnd_snoc, hve], hextn⟩, hextw, ?_⟩
            intro x hx
            rw [walkNodes_snoc] at hx
            rcases List.mem_append.mp hx with h' | h'
            · exact Or.inr (hpcS' x h')
            · simp only [List.mem_singleton] at h'
              exact Or.inl (by rw [h', hve])
          · rw [if_neg hc] at hvfin ⊢
            exact hcore.realized v hv0 hv1 hvfin
        · intro v hvS
          simp only [hD]
          rw [if_neg (hne_of_S v hvS)]
          exact hcore.final v hvS
        · intro e' he'
          simp only [hD]
          rcases List.mem_append.mp he' with h' | h'
          · obtain ⟨q1, q2, q3, q4⟩ := hcore.pqValid e' h'
            refine ⟨q1, q2, ?_, q4⟩
            split_ifs with hc
            · have := hsame e'.2 hc
              omega
            · exact q3
          · simp only [List.mem_singleton] at h'
            subst h'
            simp only [if_true]
            exact ⟨hnbv.1, hnbv.2, le_refl _, hlt⟩
        · intro v hv0 hv1 hvS hvfin
          simp only [hD] at hvfin ⊢
          by_cases hc : v.toNat = e.1.toNat
          · have hve : v = e.1 := by omega
            rw [if_pos hc, hve]
            exact List.mem_append_right _ (List.mem_singleton_self _)
          · rw [if_neg hc] at hvfin ⊢
            exact List.mem_append_left _ (hcore.pqHas v hv0 hv1 hvS hvfin)
      · intro u hu huc e' he'
        obtain ⟨r1, r2⟩ := hoth u hu huc e' he'
        simp only [hD]
        rw [if_neg (hne_of_S u hu)]
        split_ifs with hc
        · have := hsame e'.1 hc
          exact ⟨by omega, by omega⟩
        · exact ⟨r1, r2⟩
      · intro e' he'
        simp only [hD]
        rw [if_neg (hne_of_S cur hcurS)]
        rcases List.mem_append.mp he' with h' | h'
        · obtain ⟨r1, r2⟩ := hhere e' h'
          split_ifs with hc
          · have := hsame e'.1 hc
            exact ⟨by omega, by omega⟩
          · exact ⟨r1, r2⟩
        · simp only [List.mem_singleton] at h'
          subst h'
          simp only [if_true]
          exact ⟨by omega, by omega⟩
      · simp only [hD]
        rw [if_neg (hne_of_S cur hcurS)]
        exact hdcur
      · simp only [List.length_append, List.length_singleton]
        omega
    · refine ⟨_, by
        unfold relaxEdge
        rw [hvis]
        simp only [hnb, if_false, hbnd, and_self, if_true, hwrap]
        rw [if_neg (by unfold distAt at hless; exact hless)], ?_⟩
      refine ⟨rfl, hcore, hoth, ?_, hdcur,
        by simp only [List.length_append, List.length_singleton]; omega⟩
      intro e' he'
      rcases List.mem_append.mp he' with h' | h'
      · exact hhere e' h'
      · simp only [List.mem_singleton] at h'
        subst h'
        show distAt s.distances e'.1 ≤ distAt s.distances cur + e'.2 ∧
          distAt s.distances e'.1 ≠ INT_MAX
        exact ⟨by omega, by omega⟩

theorem relaxFold_inv (g : Graph) (hv : ValidGraph g) (hb : BoundedWeights g)
    (start : Int) (hs0 : 0 ≤ start) (hs1 : start < (g.length : Int))
    (cur d : Int) (S : List Int) (L : Nat) (hcurS : cur ∈ S) :
    ∀ (todo done : List (Int × Int)) (s : DijkstraState),
      (∀ e ∈ todo, e ∈ adj g cur) → RelaxInv g start cur d S L done s →
      ∃ s', todo.foldlM (relaxEdge cur d) s = Except.ok s' ∧
        RelaxInv g start cur d S L (done ++ todo) s' := by
  intro todo
  induction todo with
  | nil =>
    intro done s _ h
    exact ⟨s, rfl, by rw [List.append_nil]; exact h⟩
  | cons e todo ih =>
    intro done s hmem h
    obtain ⟨s1, hrun1, h1⟩ := relaxEdge_inv g hv hb start hs0 hs1 cur d S L hcurS done s e
      (hmem e (List.mem_cons_self _ _)) h
    obtain ⟨s2, hrun2, h2⟩ := ih (done ++ [e]) s1
      (fun e' he' => hmem e' (List.mem_cons_of_mem _ he')) h1
    refine ⟨s2, ?_, by rw [List.append_assoc] at h2; exact h2⟩
    rw [List.foldlM_cons, hrun1]
    exact hrun2

theorem dijkstraStep_inv (g : Graph) (hv : ValidGraph g) (hb : BoundedWeights g)
    (start : Int) (hs0 : 0 ≤ start) (hs1 : start < (g.length : Int))
    (s : DijkstraState) (top : Int × Int)
    (hP : DijkOuter g start s) (htop : pqTop s.pq = some top) :
    ∃ s', dijkstraStep g s top = Except.ok s' ∧ DijkOuter g start s' ∧
      dijkstraMeasure g s' < dijkstraMeasure g s := by
  obtain ⟨hinv, hrel⟩ := hP
  obtain ⟨htmem, htmin⟩ := pqTop_some s.pq top htop
  obtain ⟨hc0, hc1, hdle, hdlt⟩ := hinv.pqValid top htmem
  have hlen1 : (s.pq.erase top).length + 1 = s.pq.length := by
    rw [List.length_erase_of_mem htmem]
    have : 0 < s.pq.length := List.length_pos_of_mem htmem
    omega
  by_cases hvis : top.2 ∈ s.visited
  · refine ⟨{ s with pq := s.pq.erase top }, by unfold dijkstraStep; simp only [hvis, if_true],
      ⟨⟨hinv.len, hinv.start0, hinv.valid, hinv.nodup, hinv.realized, hinv.final, ?_, ?_⟩,
        hrel⟩, ?_⟩
    · intro e he
      exact hinv.pqValid e (List.mem_of_mem_erase he)
    · intro v hv0 hv1 hvS hvfin
      have hmem := hinv.pqHas v hv0 hv1 hvS hvfin
      refine (List.mem_erase_of_ne ?_).mpr hmem
      intro hcon
      rw [← hcon] at hvis
      exact hvS hvis
    · unfold dijkstraMeasure
      simp only []
      omega
  · have hfin : distAt s.distances top.2 ≠ INT_MAX := by omega
    have hmem := hinv.pqHas top.2 hc0 hc1 hvis hfin
    have hd : distAt s.distances top.2 = top.1 := by
      have := htmin _ hmem
      simp only [] at this
      omega
    have hmin := pop_final g hv hb start hs0 hs1 s.visited s.distances s.pq hinv hrel
      top.1 top.2 htmin hvis
    have hstart : RelaxInv g start top.2 top.1 (s.visited ++ [top.2]) (s.pq.erase top).length []
        { s with
          visited := s.visited ++ [top.2]
          pq := s.pq.erase top
          steps := s.steps ++ [graphStateToJson (s.visited ++ [top.2]) top.2
            (GraphStatus.processingDist top.2 top.1)] } := by
      refine ⟨rfl, ⟨hinv.len, hinv.start0, ?_, ?_, ?_, ?_, ?_, ?_⟩, ?_, ?_, hd, by simp⟩
      · intro v hvm
        rcases List.mem_append.mp hvm with h | h
        · exact hinv.valid v h
        · simp only [List.mem_singleton] at h
          rw [h]; exact ⟨hc0, hc1⟩
      · apply List.Nodup.append hinv.nodup (List.nodup_singleton _)
        intro x hx1 hx2
        simp only [List.mem_singleton] at hx2
        exact hvis (hx2 ▸ hx1)
      · intro v hv0 hv1 hvfin
        obtain ⟨p, hp1, hp2, hp3⟩ := hinv.realized v hv0 hv1 hvfin
        refine ⟨p, hp1, hp2, ?_⟩
        intro x hx
        rcases hp3 x hx with h | h
        · exact Or.inl h
        · exact Or.inr (List.mem_append_left _ h)
      · intro v hvm
        rcases List.mem_append.mp hvm with h | h
        · exact hinv.final v h
        · simp only [List.mem_singleton] at h
          rw [h]
          exact ⟨hfin, fun p hp1 hp2 => by rw [hd]; exact hmin p hp1 hp2⟩
      · intro e he
        exact hinv.pqValid e (List.mem_of_mem_erase he)
      · intro v hv0 hv1 hvS hvfin
        have hvS' : v ∉ s.visited := fun h => hvS (List.mem_append_left _ h)
        have hne : v ≠ top.2 := fun h => hvS (List.mem_append_right _ (by simp [h]))
        have hmem' := hinv.pqHas v hv0 hv1 hvS' hvfin
        refine (List.mem_erase_of_ne ?_).mpr hmem'
        intro hcon
        exact hne (by rw [← hcon])
      · intro u hu huc
        rcases List.mem_append.mp hu with h | h
        · exact hrel u h
        · simp only [List.mem_singleton] at h
          exact absurd h huc
      · intro e he
        simp at he
    have hadj : adj g top.2 = g.getD top.2.toNat [] := adj_eq_getD g top.2 ⟨hc0, hc1⟩
    obtain ⟨s', hrun, hfinal⟩ := relaxFold_inv g hv hb start hs0 hs1 top.2 top.1
      (s.visited ++ [top.2]) (s.pq.erase top).length
      (List.mem_append_right _ (List.mem_singleton_self _))
      (g.getD top.2.toNat []) [] _ (fun e he => by rw [hadj]; exact he) hstart
    rw [List.nil_append] at hfinal
    obtain ⟨hvis', hcore', hoth', hhere', _, hqlen'⟩ := hfinal
    refine ⟨s', by
      unfold dijkstraStep
      simp only [hvis, if_false]
      rw [if_pos ⟨hc0, hc1⟩]
      exact hrun, ⟨by rw [hvis']; exact hcore', ?_⟩, ?_⟩
    · intro u hu
      rw [hvis'] at hu
      by_cases huc : u = top.2
      · rw [huc, hadj]; exact hhere'
      · exact hoth' u hu huc
    · unfold dijkstraMeasure
      rw [hvis']
      have := pendingDeg_visit g s.visited top.2 hc0 hc1 hvis
      omega

theorem pendingDeg_nil (g : Graph) : pendingDeg g [] = edgeCount g := by
  unfold pendingDeg edgeCount
  congr 1
  apply List.ext_getElem
  · simp
  · intro i h1 h2
    simp only [List.length_map, List.length_range] at h1
    simp only [List.getElem_map, List.getElem_range, List.not_mem_nil, if_false]
    rw [List.getD_eq_getElem g [] h1]

theorem distAt_init (n : Nat) (start v : Int) (hs0 : 0 ≤ start) (hs1 : start < (n : Int))
    (hv0 : 0 ≤ v) :
    distAt ((List.replicate n INT_MAX).set start.toNat 0) v =
      if v = start then 0 else if v < n then INT_MAX else 0 := by
  unfold distAt
  rw [getD_set _ _ _ _ (by rw [List.length_replicate]; omega)]
  by_cases h : v = start
  · rw [if_pos (by rw [h]), if_pos h]
  · rw [if_neg (by omega), if_neg h]
    by_cases h2 : v < (n : Int)
    · rw [if_pos h2, getD_eq_get _ _ (by rw [List.length_replicate]; omega)]
      simp
    · rw [if_neg h2, getD_of_le _ _ (by rw [List.length_replicate]; omega)]

theorem dijkstra_init (g : Graph) (start : Int) (hs0 : 0 ≤ start)
    (hs1 : start < (g.length : Int)) (steps : List GraphSnapshot) :
    DijkOuter g start
      { visited := []
        distances := (List.replicate g.length INT_MAX).set start.toNat 0
        previous := List.replicate g.length (-1)
        pq := [(0, start)]
        steps := steps } := by
  have hD := fun v (h : 0 ≤ v) => distAt_init g.length start v hs0 hs1 h
  refine ⟨⟨by simp, by rw [hD start hs0, if_pos rfl], fun v h => by simp at h, List.nodup_nil,
    ?_, fun v h => by simp at h, ?_, ?_⟩, fun u h => by simp at h⟩
  · intro v hv0 hv1 hfin
    simp only [] at hfin ⊢
    rw [hD v hv0] at hfin ⊢
    by_cases h : v = start
    · rw [if_pos h]
      refine ⟨[], ⟨trivial, by rw [h]; rfl, by simp [walkNodes]⟩, rfl, ?_⟩
      intro x hx
      simp [walkNodes] at hx
      exact Or.inl (by rw [hx, h])
    · rw [if_neg h, if_pos hv1] at hfin
      exact absurd rfl hfin
  · intro e he
    simp only [List.mem_singleton] at he
    subst he
    simp only []
    rw [hD start hs0, if_pos rfl]
    exact ⟨hs0, hs1, le_refl 0, by decide⟩
  · intro v hv0 hv1 _ hfin
    simp only [] at hfin ⊢
    rw [hD v hv0] at hfin ⊢
    by_cases h : v = start
    · rw [if_pos h, h]; simp
    · rw [if_neg h, if_pos hv1] at hfin
      exact absurd rfl hfin

theorem reach_visited (g : Graph) (start : Int) (S dist : List Int)
    (hv : ValidGraph g) (hinv : DijkInv g start S dist [])
    (hrel : ∀ u ∈ S, Relaxed dist u (adj g u)) :
    ∀ (p : List (Int × Int)) (x : Int), x ∈ S → IsWalk g x p → walkEnd x p ∈ S := by
  intro p
  induction p with
  | nil => intro x hx _; exact hx
  | cons e p ih =>
    intro x hx hwalk
    obtain ⟨he, hp⟩ := hwalk
    obtain ⟨_, hfin⟩ := hrel x hx e he
    have hval := mem_adj_valid g hv x e he
    have heS : e.1 ∈ S := by
      by_contra hcon
      have := hinv.pqHas e.1 hval.1 hval.2 hcon hfin
      simp at this
    exact ih e.1 heS hp

/-- On a graph with valid targets and non-negative bounded weights the run of
`dijkstraAlgorithm` ends, and every final distance is `INT_MAX` for a node no walk
reaches, and otherwise the weight of a simple path that no walk from `start` beats. -/
theorem dijkstra_shortest (g : Graph) (start : Int) (hv : ValidGraph g)
    (hb : BoundedWeights g) (hs0 : 0 ≤ start) (hs1 : start < (g.length : Int)) :
    ∃ s, dijkstraRun g start = Except.ok s ∧ s.distances.length = g.length ∧
      ∀ v : Int, 0 ≤ v → v < (g.length : Int) →
        (distAt s.distances v = INT_MAX ∧ ∀ p, IsWalk g start p → walkEnd start p ≠ v) ∨
        (distAt s.distances v < INT_MAX ∧
          (∃ p, IsSimplePath g start v p ∧ walkWeight p = distAt s.distances v) ∧
          ∀ p, IsWalk g start p → walkEnd start p = v → distAt s.distances v ≤ walkWeight p) := by
  obtain ⟨s, hrun, ⟨hinv, hrel⟩, hpq⟩ := dijkstraLoop_inv g (DijkOuter g start)
    (dijkstraMeasure g)
    (fun s top hP htop => dijkstraStep_inv g hv hb start hs0 hs1 s top hP htop)
    (edgeCount g + 1) _
    (dijkstra_init g start hs0 hs1 [graphStateToJson [] start (GraphStatus.dijkstraStart start)])
    (by unfold dijkstraMeasure; simp only [List.length_singleton]; rw [pendingDeg_nil]; omega)
  rw [hpq] at hinv
  refine ⟨s, by unfold dijkstraRun; simp only []; rw [if_pos ⟨hs0, hs1⟩]; exact hrun,
    hinv.len, ?_⟩
  have hinS : ∀ v : Int, 0 ≤ v → v < (g.length : Int) → distAt s.distances v ≠ INT_MAX →
      v ∈ s.visited := by
    intro v hv0 hv1 hfin
    by_contra hcon
    have := hinv.pqHas v hv0 hv1 hcon hfin
    simp at this
  have hstartS : start ∈ s.visited :=
    hinS start hs0 hs1 (by rw [hinv.start0]; decide)
  intro v hv0 hv1
  by_cases hfin : distAt s.distances v = INT_MAX
  · left
    refine ⟨hfin, ?_⟩
    intro p hp hend
    have := reach_visited g start s.visited s.distances hv hinv hrel p start hstartS hp
    rw [hend] at this
    exact (hinv.final v this).1 hfin
  · right
    obtain ⟨p, hsp, hwt, _⟩ := hinv.realized v hv0 hv1 hfin
    have hlt := simple_walk_weight_lt g hv hb start p hs0 hs1 hsp.1 hsp.2.2
    refine ⟨by rw [← hwt]; exact hlt, ⟨p, hsp, hwt⟩, ?_⟩
    exact (hinv.final v (hinS v hv0 hv1 hfin)).2

/-! ## Dijkstra: the optimality claim -/

/-- C9 as stated fails when a weight is negative: in the 3-node graph
`0 -> 1` (weight 2), `0 -> 2` (weight 3), `2 -> 1` (weight -2), all targets valid,
`dijkstraAlgorithm` from node 0 ends with distance 2 for node 1, while the simple path
`0 -> 2 -> 1` weighs 1. -/
theorem dijkstra_negative_weight_counterexample :
    ([[(1, 2), (2, 3)], [], [(1, -2)]] : Graph).length ≤ 8 ∧
    ValidGraph [[(1, 2), (2, 3)], [], [(1, -2)]] ∧
    dijkstraDistances [[(1, 2), (2, 3)], [], [(1, -2)]] 0 = some [0, 2, 3] ∧
    IsSimplePath [[(1, 2), (2, 3)], [], [(1, -2)]] 0 1 [(2, 3), (1, -2)] ∧
    walkWeight [(2, 3), (1, -2)] < ([0, 2, 3] : List Int).getD 1 0 := by
  refine ⟨by decide, by unfold ValidGraph; decide, by decide!, ⟨?_, rfl, by decide⟩, by decide⟩
  simp [IsWalk, adj]

/-- C9, amended: for every graph with at most 8 nodes whose edge targets are valid node
indices and whose weights are non-negative with `weight * nodeCount < INT_MAX`, and
every valid start node, `dijkstraAlgorithm` returns; the distance its last snapshot
lists for a node is `INT_MAX` exactly when no simple path from `start` reaches the node,
and is otherwise the least total weight of a simple path from `start` to it. -/
theorem dijkstra_optimal (g : Graph) (start : Int) (_hn : g.length ≤ 8)
    (hv : ValidGraph g) (hb : BoundedWeights g)
    (hs0 : 0 ≤ start) (hs1 : start < (g.length : Int)) :
    ∃ steps visited dist, dijkstraAlgorithm g start = Except.ok steps ∧
      steps.getLast? = some
        (graphStateToJson visited (-1) (GraphStatus.dijkstraComplete start dist)) ∧
      dijkstraDistances g start = some dist ∧ dist.length = g.length ∧
      ∀ v : Nat, v < g.length →
        (dist.getD v 0 = INT_MAX ↔ ¬ ∃ p, IsSimplePath g start v p) ∧
        (dist.getD v 0 ≠ INT_MAX →
          (∃ p, IsSimplePath g start v p ∧ walkWeight p = dist.getD v 0) ∧
          ∀ p, IsSimplePath g start v p → dist.getD v 0 ≤ walkWeight p) := by
  obtain ⟨s, hrun, hlen, hres⟩ := dijkstra_shortest g start hv hb hs0 hs1
  refine ⟨_, s.visited, s.distances, by unfold dijkstraAlgorithm; rw [hrun],
    List.getLast?_concat _, by unfold dijkstraDistances; rw [hrun], hlen, ?_⟩
  intro v hvn
  have hAt : distAt s.distances (v : Int) = s.distances.getD v 0 := by
    unfold distAt; simp
  have h := hres (v : Int) (by omega) (by omega)
  rw [hAt] at h
  rcases h with ⟨hinf, hno⟩ | ⟨hlt, hex, hmin⟩
  · refine ⟨⟨fun _ => ?_, fun _ => hinf⟩, fun hne => absurd hinf hne⟩
    rintro ⟨p, hp1, hp2, _⟩
    exact hno p hp1 hp2
  · obtain ⟨p, hp, hw⟩ := hex
    refine ⟨⟨fun hinf => by omega, fun hno => absurd ⟨p, hp⟩ hno⟩, fun _ => ⟨⟨p, hp, hw⟩, ?_⟩⟩
    intro q hq
    exact hmin q hq.1 hq.2.1

/-- C9 amended, at the 4-node graph `0 -> 1` (4), `0 -> 2` (1), `1 -> 3` (1),
`2 -> 1` (2), `2 -> 3` (5) from node 0: the hypotheses hold and the distances are
`0, 3, 1, 4`. -/
theorem dijkstra_optimal_witness :
    dijkstraDistances [[(1, 4), (2, 1)], [(3, 1)], [(1, 2), (3, 5)], []] 0 = some [0, 3, 1, 4] ∧
    ∃ steps visited dist,
      dijkstraAlgorithm [[(1, 4), (2, 1)], [(3, 1)], [(1, 2), (3, 5)], []] 0 = Except.ok steps ∧
      steps.getLast? = some
        (graphStateToJson visited (-1) (GraphStatus.dijkstraComplete 0 dist)) ∧
      dijkstraDistances [[(1, 4), (2, 1)], [(3, 1)], [(1, 2), (3, 5)], []] 0 = some dist ∧
      dist.length = ([[(1, 4), (2, 1)], [(3, 1)], [(1, 2), (3, 5)], []] : Graph).length ∧
      ∀ v : Nat, v < ([[(1, 4), (2, 1)], [(3, 1)], [(1, 2), (3, 5)], []] : Graph).length →
        (dist.getD v 0 = INT_MAX ↔
          ¬ ∃ p, IsSimplePath [[(1, 4), (2, 1)], [(3, 1)], [(1, 2), (3, 5)], []] 0 v p) ∧
        (dist.getD v 0 ≠ INT_MAX →
          (∃ p, IsSimplePath [[(1, 4), (2, 1)], [(3, 1)], [(1, 2), (3, 5)], []] 0 v p ∧
            walkWeight p = dist.getD v 0) ∧
          ∀ p, IsSimplePath [[(1, 4), (2, 1)], [(3, 1)], [(1, 2), (3, 5)], []] 0 v p →
            dist.getD v 0 ≤ walkWeight p) :=
  ⟨by decide!, dijkstra_optimal [[(1, 4), (2, 1)], [(3, 1)], [(1, 2), (3, 5)], []] 0
    (by decide) (by unfold ValidGraph; decide) (by unfold BoundedWeights INT_MAX; decide)
    (by decide) (by decide)⟩

/-! ## Component labels -/

theorem labelAt_init (n : Nat) (x : Int) (h0 : 0 ≤ x) (h1 : x < (n : Int)) :
    labelAt (initLabels n) x = x := by
  unfold labelAt initLabels
  rw [List.getD_eq_getElem _ _ (by simp; omega)]
  simp
  omega

theorem labOK_init (n : Nat) : LabOK n (initLabels n) := by
  refine ⟨by simp [initLabels], ?_⟩
  intro x h0 h1
  rw [labelAt_init n x h0 h1]
  exact ⟨h0, h1, labelAt_init n x h0 h1⟩

theorem labelAt_merge (n : Nat) (lab : List Int) (e : Edge) (hlab : LabOK n lab)
    (x : Int) (h0 : 0 ≤ x) (h1 : x < (n : Int)) :
    labelAt (mergeLabels lab e) x =
      if labelAt lab x = labelAt lab e.2.2 then labelAt lab e.2.1 else labelAt lab x := by
  have hx : x.toNat < lab.length := by rw [hlab.1]; omega
  unfold labelAt mergeLabels
  rw [List.getD_eq_getElem _ _ (by rw [List.length_map]; exact hx), List.getElem_map,
    List.getD_eq_getElem lab 0 hx]
  rfl

theorem labOK_merge (n : Nat) (lab : List Int) (e : Edge) (hlab : LabOK n lab)
    (he : EdgeValid n e) : LabOK n (mergeLabels lab e) := by
  obtain ⟨hu0, hu1, hv0, hv1⟩ := he
  refine ⟨by unfold mergeLabels; rw [List.length_map]; exact hlab.1, ?_⟩
  intro x h0 h1
  obtain ⟨a0, a1, a2⟩ := hlab.2 x h0 h1
  obtain ⟨b0, b1, b2⟩ := hlab.2 e.2.1 hu0 hu1
  obtain ⟨c0, c1, c2⟩ := hlab.2 e.2.2 hv0 hv1
  rw [labelAt_merge n lab e hlab x h0 h1]
  by_cases hc : labelAt lab x = labelAt lab e.2.2
  · rw [if_pos hc, labelAt_merge n lab e hlab _ b0 b1, b2]
    refine ⟨b0, b1, ?_⟩
    split_ifs <;> rfl
  · rw [if_neg hc, labelAt_merge n lab e hlab _ a0 a1, a2, if_neg hc]
    exact ⟨a0, a1, rfl⟩

/-- Two nodes share a label after a merge exactly when they did before, or each of
them was labelled like one of the end points of the merged edge. -/
theorem merge_kernel (n : Nat) (lab : List Int) (e : Edge) (hlab : LabOK n lab)
    (x y : Int) (hx0 : 0 ≤ x) (hx1 : x < (n : Int)) (hy0 : 0 ≤ y) (hy1 : y < (n : Int)) :
    labelAt (mergeLabels lab e) x = labelAt (mergeLabels lab e) y ↔
      labelAt lab x = labelAt lab y ∨
      ((labelAt lab x = labelAt lab e.2.1 ∨ labelAt lab x = labelAt lab e.2.2) ∧
       (labelAt lab y = labelAt lab e.2.1 ∨ labelAt lab y = labelAt lab e.2.2)) := by
  rw [labelAt_merge n lab e hlab x hx0 hx1, labelAt_merge n lab e hlab y hy0 hy1]
  constructor
  · intro h
    split_ifs at h with h1 h2 h2
    · exact Or.inl (by rw [h1, h2])
    · exact Or.inr ⟨Or.inr h1, Or.inl h.symm⟩
    · exact Or.inr ⟨Or.inl h, Or.inr h2⟩
    · exact Or.inl h
  · intro h
    split_ifs with h1 h2 h2
    · rfl
    · rcases h with h | ⟨_, h | h⟩
      · exact absurd (h ▸ h1) h2
      · exact h.symm
      · exact absurd h h2
    · rcases h with h | ⟨h | h, _⟩
      · exact absurd (h ▸ h2) h1
      · exact h
      · exact absurd h h1
    · rcases h with h | ⟨h | h, h' | h'⟩
      · exact h
      · rw [h, h']
      · exact absurd h' h2
      · exact absurd h h1
      · exact absurd h h1

theorem merge_of_eq (lab : List Int) (e : Edge)
    (heq : labelAt lab e.2.1 = labelAt lab e.2.2) :
    mergeLabels lab e = lab := by
  unfold mergeLabels
  conv_rhs => rw [← List.map_id lab]
  apply List.map_congr_left
  intro x _
  rw [heq]
  split_ifs with h
  · rw [h]; rfl
  · rfl

/-! ## Labels describe connectivity -/

theorem joined_mono (es es' : List Edge) (h : ∀ e ∈ es, e ∈ es') (x y : Int)
    (hj : Joined es x y) : Joined es' x y := by
  unfold Joined at hj ⊢
  exact Relation.EqvGen.mono (fun a b ⟨w, hw⟩ => ⟨w, h _ hw⟩) hj

theorem joined_edge (es : List Edge) (e : Edge) (h : e ∈ es) : Joined es e.2.1 e.2.2 :=
  Relation.EqvGen.rel _ _ ⟨e.1, h⟩

theorem joined_refl (es : List Edge) (x : Int) : Joined es x x :=
  Relation.EqvGen.refl x

theorem joined_symm (es : List Edge) (x y : Int) (h : Joined es x y) : Joined es y x :=
  Relation.EqvGen.symm x y h

theorem joined_trans (es : List Edge) (x y z : Int) (h1 : Joined es x y)
    (h2 : Joined es y z) : Joined es x z :=
  Relation.EqvGen.trans x y z h1 h2

/-- A relation that contains the edges, relates valid nodes only (or equal ones) and is
an equivalence there contains `Joined`. -/
theorem joined_le (n : Nat) (es : List Edge) (hval : ∀ e ∈ es, EdgeValid n e)
    (lab : List Int)
    (hedge : ∀ e ∈ es, labelAt lab e.2.1 = labelAt lab e.2.2)
    (x y : Int) (hj : Joined es x y) :
    x = y ∨ (0 ≤ x ∧ x < (n : Int) ∧ 0 ≤ y ∧ y < (n : Int) ∧ labelAt lab x = labelAt lab y) := by
  unfold Joined at hj
  induction hj with
  | rel a b hab =>
    obtain ⟨w, hw⟩ := hab
    obtain ⟨h1, h2, h3, h4⟩ := hval _ hw
    exact Or.inr ⟨h1, h2, h3, h4, hedge _ hw⟩
  | refl a => exact Or.inl rfl
  | symm a b _ ih =>
    rcases ih with h | ⟨h1, h2, h3, h4, h5⟩
    · exact Or.inl h.symm
    · exact Or.inr ⟨h3, h4, h1, h2, h5.symm⟩
  | trans a b c _ _ ih1 ih2 =>
    rcases ih1 with h | ⟨h1, h2, h3, h4, h5⟩
    · rw [h]; exact ih2
    · rcases ih2 with h' | ⟨g1, g2, g3, g4, g5⟩
      · rw [← h']; exact Or.inr ⟨h1, h2, h3, h4, h5⟩
      · exact Or.inr ⟨h1, h2, g3, g4, h5.trans g5⟩

theorem labelsOf_snoc (n : Nat) (es : List Edge) (e : Edge) :
    labelsOf n (es ++ [e]) = mergeLabels (labelsOf n es) e := by
  unfold labelsOf
  rw [List.foldl_append]
  rfl

theorem labels_kernel (n : Nat) (es : List Edge) :
    (∀ e ∈ es, EdgeValid n e) →
    LabOK n (labelsOf n es) ∧
    ∀ x y : Int, 0 ≤ x → x < (n : Int) → 0 ≤ y → y < (n : Int) →
      (labelAt (labelsOf n es) x = labelAt (labelsOf n es) y ↔ Joined es x y) := by
  induction es using List.reverseRecOn with
  | nil =>
    intro _
    refine ⟨labOK_init n, ?_⟩
    intro x y hx0 hx1 hy0 hy1
    show labelAt (initLabels n) x = labelAt (initLabels n) y ↔ _
    rw [labelAt_init n x hx0 hx1, labelAt_init n y hy0 hy1]
    constructor
    · intro h; rw [h]; exact joined_refl _ _
    · intro h
      rcases joined_le n [] (fun e he => by simp at he) (initLabels n)
        (fun e he => by simp at he) x y h with h' | ⟨_, _, _, _, h'⟩
      · exact h'
      · rw [labelAt_init n x hx0 hx1, labelAt_init n y hy0 hy1] at h'
        exact h'
  | append_singleton es e ih =>
    intro hval
    have hval' : ∀ e' ∈ es, EdgeValid n e' := fun e' he' => hval e' (List.mem_append_left _ he')
    have hev : EdgeValid n e := hval e (List.mem_append_right _ (List.mem_singleton_self _))
    obtain ⟨hok, hker⟩ := ih hval'
    obtain ⟨hu0, hu1, hv0, hv1⟩ := hev
    rw [labelsOf_snoc]
    refine ⟨labOK_merge n _ e hok ⟨hu0, hu1, hv0, hv1⟩, ?_⟩
    intro x y hx0 hx1 hy0 hy1
    have hsub : ∀ e' ∈ es, e' ∈ es ++ [e] := fun e' he' => List.mem_append_left _ he'
    have hje : Joined (es ++ [e]) e.2.1 e.2.2 :=
      joined_edge _ e (List.mem_append_right _ (List.mem_singleton_self _))
    have up : ∀ a b : Int, 0 ≤ a → a < (n : Int) → 0 ≤ b → b < (n : Int) →
        labelAt (labelsOf n es) a = labelAt (labelsOf n es) b → Joined (es ++ [e]) a b :=
      fun a b a0 a1 b0 b1 hab =>
        joined_mono es _ hsub a b ((hker a b a0 a1 b0 b1).mp hab)
    rw [merge_kernel n _ e hok x y hx0 hx1 hy0 hy1]
    constructor
    · intro h
      rcases h with h | ⟨h1 | h1, h2 | h2⟩
      · exact up x y hx0 hx1 hy0 hy1 h
      · exact joined_trans _ _ _ _ (up x _ hx0 hx1 hu0 hu1 h1)
          (joined_symm _ _ _ (up y _ hy0 hy1 hu0 hu1 h2))
      · exact joined_trans _ _ _ _ (up x _ hx0 hx1 hu0 hu1 h1)
          (joined_trans _ _ _ _ hje (joined_symm _ _ _ (up y _ hy0 hy1 hv0 hv1 h2)))
      · exact joined_trans _ _ _ _ (up x _ hx0 hx1 hv0 hv1 h1)
          (joined_trans _ _ _ _ (joined_symm _ _ _ hje)
            (joined_symm _ _ _ (up y _ hy0 hy1 hu0 hu1 h2)))
      · exact joined_trans _ _ _ _ (up x _ hx0 hx1 hv0 hv1 h1)
          (joined_symm _ _ _ (up y _ hy0 hy1 hv0 hv1 h2))
    · intro h
      have hedge : ∀ e' ∈ es ++ [e],
          labelAt (mergeLabels (labelsOf n es) e) e'.2.1 =
            labelAt (mergeLabels (labelsOf n es) e) e'.2.2 := by
        intro e' he'
        obtain ⟨p0, p1, q0, q1⟩ := hval e' he'
        rw [merge_kernel n _ e hok _ _ p0 p1 q0 q1]
        rcases List.mem_append.mp he' with h' | h'
        · exact Or.inl ((hker _ _ p0 p1 q0 q1).mpr (joined_edge es e' h'))
        · simp only [List.mem_singleton] at h'
          rw [h']
          exact Or.inr ⟨Or.inl rfl, Or.inr rfl⟩
      rcases joined_le n (es ++ [e]) hval _ hedge x y h with h' | ⟨_, _, _, _, h'⟩
      · rw [h']; exact Or.inl rfl
      · exact (merge_kernel n _ e hok x y hx0 hx1 hy0 hy1).mp h'

/-! ## Counting components -/

theorem getD_eq_labelAt (lab : List Int) (i : Nat) : lab.getD i 0 = labelAt lab (i : Int) := by
  unfold labelAt
  simp

theorem rootCount_merge (n : Nat) (lab : List Int) (e : Edge) (hlab : LabOK n lab)
    (he : EdgeValid n e) (hne : labelAt lab e.2.1 ≠ labelAt lab e.2.2) :
    rootCount (mergeLabels lab e) + 1 = rootCount lab := by
  obtain ⟨hu0, hu1, hv0, hv1⟩ := he
  obtain ⟨a0, a1, a2⟩ := hlab.2 e.2.1 hu0 hu1
  obtain ⟨b0, b1, b2⟩ := hlab.2 e.2.2 hv0 hv1
  have hlen : (mergeLabels lab e).length = lab.length := by
    unfold mergeLabels; rw [List.length_map]
  have hmem : (labelAt lab e.2.2).toNat ∈
      (Finset.range lab.length).filter (fun i => lab.getD i 0 = (i : Int)) := by
    rw [Finset.mem_filter, Finset.mem_range, hlab.1, getD_eq_labelAt]
    have e1 : (((labelAt lab e.2.2).toNat : Nat) : Int) = labelAt lab e.2.2 := by omega
    rw [e1]
    exact ⟨by omega, b2⟩
  have hset : (Finset.range (mergeLabels lab e).length).filter
        (fun i => (mergeLabels lab e).getD i 0 = (i : Int)) =
      ((Finset.range lab.length).filter (fun i => lab.getD i 0 = (i : Int))).erase
        (labelAt lab e.2.2).toNat := by
    ext i
    rw [Finset.mem_filter, Finset.mem_erase, Finset.mem_filter, Finset.mem_range,
      Finset.mem_range, hlen, hlab.1]
    constructor
    · rintro ⟨hi, hfix⟩
      rw [getD_eq_labelAt, labelAt_merge n lab e hlab (i : Int) (by omega) (by omega)] at hfix
      rw [getD_eq_labelAt]
      by_cases hc : labelAt lab (i : Int) = labelAt lab e.2.2
      · rw [if_pos hc] at hfix
        rw [← hfix, a2] at hc
        exact absurd hc hne
      · rw [if_neg hc] at hfix
        refine ⟨?_, hi, hfix⟩
        intro hcon
        apply hc
        rw [hfix]
        omega
    · rintro ⟨hne', hi, hfix⟩
      refine ⟨hi, ?_⟩
      rw [getD_eq_labelAt] at hfix
      rw [getD_eq_labelAt, labelAt_merge n lab e hlab (i : Int) (by omega) (by omega)]
      have hc : ¬ labelAt lab (i : Int) = labelAt lab e.2.2 := by
        intro hcon
        apply hne'
        rw [← hcon, hfix]
        simp
      rw [if_neg hc]
      exact hfix
  unfold rootCount
  rw [hset, Finset.card_erase_of_mem hmem]
  have : 0 < ((Finset.range lab.length).filter (fun i => lab.getD i 0 = (i : Int))).card :=
    Finset.card_pos.mpr ⟨_, hmem⟩
  omega

theorem rootCount_le (n : Nat) (labA labB : List Int) (hA : LabOK n labA) (hB : LabOK n labB)
    (hker : ∀ x y : Int, 0 ≤ x → x < (n : Int) → 0 ≤ y → y < (n : Int) →
      labelAt labA x = labelAt labA y → labelAt labB x = labelAt labB y) :
    rootCount labB ≤ rootCount labA := by
  unfold rootCount
  refine Finset.card_le_card_of_injOn (fun (i : Nat) => (labelAt labA (i : Int)).toNat) ?_ ?_
  · intro i hi
    rw [Finset.mem_filter, Finset.mem_range, hB.1] at hi
    obtain ⟨a0, a1, a2⟩ := hA.2 (i : Int) (by omega) (by omega)
    dsimp only
    rw [Finset.mem_filter, Finset.mem_range, hA.1, getD_eq_labelAt]
    have e1 : (((labelAt labA (i : Int)).toNat : Nat) : Int) = labelAt labA (i : Int) := by omega
    rw [e1]
    exact ⟨by omega, a2⟩
  · intro i hi j hj hij
    rw [Finset.mem_coe, Finset.mem_filter, Finset.mem_range, hB.1, getD_eq_labelAt] at hi hj
    obtain ⟨a0, a1, _⟩ := hA.2 (i : Int) (by omega) (by omega)
    obtain ⟨c0, c1, _⟩ := hA.2 (j : Int) (by omega) (by omega)
    simp only [] at hij
    have hAeq : labelAt labA (i : Int) = labelAt labA (j : Int) := by omega
    have := hker (i : Int) (j : Int) (by omega) (by omega) (by omega) (by omega) hAeq
    rw [hi.2, hj.2] at this
    omega

theorem labOK_foldl (n : Nat) : ∀ (es : List Edge) (lab : List Int), LabOK n lab →
    (∀ e ∈ es, EdgeValid n e) → LabOK n (es.foldl mergeLabels lab) := by
  intro es
  induction es with
  | nil => intro lab h _; exact h
  | cons e es ih =>
    intro lab h hval
    rw [List.foldl_cons]
    exact ih _ (labOK_merge n lab e h (hval e (List.mem_cons_self _ _)))
      (fun e' he' => hval e' (List.mem_cons_of_mem _ he'))

theorem greedy_length (n : Nat) : ∀ (es : List Edge) (lab : List Int), LabOK n lab →
    (∀ e ∈ es, EdgeValid n e) →
    (greedyFrom lab es).length + rootCount (es.foldl mergeLabels lab) = rootCount lab := by
  intro es
  induction es with
  | nil => intro lab _ _; simp [greedyFrom]
  | cons e es ih =>
    intro lab h hval
    have hev := hval e (List.mem_cons_self _ _)
    have hval' : ∀ e' ∈ es, EdgeValid n e' := fun e' he' => hval e' (List.mem_cons_of_mem _ he')
    rw [List.foldl_cons]
    unfold greedyFrom
    by_cases hne : labelAt lab e.2.1 ≠ labelAt lab e.2.2
    · rw [if_pos hne, List.length_cons]
      have h1 := ih _ (labOK_merge n lab e h hev) hval'
      have h2 := rootCount_merge n lab e h hev hne
      omega
    · rw [if_neg hne]
      have heq : labelAt lab e.2.1 = labelAt lab e.2.2 := not_not.mp hne
      rw [merge_of_eq lab e heq]
      exact ih lab h hval'

theorem greedyFrom_cons (lab : List Int) (e : Edge) (es : List Edge) :
    greedyFrom lab (e :: es) =
      if labelAt lab e.2.1 ≠ labelAt lab e.2.2 then e :: greedyFrom (mergeLabels lab e) es
      else greedyFrom lab es := rfl

theorem greedy_sublist : ∀ (es : List Edge) (lab : List Int),
    (greedyFrom lab es).Sublist es := by
  intro es
  induction es with
  | nil => intro lab; exact List.Sublist.slnil
  | cons e es ih =>
    intro lab
    unfold greedyFrom
    split_ifs
    · exact (ih _).cons₂ e
    · exact (ih _).cons e

theorem greedy_append : ∀ (P Q : List Edge) (lab : List Int),
    greedyFrom lab (P ++ Q) = greedyFrom lab P ++ greedyFrom (P.foldl mergeLabels lab) Q := by
  intro P
  induction P with
  | nil => intro Q lab; rfl
  | cons e P ih =>
    intro Q lab
    rw [List.cons_append, List.foldl_cons, greedyFrom_cons, greedyFrom_cons]
    by_cases hne : labelAt lab e.2.1 ≠ labelAt lab e.2.2
    · rw [if_pos hne, if_pos hne, ih, List.cons_append]
    · rw [if_neg hne, if_neg hne, ih]
      have heq : labelAt lab e.2.1 = labelAt lab e.2.2 := not_not.mp hne
      rw [merge_of_eq lab e heq]

/-! ## Forests and trees -/

theorem rootCount_init (n : Nat) : rootCount (initLabels n) = n := by
  unfold rootCount
  have hlen : (initLabels n).length = n := by simp [initLabels]
  rw [hlen, Finset.filter_true_of_mem, Finset.card_range]
  intro i hi
  rw [Finset.mem_range] at hi
  rw [getD_eq_labelAt, labelAt_init n (i : Int) (by omega) (by omega)]

theorem greedy_head_effective (lab : List Int) (e : Edge) (T : List Edge)
    (h : greedyFrom lab (e :: T) = e :: T) :
    labelAt lab e.2.1 ≠ labelAt lab e.2.2 ∧ greedyFrom (mergeLabels lab e) T = T := by
  rw [greedyFrom_cons] at h
  by_cases hne : labelAt lab e.2.1 ≠ labelAt lab e.2.2
  · rw [if_pos hne] at h
    exact ⟨hne, List.tail_eq_of_cons_eq h⟩
  · rw [if_neg hne] at h
    have h1 := (greedy_sublist T lab).length_le
    rw [h, List.length_cons] at h1
    omega

theorem subforest (n : Nat) (T A : List Edge) (hsub : A.Sublist T) :
    ∀ (labT labA : List Int), LabOK n labT → LabOK n labA → (∀ e ∈ T, EdgeValid n e) →
      (∀ x y : Int, 0 ≤ x → x < (n : Int) → 0 ≤ y → y < (n : Int) →
        labelAt labA x = labelAt labA y → labelAt labT x = labelAt labT y) →
      greedyFrom labT T = T → greedyFrom labA A = A := by
  induction hsub with
  | slnil => intro _ _ _ _ _ _ _; rfl
  | @cons A T e _ ih =>
    intro labT labA hT hA hval hker hall
    have hev := hval e (List.mem_cons_self _ _)
    obtain ⟨_, hrest⟩ := greedy_head_effective labT e T hall
    apply ih (mergeLabels labT e) labA (labOK_merge n labT e hT hev) hA
      (fun e' he' => hval e' (List.mem_cons_of_mem _ he')) ?_ hrest
    intro x y hx0 hx1 hy0 hy1 hxy
    rw [merge_kernel n labT e hT x y hx0 hx1 hy0 hy1]
    exact Or.inl (hker x y hx0 hx1 hy0 hy1 hxy)
  | @cons₂ A T e _ ih =>
    intro labT labA hT hA hval hker hall
    have hev := hval e (List.mem_cons_self _ _)
    obtain ⟨hu0, hu1, hv0, hv1⟩ := hev
    obtain ⟨heff, hrest⟩ := greedy_head_effective labT e T hall
    have heffA : labelAt labA e.2.1 ≠ labelAt labA e.2.2 :=
      fun hcon => heff (hker _ _ hu0 hu1 hv0 hv1 hcon)
    rw [greedyFrom_cons, if_pos heffA]
    congr 1
    apply ih (mergeLabels labT e) (mergeLabels labA e)
      (labOK_merge n labT e hT ⟨hu0, hu1, hv0, hv1⟩) (labOK_merge n labA e hA ⟨hu0, hu1, hv0, hv1⟩)
      (fun e' he' => hval e' (List.mem_cons_of_mem _ he')) ?_ hrest
    intro x y hx0 hx1 hy0 hy1 hxy
    rw [merge_kernel n labA e hA x y hx0 hx1 hy0 hy1] at hxy
    rw [merge_kernel n labT e hT x y hx0 hx1 hy0 hy1]
    rcases hxy with h | ⟨h1, h2⟩
    · exact Or.inl (hker x y hx0 hx1 hy0 hy1 h)
    · refine Or.inr ⟨?_, ?_⟩
      · rcases h1 with h | h
        · exact Or.inl (hker _ _ hx0 hx1 hu0 hu1 h)
        · exact Or.inr (hker _ _ hx0 hx1 hv0 hv1 h)
      · rcases h2 with h | h
        · exact Or.inl (hker _ _ hy0 hy1 hu0 hu1 h)
        · exact Or.inr (hker _ _ hy0 hy1 hv0 hv1 h)

theorem rootCount_connected (n : Nat) (es : List Edge) (hval : ∀ e ∈ es, EdgeValid n e)
    (hconn : ∀ x y : Int, 0 ≤ x → x < (n : Int) → 0 ≤ y → y < (n : Int) → Joined es x y) :
    rootCount (labelsOf n es) ≤ 1 := by
  obtain ⟨hok, hker⟩ := labels_kernel n es hval
  unfold rootCount
  rw [Finset.card_le_one]
  intro i hi j hj
  rw [Finset.mem_filter, Finset.mem_range, hok.1, getD_eq_labelAt] at hi hj
  have := (hker (i : Int) (j : Int) (by omega) (by omega) (by omega) (by omega)).mpr
    (hconn _ _ (by omega) (by omega) (by omega) (by omega))
  rw [hi.2, hj.2] at this
  omega

theorem greedy_count (n : Nat) (es : List Edge) (hval : ∀ e ∈ es, EdgeValid n e) :
    (greedyFrom (initLabels n) es).length + rootCount (labelsOf n es) = n := by
  have := greedy_length n es (initLabels n) (labOK_init n) hval
  rw [rootCount_init] at this
  exact this

theorem tree_all_effective (n : Nat) (T : List Edge) (hval : ∀ e ∈ T, EdgeValid n e)
    (hconn : ∀ x y : Int, 0 ≤ x → x < (n : Int) → 0 ≤ y → y < (n : Int) → Joined T x y)
    (hlen : T.length = n - 1) : greedyFrom (initLabels n) T = T := by
  have h1 := greedy_count n T hval
  have h2 := rootCount_connected n T hval hconn
  have h3 := (greedy_sublist T (initLabels n)).length_le
  exact (greedy_sublist T (initLabels n)).eq_of_length (by omega)

/-- Among the first edges `P` of a list, the greedy forest takes at least as many as
any forest `A` drawn from `P`. -/
theorem greedy_dominates (n : Nat) (P A : List Edge) (hval : ∀ e ∈ P, EdgeValid n e)
    (hsub : ∀ e ∈ A, e ∈ P) (hA : greedyFrom (initLabels n) A = A) :
    A.length ≤ (greedyFrom (initLabels n) P).length := by
  have hvalA : ∀ e ∈ A, EdgeValid n e := fun e he => hval e (hsub e he)
  have h1 := greedy_count n P hval
  have h2 := greedy_count n A hvalA
  rw [hA] at h2
  obtain ⟨hokP, hkerP⟩ := labels_kernel n P hval
  obtain ⟨hokA, hkerA⟩ := labels_kernel n A hvalA
  have h3 := rootCount_le n (labelsOf n A) (labelsOf n P) hokA hokP
    (fun x y hx0 hx1 hy0 hy1 hxy =>
      (hkerP x y hx0 hx1 hy0 hy1).mpr
        (joined_mono A P hsub x y ((hkerA x y hx0 hx1 hy0 hy1).mp hxy)))
  omega

/-! ## The greedy forest is lightest -/

theorem treeWeight_cons (e : Edge) (T : List Edge) : treeWeight (e :: T) = e.1 + treeWeight T := by
  unfold treeWeight
  simp

theorem treeWeight_perm (T T' : List Edge) (h : T.Perm T') : treeWeight T = treeWeight T' := by
  unfold treeWeight
  exact (h.map _).sum_eq

theorem rootCount_pos (n : Nat) (lab : List Int) (hlab : LabOK n lab) (hn : 0 < n) :
    0 < rootCount lab := by
  obtain ⟨a0, a1, a2⟩ := hlab.2 0 (le_refl 0) (by omega)
  unfold rootCount
  apply Finset.card_pos.mpr
  refine ⟨(labelAt lab 0).toNat, ?_⟩
  rw [Finset.mem_filter, Finset.mem_range, hlab.1, getD_eq_labelAt]
  have e1 : (((labelAt lab 0).toNat : Nat) : Int) = labelAt lab 0 := by omega
  rw [e1]
  exact ⟨by omega, a2⟩

/-- Summation by parts along the sorted edge list: as long as every prefix holds at
least as many greedy edges as edges of `T`, and both totals agree, the greedy edges
weigh no more. -/
theorem greedy_abel (n : Nat) (T : List Edge) :
    ∀ (Q P : List Edge) (w0 : Int),
      List.Pairwise (fun a b : Edge => a.1 ≤ b.1) Q → (∀ e ∈ Q, w0 ≤ e.1) →
      (∀ P' Q', P' ++ Q' = P ++ Q →
        (P'.filter (fun e => decide (e ∈ T))).length ≤ (greedyFrom (initLabels n) P').length) →
      (greedyFrom (initLabels n) (P ++ Q)).length =
        ((P ++ Q).filter (fun e => decide (e ∈ T))).length →
      treeWeight (greedyFrom (P.foldl mergeLabels (initLabels n)) Q) -
          treeWeight (Q.filter (fun e => decide (e ∈ T))) ≤
        -(((greedyFrom (initLabels n) P).length : Int) -
          ((P.filter (fun e => decide (e ∈ T))).length : Int)) * w0 := by
  intro Q
  induction Q with
  | nil =>
    intro P w0 _ _ _ htot
    rw [List.append_nil] at htot
    rw [htot]
    simp [greedyFrom, treeWeight]
  | cons e Q ih =>
    intro P w0 hsorted hlow hpre htot
    rw [List.pairwise_cons] at hsorted
    have hE : (P ++ [e]) ++ Q = P ++ e :: Q := by simp
    have hIH := ih (P ++ [e]) e.1 hsorted.2 (fun e' he' => hsorted.1 e' he')
      (fun P' Q' h => hpre P' Q' (by rw [h, hE])) (by rw [hE]; exact htot)
    have hP := hpre P (e :: Q) rfl
    have hw := hlow e (List.mem_cons_self _ _)
    rw [List.foldl_append, greedy_append, List.filter_append, List.length_append,
      List.length_append] at hIH
    simp only [List.foldl_cons, List.foldl_nil] at hIH
    rw [greedyFrom_cons, List.filter_cons]
    rw [greedyFrom_cons] at hIH
    have hnil : ∀ lab : List Int, greedyFrom lab [] = [] := fun _ => rfl
    have hge : (0 : Int) ≤ ((greedyFrom (initLabels n) P).length : Int) -
        ((P.filter (fun e => decide (e ∈ T))).length : Int) := by omega
    by_cases heff : labelAt (P.foldl mergeLabels (initLabels n)) e.2.1 ≠
        labelAt (P.foldl mergeLabels (initLabels n)) e.2.2
    · rw [if_pos heff] at hIH ⊢
      rw [hnil] at hIH
      by_cases hmem : e ∈ T
      · simp only [hmem, decide_True, if_true, List.filter_cons, List.filter_nil,
          List.length_cons, List.length_nil] at hIH ⊢
        rw [treeWeight_cons, treeWeight_cons]
        push_cast at hIH
        nlinarith
      · simp only [hmem, decide_False, if_false, List.filter_cons, List.filter_nil,
          List.length_cons, List.length_nil, Bool.false_eq_true] at hIH ⊢
        rw [treeWeight_cons]
        push_cast at hIH
        nlinarith
    · rw [if_neg heff] at hIH ⊢
      rw [hnil] at hIH
      have heq := not_not.mp heff
      rw [merge_of_eq _ e heq] at hIH
      by_cases hmem : e ∈ T
      · simp only [hmem, decide_True, if_true, List.filter_cons, List.filter_nil,
          List.length_cons, List.length_nil] at hIH ⊢
        rw [treeWeight_cons]
        push_cast at hIH
        nlinarith
      · simp only [hmem, decide_False, if_false, List.filter_cons, List.filter_nil,
          List.length_cons, List.length_nil, Bool.false_eq_true] at hIH ⊢
        push_cast at hIH
        nlinarith

/-- The greedy forest over a weight-sorted edge list without repeats weighs no more than
any connected choice of `n - 1` of its edges. -/
theorem greedy_optimal (n : Nat) (E T : List Edge) (hval : ∀ e ∈ E, EdgeValid n e)
    (hsorted : List.Pairwise (fun a b : Edge => a.1 ≤ b.1) E) (hnd : E.Nodup)
    (hsub : ∀ e ∈ T, e ∈ E)
    (hconn : ∀ x y : Int, 0 ≤ x → x < (n : Int) → 0 ≤ y → y < (n : Int) → Joined T x y)
    (hlen : T.length = n - 1) :
    treeWeight (greedyFrom (initLabels n) E) ≤ treeWeight T := by
  have hmemF : ∀ e, e ∈ E.filter (fun e => decide (e ∈ T)) ↔ e ∈ E ∧ e ∈ T := by
    intro e; simp [List.mem_filter]
  have hvalF : ∀ e ∈ E.filter (fun e => decide (e ∈ T)), EdgeValid n e :=
    fun e he => hval e ((hmemF e).mp he).1
  have hconnF : ∀ x y : Int, 0 ≤ x → x < (n : Int) → 0 ≤ y → y < (n : Int) →
      Joined (E.filter (fun e => decide (e ∈ T))) x y :=
    fun x y hx0 hx1 hy0 hy1 =>
      joined_mono T _ (fun e he => (hmemF e).mpr ⟨hsub e he, he⟩) x y (hconn x y hx0 hx1 hy0 hy1)
  have hconnE : ∀ x y : Int, 0 ≤ x → x < (n : Int) → 0 ≤ y → y < (n : Int) → Joined E x y :=
    fun x y hx0 hx1 hy0 hy1 => joined_mono T E hsub x y (hconn x y hx0 hx1 hy0 hy1)
  have hsp : (E.filter (fun e => decide (e ∈ T))).Subperm T :=
    List.subperm_of_subset (hnd.filter _) (fun e he => ((hmemF e).mp he).2)
  have hle : (E.filter (fun e => decide (e ∈ T))).length ≤ n - 1 := by
    rw [← hlen]; exact hsp.length_le
  have hcF := greedy_count n _ hvalF
  have hrF := rootCount_connected n _ hvalF hconnF
  have hsF := (greedy_sublist (E.filter (fun e => decide (e ∈ T))) (initLabels n)).length_le
  have hlenF : (E.filter (fun e => decide (e ∈ T))).length = n - 1 := by omega
  have hallF := tree_all_effective n _ hvalF hconnF hlenF
  have hperm : (E.filter (fun e => decide (e ∈ T))).Perm T :=
    hsp.perm_of_length_le (by omega)
  have hcE := greedy_count n E hval
  have hrE := rootCount_connected n E hval hconnE
  have htot : (greedyFrom (initLabels n) E).length =
      (E.filter (fun e => decide (e ∈ T))).length := by
    by_cases hn : 0 < n
    · have := rootCount_pos n (labelsOf n E) (labels_kernel n E hval).1 hn
      omega
    · omega
  have habel := greedy_abel n T E [] (E.headD (0, 0, 0)).1 hsorted
    (by
      intro e he
      cases E with
      | nil => simp at he
      | cons a E' =>
        simp only [List.headD_cons]
        rcases List.mem_cons.mp he with h | h
        · rw [h]
        · exact (List.pairwise_cons.mp hsorted).1 e h)
    (by
      intro P' Q' hPQ
      rw [List.nil_append] at hPQ
      apply greedy_dominates n P' _ (fun e he => hval e (by rw [← hPQ]; exact List.mem_append_left _ he))
        (fun e he => (List.mem_filter.mp he).1)
      apply subforest n (E.filter (fun e => decide (e ∈ T))) _ ?_ (initLabels n) (initLabels n)
        (labOK_init n) (labOK_init n) hvalF (fun _ _ _ _ _ _ h => h) hallF
      rw [← hPQ, List.filter_append]
      exact List.sublist_append_left _ _)
    (by rw [List.nil_append]; exact htot)
  simp only [List.foldl_nil, greedyFrom, List.filter_nil, List.length_nil, Int.sub_self,
    neg_zero, zero_mul, CharP.cast_eq_zero] at habel
  rw [← treeWeight_perm _ _ hperm]
  omega

/-! ## The disjoint-set forest refines the labelling -/

theorem parentAt_set (ds : DisjointSet) (rk : List Int) (a b x : Int)
    (ha : a.toNat < ds.parent.length) :
    parentAt { parent := ds.parent.set a.toNat b, rank := rk } x =
      if x.toNat = a.toNat then b else parentAt ds x := by
  unfold parentAt
  exact getD_set ds.parent a.toNat x.toNat b ha

theorem rankAt_set (ds : DisjointSet) (pr : List Int) (a b x : Int)
    (ha : a.toNat < ds.rank.length) :
    rankAt { parent := pr, rank := ds.rank.set a.toNat b } x =
      if x.toNat = a.toNat then b else rankAt ds x := by
  unfold rankAt
  exact getD_set ds.rank a.toNat x.toNat b ha

theorem root_root (n : Nat) (R : Int) (root : Int → Int) (ds : DisjointSet) (lab : List Int)
    (h : DSInv n R root ds lab) (x : Int) (h0 : 0 ≤ x) (h1 : x < (n : Int)) :
    root (root x) = root x := by
  obtain ⟨r0, r1, r2⟩ := h.rvalid x h0 h1
  exact h.rfix (root x) r0 r1 r2

theorem find_spec (n : Nat) (R : Int) (root : Int → Int) (lab : List Int) :
    ∀ (fuel : Nat) (ds : DisjointSet) (u : Int), DSInv n R root ds lab →
      0 ≤ u → u < (n : Int) → R - rankAt ds u ≤ (fuel : Int) →
      ∃ ds', DisjointSet.find fuel ds u = Except.ok (root u, ds') ∧
        DSInv n R root ds' lab ∧ ds'.rank = ds.rank ∧ rankAt ds u ≤ rankAt ds (root u) := by
  intro fuel
  induction fuel with
  | zero =>
    intro ds u h h0 h1 hf
    have hb : 0 ≤ u ∧ u < (ds.parent.length : Int) := by rw [h.plen]; exact ⟨h0, h1⟩
    have hrb := h.rankBd u h0 h1
    have hpeq : parentAt ds u = u := by
      by_contra hne
      have h1' := h.rankLt u h0 h1 hne
      obtain ⟨p0, p1⟩ := h.pvalid u h0 h1
      have := h.rankBd _ p0 p1
      omega
    have hru := h.rfix u h0 h1 hpeq
    refine ⟨ds, ?_, h, rfl, by rw [hru]⟩
    unfold DisjointSet.find
    rw [if_pos hb]
    have hpeq' : ds.parent.getD u.toNat 0 = u := hpeq
    rw [if_neg (by rw [hpeq']; simp), hpeq', hru]
  | succ fuel ih =>
    intro ds u h h0 h1 hf
    have hb : 0 ≤ u ∧ u < (ds.parent.length : Int) := by rw [h.plen]; exact ⟨h0, h1⟩
    by_cases hpeq : parentAt ds u = u
    · have hru := h.rfix u h0 h1 hpeq
      refine ⟨ds, ?_, h, rfl, by rw [hru]⟩
      unfold DisjointSet.find
      rw [if_pos hb]
      have hpeq' : ds.parent.getD u.toNat 0 = u := hpeq
      rw [if_neg (by rw [hpeq']; simp), hpeq', hru]
    · obtain ⟨p0, p1⟩ := h.pvalid u h0 h1
      have hlt := h.rankLt u h0 h1 hpeq
      obtain ⟨ds1, hrun1, h1inv, hrk1, hle1⟩ := ih ds (parentAt ds u) h p0 p1 (by omega)
      have hroot : root (parentAt ds u) = root u := h.rstep u h0 h1
      rw [hroot] at hrun1 hle1
      obtain ⟨r0, r1, r2⟩ := h1inv.rvalid u h0 h1
      have hidx : u.toNat < ds1.parent.length := by rw [h1inv.plen]; omega
      have hP : ∀ x : Int, parentAt { parent := ds1.parent.set u.toNat (root u), rank := ds1.rank } x =
          if x.toNat = u.toNat then root u else parentAt ds1 x :=
        fun x => parentAt_set ds1 ds1.rank u (root u) x hidx
      have hRk : ∀ x : Int, rankAt { parent := ds1.parent.set u.toNat (root u), rank := ds1.rank } x
          = rankAt ds x := by
        intro x; unfold rankAt; rw [hrk1]
      refine ⟨{ parent := ds1.parent.set u.toNat (root u), rank := ds1.rank }, ?_, ?_, hrk1, by omega⟩
      · unfold DisjointSet.find
        rw [if_pos hb]
        have hne' : u ≠ ds.parent.getD u.toNat 0 := fun hc => hpeq hc.symm
        rw [if_pos hne']
        simp only []
        have hrun1' : DisjointSet.find fuel ds (ds.parent.getD u.toNat 0) =
            Except.ok (root u, ds1) := hrun1
        rw [hrun1']
      · refine ⟨by simp only [List.length_set]; exact h1inv.plen, h1inv.rlen, ?_, ?_, ?_, ?_, ?_,
          ?_, h1inv.link⟩
        · intro x x0 x1
          rw [hP]
          split_ifs
          · exact ⟨r0, r1⟩
          · exact h1inv.pvalid x x0 x1
        · intro x x0 x1
          obtain ⟨q0, q1, q2⟩ := h1inv.rvalid x x0 x1
          refine ⟨q0, q1, ?_⟩
          rw [hP]
          split_ifs with hc
          · have hxu : root x = u := by omega
            rw [hxu] at q2
            rw [hxu]
            exact (h1inv.rfix u h0 h1 q2)
          · exact q2
        · intro x x0 x1 hx
          rw [hP] at hx
          split_ifs at hx with hc
          · have hxu : x = u := by omega
            rw [hxu] at hx ⊢
            exact hx
          · exact h1inv.rfix x x0 x1 hx
        · intro x x0 x1
          rw [hP]
          split_ifs with hc
          · have hxu : x = u := by omega
            rw [hxu]
            exact root_root n R root ds1 lab h1inv u h0 h1
          · exact h1inv.rstep x x0 x1
        · intro x x0 x1 hx
          rw [hP] at hx ⊢
          rw [hRk, hRk]
          split_ifs at hx ⊢ with hc
          · have hxu : x = u := by omega
            rw [hxu]
            omega
          · have := h1inv.rankLt x x0 x1 hx
            unfold rankAt at this ⊢
            rw [hrk1] at this
            exact this
        · intro x x0 x1
          rw [hRk]
          exact h.rankBd x x0 x1

theorem link_inv (n : Nat) (R : Int) (root : Int → Int) (ds : DisjointSet) (lab lab' : List Int)
    (h : DSInv n R root ds lab) (a b : Int) (rk : List Int)
    (ha0 : 0 ≤ a) (ha1 : a < (n : Int)) (hb0 : 0 ≤ b) (hb1 : b < (n : Int))
    (hra : root a = a) (hrb : root b = b) (hpb : parentAt ds b = b) (hab : a ≠ b)
    (hrklen : rk.length = n)
    (hr1 : ∀ x : Int, 0 ≤ x → x < (n : Int) → x ≠ b → rk.getD x.toNat 0 = rankAt ds x)
    (hr2 : rankAt ds b ≤ rk.getD b.toNat 0 ∧ rk.getD b.toNat 0 ≤ R + 1)
    (hr3 : rk.getD a.toNat 0 < rk.getD b.toNat 0)
    (hlink : ∀ x y : Int, 0 ≤ x → x < (n : Int) → 0 ≤ y → y < (n : Int) →
      ((if root x = a then b else root x) = (if root y = a then b else root y) ↔
        labelAt lab' x = labelAt lab' y)) :
    DSInv n (R + 1) (fun x => if root x = a then b else root x)
      { parent := ds.parent.set a.toNat b, rank := rk } lab' := by
  have hidx : a.toNat < ds.parent.length := by rw [h.plen]; omega
  have hP : ∀ x : Int, parentAt { parent := ds.parent.set a.toNat b, rank := rk } x =
      if x.toNat = a.toNat then b else parentAt ds x :=
    fun x => parentAt_set ds rk a b x hidx
  have hRk : ∀ x : Int, rankAt { parent := ds.parent.set a.toNat b, rank := rk } x =
      rk.getD x.toNat 0 := fun x => rfl
  refine ⟨by simp only [List.length_set]; exact h.plen, hrklen, ?_, ?_, ?_, ?_, ?_, ?_, hlink⟩
  · intro x x0 x1
    rw [hP]
    split_ifs
    · exact ⟨hb0, hb1⟩
    · exact h.pvalid x x0 x1
  · intro x x0 x1
    obtain ⟨q0, q1, q2⟩ := h.rvalid x x0 x1
    simp only [hP]
    split_ifs with c1 c2 c3
    · omega
    · exact ⟨hb0, hb1, hpb⟩
    · omega
    · exact ⟨q0, q1, q2⟩
  · intro x x0 x1 hx
    rw [hP] at hx
    show (if root x = a then b else root x) = x
    split_ifs at hx with c1
    · omega
    · have := h.rfix x x0 x1 hx
      rw [this, if_neg (by omega)]
  · intro x x0 x1
    obtain ⟨p0, p1⟩ := h.pvalid x x0 x1
    have hs := h.rstep x x0 x1
    simp only [hP]
    by_cases c1 : x.toNat = a.toNat
    · have hxa : x = a := by omega
      rw [if_pos c1, hrb, if_neg (by omega), hxa, hra, if_pos rfl]
    · rw [if_neg c1, hs]
  · intro x x0 x1 hx
    rw [hP] at hx ⊢
    rw [hRk, hRk]
    by_cases c1 : x.toNat = a.toNat
    · have hxa : x = a := by omega
      rw [if_pos c1, hxa]
      exact hr3
    · rw [if_neg c1] at hx ⊢
      obtain ⟨p0, p1⟩ := h.pvalid x x0 x1
      have hlt := h.rankLt x x0 x1 hx
      have hxb : x ≠ b := fun hc => hx (by rw [hc]; exact hpb)
      rw [hr1 x x0 x1 hxb]
      by_cases hpb' : parentAt ds x = b
      · rw [hpb'] at hlt ⊢
        omega
      · rw [hr1 _ p0 p1 hpb']
        exact hlt
  · intro x x0 x1
    rw [hRk]
    have := h.rankBd x x0 x1
    by_cases hxb : x = b
    · rw [hxb]
      have := h.rankBd b hb0 hb1
      omega
    · rw [hr1 x x0 x1 hxb]
      omega

theorem union_link (n : Nat) (R : Int) (root : Int → Int) (ds : DisjointSet) (lab : List Int)
    (h : DSInv n R root ds lab) (hlab : LabOK n lab) (e : Edge) (he : EdgeValid n e)
    (a b : Int) (hab : (a = root e.2.1 ∧ b = root e.2.2) ∨ (a = root e.2.2 ∧ b = root e.2.1)) :
    ∀ x y : Int, 0 ≤ x → x < (n : Int) → 0 ≤ y → y < (n : Int) →
      ((if root x = a then b else root x) = (if root y = a then b else root y) ↔
        labelAt (mergeLabels lab e) x = labelAt (mergeLabels lab e) y) := by
  obtain ⟨hu0, hu1, hv0, hv1⟩ := he
  intro x y x0 x1 y0 y1
  rw [merge_kernel n lab e hlab x y x0 x1 y0 y1, ← h.link x y x0 x1 y0 y1,
    ← h.link x e.2.1 x0 x1 hu0 hu1, ← h.link x e.2.2 x0 x1 hv0 hv1,
    ← h.link y e.2.1 y0 y1 hu0 hu1, ← h.link y e.2.2 y0 y1 hv0 hv1]
  rcases hab with ⟨rfl, rfl⟩ | ⟨rfl, rfl⟩ <;> split_ifs <;> omega

theorem unionSets_spec (n : Nat) (R : Int) (root : Int → Int) (ds : DisjointSet)
    (lab : List Int) (h : DSInv n R root ds lab) (hlab : LabOK n lab) (e : Edge)
    (he : EdgeValid n e) (hne : root e.2.1 ≠ root e.2.2) (hR : R ≤ (n : Int))
    (hn : (n : Int) < 2147483647) :
    ∃ ds' root', DisjointSet.unionSets ds e.2.1 e.2.2 = Except.ok ds' ∧
      DSInv n (R + 1) root' ds' (mergeLabels lab e) := by
  obtain ⟨hu0, hu1, hv0, hv1⟩ := he
  have hbu := h.rankBd e.2.1 hu0 hu1
  obtain ⟨ds1, hrun1, h1, hrk1, _⟩ := find_spec n R root lab ds.parent.length ds e.2.1 h hu0 hu1
    (by rw [h.plen]; omega)
  have hbv := h1.rankBd e.2.2 hv0 hv1
  obtain ⟨ds2, hrun2, h2, hrk2, _⟩ := find_spec n R root lab ds1.parent.length ds1 e.2.2 h1
    hv0 hv1 (by rw [h1.plen]; omega)
  obtain ⟨a0, a1, a2⟩ := h2.rvalid e.2.1 hu0 hu1
  obtain ⟨b0, b1, b2⟩ := h2.rvalid e.2.2 hv0 hv1
  have hra := root_root n R root ds2 lab h2 e.2.1 hu0 hu1
  have hrb := root_root n R root ds2 lab h2 e.2.2 hv0 hv1
  have hba := h2.rankBd _ a0 a1
  have hbb := h2.rankBd _ b0 b1
  unfold DisjointSet.unionSets
  rw [hrun1]
  simp only []
  rw [hrun2]
  simp only []
  rw [if_pos hne]
  by_cases c1 : ds2.rank.getD (root e.2.1).toNat 0 < ds2.rank.getD (root e.2.2).toNat 0
  · rw [if_pos c1]
    exact ⟨_, _, rfl, link_inv n R root ds2 lab _ h2 (root e.2.1) (root e.2.2) ds2.rank
      a0 a1 b0 b1 hra hrb b2 hne h2.rlen (fun x _ _ _ => rfl)
      ⟨le_refl _, by unfold rankAt at hbb; omega⟩ c1
      (union_link n R root ds2 lab h2 hlab e ⟨hu0, hu1, hv0, hv1⟩ _ _ (Or.inl ⟨rfl, rfl⟩))⟩
  · rw [if_neg c1]
    by_cases c2 : ds2.rank.getD (root e.2.1).toNat 0 > ds2.rank.getD (root e.2.2).toNat 0
    · rw [if_pos c2]
      exact ⟨_, _, rfl, link_inv n R root ds2 lab _ h2 (root e.2.2) (root e.2.1) ds2.rank
        b0 b1 a0 a1 hrb hra a2 (fun hc => hne hc.symm) h2.rlen (fun x _ _ _ => rfl)
        ⟨le_refl _, by unfold rankAt at hba; omega⟩ c2
        (union_link n R root ds2 lab h2 hlab e ⟨hu0, hu1, hv0, hv1⟩ _ _ (Or.inr ⟨rfl, rfl⟩))⟩
    · rw [if_neg c2]
      have hidx : (root e.2.1).toNat < ds2.rank.length := by rw [h2.rlen]; omega
      have hwrap : wrapInt (ds2.rank.getD (root e.2.1).toNat 0 + 1) =
          ds2.rank.getD (root e.2.1).toNat 0 + 1 := by
        unfold rankAt at hba
        exact wrapInt_eq _ (by omega) (by omega)
      rw [hwrap]
      refine ⟨_, _, rfl, link_inv n R root ds2 lab _ h2 (root e.2.2) (root e.2.1)
        (ds2.rank.set (root e.2.1).toNat (ds2.rank.getD (root e.2.1).toNat 0 + 1))
        b0 b1 a0 a1 hrb hra a2 (fun hc => hne hc.symm)
        (by rw [List.length_set]; exact h2.rlen) ?_ ?_ ?_
        (union_link n R root ds2 lab h2 hlab e ⟨hu0, hu1, hv0, hv1⟩ _ _ (Or.inr ⟨rfl, rfl⟩))⟩
      · intro x x0 x1 hx
        rw [getD_set _ _ _ _ hidx, if_neg (by omega)]
        rfl
      · rw [getD_set _ _ _ _ hidx, if_pos rfl]
        unfold rankAt at hba ⊢
        omega
      · rw [getD_set _ _ _ _ hidx, getD_set _ _ _ _ hidx, if_pos rfl, if_neg (by omega)]
        omega

/-! ## The loop of Kruskal computes the greedy forest -/

theorem dsInv_init (n : Nat) : DSInv n 0 (fun x => x) (DisjointSet.init n) (initLabels n) := by
  have hP : ∀ x : Int, 0 ≤ x → x < (n : Int) → parentAt (DisjointSet.init n) x = x :=
    fun x h0 h1 => labelAt_init n x h0 h1
  have hR : ∀ x : Int, 0 ≤ x → x < (n : Int) → rankAt (DisjointSet.init n) x = 0 := by
    intro x h0 h1
    unfold rankAt DisjointSet.init
    rw [List.getD_eq_getElem _ _ (by simp; omega)]
    simp
  refine ⟨by simp [DisjointSet.init], by simp [DisjointSet.init], ?_, ?_, ?_, ?_, ?_, ?_, ?_⟩
  · intro x h0 h1; rw [hP x h0 h1]; exact ⟨h0, h1⟩
  · intro x h0 h1; exact ⟨h0, h1, hP x h0 h1⟩
  · intro x _ _ _; rfl
  · intro x h0 h1; simp only [hP x h0 h1]
  · intro x h0 h1 hne; exact absurd (hP x h0 h1) hne
  · intro x h0 h1; rw [hR x h0 h1]; exact ⟨le_refl 0, le_refl 0⟩
  · intro x y x0 x1 y0 y1
    rw [labelAt_init n x x0 x1, labelAt_init n y y0 y1]

theorem greedy_snoc (n : Nat) (P : List Edge) (e : Edge) :
    greedyFrom (initLabels n) (P ++ [e]) =
      if labelAt (labelsOf n P) e.2.1 ≠ labelAt (labelsOf n P) e.2.2
      then greedyFrom (initLabels n) P ++ [e] else greedyFrom (initLabels n) P := by
  rw [greedy_append, greedyFrom_cons]
  unfold labelsOf
  split_ifs
  · rfl
  · exact List.append_nil _

theorem kruskalStep_spec (n : Nat) (hn : (n : Int) < 2147483647) (P : List Edge)
    (s : KruskalState) (e : Edge) (hval : ∀ e' ∈ P ++ [e], EdgeValid n e')
    (h : KruskalInv n P s) :
    ∃ s', kruskalStep s e = Except.ok s' ∧ KruskalInv n (P ++ [e]) s' := by
  obtain ⟨⟨root, hds⟩, hmst⟩ := h
  have hvalP : ∀ e' ∈ P, EdgeValid n e' := fun e' he' => hval e' (List.mem_append_left _ he')
  have hev : EdgeValid n e := hval e (List.mem_append_right _ (List.mem_singleton_self _))
  have hlab := (labels_kernel n P hvalP).1
  have hcnt := greedy_count n P hvalP
  have hcnt' := greedy_count n (P ++ [e]) hval
  obtain ⟨hu0, hu1, hv0, hv1⟩ := hev
  have hbu := hds.rankBd e.2.1 hu0 hu1
  obtain ⟨ds1, hrun1, h1, _, _⟩ := find_spec n _ root _ s.ds.parent.length s.ds e.2.1 hds
    hu0 hu1 (by rw [hds.plen]; omega)
  have hbv := h1.rankBd e.2.2 hv0 hv1
  obtain ⟨ds2, hrun2, h2, _, _⟩ := find_spec n _ root _ ds1.parent.length ds1 e.2.2 h1
    hv0 hv1 (by rw [h1.plen]; omega)
  have hlink := h2.link e.2.1 e.2.2 hu0 hu1 hv0 hv1
  unfold kruskalStep
  simp only []
  rw [hrun1]
  simp only []
  rw [hrun2]
  simp only []
  by_cases hne : root e.2.1 ≠ root e.2.2
  · have heff : labelAt (labelsOf n P) e.2.1 ≠ labelAt (labelsOf n P) e.2.2 :=
      fun hc => hne (hlink.mpr hc)
    have hg := greedy_snoc n P e
    rw [if_pos heff] at hg
    rw [hg, List.length_append, List.length_singleton] at hcnt'
    obtain ⟨ds3, root', hrun3, h3⟩ := unionSets_spec n _ root ds2 _ h2 hlab e
      ⟨hu0, hu1, hv0, hv1⟩ hne (by omega) hn
    rw [if_pos hne, hrun3]
    refine ⟨_, rfl, ⟨root', ?_⟩, ?_⟩
    · rw [labelsOf_snoc, hg, List.length_append, List.length_singleton]
      push_cast
      exact h3
    · simp only []
      rw [hg, hmst, List.map_append]
      rfl
  · have heq : labelAt (labelsOf n P) e.2.1 = labelAt (labelsOf n P) e.2.2 :=
      hlink.mp (not_not.mp hne)
    have hg := greedy_snoc n P e
    rw [if_neg (not_not.mpr heq)] at hg
    rw [if_neg hne]
    refine ⟨_, rfl, ⟨root, ?_⟩, ?_⟩
    · rw [labelsOf_snoc, hg, merge_of_eq _ e heq]
      exact h2
    · simp only []
      rw [hg, hmst]

theorem kruskalFold_spec (n : Nat) (hn : (n : Int) < 2147483647) :
    ∀ (Q P : List Edge) (s : KruskalState), (∀ e ∈ P ++ Q, EdgeValid n e) →
      KruskalInv n P s →
      ∃ s', Q.foldlM kruskalStep s = Except.ok s' ∧ KruskalInv n (P ++ Q) s' := by
  intro Q
  induction Q with
  | nil =>
    intro P s _ h
    exact ⟨s, rfl, by rw [List.append_nil]; exact h⟩
  | cons e Q ih =>
    intro P s hval h
    have hE : (P ++ [e]) ++ Q = P ++ e :: Q := by simp
    obtain ⟨s1, hrun1, h1⟩ := kruskalStep_spec n hn P s e
      (fun e' he' => hval e' (by
        rcases List.mem_append.mp he' with h' | h'
        · exact List.mem_append_left _ h'
        · simp only [List.mem_singleton] at h'
          rw [h']; exact List.mem_append_right _ (List.mem_cons_self _ _))) h
    obtain ⟨s2, hrun2, h2⟩ := ih (P ++ [e]) s1 (by rw [hE]; exact hval) h1
    refine ⟨s2, ?_, by rw [hE] at h2; exact h2⟩
    rw [List.foldlM_cons, hrun1]
    exact hrun2

/-- With valid end points the main loop of `kruskalMST` ends, and `mst` is the greedy
forest of the sorted edge list. -/
theorem kruskalRun_spec (g : Graph) (hn : (g.length : Int) < 2147483647)
    (hval : ∀ e ∈ kruskalSortedEdges g, EdgeValid g.length e) :
    ∃ s, kruskalRun g = Except.ok s ∧
      s.mst = (greedyFrom (initLabels g.length) (kruskalSortedEdges g)).map
        (fun e => (e.2.1, e.2.2)) := by
  obtain ⟨s, hrun, _, hmst⟩ := kruskalFold_spec g.length hn (kruskalSortedEdges g) []
    { ds := DisjointSet.init g.length
      mst := []
      visited := []
      steps := [graphStateToJson [] (-1) GraphStatus.kruskalStart] }
    (by simpa using hval)
    ⟨⟨fun x => x, by
      show DSInv g.length ((greedyFrom (initLabels g.length) []).length : Int) _ _
        (labelsOf g.length [])
      exact dsInv_init g.length⟩, rfl⟩
  rw [List.nil_append] at hmst
  exact ⟨s, hrun, hmst⟩

/-! ## The edge list of Kruskal -/

theorem mem_kruskalEdgeList (g : Graph) (e : Edge) :
    e ∈ kruskalEdgeList g ↔
      0 ≤ e.2.1 ∧ e.2.1 < (g.length : Int) ∧ e.2.1 < e.2.2 ∧ (e.2.2, e.1) ∈ adj g e.2.1 := by
  unfold kruskalEdgeList
  rw [List.mem_flatMap]
  constructor
  · rintro ⟨u, hu, he⟩
    rw [List.mem_range] at hu
    rw [List.mem_map] at he
    obtain ⟨a, ha, rfl⟩ := he
    rw [List.mem_filter] at ha
    simp only [decide_eq_true_eq] at ha
    refine ⟨by simp, by simp; exact hu, ha.2, ?_⟩
    rw [adj_eq_getD g _ ⟨by simp, by simp; exact hu⟩]
    simpa using ha.1
  · rintro ⟨h0, h1, h2, h3⟩
    rw [adj_eq_getD g _ ⟨h0, h1⟩] at h3
    refine ⟨e.2.1.toNat, List.mem_range.mpr (by omega), ?_⟩
    rw [List.mem_map]
    refine ⟨(e.2.2, e.1), ?_, ?_⟩
    · rw [List.mem_filter]
      refine ⟨h3, ?_⟩
      simp only [decide_eq_true_eq]
      omega
    · have e1 : ((e.2.1.toNat : Nat) : Int) = e.2.1 := by omega
      rw [e1]

theorem mem_kruskalSortedEdges (g : Graph) (e : Edge) :
    e ∈ kruskalSortedEdges g ↔ e ∈ kruskalEdgeList g :=
  (List.perm_insertionSort tupleLe (kruskalEdgeList g)).mem_iff

theorem kruskalEdges_valid (g : Graph) (hv : ValidGraph g) :
    ∀ e ∈ kruskalSortedEdges g, EdgeValid g.length e := by
  intro e he
  obtain ⟨h0, h1, _, h3⟩ := (mem_kruskalEdgeList g e).mp ((mem_kruskalSortedEdges g e).mp he)
  have := mem_adj_valid g hv e.2.1 (e.2.2, e.1) h3
  exact ⟨h0, h1, this.1, this.2⟩

theorem tupleLe_total : IsTotal Edge tupleLe :=
  ⟨fun a b => by unfold tupleLe; omega⟩

theorem tupleLe_trans : IsTrans Edge tupleLe :=
  ⟨fun a b c h1 h2 => by unfold tupleLe at h1 h2 ⊢; omega⟩

theorem kruskalEdges_sorted (g : Graph) :
    List.Pairwise (fun a b : Edge => a.1 ≤ b.1) (kruskalSortedEdges g) := by
  haveI := tupleLe_total
  haveI := tupleLe_trans
  have h : List.Sorted tupleLe (kruskalSortedEdges g) :=
    List.sorted_insertionSort tupleLe (kruskalEdgeList g)
  exact List.Pairwise.imp (fun {a b} hab => by unfold tupleLe at hab; omega) h

theorem kruskalEdges_nodup (g : Graph) (hs : SimpleAdjacency g) :
    (kruskalSortedEdges g).Nodup := by
  apply (List.perm_insertionSort tupleLe (kruskalEdgeList g)).nodup_iff.mpr
  unfold kruskalEdgeList
  rw [List.nodup_flatMap]
  constructor
  · intro u hu
    rw [List.mem_range] at hu
    have hl : (g.getD u []).Nodup := by
      have hmem : g.getD u [] ∈ g := by
        rw [List.getD_eq_getElem g [] hu]
        exact List.getElem_mem hu
      exact List.Nodup.of_map _ (hs _ hmem)
    apply List.Nodup.map _ (hl.filter _)
    intro a b hab
    simp only [Prod.mk.injEq] at hab
    exact Prod.ext hab.2.2 hab.1
  · apply List.Nodup.pairwise_of_forall_ne (List.nodup_range _)
    intro u _ u' _ hne
    intro e he he'
    rw [List.mem_map] at he he'
    obtain ⟨a, _, rfl⟩ := he
    obtain ⟨b, _, hb⟩ := he'
    simp only [Prod.mk.injEq] at hb
    apply hne
    have := hb.2.1
    omega

theorem find_unique : ∀ (l : List (Int × Int)) (v w : Int), (l.map Prod.fst).Nodup →
    (v, w) ∈ l → l.find? (fun a => decide (a.1 = v)) = some (v, w) := by
  intro l
  induction l with
  | nil => intro v w _ h; simp at h
  | cons a l ih =>
    intro v w hnd hmem
    rw [List.map_cons, List.nodup_cons] at hnd
    rcases List.mem_cons.mp hmem with h | h
    · rw [← h]
      simp
    · have hne : ¬ a.1 = v := by
        intro hc
        apply hnd.1
        rw [hc]
        exact List.mem_map.mpr ⟨(v, w), h, rfl⟩
      rw [List.find?_cons_of_neg _ (by simpa using hne)]
      exact ih v w hnd.2 h

theorem kruskalAddWeight_eq (g : Graph) (hs : SimpleAdjacency g) (e : Edge)
    (he : e ∈ kruskalSortedEdges g) (t : Int) :
    kruskalAddWeight g t (e.2.1, e.2.2) = wrapInt (t + e.1) := by
  obtain ⟨h0, h1, _, h3⟩ := (mem_kruskalEdgeList g e).mp ((mem_kruskalSortedEdges g e).mp he)
  rw [adj_eq_getD g _ ⟨h0, h1⟩] at h3
  have hu : e.2.1.toNat < g.length := by omega
  have hmem : g.getD e.2.1.toNat [] ∈ g := by
    rw [List.getD_eq_getElem g [] hu]
    exact List.getElem_mem hu
  unfold kruskalAddWeight
  simp only []
  rw [find_unique _ e.2.2 e.1 (hs _ hmem) h3]

theorem kruskalEdges_weight (g : Graph) (hw : SummableWeights g) (e : Edge)
    (he : e ∈ kruskalSortedEdges g) :
    -2147483647 ≤ e.1 * (g.length : Int) ∧ e.1 * (g.length : Int) ≤ 2147483647 := by
  obtain ⟨_, _, _, h3⟩ := (mem_kruskalEdgeList g e).mp ((mem_kruskalSortedEdges g e).mp he)
  obtain ⟨l, hl, hel⟩ := mem_adj_mem_graph g e.2.1 _ h3
  have := hw l hl _ hel
  unfold INT_MAX at this
  exact this

theorem kruskalTotal_fold (g : Graph) (hs : SimpleAdjacency g) (hw : SummableWeights g) :
    ∀ (G : List Edge) (t : Int) (k : Nat), (∀ e ∈ G, e ∈ kruskalSortedEdges g) →
      k + G.length < g.length →
      -((k : Int) * 2147483647) ≤ t * (g.length : Int) →
      t * (g.length : Int) ≤ (k : Int) * 2147483647 →
      (G.map (fun e => (e.2.1, e.2.2))).foldl (kruskalAddWeight g) t = t + treeWeight G := by
  intro G
  induction G with
  | nil => intro t k _ _ _ _; simp [treeWeight]
  | cons e G ih =>
    intro t k hmem hk hlo hhi
    have he := hmem e (List.mem_cons_self _ _)
    obtain ⟨w1, w2⟩ := kruskalEdges_weight g hw e he
    rw [List.length_cons] at hk
    have hkn : (k : Int) + 1 < (g.length : Int) := by omega
    have hn0 : (0 : Int) < (g.length : Int) := by omega
    have hlo' : -(((k + 1 : Nat) : Int) * 2147483647) ≤ (t + e.1) * (g.length : Int) := by
      push_cast; nlinarith
    have hhi' : (t + e.1) * (g.length : Int) ≤ ((k + 1 : Nat) : Int) * 2147483647 := by
      push_cast; nlinarith
    have hwrap : wrapInt (t + e.1) = t + e.1 := by
      apply wrapInt_eq
      · by_contra hc
        push_cast at hlo'
        nlinarith
      · by_contra hc
        push_cast at hhi'
        nlinarith
    rw [List.map_cons, List.foldl_cons, kruskalAddWeight_eq g hs e he, hwrap,
      ih (t + e.1) (k + 1) (fun e' he' => hmem e' (List.mem_cons_of_mem _ he')) (by omega)
        hlo' hhi', treeWeight_cons]
    ring

/-! ## The greedy forest of a connected graph is a spanning tree -/

theorem symmetric_valid (g : Graph) (hsym : SymmetricGraph g) : ValidGraph g := by
  intro l hl e he
  obtain ⟨i, hi, rfl⟩ := List.getElem_of_mem hl
  have hadj : (e.1, e.2) ∈ adj g (i : Int) := by
    rw [adj_eq_getD g _ ⟨by omega, by omega⟩, Int.toNat_ofNat, List.getD_eq_getElem g [] hi]
    exact he
  have hm := hsym _ _ _ hadj
  unfold adj at hm
  split_ifs at hm with h
  · exact h
  · simp at hm

theorem mergeLabels_same (lab : List Int) (e : Edge)
    (h : labelAt lab e.2.1 = labelAt lab e.2.2) : mergeLabels lab e = lab := by
  unfold mergeLabels
  rw [h]
  conv_rhs => rw [← List.map_id lab]
  apply List.map_congr_left
  intro x _
  split_ifs with hx
  · rw [hx]; rfl
  · rfl

theorem greedy_labels : ∀ (es : List Edge) (lab : List Int),
    (greedyFrom lab es).foldl mergeLabels lab = es.foldl mergeLabels lab := by
  intro es
  induction es with
  | nil => intro lab; rfl
  | cons e es ih =>
    intro lab
    rw [greedyFrom_cons]
    split_ifs with h
    · rw [List.foldl_cons, List.foldl_cons, ih]
    · have h' : labelAt lab e.2.1 = labelAt lab e.2.2 := by
        by_contra hc
        exact h hc
      rw [List.foldl_cons, mergeLabels_same lab e h', ih]

theorem joined_lift (es es' : List Edge) (h : ∀ e ∈ es, Joined es' e.2.1 e.2.2) (x y : Int)
    (hj : Joined es x y) : Joined es' x y := by
  induction hj with
  | rel a b hab =>
    obtain ⟨w, hw⟩ := hab
    exact h _ hw
  | refl a => exact joined_refl es' a
  | symm a b _ ih => exact joined_symm es' a b ih
  | trans a b c _ _ ih1 ih2 => exact joined_trans es' a b c ih1 ih2

theorem adj_joined (g : Graph) (hsym : SymmetricGraph g) (u v w : Int)
    (hv : ValidGraph g) (h : (v, w) ∈ adj g u) : Joined (kruskalSortedEdges g) u v := by
  have hu : 0 ≤ u ∧ u < (g.length : Int) := by
    unfold adj at h
    split_ifs at h with hc
    · exact hc
    · simp at h
  have hvv := mem_adj_valid g hv u (v, w) h
  rcases lt_trichotomy u v with hlt | heq | hgt
  · have hmem : ((w, u, v) : Edge) ∈ kruskalSortedEdges g :=
      (mem_kruskalSortedEdges g _).mpr ((mem_kruskalEdgeList g _).mpr ⟨hu.1, hu.2, hlt, h⟩)
    exact joined_edge _ _ hmem
  · rw [heq]
    exact joined_refl _ _
  · have hmem : ((w, v, u) : Edge) ∈ kruskalSortedEdges g :=
      (mem_kruskalSortedEdges g _).mpr
        ((mem_kruskalEdgeList g _).mpr ⟨hvv.1, hvv.2, hgt, hsym u v w h⟩)
    exact joined_symm _ _ _ (joined_edge _ _ hmem)

theorem walk_joined (g : Graph) (hsym : SymmetricGraph g) (hv : ValidGraph g) :
    ∀ (p : List (Int × Int)) (u : Int), IsWalk g u p →
      Joined (kruskalSortedEdges g) u (walkEnd u p) := by
  intro p
  induction p with
  | nil => intro u _; exact joined_refl _ _
  | cons e p ih =>
    intro u hw
    obtain ⟨h1, h2⟩ := hw
    exact joined_trans _ _ _ _ (adj_joined g hsym u e.1 e.2 hv h1) (ih e.1 h2)

theorem connected_joined (g : Graph) (hsym : SymmetricGraph g) (hconn : ConnectedGraph g)
    (x y : Int) (hx0 : 0 ≤ x) (hx1 : x < (g.length : Int)) (hy0 : 0 ≤ y)
    (hy1 : y < (g.length : Int)) : Joined (kruskalSortedEdges g) x y := by
  obtain ⟨p, hp, hend⟩ := hconn x y hx0 hx1 hy0 hy1
  rw [← hend]
  exact walk_joined g hsym (symmetric_valid g hsym) p x hp

theorem greedy_spanning (g : Graph) (hsym : SymmetricGraph g) (hconn : ConnectedGraph g) :
    IsSpanningTree g (greedyFrom (initLabels g.length) (kruskalSortedEdges g)) := by
  have hv := symmetric_valid g hsym
  have hval := kruskalEdges_valid g hv
  have hsub : ∀ e ∈ greedyFrom (initLabels g.length) (kruskalSortedEdges g),
      e ∈ kruskalSortedEdges g := fun e he => (greedy_sublist _ _).subset he
  have hvalG : ∀ e ∈ greedyFrom (initLabels g.length) (kruskalSortedEdges g),
      EdgeValid g.length e := fun e he => hval e (hsub e he)
  have hlab : labelsOf g.length (greedyFrom (initLabels g.length) (kruskalSortedEdges g)) =
      labelsOf g.length (kruskalSortedEdges g) := greedy_labels _ _
  refine ⟨?_, ?_, ?_⟩
  · intro e he
    exact ((mem_kruskalEdgeList g e).mp ((mem_kruskalSortedEdges g e).mp (hsub e he))).2.2.2
  · intro x y hx0 hx1 hy0 hy1
    have k1 := (labels_kernel g.length _ hvalG).2 x y hx0 hx1 hy0 hy1
    have k2 := (labels_kernel g.length _ hval).2 x y hx0 hx1 hy0 hy1
    rw [hlab] at k1
    exact k1.mp (k2.mpr (connected_joined g hsym hconn x y hx0 hx1 hy0 hy1))
  · have hcount := greedy_count g.length (kruskalSortedEdges g) hval
    have hle := rootCount_connected g.length (kruskalSortedEdges g) hval
      (connected_joined g hsym hconn)
    by_cases hn : g.length = 0
    · omega
    · have hpos := rootCount_pos g.length _ (labels_kernel g.length _ hval).1 (by omega)
      omega

/-! ## Kruskal: the reported total is the least weight of a spanning tree -/

theorem adj_source_valid (g : Graph) (u : Int) (e : Int × Int) (h : e ∈ adj g u) :
    0 ≤ u ∧ u < (g.length : Int) := by
  unfold adj at h
  split_ifs at h with hc
  · exact hc
  · simp at h

theorem effective_no_loop : ∀ (T : List Edge) (lab : List Int), greedyFrom lab T = T →
    ∀ e ∈ T, e.2.1 ≠ e.2.2 := by
  intro T
  induction T with
  | nil => intro lab _ e he; simp at he
  | cons e T ih =>
    intro lab h e' he'
    obtain ⟨hne, hrest⟩ := greedy_head_effective lab e T h
    rcases List.mem_cons.mp he' with h1 | h1
    · rw [h1]
      intro heq
      apply hne
      rw [heq]
    · exact ih _ hrest e' h1

theorem treeWeight_norm (T : List Edge) : treeWeight (T.map normEdge) = treeWeight T := by
  unfold treeWeight
  rw [List.map_map]
  congr 1
  apply List.map_congr_left
  intro e _
  show (normEdge e).1 = e.1
  unfold normEdge
  split_ifs <;> rfl

theorem kruskal_minimum (g : Graph) (hn : (g.length : Int) < 2147483647)
    (hsym : SymmetricGraph g) (hs : SimpleAdjacency g) (hconn : ConnectedGraph g)
    (hw : SummableWeights g) :
    ∃ s, kruskalRun g = Except.ok s ∧
      IsSpanningTree g (greedyFrom (initLabels g.length) (kruskalSortedEdges g)) ∧
      s.mst.foldl (kruskalAddWeight g) 0 =
        treeWeight (greedyFrom (initLabels g.length) (kruskalSortedEdges g)) ∧
      ∀ T, IsSpanningTree g T →
        treeWeight (greedyFrom (initLabels g.length) (kruskalSortedEdges g)) ≤ treeWeight T := by
  have hv := symmetric_valid g hsym
  have hval := kruskalEdges_valid g hv
  obtain ⟨s, hrun, hmst⟩ := kruskalRun_spec g hn hval
  have hspan := greedy_spanning g hsym hconn
  refine ⟨s, hrun, hspan, ?_, ?_⟩
  · rw [hmst]
    have hsub : ∀ e ∈ greedyFrom (initLabels g.length) (kruskalSortedEdges g),
        e ∈ kruskalSortedEdges g := fun e he => (greedy_sublist _ _).subset he
    have hlen := hspan.2.2
    by_cases hG : greedyFrom (initLabels g.length) (kruskalSortedEdges g) = []
    · rw [hG]
      rfl
    · have hpos : 0 < (greedyFrom (initLabels g.length) (kruskalSortedEdges g)).length :=
        List.length_pos.mpr hG
      have h := kruskalTotal_fold g hs hw _ 0 0 hsub (by omega) (by simp) (by simp)
      rw [h]
      ring
  · rintro T ⟨hadj, hj, hlen⟩
    have hvalT : ∀ e ∈ T, EdgeValid g.length e := by
      intro e he
      have h1 := adj_source_valid g _ _ (hadj e he)
      have h2 := mem_adj_valid g hv _ _ (hadj e he)
      exact ⟨h1.1, h1.2, h2.1, h2.2⟩
    have hnl := effective_no_loop T _ (tree_all_effective g.length T hvalT hj hlen)
    have hsubT : ∀ e ∈ T.map normEdge, e ∈ kruskalSortedEdges g := by
      intro e he
      obtain ⟨e0, he0, rfl⟩ := List.mem_map.mp he
      have hv0 := hvalT e0 he0
      rw [mem_kruskalSortedEdges, mem_kruskalEdgeList]
      unfold normEdge
      split_ifs with hlt
      · exact ⟨hv0.1, hv0.2.1, hlt, hadj e0 he0⟩
      · have hne := hnl e0 he0
        refine ⟨hv0.2.2.1, hv0.2.2.2, ?_, hsym _ _ _ (hadj e0 he0)⟩
        show e0.2.2 < e0.2.1
        omega
    have hjn : ∀ x y : Int, 0 ≤ x → x < (g.length : Int) → 0 ≤ y → y < (g.length : Int) →
        Joined (T.map normEdge) x y := by
      intro x y hx0 hx1 hy0 hy1
      apply joined_lift T (T.map normEdge) _ x y (hj x y hx0 hx1 hy0 hy1)
      intro e he
      have hmem : normEdge e ∈ T.map normEdge := List.mem_map.mpr ⟨e, he, rfl⟩
      have hje := joined_edge _ _ hmem
      unfold normEdge at hje
      split_ifs at hje with hlt
      · exact hje
      · exact joined_symm _ _ _ hje
    have hopt := greedy_optimal g.length (kruskalSortedEdges g) (T.map normEdge) hval
      (kruskalEdges_sorted g) (kruskalEdges_nodup g hs) hsubT hjn
      (by rw [List.length_map]; exact hlen)
    rw [treeWeight_norm] at hopt
    exact hopt

/-! ## Kruskal: the minimum spanning tree claim -/

theorem three_cases (x : Int) (h0 : 0 ≤ x) (h1 : x < 3) : x = 0 ∨ x = 1 ∨ x = 2 := by
  omega

theorem triangle_symmetric : SymmetricGraph triangleGraph := by
  intro u v w h
  have hu := adj_source_valid _ _ _ h
  rcases three_cases u hu.1 hu.2 with rfl | rfl | rfl
  all_goals
    simp only [adj, triangleGraph] at h
    simp at h
    rcases h with ⟨rfl, rfl⟩ | ⟨rfl, rfl⟩ <;> decide

theorem triangle_connected : ConnectedGraph triangleGraph := by
  intro x y hx0 hx1 hy0 hy1
  rcases three_cases x hx0 hx1 with rfl | rfl | rfl <;>
    rcases three_cases y hy0 hy1 with rfl | rfl | rfl
  · exact ⟨[], trivial, rfl⟩
  · exact ⟨[(1, 1)], by simp [IsWalk, adj, triangleGraph], rfl⟩
  · exact ⟨[(2, 3)], by simp [IsWalk, adj, triangleGraph], rfl⟩
  · exact ⟨[(0, 1)], by simp [IsWalk, adj, triangleGraph], rfl⟩
  · exact ⟨[], trivial, rfl⟩
  · exact ⟨[(2, 2)], by simp [IsWalk, adj, triangleGraph], rfl⟩
  · exact ⟨[(0, 3)], by simp [IsWalk, adj, triangleGraph], rfl⟩
  · exact ⟨[(1, 2)], by simp [IsWalk, adj, triangleGraph], rfl⟩
  · exact ⟨[], trivial, rfl⟩

theorem heavyPath_symmetric : SymmetricGraph heavyPathGraph := by
  intro u v w h
  have hu := adj_source_valid _ _ _ h
  rcases three_cases u hu.1 hu.2 with rfl | rfl | rfl
  · simp only [adj, heavyPathGraph] at h
    simp at h
    rcases h with ⟨rfl, rfl⟩
    decide
  · simp only [adj, heavyPathGraph] at h
    simp at h
    rcases h with ⟨rfl, rfl⟩ | ⟨rfl, rfl⟩ <;> decide
  · simp only [adj, heavyPathGraph] at h
    simp at h
    rcases h with ⟨rfl, rfl⟩
    decide

theorem heavyPath_connected : ConnectedGraph heavyPathGraph := by
  intro x y hx0 hx1 hy0 hy1
  rcases three_cases x hx0 hx1 with rfl | rfl | rfl <;>
    rcases three_cases y hy0 hy1 with rfl | rfl | rfl
  · exact ⟨[], trivial, rfl⟩
  · exact ⟨[(1, 2147483647)], by simp [IsWalk, adj, heavyPathGraph], rfl⟩
  · exact ⟨[(1, 2147483647), (2, 2147483647)], by simp [IsWalk, adj, heavyPathGraph], rfl⟩
  · exact ⟨[(0, 2147483647)], by simp [IsWalk, adj, heavyPathGraph], rfl⟩
  · exact ⟨[], trivial, rfl⟩
  · exact ⟨[(2, 2147483647)], by simp [IsWalk, adj, heavyPathGraph], rfl⟩
  · exact ⟨[(1, 2147483647), (0, 2147483647)], by simp [IsWalk, adj, heavyPathGraph], rfl⟩
  · exact ⟨[(1, 2147483647)], by simp [IsWalk, adj, heavyPathGraph], rfl⟩
  · exact ⟨[], trivial, rfl⟩

theorem heavyPath_tree_weight (T : List Edge) (hT : IsSpanningTree heavyPathGraph T) :
    treeWeight T = 4294967294 := by
  obtain ⟨hadj, _, hlen⟩ := hT
  have hM : ∀ l ∈ heavyPathGraph, ∀ e ∈ l, e.2 = 2147483647 := by decide
  have hw : ∀ e ∈ T, e.1 = 2147483647 := by
    intro e he
    obtain ⟨l, hl, hel⟩ := mem_adj_mem_graph _ _ _ (hadj e he)
    exact hM l hl _ hel
  match T, hlen, hw with
  | [a, b], _, hw =>
    have ha := hw a (by simp)
    have hb := hw b (by simp)
    simp only [treeWeight, List.map_cons, List.map_nil, List.sum_cons, List.sum_nil]
    omega

/-- C10 as stated fails when the weights overflow `int`: the path `0-1-2` with both
edges of weight 2147483647 is connected, symmetric, and has one edge per pair of nodes;
`kruskalMST` accepts both edges and its terminal snapshot reports the total `-2` (the
sum wrapped to 32 bits), while its spanning tree `0-1, 1-2` and every other spanning
tree weighs 4294967294. -/
theorem kruskal_overflow_counterexample :
    heavyPathGraph.length ≤ 8 ∧ SymmetricGraph heavyPathGraph ∧
    SimpleAdjacency heavyPathGraph ∧ ConnectedGraph heavyPathGraph ∧
    kruskalTrace heavyPathGraph = some
      [GraphStatus.kruskalStart,
       GraphStatus.consideringWeighted 0 1 2147483647, GraphStatus.addedEdge 0 1 2147483647,
       GraphStatus.consideringWeighted 1 2 2147483647, GraphStatus.addedEdge 1 2 2147483647,
       GraphStatus.kruskalComplete (-2)] ∧
    kruskalTotal heavyPathGraph = some (-2) ∧
    IsSpanningTree heavyPathGraph [(2147483647, 0, 1), (2147483647, 1, 2)] ∧
    ∀ T, IsSpanningTree heavyPathGraph T → treeWeight T = 4294967294 := by
  refine ⟨by decide, heavyPath_symmetric, by unfold SimpleAdjacency; decide,
    heavyPath_connected, by decide!, by decide!, ⟨by decide, ?_, by decide⟩,
    heavyPath_tree_weight⟩
  intro x y hx0 hx1 hy0 hy1
  have h01 : Joined [((2147483647, 0, 1) : Edge), (2147483647, 1, 2)] 0 1 :=
    joined_edge _ (2147483647, 0, 1) (by simp)
  have h12 : Joined [((2147483647, 0, 1) : Edge), (2147483647, 1, 2)] 1 2 :=
    joined_edge _ (2147483647, 1, 2) (by simp)
  have h02 := joined_trans _ _ _ _ h01 h12
  rcases three_cases x hx0 hx1 with rfl | rfl | rfl <;>
    rcases three_cases y hy0 hy1 with rfl | rfl | rfl
  · exact joined_refl _ _
  · exact h01
  · exact h02
  · exact joined_symm _ _ _ h01
  · exact joined_refl _ _
  · exact h12
  · exact joined_symm _ _ _ h02
  · exact joined_symm _ _ _ h12
  · exact joined_refl _ _

/-- C10, amended: for every connected undirected graph with at most 8 nodes, given as a
symmetric adjacency list with at most one edge per pair of nodes, whose weights satisfy
`|weight| * nodeCount <= INT_MAX`, `kruskalMST` returns, and the total weight in its
terminal snapshot is the weight of a spanning tree of the graph and at most the weight
of every spanning tree; for the triangle `0-1:1, 1-2:2, 0-2:3` it reports 3, accepting
`(0,1)` and `(1,2)` and rejecting `(0,2)`. -/
theorem kruskalMST_minimum (g : Graph) (hn : g.length ≤ 8) (hsym : SymmetricGraph g)
    (hs : SimpleAdjacency g) (hconn : ConnectedGraph g) (hw : SummableWeights g) :
    (∃ steps visited total, kruskalMST g = Except.ok steps ∧
      steps.getLast? = some
        (graphStateToJson visited (-1) (GraphStatus.kruskalComplete total)) ∧
      kruskalTotal g = some total ∧
      (∃ T, IsSpanningTree g T ∧ treeWeight T = total) ∧
      ∀ T, IsSpanningTree g T → total ≤ treeWeight T) ∧
    kruskalTrace triangleGraph = some
      [GraphStatus.kruskalStart,
       GraphStatus.consideringWeighted 0 1 1, GraphStatus.addedEdge 0 1 1,
       GraphStatus.consideringWeighted 1 2 2, GraphStatus.addedEdge 1 2 2,
       GraphStatus.consideringWeighted 0 2 3, GraphStatus.cycleSkip 0 2,
       GraphStatus.kruskalComplete 3] := by
  refine ⟨?_, by decide!⟩
  obtain ⟨s, hrun, hspan, htot, hopt⟩ :=
    kruskal_minimum g (by omega) hsym hs hconn hw
  refine ⟨_, s.visited, s.mst.foldl (kruskalAddWeight g) 0,
    by unfold kruskalMST; rw [hrun], List.getLast?_concat _,
    by unfold kruskalTotal; rw [hrun], ⟨_, hspan, htot.symm⟩, ?_⟩
  intro T hT
  rw [htot]
  exact hopt T hT

/-- C10 amended, at the triangle `0-1:1, 1-2:2, 0-2:3`: the hypotheses hold, and the
reported total is 3. -/
theorem kruskalMST_minimum_witness :
    kruskalTotal triangleGraph = some 3 ∧
    ((∃ steps visited total, kruskalMST triangleGraph = Except.ok steps ∧
      steps.getLast? = some
        (graphStateToJson visited (-1) (GraphStatus.kruskalComplete total)) ∧
      kruskalTotal triangleGraph = some total ∧
      (∃ T, IsSpanningTree triangleGraph T ∧ treeWeight T = total) ∧
      ∀ T, IsSpanningTree triangleGraph T → total ≤ treeWeight T) ∧
    kruskalTrace triangleGraph = some
      [GraphStatus.kruskalStart,
       GraphStatus.consideringWeighted 0 1 1, GraphStatus.addedEdge 0 1 1,
       GraphStatus.consideringWeighted 1 2 2, GraphStatus.addedEdge 1 2 2,
       GraphStatus.consideringWeighted 0 2 3, GraphStatus.cycleSkip 0 2,
       GraphStatus.kruskalComplete 3]) :=
  ⟨by decide!, kruskalMST_minimum triangleGraph (by decide) triangle_symmetric
    (by unfold SimpleAdjacency; decide) triangle_connected
    (by unfold SummableWeights INT_MAX; decide)⟩

/-! ## Binary search tree: ordering invariant -/

theorem mem_inorder_node (x y : Int) (l r : TreeNode) :
    y ∈ inorder (TreeNode.node x l r) ↔ y ∈ inorder l ∨ y = x ∨ y ∈ inorder r := by
  simp [inorder]

theorem mem_inorder_insertLeaf (v y : Int) : ∀ t : TreeNode,
    y ∈ inorder (insertLeaf v t) ↔ y = v ∨ y ∈ inorder t := by
  intro t
  induction t with
  | nil => simp [insertLeaf, inorder]
  | node x l r ihl ihr =>
    unfold insertLeaf
    split_ifs with h
    · rw [mem_inorder_node, ihl, mem_inorder_node]
      tauto
    · rw [mem_inorder_node, ihr, mem_inorder_node]
      tauto

theorem isBST_insertLeaf (v : Int) : ∀ t : TreeNode, IsBST t → IsBST (insertLeaf v t) := by
  intro t
  induction t with
  | nil => intro _; simp [insertLeaf, IsBST, inorder]
  | node x l r ihl ihr =>
    intro hb
    obtain ⟨hl, hr, hlt, hge⟩ := hb
    unfold insertLeaf
    split_ifs with h
    · refine ⟨ihl hl, hr, ?_, hge⟩
      intro y hy
      rcases (mem_inorder_insertLeaf v y l).mp hy with rfl | hy'
      · exact h
      · exact hlt y hy'
    · refine ⟨hl, ihr hr, hlt, ?_⟩
      intro y hy
      rcases (mem_inorder_insertLeaf v y r).mp hy with rfl | hy'
      · omega
      · exact hge y hy'

theorem bstInsert_tree (t : TreeNode) (v : Int) : (bstInsert t v).1 = insertLeaf v t := by
  cases t with
  | nil => rfl
  | node x l r => rfl

theorem findMinValueNode_spec : ∀ t : TreeNode, t ≠ TreeNode.nil →
    ∃ s sl sr, findMinValueNode t = TreeNode.node s sl sr ∧ s ∈ inorder t ∧
      (IsBST t → ∀ y ∈ inorder t, s ≤ y) := by
  intro t
  induction t with
  | nil => intro h; exact absurd rfl h
  | node x l r ihl _ =>
    intro _
    cases l with
    | nil =>
      refine ⟨x, TreeNode.nil, r, rfl, by simp [inorder], ?_⟩
      intro hb y hy
      obtain ⟨_, _, _, hge⟩ := hb
      rcases (mem_inorder_node x y _ r).mp hy with h | h | h
      · simp [inorder] at h
      · omega
      · exact hge y h
    | node lx ll lr =>
      obtain ⟨s, sl, sr, hs, hmem, hmin⟩ := ihl (by simp)
      refine ⟨s, sl, sr, hs, (mem_inorder_node x s _ r).mpr (Or.inl hmem), ?_⟩
      intro hb y hy
      obtain ⟨hbl, _, hlt, hge⟩ := hb
      have hsx := hlt s hmem
      rcases (mem_inorder_node x y _ r).mp hy with h | h | h
      · exact hmin hbl y h
      · omega
      · have := hge y h
        omega

theorem mem_inorder_delete : ∀ (t : TreeNode) (ctx : TreeNode → TreeNode) (v : Int)
    (steps : List TreeSnapshot) (y : Int),
    y ∈ inorder (deleteNodeHelper ctx t v steps).1 → y ∈ inorder t := by
  intro t
  induction t with
  | nil => intro ctx v steps y h; exact h
  | node x l r ihl ihr =>
    intro ctx v steps y h
    rw [deleteNodeHelper] at h
    simp only [] at h
    split_ifs at h with h1 h2
    · rw [mem_inorder_node] at h ⊢
      rcases h with h | h | h
      · exact Or.inl (ihl _ _ _ _ h)
      · exact Or.inr (Or.inl h)
      · exact Or.inr (Or.inr h)
    · rw [mem_inorder_node] at h ⊢
      rcases h with h | h | h
      · exact Or.inl h
      · exact Or.inr (Or.inl h)
      · exact Or.inr (Or.inr (ihr _ _ _ _ h))
    · cases l with
      | nil =>
        simp only [] at h
        exact (mem_inorder_node x y _ r).mpr (Or.inr (Or.inr h))
      | node lx ll lr =>
        cases r with
        | nil =>
          simp only [] at h
          exact (mem_inorder_node x y _ _).mpr (Or.inl h)
        | node rx rl rr =>
          simp only [] at h
          obtain ⟨s, sl, sr, hs, hmem, _⟩ :=
            findMinValueNode_spec (TreeNode.node rx rl rr) (by simp)
          rw [hs] at h
          simp only [] at h
          rw [mem_inorder_node] at h ⊢
          rcases h with h | h | h
          · exact Or.inl h
          · rw [h]
            exact Or.inr (Or.inr hmem)
          · exact Or.inr (Or.inr (ihr _ _ _ _ h))

theorem isBST_delete : ∀ (t : TreeNode) (ctx : TreeNode → TreeNode) (v : Int)
    (steps : List TreeSnapshot), IsBST t → IsBST (deleteNodeHelper ctx t v steps).1 := by
  intro t
  induction t with
  | nil => intro ctx v steps h; exact h
  | node x l r ihl ihr =>
    intro ctx v steps hb
    obtain ⟨hl, hr, hlt, hge⟩ := hb
    rw [deleteNodeHelper]
    simp only []
    split_ifs with h1 h2
    · exact ⟨ihl _ _ _ hl, hr, fun y hy => hlt y (mem_inorder_delete _ _ _ _ y hy), hge⟩
    · exact ⟨hl, ihr _ _ _ hr, hlt, fun y hy => hge y (mem_inorder_delete _ _ _ _ y hy)⟩
    · cases l with
      | nil => exact hr
      | node lx ll lr =>
        cases r with
        | nil => exact hl
        | node rx rl rr =>
          simp only []
          obtain ⟨s, sl, sr, hs, hmem, hmin⟩ :=
            findMinValueNode_spec (TreeNode.node rx rl rr) (by simp)
          rw [hs]
          simp only []
          have hxs := hge s hmem
          refine ⟨hl, ihr _ _ _ hr, ?_, ?_⟩
          · intro y hy
            have := hlt y hy
            omega
          · intro y hy
            exact hmin hr y (mem_inorder_delete _ _ _ _ y hy)

theorem bstDelete_tree (t : TreeNode) (v : Int) :
    (bstDelete t v).1 = (deleteNodeHelper (fun t => t) t v
      [⟨treeToJson t (-1) false, TreeStatus.deleteStart v⟩]).1 := by
  cases t with
  | nil => rfl
  | node x l r => rfl

theorem isBST_applyTreeOp (t : TreeNode) (op : TreeOp) (hb : IsBST t) :
    IsBST (applyTreeOp t op) := by
  cases op with
  | insert v =>
    show IsBST (bstInsert t v).1
    rw [bstInsert_tree]
    exact isBST_insertLeaf v t hb
  | delete v =>
    show IsBST (bstDelete t v).1
    rw [bstDelete_tree]
    exact isBST_delete t _ v _ hb

theorem isBST_foldl : ∀ (ops : List TreeOp) (t : TreeNode), IsBST t →
    IsBST (ops.foldl applyTreeOp t) := by
  intro ops
  induction ops with
  | nil => intro t h; exact h
  | cons op ops ih => intro t h; exact ih _ (isBST_applyTreeOp t op h)

theorem isBST_treeAfter (ops : List TreeOp) : IsBST (treeAfter ops) :=
  isBST_foldl ops TreeNode.nil trivial

theorem inorder_sorted : ∀ t : TreeNode, IsBST t → List.Sorted (fun a b : Int => a ≤ b) (inorder t) := by
  intro t
  induction t with
  | nil => intro _; exact List.sorted_nil
  | node x l r ihl ihr =>
    intro hb
    obtain ⟨hl, hr, hlt, hge⟩ := hb
    unfold inorder
    unfold List.Sorted
    rw [List.pairwise_append]
    refine ⟨ihl hl, ?_, ?_⟩
    · rw [List.pairwise_cons]
      exact ⟨hge, ihr hr⟩
    · intro a ha b hb'
      have h1 := hlt a ha
      rcases List.mem_cons.mp hb' with h | h
      · omega
      · have := hge b h
        omega

/-- C14: for every sequence of `bstInsert` and `bstDelete` operations, with any
integer values and duplicates allowed, applied starting from the empty tree, the
in-order walk of the resulting tree is sorted in non-decreasing order. -/
theorem inorder_sorted_after_ops (ops : List TreeOp) :
    List.Sorted (fun a b : Int => a ≤ b) (inorder (treeAfter ops)) :=
  inorder_sorted _ (isBST_treeAfter ops)

/-! ## Binary search tree: search after insert and delete -/

theorem searchHits_insertLeaf (v : Int) : ∀ t : TreeNode, SearchHits v (insertLeaf v t) := by
  intro t
  induction t with
  | nil => exact Or.inl rfl
  | node x l r ihl ihr =>
    unfold insertLeaf
    split_ifs with h
    · exact Or.inr (Or.inl ⟨h, ihl⟩)
    · by_cases hx : v = x
      · exact Or.inl hx
      · exact Or.inr (Or.inr ⟨by omega, ihr⟩)

theorem searchHits_mem (v : Int) : ∀ t : TreeNode, SearchHits v t → v ∈ inorder t := by
  intro t
  induction t with
  | nil => intro h; exact absurd h (by simp [SearchHits])
  | node x l r ihl ihr =>
    intro h
    rw [mem_inorder_node]
    rcases h with h | h | h
    · exact Or.inr (Or.inl h)
    · exact Or.inl (ihl h.2)
    · exact Or.inr (Or.inr (ihr h.2))

theorem bstSearchLoop_found (root : TreeNode) (v : Int) : ∀ (cur : TreeNode)
    (steps : List TreeSnapshot), SearchHits v cur →
    (bstSearchLoop root v cur steps).getLast? =
      some ⟨treeToJson root v true, TreeStatus.found v⟩ := by
  intro cur
  induction cur with
  | nil => intro steps h; exact absurd h (by simp [SearchHits])
  | node x l r ihl ihr =>
    intro steps h
    simp only [bstSearchLoop]
    split_ifs with h1 h2
    · rw [← h1]
      exact List.getLast?_concat _
    · rcases h with h | h | h
      · exact absurd h h1
      · exact ihl _ h.2
      · omega
    · rcases h with h | h | h
      · exact absurd h h1
      · omega
      · exact ihr _ h.2

theorem bstSearchLoop_absent (root : TreeNode) (v : Int) : ∀ (cur : TreeNode)
    (steps : List TreeSnapshot), v ∉ inorder cur →
    (bstSearchLoop root v cur steps).getLast? =
      some ⟨treeToJson root (-1) false, TreeStatus.notFound v⟩ := by
  intro cur
  induction cur with
  | nil => intro steps _; exact List.getLast?_concat _
  | node x l r ihl ihr =>
    intro steps h
    rw [mem_inorder_node] at h
    simp only [bstSearchLoop]
    split_ifs with h1 h2
    · exact absurd (Or.inr (Or.inl h1)) h
    · exact ihl _ (fun hc => h (Or.inl hc))
    · exact ihr _ (fun hc => h (Or.inr (Or.inr hc)))

theorem marksFound_treeToJson (v : Int) : ∀ t : TreeNode, v ∈ inorder t →
    (treeToJson t v true).marksFound v = true := by
  intro t
  induction t with
  | nil => intro h; simp [inorder] at h
  | node x l r ihl ihr =>
    intro h
    rw [mem_inorder_node] at h
    simp only [treeToJson, TreeJson.marksFound, Bool.or_eq_true, Bool.and_eq_true,
      decide_eq_true_eq, Bool.true_and]
    rcases h with h | h | h
    · exact Or.inl (Or.inr (ihl h))
    · exact Or.inl (Or.inl ⟨h.symm, h.symm⟩)
    · exact Or.inr (ihr h)

theorem anyFound_treeToJson (hv : Int) : ∀ t : TreeNode,
    (treeToJson t hv false).anyFound = false := by
  intro t
  induction t with
  | nil => rfl
  | node x l r ihl ihr =>
    simp only [treeToJson, TreeJson.anyFound, ihl, ihr, Bool.false_and, Bool.or_self]

theorem bstSearch_hits (t : TreeNode) (v : Int) (h : SearchHits v t) :
    (bstSearch t v).getLast? = some ⟨treeToJson t v true, TreeStatus.found v⟩ := by
  cases t with
  | nil => exact absurd h (by simp [SearchHits])
  | node x l r => exact bstSearchLoop_found _ v _ _ h

theorem bstSearch_absent (t : TreeNode) (v : Int) (h : v ∉ inorder t) :
    ∃ snap, (bstSearch t v).getLast? = some snap ∧
      (snap.status = TreeStatus.notFound v ∨ snap.status = TreeStatus.emptyNotFound) ∧
      snap.tree.anyFound = false := by
  cases t with
  | nil => exact ⟨_, rfl, Or.inr rfl, rfl⟩
  | node x l r =>
    exact ⟨_, bstSearchLoop_absent _ v _ _ h, Or.inl rfl, anyFound_treeToJson _ _⟩

theorem delete_absent : ∀ (t : TreeNode) (ctx : TreeNode → TreeNode) (v : Int)
    (steps : List TreeSnapshot), v ∉ inorder t → (deleteNodeHelper ctx t v steps).1 = t := by
  intro t
  induction t with
  | nil => intro ctx v steps _; rfl
  | node x l r ihl ihr =>
    intro ctx v steps h
    rw [mem_inorder_node] at h
    rw [deleteNodeHelper]
    simp only []
    split_ifs with h1 h2
    · rw [ihl _ _ _ (fun hc => h (Or.inl hc))]
    · rw [ihr _ _ _ (fun hc => h (Or.inr (Or.inr hc)))]
    · exact absurd (Or.inr (Or.inl (by omega))) h

theorem delete_insertLeaf (v : Int) : ∀ (t : TreeNode) (ctx : TreeNode → TreeNode)
    (steps : List TreeSnapshot), v ∉ inorder t →
    (deleteNodeHelper ctx (insertLeaf v t) v steps).1 = t := by
  intro t
  induction t with
  | nil =>
    intro ctx steps _
    simp [insertLeaf, deleteNodeHelper]
  | node x l r ihl ihr =>
    intro ctx steps h
    rw [mem_inorder_node] at h
    have hne : v ≠ x := fun hc => h (Or.inr (Or.inl hc))
    unfold insertLeaf
    split_ifs with h1
    · rw [deleteNodeHelper]
      simp only []
      rw [if_pos h1, ihl _ _ (fun hc => h (Or.inl hc))]
    · rw [deleteNodeHelper]
      simp only []
      rw [if_neg h1, if_pos (by omega), ihr _ _ (fun hc => h (Or.inr (Or.inr hc)))]

/-- C15: for every tree state reached by insert and delete operations and every value
`v`, after `bstInsert(v)` the trace of `bstSearch(v)` ends with the "Found v" snapshot,
in which a node with value `v` is marked `found`; insert 5, insert 3, search 3 ends
with `found` set at the node of value 3 (and nowhere else). -/
theorem bstSearch_after_insert (ops : List TreeOp) (v : Int) :
    (∃ snap, (bstSearch (bstInsert (treeAfter ops) v).1 v).getLast? = some snap ∧
      snap.status = TreeStatus.found v ∧ snap.tree.marksFound v = true) ∧
    (bstSearch (bstInsert (bstInsert TreeNode.nil 5).1 3).1 3).getLast? =
      some ⟨TreeJson.node 5 false false
          (TreeJson.node 3 true true TreeJson.null TreeJson.null) TreeJson.null,
        TreeStatus.found 3⟩ := by
  refine ⟨?_, by decide⟩
  rw [bstInsert_tree]
  have hhit := searchHits_insertLeaf v (treeAfter ops)
  exact ⟨_, bstSearch_hits _ v hhit, rfl, marksFound_treeToJson v _ (searchHits_mem v _ hhit)⟩

/-- C16 as stated fails when the tree already holds `v`: after insert 5 (a reachable
state), `bstInsert(5)` adds a second 5, `bstDelete(5)` removes one of the two, and
`bstSearch(5)` ends with "Found 5" and the remaining node marked `found`. -/
theorem bstSearch_after_delete_duplicate_counterexample :
    treeAfter [TreeOp.insert 5] = TreeNode.node 5 TreeNode.nil TreeNode.nil ∧
    (bstSearch (bstDelete (bstInsert (treeAfter [TreeOp.insert 5]) 5).1 5).1 5).getLast? =
      some ⟨TreeJson.node 5 true true TreeJson.null TreeJson.null, TreeStatus.found 5⟩ := by
  decide

/-- C16, amended: for every tree state reached by insert and delete operations and
every value `v` that does not occur in it, `bstInsert(v)` followed by `bstDelete(v)`
gives the tree back, and `bstSearch(v)` then ends in the "not found" terminal snapshot
("Tree is empty, value not found" for the empty tree) with no node marked `found`. -/
theorem bstSearch_after_insert_delete (ops : List TreeOp) (v : Int)
    (h : v ∉ inorder (treeAfter ops)) :
    (bstDelete (bstInsert (treeAfter ops) v).1 v).1 = treeAfter ops ∧
    ∃ snap, (bstSearch (bstDelete (bstInsert (treeAfter ops) v).1 v).1 v).getLast? =
        some snap ∧
      (snap.status = TreeStatus.notFound v ∨ snap.status = TreeStatus.emptyNotFound) ∧
      snap.tree.anyFound = false := by
  have hback : (bstDelete (bstInsert (treeAfter ops) v).1 v).1 = treeAfter ops := by
    rw [bstDelete_tree, bstInsert_tree]
    exact delete_insertLeaf v _ _ _ h
  rw [hback]
  exact ⟨rfl, bstSearch_absent _ v h⟩

/-- C16 amended, at the tree after insert 5, insert 3 and the value 4. -/
theorem bstSearch_after_insert_delete_witness :
    (bstDelete (bstInsert (treeAfter [TreeOp.insert 5, TreeOp.insert 3]) 4).1 4).1 =
      treeAfter [TreeOp.insert 5, TreeOp.insert 3] ∧
    ∃ snap, (bstSearch
        (bstDelete (bstInsert (treeAfter [TreeOp.insert 5, TreeOp.insert 3]) 4).1 4).1
        4).getLast? = some snap ∧
      (snap.status = TreeStatus.notFound 4 ∨ snap.status = TreeStatus.emptyNotFound) ∧
      snap.tree.anyFound = false :=
  bstSearch_after_insert_delete [TreeOp.insert 5, TreeOp.insert 3] 4 (by decide)

/-- C20: for every tree and every value `v` that does not occur in it (the empty tree
included), `bstDelete(v)` leaves the tree as it was, and its trace ends with the
"Deletion complete" snapshot of that tree ("Tree is empty, nothing to delete" for the
empty tree). -/
theorem bstDelete_absent (t : TreeNode) (v : Int) (h : v ∉ inorder t) :
    (bstDelete t v).1 = t ∧
    ((t ≠ TreeNode.nil ∧ (bstDelete t v).2.getLast? =
        some ⟨treeToJson t (-1) false, TreeStatus.deletionComplete⟩) ∨
     (t = TreeNode.nil ∧ (bstDelete t v).2.getLast? =
        some ⟨TreeJson.null, TreeStatus.emptyNothingToDelete⟩)) := by
  cases t with
  | nil => exact ⟨rfl, Or.inr ⟨rfl, rfl⟩⟩
  | node x l r =>
    have hd := delete_absent (TreeNode.node x l r) (fun t => t) v
      [⟨treeToJson (TreeNode.node x l r) (-1) false, TreeStatus.deleteStart v⟩] h
    refine ⟨hd, Or.inl ⟨by simp, ?_⟩⟩
    show (_ ++ [(⟨treeToJson (deleteNodeHelper (fun t => t) (TreeNode.node x l r) v
      [⟨treeToJson (TreeNode.node x l r) (-1) false, TreeStatus.deleteStart v⟩]).1 (-1) false,
        TreeStatus.deletionComplete⟩ : TreeSnapshot)]).getLast? = _
    rw [hd]
    exact List.getLast?_concat _

/-- C20, at the tree with root 5 and left child 3 and the absent value 4: the tree
is unchanged and the trace ends with "Deletion complete". -/
theorem bstDelete_absent_witness :
    (bstDelete (TreeNode.node 5 (TreeNode.node 3 TreeNode.nil TreeNode.nil) TreeNode.nil) 4).1 =
      TreeNode.node 5 (TreeNode.node 3 TreeNode.nil TreeNode.nil) TreeNode.nil ∧
    ((TreeNode.node 5 (TreeNode.node 3 TreeNode.nil TreeNode.nil) TreeNode.nil ≠ TreeNode.nil ∧
      (bstDelete (TreeNode.node 5 (TreeNode.node 3 TreeNode.nil TreeNode.nil) TreeNode.nil)
        4).2.getLast? =
        some ⟨treeToJson (TreeNode.node 5 (TreeNode.node 3 TreeNode.nil TreeNode.nil)
          TreeNode.nil) (-1) false, TreeStatus.deletionComplete⟩) ∨
     (TreeNode.node 5 (TreeNode.node 3 TreeNode.nil TreeNode.nil) TreeNode.nil = TreeNode.nil ∧
      (bstDelete (TreeNode.node 5 (TreeNode.node 3 TreeNode.nil TreeNode.nil) TreeNode.nil)
        4).2.getLast? = some ⟨TreeJson.null, TreeStatus.emptyNothingToDelete⟩)) :=
  bstDelete_absent (TreeNode.node 5 (TreeNode.node 3 TreeNode.nil TreeNode.nil) TreeNode.nil)
    4 (by decide)

/-! ## Binary max-heap: sift-down -/

theorem heapifyWithVisualization_spec (n s : Nat) :
    ∀ (fuel : Nat) (st : HeapState) (i : Nat), s ≤ i → n ≤ st.1.length → n - i ≤ fuel →
      SiftPre st.1 n s i →
      ∃ st', heapifyWithVisualization n fuel st i = some st' ∧ SiftPost st.1 n s i st'.1 := by
  intro fuel
  induction fuel with
  | zero =>
    intro st i hsi hn hf hpre
    have h1 : ¬ (2 * i + 1 < n) := by omega
    have h2 : ¬ (2 * i + 2 < n) := by omega
    unfold heapifyWithVisualization
    simp only [h1, h2, if_false, ne_eq, not_true_eq_false]
    exact ⟨_, rfl, sift_post_refl st.1 n s i hpre ⟨fun h => by omega, fun h => by omega⟩⟩
  | succ fuel ih =>
    intro st i hsi hn hf hpre
    have rec1 : ∀ steps, 2 * i + 1 < n → st.1.getD i 0 < st.1.getD (2 * i + 1) 0 →
        (2 * i + 2 < n → st.1.getD (2 * i + 2) 0 ≤ st.1.getD (2 * i + 1) 0) →
        ∃ st', heapifyWithVisualization n fuel (swap st.1 i (2 * i + 1), steps) (2 * i + 1) =
          some st' ∧ SiftPost st.1 n s i st'.1 := by
      intro steps hl hgt hr
      obtain ⟨st', hrun, hpost⟩ := ih (swap st.1 i (2 * i + 1), steps) (2 * i + 1) (by omega)
        (by rw [length_swap]; exact hn) (by omega)
        (sift_swap_pre st.1 n s i (2 * i + 1) hsi hn (Or.inl rfl) hl (by omega) (by omega)
          hr hpre)
      exact ⟨st', hrun, sift_post_of_rec st.1 n s i (2 * i + 1) st'.1 (by omega) hl hn hpost⟩
    have rec2 : ∀ steps, 2 * i + 2 < n → st.1.getD i 0 < st.1.getD (2 * i + 2) 0 →
        st.1.getD (2 * i + 1) 0 ≤ st.1.getD (2 * i + 2) 0 →
        ∃ st', heapifyWithVisualization n fuel (swap st.1 i (2 * i + 2), steps) (2 * i + 2) =
          some st' ∧ SiftPost st.1 n s i st'.1 := by
      intro steps hl hgt hr
      obtain ⟨st', hrun, hpost⟩ := ih (swap st.1 i (2 * i + 2), steps) (2 * i + 2) (by omega)
        (by rw [length_swap]; exact hn) (by omega)
        (sift_swap_pre st.1 n s i (2 * i + 2) hsi hn (Or.inr rfl) hl (by omega)
          (fun _ => hr) (by omega) hpre)
      exact ⟨st', hrun, sift_post_of_rec st.1 n s i (2 * i + 2) st'.1 (by omega) hl hn hpost⟩
    unfold heapifyWithVisualization
    simp only []
    by_cases hl : 2 * i + 1 < n
    · by_cases hgl : st.1.getD (2 * i + 1) 0 > st.1.getD i 0
      · by_cases hr : 2 * i + 2 < n
        · by_cases hgr : st.1.getD (2 * i + 2) 0 > st.1.getD (2 * i + 1) 0
          · simp only [hl, hgl, hr, hgr, if_true]
            rw [if_pos (by omega)]
            exact rec2 _ hr (by omega) (by omega)
          · simp only [hl, hgl, hr, hgr, if_true, if_false]
            rw [if_pos (by omega)]
            exact rec1 _ hl hgl (fun _ => by omega)
        · simp only [hl, hgl, hr, if_true, if_false]
          rw [if_pos (by omega)]
          exact rec1 _ hl hgl (fun h => absurd h hr)
      · by_cases hr : 2 * i + 2 < n
        · by_cases hgr : st.1.getD (2 * i + 2) 0 > st.1.getD i 0
          · simp only [hl, hgl, hr, hgr, if_true, if_false]
            rw [if_pos (by omega)]
            exact rec2 _ hr hgr (by omega)
          · simp only [hl, hgl, hr, hgr, if_true, if_false, ne_eq, not_true_eq_false]
            exact ⟨_, rfl, sift_post_refl st.1 n s i hpre ⟨fun h => by omega, fun h => by omega⟩⟩
        · simp only [hl, hgl, hr, if_true, if_false, ne_eq, not_true_eq_false]
          exact ⟨_, rfl, sift_post_refl st.1 n s i hpre ⟨fun h => by omega, fun h => by omega⟩⟩
    · have hr : ¬ (2 * i + 2 < n) := by omega
      simp only [hl, hr, if_false, ne_eq, not_true_eq_false]
      exact ⟨_, rfl, sift_post_refl st.1 n s i hpre ⟨fun h => by omega, fun h => by omega⟩⟩

/-! ## Binary max-heap: the operations keep the heap property -/

theorem isMaxHeap_of_pairs (a : List Int)
    (h : ∀ j c, (c = 2 * j + 1 ∨ c = 2 * j + 2) → c < a.length → a.getD c 0 ≤ a.getD j 0) :
    IsMaxHeap a :=
  fun i => ⟨fun hc => h i _ (Or.inl rfl) hc, fun hc => h i _ (Or.inr rfl) hc⟩

theorem isMaxHeap_pairs (a : List Int) (h : IsMaxHeap a) (j c : Nat)
    (hc : c = 2 * j + 1 ∨ c = 2 * j + 2) (hlt : c < a.length) : a.getD c 0 ≤ a.getD j 0 := by
  rcases hc with rfl | rfl
  · exact (h j).1 hlt
  · exact (h j).2 hlt

theorem buildHeapStep_inv (arr : List Int) (i : Nat) (st : HeapState)
    (h : st.1.length = arr.length ∧ st.1.Perm arr ∧ ∀ j, i + 1 ≤ j → HeapAt st.1 arr.length j) :
    ∃ st', buildHeapStep arr.length st i = some st' ∧
      (st'.1.length = arr.length ∧ st'.1.Perm arr ∧ ∀ j, i ≤ j → HeapAt st'.1 arr.length j) := by
  obtain ⟨hlen, hperm, hheap⟩ := h
  obtain ⟨st', hrun, hlen', hperm', -, hheap'⟩ := heapifyWithVisualization_spec arr.length i
    arr.length (st.1, st.2 ++ [⟨heapToJson st.1 i (-1), HeapStatus.processingNode i⟩]) i
    (le_refl i) (by simp only []; omega) (by omega)
    ⟨fun j hj hji => hheap j (by omega), fun p c hp hpi _ _ => by omega⟩
  exact ⟨st', hrun, by rw [hlen']; exact hlen, hperm'.trans hperm, hheap'⟩

theorem buildHeapWithVisualization_spec (st : HeapState) :
    ∃ st', buildHeapWithVisualization st = some st' ∧ IsMaxHeap st'.1 ∧ st'.1.Perm st.1 := by
  obtain ⟨st1, hrun1, hlen1, hperm1, hheap1⟩ := foldlM_reverse_range'_inv
    (fun i (s : HeapState) => s.1.length = st.1.length ∧ s.1.Perm st.1 ∧
      ∀ j, i ≤ j → HeapAt s.1 st.1.length j)
    (buildHeapStep st.1.length) (st.1.length / 2) 0
    (st.1, st.2 ++ [⟨heapToJson st.1 (-1) (-1), HeapStatus.buildStart⟩])
    ⟨rfl, List.Perm.refl _, fun j hj => ⟨fun h => by omega, fun h => by omega⟩⟩
    (fun i s _ _ hs => buildHeapStep_inv st.1 i s hs)
  refine ⟨(st1.1, st1.2 ++ [⟨heapToJson st1.1 (-1) (-1), HeapStatus.built⟩]), ?_, ?_, hperm1⟩
  · unfold buildHeapWithVisualization
    simp only []
    rw [← List.range_eq_range'] at hrun1
    rw [hrun1]
    rfl
  · intro i
    show HeapAt st1.1 st1.1.length i
    rw [hlen1]
    exact hheap1 i (Nat.zero_le i)

theorem heapInsertLoop_spec : ∀ (fuel : Nat) (st : HeapState) (i : Nat), i ≤ fuel →
    i < st.1.length → SiftUpPre st.1 i →
    ∃ st', heapInsertLoop fuel st i = some st' ∧ IsMaxHeap st'.1 ∧ st'.1.Perm st.1 := by
  intro fuel
  induction fuel with
  | zero =>
    intro st i hi _ hpre
    have h0 : i = 0 := by omega
    subst h0
    unfold heapInsertLoop
    simp only [gt_iff_lt, lt_self_iff_false, if_false]
    refine ⟨st, rfl, isMaxHeap_of_pairs _ ?_, List.Perm.refl _⟩
    intro j c hc hlt
    exact hpre.1 j c hc hlt (by omega)
  | succ fuel ih =>
    intro st i hi hil hpre
    unfold heapInsertLoop
    by_cases h0 : i > 0
    · simp only [h0, if_true]
      by_cases hle : st.1.getD i 0 ≤ st.1.getD ((i - 1) / 2) 0
      · simp only [hle, if_true]
        refine ⟨_, rfl, isMaxHeap_of_pairs _ ?_, List.Perm.refl _⟩
        intro j c hc hlt
        by_cases hci : c = i
        · have hj : j = (i - 1) / 2 := by omega
          rw [hci, hj]
          exact hle
        · exact hpre.1 j c hc hlt hci
      · simp only [hle, if_false]
        have hpl : (i - 1) / 2 < st.1.length := by omega
        obtain ⟨st', hrun, hheap, hperm⟩ := ih
          (swap st.1 i ((i - 1) / 2), st.2 ++
            [⟨heapToJson st.1 i (((i - 1) / 2 : Nat) : Int),
              HeapStatus.comparingParent (st.1.getD i 0) (st.1.getD ((i - 1) / 2) 0)⟩] ++
            [⟨heapToJson st.1 i (((i - 1) / 2 : Nat) : Int), HeapStatus.childGreater⟩] ++
            [⟨heapToJson (swap st.1 i ((i - 1) / 2)) (((i - 1) / 2 : Nat) : Int) (-1),
              HeapStatus.swapped ((swap st.1 i ((i - 1) / 2)).getD ((i - 1) / 2) 0)
                ((swap st.1 i ((i - 1) / 2)).getD i 0)⟩])
          ((i - 1) / 2) (by omega) (by simp only []; rw [length_swap]; exact hpl) (by
            simp only []
            constructor
            · intro j c hc hlt hcp
              rw [length_swap] at hlt
              have f1 := hpre.1 j c hc hlt
              have f2 := hpre.2 c
              have f3 := hpre.1 ((i - 1) / 2) c
              simp only [getD_swap _ _ _ _ hil hpl]
              split_ifs <;> omega
            · intro c hc hlt hp0
              rw [length_swap] at hlt
              have f1 := hpre.1 ((i - 1) / 2) c hc hlt
              have f2 := hpre.1 (((i - 1) / 2 - 1) / 2) ((i - 1) / 2) (by omega) hpl (by omega)
              simp only [getD_swap _ _ _ _ hil hpl]
              split_ifs <;> omega)
        exact ⟨st', hrun, hheap, hperm.trans (swap_perm _ _ _ hil hpl)⟩
    · have hi0 : i = 0 := by omega
      subst hi0
      simp only [gt_iff_lt, lt_self_iff_false, if_false]
      refine ⟨st, rfl, isMaxHeap_of_pairs _ ?_, List.Perm.refl _⟩
      intro j c hc hlt
      exact hpre.1 j c hc hlt (by omega)

theorem heapInsert_spec (heap : List Int) (value : Int) (hh : IsMaxHeap heap) :
    ∃ st', heapInsert heap value = some st' ∧ IsMaxHeap st'.1 ∧
      st'.1.Perm (heap ++ [value]) := by
  have hlen : (heap ++ [value]).length = heap.length + 1 := by simp
  obtain ⟨st', hrun, hheap, hperm⟩ := heapInsertLoop_spec ((heap ++ [value]).length - 1)
    (heap ++ [value], [⟨heapToJson heap (-1) (-1), HeapStatus.insertStart value⟩] ++
      [⟨heapToJson (heap ++ [value]) (((heap ++ [value]).length : Int) - 1) (-1),
        HeapStatus.insertedAtEnd value⟩])
    ((heap ++ [value]).length - 1) (le_refl _) (by simp only []; omega) (by
      simp only []
      constructor
      · intro j c hc hlt hci
        rw [hlen] at hlt hci
        have hc' : c < heap.length := by omega
        rw [List.getD_append _ _ _ _ hc', List.getD_append _ _ _ _ (by omega)]
        exact isMaxHeap_pairs heap hh j c hc hc'
      · intro c hc hlt _
        omega)
  refine ⟨(st'.1, st'.2 ++ [⟨heapToJson st'.1 (-1) (-1), HeapStatus.insertionComplete⟩]),
    ?_, hheap, hperm⟩
  unfold heapInsert
  simp only []
  rw [hrun]
  rfl

theorem createHeap_spec (array : List Int) :
    ∃ st', createHeap array = some st' ∧ IsMaxHeap st'.1 ∧ st'.1.Perm array :=
  buildHeapWithVisualization_spec _

theorem getD_dropLast (l : List Int) (k : Nat) (hk : k + 1 < l.length) :
    l.dropLast.getD k 0 = l.getD k 0 := by
  have h1 : k < l.dropLast.length := by rw [List.length_dropLast]; omega
  rw [List.getD_eq_getElem _ _ h1, List.getD_eq_getElem _ _ (by omega), List.getElem_dropLast]

theorem dropLast_perm (m : Int) (rest : List Int) :
    (m :: ((m :: rest).set 0 ((m :: rest).getLastD m)).dropLast).Perm (m :: rest) := by
  apply List.Perm.cons
  rw [List.set_cons_zero]
  cases rest with
  | nil => simp
  | cons b rest' =>
    have hne : b :: rest' ≠ [] := by simp
    have hlast : (m :: b :: rest').getLastD m = (b :: rest').getLast hne := by
      rw [List.getLastD_cons, List.getLast_eq_getLastD, List.getLastD_cons]
    rw [hlast, List.dropLast_cons_of_ne_nil hne]
    have := List.dropLast_append_getLast hne
    conv_rhs => rw [← this]
    exact (List.perm_append_singleton _ _).symm

theorem heapExtractMax_spec (heap : List Int) (hne : heap ≠ []) (hh : IsMaxHeap heap) :
    ∃ st' m, heapExtractMax heap = some (st', some m) ∧ m = heap.getD 0 0 ∧
      (∀ x ∈ heap, x ≤ m) ∧ heap.Perm (m :: st'.1) ∧ IsMaxHeap st'.1 ∧
      st'.1.length + 1 = heap.length := by
  cases heap with
  | nil => exact absurd rfl hne
  | cons m rest =>
    have hmax : ∀ x ∈ m :: rest, x ≤ m := by
      intro x hx
      obtain ⟨k, hk, hkx⟩ := (mem_iff_getD _ x).mp hx
      have := heap_root_max (m :: rest) (m :: rest).length hh k hk
      rw [hkx] at this
      simpa using this
    have hperm := dropLast_perm m rest
    have hlen1 : (((m :: rest).set 0 ((m :: rest).getLastD m)).dropLast).length = rest.length := by
      rw [List.length_dropLast, List.length_set]
      simp
    unfold heapExtractMax
    simp only []
    by_cases hempty : ((m :: rest).set 0 ((m :: rest).getLastD m)).dropLast = []
    · rw [if_neg (by simpa using hempty)]
      refine ⟨_, m, rfl, by simp, hmax, ?_, ?_, ?_⟩
      · simp only []
        exact hperm.symm
      · simp only []
        rw [hempty]
        intro i
        exact ⟨fun h => by simp at h, fun h => by simp at h⟩
      · simp only []
        rw [hlen1]
        simp
    · rw [if_pos hempty]
      have hset : ∀ k, ((m :: rest).set 0 ((m :: rest).getLastD m)).dropLast.getD k 0 =
          if k + 1 < (m :: rest).length then
            (if k = 0 then (m :: rest).getLastD m else (m :: rest).getD k 0)
          else 0 := by
        intro k
        split_ifs with h1 h2
        · rw [getD_dropLast _ _ (by rw [List.length_set]; exact h1),
            getD_set _ _ _ _ (by simp), if_pos h2]
        · rw [getD_dropLast _ _ (by rw [List.length_set]; exact h1),
            getD_set _ _ _ _ (by simp), if_neg h2]
        · apply getD_of_le
          rw [hlen1]
          simp at h1
          omega
      obtain ⟨st', hrun, hlen', hperm', -, hheap'⟩ := heapifyWithVisualization_spec
        (((m :: rest).set 0 ((m :: rest).getLastD m)).dropLast).length 0
        (((m :: rest).set 0 ((m :: rest).getLastD m)).dropLast).length
        (((m :: rest).set 0 ((m :: rest).getLastD m)).dropLast,
          [⟨heapToJson (m :: rest) (-1) (-1), HeapStatus.extractStart⟩] ++
            [⟨heapToJson (m :: rest) 0 (-1), HeapStatus.maximumIs m⟩] ++
            [⟨heapToJson (((m :: rest).set 0 ((m :: rest).getLastD m)).dropLast) 0 (-1),
              HeapStatus.replacedRoot
                ((((m :: rest).set 0 ((m :: rest).getLastD m)).dropLast).getD 0 0)⟩]) 0
        (le_refl 0) (le_refl _) (by omega) (by
          simp only []
          constructor
          · intro j _ hj0
            have h1 := (hh j).1
            have h2 := (hh j).2
            unfold HeapAt
            rw [hlen1, hset, hset, hset]
            simp only [List.length_cons] at h1 h2 ⊢
            constructor <;> intro hc <;> split_ifs <;> first | omega | contradiction
          · intro p c _ hp _ _
            omega)
      simp only [] at hlen' hperm' hheap'
      rw [hrun]
      refine ⟨_, m, rfl, by simp, hmax, ?_, ?_, ?_⟩
      · simp only []
        exact hperm.symm.trans (List.Perm.cons m hperm'.symm)
      · intro i
        show HeapAt st'.1 st'.1.length i
        rw [hlen']
        exact hheap' i (Nat.zero_le i)
      · simp only []
        rw [hlen', hlen1]
        simp

theorem applyHeapOp_spec (heap : List Int) (op : HeapOp) (hh : IsMaxHeap heap) :
    ∃ heap', applyHeapOp heap op = some heap' ∧ IsMaxHeap heap' := by
  cases op with
  | create array =>
    obtain ⟨st', hrun, hheap, _⟩ := createHeap_spec array
    exact ⟨st'.1, by show (createHeap array).map (fun st => st.1) = _; rw [hrun]; rfl, hheap⟩
  | insert value =>
    obtain ⟨st', hrun, hheap, _⟩ := heapInsert_spec heap value hh
    exact ⟨st'.1, by show (heapInsert heap value).map (fun st => st.1) = _; rw [hrun]; rfl, hheap⟩
  | extractMax =>
    by_cases hne : heap = []
    · subst hne
      exact ⟨[], rfl, hh⟩
    · obtain ⟨st', m, hrun, _, _, _, hheap, _⟩ := heapExtractMax_spec heap hne hh
      exact ⟨st'.1, by show (heapExtractMax heap).map (fun r => r.1.1) = _; rw [hrun]; rfl, hheap⟩
  | clear =>
    exact ⟨[], rfl, fun i => ⟨fun h => by simp at h, fun h => by simp at h⟩⟩

theorem heapOps_spec : ∀ (ops : List HeapOp) (heap : List Int), IsMaxHeap heap →
    ∃ heap', ops.foldlM applyHeapOp heap = some heap' ∧ IsMaxHeap heap' := by
  intro ops
  induction ops with
  | nil => intro heap hh; exact ⟨heap, rfl, hh⟩
  | cons op ops ih =>
    intro heap hh
    obtain ⟨h1, hrun1, hh1⟩ := applyHeapOp_spec heap op hh
    obtain ⟨h2, hrun2, hh2⟩ := ih h1 hh1
    refine ⟨h2, ?_, hh2⟩
    rw [List.foldlM_cons, hrun1]
    exact hrun2

/-- C17: for every sequence of `createHeap`, `heapInsert`, `heapExtractMax` and
`clearHeap` operations applied starting from the empty heap (every prefix of a run is
such a sequence), each operation completes and the persistent heap array then satisfies
`heap[i] >= heap[2i+1]` and `heap[i] >= heap[2i+2]` for every index whose child index
is within the array. -/
theorem heap_property_after_ops (ops : List HeapOp) :
    ∃ heap, heapAfter ops = some heap ∧
      ∀ i : Nat, (2 * i + 1 < heap.length → heap.getD (2 * i + 1) 0 ≤ heap.getD i 0) ∧
        (2 * i + 2 < heap.length → heap.getD (2 * i + 2) 0 ≤ heap.getD i 0) := by
  obtain ⟨heap, hrun, hh⟩ := heapOps_spec ops []
    (fun i => ⟨fun h => by simp at h, fun h => by simp at h⟩)
  exact ⟨heap, hrun, hh⟩

/-- C18: for every non-empty heap state satisfying the max-heap property,
`heapExtractMax` completes and captures a value `m` that is greater than or equal to
every element of the heap; the heap before is a rearrangement of `m` followed by the
heap afterwards (one occurrence of `m` removed, nothing else changed), and the size
decreases by one. -/
theorem heapExtractMax_max (heap : List Int) (hne : heap ≠ [])
    (hh : ∀ i : Nat, (2 * i + 1 < heap.length → heap.getD (2 * i + 1) 0 ≤ heap.getD i 0) ∧
      (2 * i + 2 < heap.length → heap.getD (2 * i + 2) 0 ≤ heap.getD i 0)) :
    ∃ st m, heapExtractMax heap = some (st, some m) ∧ (∀ x ∈ heap, x ≤ m) ∧
      heap.Perm (m :: st.1) ∧ st.1.length + 1 = heap.length := by
  obtain ⟨st', m, hrun, _, hmax, hperm, _, hlen⟩ := heapExtractMax_spec heap hne hh
  exact ⟨st', m, hrun, hmax, hperm, hlen⟩

/-- C18, at the heap `[8, 3, 5]`: 8 is captured and `[5, 3]` remains. -/
theorem heapExtractMax_max_witness :
    (heapExtractMax [8, 3, 5]).map (fun r => (r.1.1, r.2)) = some ([5, 3], some 8) ∧
    ∃ st m, heapExtractMax [8, 3, 5] = some (st, some m) ∧ (∀ x ∈ [8, 3, 5], x ≤ m) ∧
      ([8, 3, 5] : List Int).Perm (m :: st.1) ∧
      st.1.length + 1 = ([8, 3, 5] : List Int).length :=
  ⟨by decide!, heapExtractMax_max [8, 3, 5] (by decide) (by
    intro i
    constructor
    · intro h
      have hi : i = 0 := by simp at h; omega
      subst hi
      decide
    · intro h
      have hi : i = 0 := by simp at h; omega
      subst hi
      decide)⟩

/-! ## Breadth-first search: every reachable node is processed once -/

theorem processingOrder_append (a b : List GraphSnapshot) :
    processingOrder (a ++ b) = processingOrder a ++ processingOrder b := by
  unfold processingOrder
  rw [List.filterMap_append]

theorem reachable_refl (g : Graph) (start : Int) : Reachable g start start :=
  ⟨[], trivial, rfl⟩

theorem reachable_step (g : Graph) (start u : Int) (e : Int × Int)
    (hu : Reachable g start u) (he : e ∈ adj g u) : Reachable g start e.1 := by
  obtain ⟨p, hp, hend⟩ := hu
  refine ⟨p ++ [e], (isWalk_snoc g p start e).mpr ⟨hp, ?_⟩, walkEnd_snoc p start e⟩
  rw [hend]
  exact he

theorem reachable_valid (g : Graph) (hv : ValidGraph g) (start v : Int)
    (hs0 : 0 ≤ start) (hs1 : start < (g.length : Int)) (h : Reachable g start v) :
    0 ≤ v ∧ v < (g.length : Int) := by
  obtain ⟨p, hp, hend⟩ := h
  have := walk_nodes_valid g hv p start hs0 hs1 hp v
  apply this
  rw [← hend]
  exact walkEnd_mem_nodes p start

theorem closed_reachable (g : Graph) (S : List Int)
    (hclosed : ∀ u ∈ S, ∀ e ∈ adj g u, e.1 ∈ S) :
    ∀ (p : List (Int × Int)) (x : Int), x ∈ S → IsWalk g x p → walkEnd x p ∈ S := by
  intro p
  induction p with
  | nil => intro x hx _; exact hx
  | cons e p ih =>
    intro x hx hwalk
    exact ih e.1 (hclosed x hx e hwalk.1) hwalk.2

theorem bfsFold_spec (cur : Int) : ∀ (l : List (Int × Int)) (s : BfsState),
    ∃ new : List Int,
      (l.foldl (bfsNeighbor cur) s).visited = s.visited ++ new ∧
      (l.foldl (bfsNeighbor cur) s).q = s.q ++ new ∧
      processingOrder (l.foldl (bfsNeighbor cur) s).steps = processingOrder s.steps ∧
      (∀ x ∈ new, ∃ e ∈ l, e.1 = x) ∧
      (∀ e ∈ l, e.1 ∈ (l.foldl (bfsNeighbor cur) s).visited) ∧
      (s.visited.Nodup → (l.foldl (bfsNeighbor cur) s).visited.Nodup) := by
  intro l
  induction l with
  | nil =>
    intro s
    exact ⟨[], by simp, by simp, rfl, by simp, by simp, fun h => h⟩
  | cons e l ih =>
    intro s
    rw [List.foldl_cons]
    by_cases hmem : e.1 ∈ s.visited
    · have hs1 : bfsNeighbor cur s e = s := by
        unfold bfsNeighbor
        simp only [hmem, if_true]
      rw [hs1]
      obtain ⟨new, h1, h2, h3, h4, h5, h6⟩ := ih s
      refine ⟨new, h1, h2, h3, ?_, ?_, h6⟩
      · intro x hx
        obtain ⟨e', he', hx'⟩ := h4 x hx
        exact ⟨e', List.mem_cons_of_mem _ he', hx'⟩
      · intro e' he'
        rcases List.mem_cons.mp he' with h | h
        · rw [h, h1]
          exact List.mem_append_left _ hmem
        · exact h5 e' h
    · obtain ⟨new, h1, h2, h3, h4, h5, h6⟩ := ih (bfsNeighbor cur s e)
      have hv1 : (bfsNeighbor cur s e).visited = s.visited ++ [e.1] := by
        unfold bfsNeighbor
        simp only [hmem, if_false]
      have hq1 : (bfsNeighbor cur s e).q = s.q ++ [e.1] := by
        unfold bfsNeighbor
        simp only [hmem, if_false]
      have hp1 : processingOrder (bfsNeighbor cur s e).steps = processingOrder s.steps := by
        unfold bfsNeighbor
        simp only [hmem, if_false]
        rw [processingOrder_append, processingOrder_append]
        simp [processingOrder, graphStateToJson]
      refine ⟨e.1 :: new, ?_, ?_, ?_, ?_, ?_, ?_⟩
      · rw [h1, hv1]; simp
      · rw [h2, hq1]; simp
      · rw [h3, hp1]
      · intro x hx
        rcases List.mem_cons.mp hx with h | h
        · exact ⟨e, List.mem_cons_self _ _, h.symm⟩
        · obtain ⟨e', he', hx'⟩ := h4 x h
          exact ⟨e', List.mem_cons_of_mem _ he', hx'⟩
      · intro e' he'
        rcases List.mem_cons.mp he' with h | h
        · rw [h, h1, hv1]
          simp
        · exact h5 e' h
      · intro hnd
        apply h6
        rw [hv1]
        exact List.Nodup.append hnd (List.nodup_singleton _) (by simpa using hmem)

theorem bfsStep_inv (g : Graph) (start : Int) (hv : ValidGraph g) (hs0 : 0 ≤ start)
    (hs1 : start < (g.length : Int)) (s : BfsState) (current : Int) (rest : List Int)
    (hq : s.q = current :: rest) (hinv : BfsInv g start s) :
    ∃ s', bfsStep g s current rest = Except.ok s' ∧ BfsInv g start s' ∧
      s'.q.length + s.visited.length + 1 = s.q.length + s'.visited.length := by
  have hcm : current ∈ s.visited := by
    rw [hinv.order, hq]
    simp
  have hcr := hinv.reach current hcm
  have hcv := reachable_valid g hv start current hs0 hs1 hcr
  obtain ⟨new, h1, h2, h3, h4, h5, h6⟩ := bfsFold_spec current (g.getD current.toNat [])
    { s with q := rest, steps := s.steps ++
      [graphStateToJson s.visited current (GraphStatus.processing current)] }
  simp only [] at h1 h2 h3 h4 h5 h6
  have hpo : processingOrder (s.steps ++
      [graphStateToJson s.visited current (GraphStatus.processing current)]) =
      processingOrder s.steps ++ [current] := by
    rw [processingOrder_append]
    rfl
  rw [hpo] at h3
  have hadj := adj_eq_getD g current hcv
  refine ⟨_, by unfold bfsStep; rw [if_pos hcv], ⟨?_, h6 hinv.nodup, ?_, ?_, ?_⟩, ?_⟩
  · rw [h1, h2, h3, hinv.order, hq]
    simp
  · intro v hvm
    rw [h1] at hvm
    rcases List.mem_append.mp hvm with h | h
    · exact hinv.reach v h
    · obtain ⟨e, he, hev⟩ := h4 v h
      rw [← hev]
      exact reachable_step g start current e hcr (by rw [hadj]; exact he)
  · rw [h1]
    exact List.mem_append_left _ hinv.hasStart
  · intro u hu e he
    rw [h3] at hu
    rcases List.mem_append.mp hu with h | h
    · rw [h1]
      exact List.mem_append_left _ (hinv.closed u h e he)
    · have huc : u = current := by simpa using h
      rw [huc, hadj] at he
      exact h5 e he
  · rw [h1, h2, hq]
    simp only [List.length_append, List.length_cons]
    omega

theorem bfsLoop_spec (g : Graph) (start : Int) (hv : ValidGraph g) (hs0 : 0 ≤ start)
    (hs1 : start < (g.length : Int)) :
    ∀ (fuel : Nat) (s : BfsState), BfsInv g start s →
      g.length + s.q.length ≤ fuel + s.visited.length →
      ∃ s', bfsLoop g fuel s = Except.ok s' ∧ BfsInv g start s' ∧ s'.q = [] := by
  intro fuel
  induction fuel with
  | zero =>
    intro s hinv hfuel
    have hlen := nodup_length_le g.length s.visited hinv.nodup
      (fun x hx => reachable_valid g hv start x hs0 hs1 (hinv.reach x hx))
    have hq : s.q = [] := List.eq_nil_of_length_eq_zero (by omega)
    exact ⟨s, by unfold bfsLoop; rw [hq], hinv, hq⟩
  | succ fuel ih =>
    intro s hinv hfuel
    cases hq : s.q with
    | nil => exact ⟨s, by unfold bfsLoop; rw [hq], hinv, hq⟩
    | cons current rest =>
      obtain ⟨s1, hstep, hinv1, hm⟩ := bfsStep_inv g start hv hs0 hs1 s current rest hq hinv
      obtain ⟨s2, hloop, hinv2, hq2⟩ := ih s1 hinv1 (by omega)
      refine ⟨s2, ?_, hinv2, hq2⟩
      unfold bfsLoop
      rw [hq]
      simp only []
      rw [hstep]
      exact hloop

theorem bfsInit_inv (g : Graph) (start : Int) : BfsInv g start (bfsInit start) where
  order := rfl
  nodup := List.nodup_singleton _
  reach := fun v hvm => by
    have : v = start := by simpa [bfsInit] using hvm
    rw [this]
    exact reachable_refl g start
  hasStart := by simp [bfsInit]
  closed := fun u hu => by simp [bfsInit, processingOrder, graphStateToJson] at hu

theorem bfs_run_spec (g : Graph) (start : Int) (hv : ValidGraph g) (hs0 : 0 ≤ start)
    (hs1 : start < (g.length : Int)) :
    ∃ steps, breadthFirstSearch g start = Except.ok steps ∧ (processingOrder steps).Nodup ∧
      ∀ v : Int, v ∈ processingOrder steps ↔ Reachable g start v := by
  obtain ⟨s, hloop, hinv, hq⟩ := bfsLoop_spec g start hv hs0 hs1 (g.length + 1)
    (bfsInit start) (bfsInit_inv g start) (by simp [bfsInit])
  have hvis : s.visited = processingOrder s.steps := by
    rw [hinv.order, hq, List.append_nil]
  have hpo : processingOrder
      (s.steps ++ [graphStateToJson s.visited (-1) GraphStatus.bfsComplete]) = s.visited := by
    rw [processingOrder_append, hvis]
    simp [processingOrder, graphStateToJson]
  refine ⟨_, by unfold breadthFirstSearch; rw [hloop], ?_, ?_⟩
  · rw [hpo]
    exact hinv.nodup
  · intro v
    rw [hpo]
    constructor
    · exact hinv.reach v
    · rintro ⟨p, hp, hend⟩
      rw [← hend]
      refine closed_reachable g s.visited ?_ p start hinv.hasStart hp
      intro u hu
      rw [hvis] at hu
      exact hinv.closed u hu

/-- C12: for every graph whose edge targets are valid node indices and every valid
start node, `breadthFirstSearch` returns, each node reachable from `start` is the
current node of exactly one "Processing node" snapshot, and no node unreachable from
`start` is the current node of any. -/
theorem bfs_processes_reachable_once (g : Graph) (start : Int) (hv : ValidGraph g)
    (hs0 : 0 ≤ start) (hs1 : start < (g.length : Int)) :
    ∃ steps, breadthFirstSearch g start = Except.ok steps ∧
      ∀ v : Int, (Reachable g start v → (processingOrder steps).count v = 1) ∧
        (¬ Reachable g start v → (processingOrder steps).count v = 0) := by
  obtain ⟨steps, hrun, hnd, hmem⟩ := bfs_run_spec g start hv hs0 hs1
  refine ⟨steps, hrun, fun v => ⟨fun hr => ?_, fun hr => ?_⟩⟩
  · exact List.count_eq_one_of_mem hnd ((hmem v).mpr hr)
  · exact List.count_eq_zero_of_not_mem (fun hc => hr ((hmem v).mp hc))

/-- C12, at the graph `0 -> 1, 0 -> 2, 1 -> 3` with an extra node 4 that nothing
reaches, from node 0: the processing order is `0, 1, 2, 3`. -/
theorem bfs_processes_reachable_once_witness :
    (breadthFirstSearch [[(1, 1), (2, 1)], [(3, 1)], [], [], [(0, 1)]] 0).map processingOrder =
      Except.ok [0, 1, 2, 3] ∧
    ∃ steps, breadthFirstSearch [[(1, 1), (2, 1)], [(3, 1)], [], [], [(0, 1)]] 0 =
        Except.ok steps ∧
      ∀ v : Int,
        (Reachable [[(1, 1), (2, 1)], [(3, 1)], [], [], [(0, 1)]] 0 v →
          (processingOrder steps).count v = 1) ∧
        (¬ Reachable [[(1, 1), (2, 1)], [(3, 1)], [], [], [(0, 1)]] 0 v →
          (processingOrder steps).count v = 0) :=
  ⟨by decide!, bfs_processes_reachable_once [[(1, 1), (2, 1)], [(3, 1)], [], [], [(0, 1)]] 0
    (by unfold ValidGraph; decide) (by decide) (by decide)⟩

/-! ## Depth-first search: every reachable node is processed once -/

theorem dfsFold_spec (cur : Int) : ∀ (l : List (Int × Int)) (s : DfsState),
    (l.foldl (dfsNeighbor cur) s).visited = s.visited ∧
    processingOrder (l.foldl (dfsNeighbor cur) s).steps = processingOrder s.steps ∧
    ∃ pushed : List Int, (l.foldl (dfsNeighbor cur) s).stack = pushed ++ s.stack ∧
      pushed.length ≤ l.length ∧ (∀ x ∈ pushed, ∃ e ∈ l, e.1 = x) ∧
      (∀ e ∈ l, e.1 ∈ s.visited ∨ e.1 ∈ pushed) := by
  intro l
  induction l with
  | nil => intro s; exact ⟨rfl, rfl, [], rfl, le_refl _, by simp, by simp⟩
  | cons e l ih =>
    intro s
    rw [List.foldl_cons]
    by_cases hmem : e.1 ∈ s.visited
    · have hs1 : dfsNeighbor cur s e = s := by
        unfold dfsNeighbor
        simp only [hmem, if_true]
      rw [hs1]
      obtain ⟨h1, h2, pushed, h3, h4, h5, h6⟩ := ih s
      refine ⟨h1, h2, pushed, h3, by simp only [List.length_cons]; omega, ?_, ?_⟩
      · intro x hx
        obtain ⟨e', he', hx'⟩ := h5 x hx
        exact ⟨e', List.mem_cons_of_mem _ he', hx'⟩
      · intro e' he'
        rcases List.mem_cons.mp he' with h | h
        · rw [h]; exact Or.inl hmem
        · exact h6 e' h
    · obtain ⟨h1, h2, pushed, h3, h4, h5, h6⟩ := ih (dfsNeighbor cur s e)
      have hv1 : (dfsNeighbor cur s e).visited = s.visited := by
        unfold dfsNeighbor
        simp only [hmem, if_false]
      have hs1 : (dfsNeighbor cur s e).stack = e.1 :: s.stack := by
        unfold dfsNeighbor
        simp only [hmem, if_false]
      have hp1 : processingOrder (dfsNeighbor cur s e).steps = processingOrder s.steps := by
        unfold dfsNeighbor
        simp only [hmem, if_false]
        rw [processingOrder_append]
        simp [processingOrder, graphStateToJson]
      refine ⟨by rw [h1, hv1], by rw [h2, hp1], pushed ++ [e.1], ?_, ?_, ?_, ?_⟩
      · rw [h3, hs1]; simp
      · simp only [List.length_append, List.length_cons, List.length_nil]; omega
      · intro x hx
        rcases List.mem_append.mp hx with h | h
        · obtain ⟨e', he', hx'⟩ := h5 x h
          exact ⟨e', List.mem_cons_of_mem _ he', hx'⟩
        · exact ⟨e, List.mem_cons_self _ _, (List.mem_singleton.mp h).symm⟩
      · intro e' he'
        rcases List.mem_cons.mp he' with h | h
        · rw [h]
          exact Or.inr (by simp)
        · rcases h6 e' h with h' | h'
          · rw [hv1] at h'
            exact Or.inl h'
          · exact Or.inr (List.mem_append_left _ h')

theorem dfsStep_inv (g : Graph) (start : Int) (hv : ValidGraph g) (hs0 : 0 ≤ start)
    (hs1 : start < (g.length : Int)) (s : DfsState) (current : Int) (rest : List Int)
    (hq : s.stack = current :: rest) (hinv : DfsInv g start s) :
    ∃ s', dfsStep g s current rest = Except.ok s' ∧ DfsInv g start s' ∧
      s'.stack.length + pendingDeg g s'.visited < s.stack.length + pendingDeg g s.visited := by
  by_cases hcm : current ∈ s.visited
  · refine ⟨{ s with stack := rest }, by unfold dfsStep; rw [if_pos hcm], ⟨hinv.order,
      hinv.nodup, hinv.reachV, ?_, ?_, ?_⟩, ?_⟩
    · intro v hvm
      exact hinv.reachS v (by rw [hq]; exact List.mem_cons_of_mem _ hvm)
    · rcases hinv.hasStart with h | h
      · exact Or.inl h
      · rw [hq] at h
        rcases List.mem_cons.mp h with h' | h'
        · exact Or.inl (by rw [h']; exact hcm)
        · exact Or.inr h'
    · intro u hu e he
      rcases hinv.closed u hu e he with h | h
      · exact Or.inl h
      · rw [hq] at h
        rcases List.mem_cons.mp h with h' | h'
        · exact Or.inl (by rw [h']; exact hcm)
        · exact Or.inr h'
    · rw [hq]
      simp only [List.length_cons]
      omega
  · have hcr := hinv.reachS current (by rw [hq]; simp)
    have hcv := reachable_valid g hv start current hs0 hs1 hcr
    have hadj := adj_eq_getD g current hcv
    obtain ⟨h1, h2, pushed, h3, h4, h5, h6⟩ := dfsFold_spec current
      (g.getD current.toNat []).reverse
      { visited := s.visited ++ [current], stack := rest, steps := s.steps ++
        [graphStateToJson (s.visited ++ [current]) current (GraphStatus.processing current)] }
    simp only [] at h1 h2 h3 h4 h5 h6
    have hpo : processingOrder (s.steps ++
        [graphStateToJson (s.visited ++ [current]) current (GraphStatus.processing current)]) =
        processingOrder s.steps ++ [current] := by
      rw [processingOrder_append]
      rfl
    rw [hpo] at h2
    have hdeg := pendingDeg_visit g s.visited current hcv.1 hcv.2 hcm
    refine ⟨_, by unfold dfsStep; rw [if_neg hcm, if_pos hcv], ⟨?_, ?_, ?_, ?_, ?_, ?_⟩, ?_⟩
    · rw [h1, h2, hinv.order]
    · rw [h1]
      exact List.Nodup.append hinv.nodup (List.nodup_singleton _) (by simpa using hcm)
    · intro v hvm
      rw [h1] at hvm
      rcases List.mem_append.mp hvm with h | h
      · exact hinv.reachV v h
      · have : v = current := by simpa using h
        rw [this]; exact hcr
    · intro v hvm
      rw [h3] at hvm
      rcases List.mem_append.mp hvm with h | h
      · obtain ⟨e, he, hev⟩ := h5 v h
        rw [← hev]
        exact reachable_step g start current e hcr (by
          rw [hadj]; exact List.mem_reverse.mp he)
      · exact hinv.reachS v (by rw [hq]; exact List.mem_cons_of_mem _ h)
    · rw [h1, h3]
      rcases hinv.hasStart with h | h
      · exact Or.inl (List.mem_append_left _ h)
      · rw [hq] at h
        rcases List.mem_cons.mp h with h' | h'
        · exact Or.inl (by rw [h']; simp)
        · exact Or.inr (List.mem_append_right _ h')
    · intro u hu e he
      rw [h1] at hu ⊢
      rw [h3]
      rcases List.mem_append.mp hu with h | h
      · rcases hinv.closed u h e he with h' | h'
        · exact Or.inl (List.mem_append_left _ h')
        · rw [hq] at h'
          rcases List.mem_cons.mp h' with h'' | h''
          · exact Or.inl (by rw [h'']; simp)
          · exact Or.inr (List.mem_append_right _ h'')
      · have huc : u = current := by simpa using h
        rw [huc, hadj] at he
        rcases h6 e (List.mem_reverse.mpr he) with h' | h'
        · exact Or.inl h'
        · exact Or.inr (List.mem_append_left _ h')
    · rw [h1, h3, hq]
      rw [List.length_reverse] at h4
      simp only [List.length_append, List.length_cons]
      omega

theorem dfsLoop_spec (g : Graph) (start : Int) (hv : ValidGraph g) (hs0 : 0 ≤ start)
    (hs1 : start < (g.length : Int)) :
    ∀ (fuel : Nat) (s : DfsState), DfsInv g start s →
      s.stack.length + pendingDeg g s.visited ≤ fuel →
      ∃ s', dfsLoop g fuel s = Except.ok s' ∧ DfsInv g start s' ∧ s'.stack = [] := by
  intro fuel
  induction fuel with
  | zero =>
    intro s hinv hfuel
    have hq : s.stack = [] := List.eq_nil_of_length_eq_zero (by omega)
    exact ⟨s, by unfold dfsLoop; rw [hq], hinv, hq⟩
  | succ fuel ih =>
    intro s hinv hfuel
    cases hq : s.stack with
    | nil => exact ⟨s, by unfold dfsLoop; rw [hq], hinv, hq⟩
    | cons current rest =>
      obtain ⟨s1, hstep, hinv1, hm⟩ := dfsStep_inv g start hv hs0 hs1 s current rest hq hinv
      obtain ⟨s2, hloop, hinv2, hq2⟩ := ih s1 hinv1 (by omega)
      refine ⟨s2, ?_, hinv2, hq2⟩
      unfold dfsLoop
      rw [hq]
      simp only []
      rw [hstep]
      exact hloop

theorem dfsInit_inv (g : Graph) (start : Int) : DfsInv g start (dfsInit start) where
  order := rfl
  nodup := List.nodup_nil
  reachV := fun v hvm => by simp [dfsInit] at hvm
  reachS := fun v hvm => by
    have : v = start := by simpa [dfsInit] using hvm
    rw [this]
    exact reachable_refl g start
  hasStart := Or.inr (by simp [dfsInit])
  closed := fun u hu => by simp [dfsInit] at hu

theorem dfs_run_spec (g : Graph) (start : Int) (hv : ValidGraph g) (hs0 : 0 ≤ start)
    (hs1 : start < (g.length : Int)) :
    ∃ steps, depthFirstSearch g start = Except.ok steps ∧ (processingOrder steps).Nodup ∧
      ∀ v : Int, v ∈ processingOrder steps ↔ Reachable g start v := by
  obtain ⟨s, hloop, hinv, hq⟩ := dfsLoop_spec g start hv hs0 hs1 (edgeCount g + 1)
    (dfsInit start) (dfsInit_inv g start) (by
      have := pendingDeg_nil g
      simp only [dfsInit, List.length_cons, List.length_nil]
      omega)
  have hpo : processingOrder
      (s.steps ++ [graphStateToJson s.visited (-1) GraphStatus.dfsComplete]) = s.visited := by
    rw [processingOrder_append, hinv.order]
    simp [processingOrder, graphStateToJson]
  have hstart : start ∈ s.visited := by
    rcases hinv.hasStart with h | h
    · exact h
    · rw [hq] at h
      simp at h
  refine ⟨_, by unfold depthFirstSearch; rw [hloop], ?_, ?_⟩
  · rw [hpo]
    exact hinv.nodup
  · intro v
    rw [hpo]
    constructor
    · exact hinv.reachV v
    · rintro ⟨p, hp, hend⟩
      rw [← hend]
      refine closed_reachable g s.visited ?_ p start hstart hp
      intro u hu e he
      rcases hinv.closed u hu e he with h | h
      · exact h
      · rw [hq] at h
        simp at h

/-- C13: for every graph whose edge targets are valid node indices and every valid
start node, `depthFirstSearch` returns, each node reachable from `start` is the current
node of exactly one "Processing node" snapshot, and no node unreachable from `start` is
the current node of any; a round of the loop that pops a node already visited records
no snapshot. -/
theorem dfs_processes_reachable_once (g : Graph) (start : Int) (hv : ValidGraph g)
    (hs0 : 0 ≤ start) (hs1 : start < (g.length : Int)) :
    (∃ steps, depthFirstSearch g start = Except.ok steps ∧
      ∀ v : Int, (Reachable g start v → (processingOrder steps).count v = 1) ∧
        (¬ Reachable g start v → (processingOrder steps).count v = 0)) ∧
    ∀ (s : DfsState) (current : Int) (rest : List Int), current ∈ s.visited →
      ∃ s', dfsStep g s current rest = Except.ok s' ∧ s'.steps = s.steps := by
  obtain ⟨steps, hrun, hnd, hmem⟩ := dfs_run_spec g start hv hs0 hs1
  refine ⟨⟨steps, hrun, fun v => ⟨fun hr => ?_, fun hr => ?_⟩⟩, ?_⟩
  · exact List.count_eq_one_of_mem hnd ((hmem v).mpr hr)
  · exact List.count_eq_zero_of_not_mem (fun hc => hr ((hmem v).mp hc))
  · intro s current rest hc
    exact ⟨{ s with stack := rest }, by unfold dfsStep; rw [if_pos hc], rfl⟩

/-- C13, at the graph `0 -> 1, 0 -> 2, 1 -> 2, 1 -> 3` with an extra node 4 that nothing
reaches, from node 0: node 2 is pushed twice and processed once, the processing order
is `0, 1, 2, 3`. -/
theorem dfs_processes_reachable_once_witness :
    (depthFirstSearch [[(1, 1), (2, 1)], [(2, 1), (3, 1)], [], [], [(0, 1)]] 0).map
      processingOrder = Except.ok [0, 1, 2, 3] ∧
    ((∃ steps, depthFirstSearch [[(1, 1), (2, 1)], [(2, 1), (3, 1)], [], [], [(0, 1)]] 0 =
        Except.ok steps ∧
      ∀ v : Int,
        (Reachable [[(1, 1), (2, 1)], [(2, 1), (3, 1)], [], [], [(0, 1)]] 0 v →
          (processingOrder steps).count v = 1) ∧
        (¬ Reachable [[(1, 1), (2, 1)], [(2, 1), (3, 1)], [], [], [(0, 1)]] 0 v →
          (processingOrder steps).count v = 0)) ∧
    ∀ (s : DfsState) (current : Int) (rest : List Int), current ∈ s.visited →
      ∃ s', dfsStep [[(1, 1), (2, 1)], [(2, 1), (3, 1)], [], [], [(0, 1)]] s current rest =
        Except.ok s' ∧ s'.steps = s.steps) :=
  ⟨by decide!, dfs_processes_reachable_once
    [[(1, 1), (2, 1)], [(2, 1), (3, 1)], [], [], [(0, 1)]] 0
    (by unfold ValidGraph; decide) (by decide) (by decide)⟩

/-! ## Start nodes outside the graph -/

theorem primFold_spec : ∀ (xs : List Edge) (m : Edge),
    (xs.foldl (fun m y => if tupleLe y m then y else m) m = m ∨
      xs.foldl (fun m y => if tupleLe y m then y else m) m ∈ xs) ∧
    (xs.foldl (fun m y => if tupleLe y m then y else m) m).1 ≤ m.1 ∧
    ∀ e ∈ xs, (xs.foldl (fun m y => if tupleLe y m then y else m) m).1 ≤ e.1 := by
  intro xs
  induction xs with
  | nil => intro m; simp
  | cons x xs ih =>
    intro m
    rw [List.foldl_cons]
    by_cases h : tupleLe x m
    · rw [if_pos h]
      obtain ⟨h1, h2, h3⟩ := ih x
      have hx : x.1 ≤ m.1 := by unfold tupleLe at h; omega
      refine ⟨Or.inr ?_, by omega, ?_⟩
      · rcases h1 with e | e
        · rw [e]; exact List.mem_cons_self _ _
        · exact List.mem_cons_of_mem _ e
      · intro e he
        rcases List.mem_cons.mp he with rfl | he
        · exact h2
        · exact h3 e he
    · rw [if_neg h]
      obtain ⟨h1, h2, h3⟩ := ih m
      have hx : m.1 ≤ x.1 := by unfold tupleLe at h; omega
      refine ⟨?_, h2, ?_⟩
      · rcases h1 with e | e
        · exact Or.inl e
        · exact Or.inr (List.mem_cons_of_mem _ e)
      · intro e he
        rcases List.mem_cons.mp he with rfl | he
        · omega
        · exact h3 e he

theorem primTop_none (pq : List Edge) (h : primTop pq = none) : pq = [] := by
  cases pq with
  | nil => rfl
  | cons x xs => simp [primTop] at h

theorem primTop_some (pq : List Edge) (t : Edge) (h : primTop pq = some t) :
    t ∈ pq ∧ ∀ e ∈ pq, t.1 ≤ e.1 := by
  cases pq with
  | nil => simp [primTop] at h
  | cons x xs =>
    simp only [primTop, Option.some.injEq] at h
    obtain ⟨h1, h2, h3⟩ := primFold_spec xs x
    rw [h] at h1 h2 h3
    constructor
    · rcases h1 with e | e
      · rw [e]; exact List.mem_cons_self _ _
      · exact List.mem_cons_of_mem _ e
    · intro e he
      rcases List.mem_cons.mp he with rfl | he
      · exact h2
      · exact h3 e he

theorem nodup_full (n : Nat) (l : List Int) (hnd : l.Nodup)
    (hr : ∀ x ∈ l, 0 ≤ x ∧ x < (n : Int)) (hlen : n ≤ l.length) :
    ∀ v : Int, 0 ≤ v → v < (n : Int) → v ∈ l := by
  intro v h0 h1
  by_contra hc
  have := nodup_length_le n (v :: l) (List.nodup_cons.mpr ⟨hc, hnd⟩) (by
    intro x hx
    rcases List.mem_cons.mp hx with h | h
    · rw [h]; exact ⟨h0, h1⟩
    · exact hr x h)
  simp only [List.length_cons] at this
  omega

theorem sum_indicator (lo hi x : Int) (h0 : lo ≤ x) (h1 : x ≤ hi) :
    (Finset.sum (Finset.Ico lo hi) fun c => if x ≤ c then (1 : Int) else 0) = hi - x := by
  rw [Finset.sum_boole]
  have hf : Finset.filter (fun c => x ≤ c) (Finset.Ico lo hi) = Finset.Ico x hi := by
    ext c
    simp only [Finset.mem_filter, Finset.mem_Ico]
    omega
  rw [hf, Int.card_Ico]
  omega

theorem sum_threshold_counts (lo hi : Int) : ∀ (L : List Int),
    (∀ x ∈ L, lo ≤ x ∧ x ≤ hi) →
    (Finset.sum (Finset.Ico lo hi)
      fun c => ((L.filter (fun x => decide (x ≤ c))).length : Int)) =
      (L.length : Int) * hi - L.sum := by
  intro L
  induction L with
  | nil => intro _; simp
  | cons x L ih =>
    intro h
    have hx := h x (List.mem_cons_self _ _)
    have hstep : ∀ c : Int, (((x :: L).filter (fun y => decide (y ≤ c))).length : Int) =
        (if x ≤ c then (1 : Int) else 0) + ((L.filter (fun y => decide (y ≤ c))).length : Int) := by
      intro c
      by_cases hc : x ≤ c
      · rw [List.filter_cons_of_pos (by simpa using hc), if_pos hc]
        simp only [List.length_cons]
        push_cast
        ring
      · rw [List.filter_cons_of_neg (by simpa using hc), if_neg hc]
        ring
    rw [Finset.sum_congr rfl (fun c _ => hstep c), Finset.sum_add_distrib,
      sum_indicator lo hi x hx.1 hx.2, ih (fun y hy => h y (List.mem_cons_of_mem _ hy))]
    simp only [List.length_cons, List.sum_cons]
    push_cast
    ring

theorem bounds_exist : ∀ (L : List Int), ∃ lo hi : Int, ∀ x ∈ L, lo ≤ x ∧ x ≤ hi := by
  intro L
  induction L with
  | nil => exact ⟨0, 0, by simp⟩
  | cons x L ih =>
    obtain ⟨lo, hi, h⟩ := ih
    refine ⟨min lo x, max hi x, ?_⟩
    intro y hy
    rcases List.mem_cons.mp hy with rfl | hy'
    · exact ⟨min_le_right _ _, le_max_right _ _⟩
    · have := h y hy'
      exact ⟨le_trans (min_le_left _ _) this.1, le_trans this.2 (le_max_left _ _)⟩

theorem sum_le_of_threshold_counts (A B : List Int) (hlen : A.length = B.length)
    (hcount : ∀ c : Int, (B.filter (fun x => decide (x ≤ c))).length ≤
      (A.filter (fun x => decide (x ≤ c))).length) : A.sum ≤ B.sum := by
  obtain ⟨lo, hi, hb⟩ := bounds_exist (A ++ B)
  have hA := sum_threshold_counts lo hi A (fun x hx => hb x (List.mem_append_left _ hx))
  have hB := sum_threshold_counts lo hi B (fun x hx => hb x (List.mem_append_right _ hx))
  have hle : (Finset.sum (Finset.Ico lo hi)
      fun c => ((B.filter (fun x => decide (x ≤ c))).length : Int)) ≤
      (Finset.sum (Finset.Ico lo hi)
        fun c => ((A.filter (fun x => decide (x ≤ c))).length : Int)) := by
    apply Finset.sum_le_sum
    intro c _
    exact_mod_cast hcount c
  rw [hA, hB, hlen] at hle
  omega

/-! ## Prim: a forest that joins whatever a second forest joins is at least as long -/

theorem forest_threshold (n : Nat) (F T : List Edge) (hvalF : ∀ e ∈ F, EdgeValid n e)
    (hvalT : ∀ e ∈ T, EdgeValid n e) (hF : greedyFrom (initLabels n) F = F)
    (hT : greedyFrom (initLabels n) T = T) (c : Int)
    (hker : ∀ x y : Int, 0 ≤ x → x < (n : Int) → 0 ≤ y → y < (n : Int) →
      Joined (T.filter (fun e => decide (e.1 ≤ c))) x y →
      Joined (F.filter (fun e => decide (e.1 ≤ c))) x y) :
    (T.filter (fun e => decide (e.1 ≤ c))).length ≤
      (F.filter (fun e => decide (e.1 ≤ c))).length := by
  have hsubF : (F.filter (fun e => decide (e.1 ≤ c))).Sublist F := List.filter_sublist _
  have hsubT : (T.filter (fun e => decide (e.1 ≤ c))).Sublist T := List.filter_sublist _
  have hvF : ∀ e ∈ F.filter (fun e => decide (e.1 ≤ c)), EdgeValid n e :=
    fun e he => hvalF e (hsubF.subset he)
  have hvT : ∀ e ∈ T.filter (fun e => decide (e.1 ≤ c)), EdgeValid n e :=
    fun e he => hvalT e (hsubT.subset he)
  have heF := subforest n F _ hsubF (initLabels n) (initLabels n) (labOK_init n) (labOK_init n)
    hvalF (fun _ _ _ _ _ _ h => h) hF
  have heT := subforest n T _ hsubT (initLabels n) (initLabels n) (labOK_init n) (labOK_init n)
    hvalT (fun _ _ _ _ _ _ h => h) hT
  have hcF := greedy_count n _ hvF
  have hcT := greedy_count n _ hvT
  rw [heF] at hcF
  rw [heT] at hcT
  have hkF := labels_kernel n _ hvF
  have hkT := labels_kernel n _ hvT
  have hle := rootCount_le n _ _ hkT.1 hkF.1 (by
    intro x y hx0 hx1 hy0 hy1 hxy
    exact (hkF.2 x y hx0 hx1 hy0 hy1).mpr
      (hker x y hx0 hx1 hy0 hy1 ((hkT.2 x y hx0 hx1 hy0 hy1).mp hxy)))
  omega

theorem treeWeight_le_of_threshold (F T : List Edge) (hlen : F.length = T.length)
    (hcount : ∀ c : Int, (T.filter (fun e => decide (e.1 ≤ c))).length ≤
      (F.filter (fun e => decide (e.1 ≤ c))).length) : treeWeight F ≤ treeWeight T := by
  unfold treeWeight
  apply sum_le_of_threshold_counts
  · rw [List.length_map, List.length_map, hlen]
  · intro c
    have e1 : ∀ L : List Edge, ((L.map (fun e => e.1)).filter (fun x => decide (x ≤ c))).length =
        (L.filter (fun e => decide (e.1 ≤ c))).length := by
      intro L
      rw [List.filter_map, List.length_map]
      rfl
    rw [e1, e1]
    exact hcount c

/-! ## Prim: the loop invariant -/

theorem addedEdges_append (a b : List GraphSnapshot) :
    addedEdges (a ++ b) = addedEdges a ++ addedEdges b := by
  unfold addedEdges
  rw [List.filterMap_append]

theorem treeWeight_append (A B : List Edge) :
    treeWeight (A ++ B) = treeWeight A + treeWeight B := by
  unfold treeWeight
  rw [List.map_append, List.sum_append]

theorem treeWeight_bound (g : Graph) (hw : SummableWeights g) : ∀ (F : List Edge),
    (∀ e ∈ F, (e.2.2, e.1) ∈ adj g e.2.1) →
    -((F.length : Int) * 2147483647) ≤ treeWeight F * (g.length : Int) ∧
      treeWeight F * (g.length : Int) ≤ (F.length : Int) * 2147483647 := by
  intro F
  induction F with
  | nil => intro _; simp [treeWeight]
  | cons e F ih =>
    intro h
    obtain ⟨h1, h2⟩ := ih (fun e' he' => h e' (List.mem_cons_of_mem _ he'))
    obtain ⟨l, hl, hel⟩ := mem_adj_mem_graph g _ _ (h e (List.mem_cons_self _ _))
    have hb := hw l hl _ hel
    unfold INT_MAX at hb
    simp only [] at hb
    rw [treeWeight_cons]
    simp only [List.length_cons]
    push_cast
    constructor <;> nlinarith

theorem lightJoined_mem (g : Graph) (c : Int) (S : List Int)
    (hclosed : ∀ x y w, w ≤ c → (y, w) ∈ adj g x → (x ∈ S ↔ y ∈ S)) (a b : Int)
    (h : LightJoined g c a b) : a ∈ S ↔ b ∈ S := by
  induction h with
  | rel x y hxy =>
    obtain ⟨w, hw, hadj⟩ := hxy
    exact hclosed x y w hw hadj
  | refl x => exact Iff.rfl
  | symm x y _ ih => exact ih.symm
  | trans x y z _ _ ih1 ih2 => exact ih1.trans ih2

theorem primStep_skip (g : Graph) (s : PrimState) (top : Edge) (hinv : PrimInv g s)
    (htop : top ∈ s.pq) (hvis : top.2.1 ∈ s.visited) :
    ∃ s', primStep g s top = Except.ok s' ∧ PrimInv g s' ∧
      s'.pq.length + pendingDeg g s'.visited < s.pq.length + pendingDeg g s.visited := by
  have hadd : addedEdges (s.steps ++
      [graphStateToJson s.visited (-1) (GraphStatus.primSkip top.2.2 top.2.1)]) =
      addedEdges s.steps := by
    rw [addedEdges_append]
    simp [addedEdges, graphStateToJson]
  refine ⟨{ s with
      pq := s.pq.erase top
      steps := s.steps ++
        [graphStateToJson s.visited (-1) (GraphStatus.primSkip top.2.2 top.2.1)] },
    by unfold primStep; rw [if_pos hvis], ⟨hinv.nodup, hinv.valid, ?_, ?_, ?_, ?_,
    ?_, ?_, ?_, hinv.hasStart⟩, ?_⟩
  · show (addedEdges (s.steps ++ _)).length + 1 = _
    rw [hadd]; exact hinv.count
  · show s.totalWeight = treeWeight (addedEdges (s.steps ++ _))
    rw [hadd]; exact hinv.total
  · show ∀ e ∈ addedEdges (s.steps ++ _), _
    rw [hadd]; exact hinv.entries
  · show ∀ v ∈ s.visited, Joined (addedEdges (s.steps ++ _)) 0 v
    rw [hadd]; exact hinv.joined
  · intro e he
    exact hinv.pqFrom e (List.mem_of_mem_erase he)
  · intro x hx a ha hna
    have hmem := hinv.pqHas x hx a ha hna
    refine (List.mem_erase_of_ne ?_).mpr hmem
    intro hc
    apply hna
    rw [← hc] at hvis
    exact hvis
  · show ∀ (c a b : Int), a ∈ s.visited → b ∈ s.visited → LightJoined g c a b →
      Joined ((addedEdges (s.steps ++ _)).filter _) a b
    rw [hadd]; exact hinv.light
  · show (s.pq.erase top).length + pendingDeg g s.visited < _
    rw [List.length_erase_of_mem htop]
    have : 0 < s.pq.length := List.length_pos_of_mem htop
    omega

theorem prim_light_step (g : Graph) (hsym : SymmetricGraph g) (s : PrimState) (top : Edge)
    (hinv : PrimInv g s) (hsrc : top.2.2 ∈ s.visited)
    (hedge : (top.2.1, top.1) ∈ adj g top.2.2) (hmin : ∀ e ∈ s.pq, top.1 ≤ e.1)
    (hvis : top.2.1 ∉ s.visited) :
    ∀ (c a b : Int), a ∈ s.visited ++ [top.2.1] → b ∈ s.visited ++ [top.2.1] →
      LightJoined g c a b →
      Joined ((addedEdges s.steps ++ [(top.1, top.2.2, top.2.1)]).filter
        (fun e => decide (e.1 ≤ c))) a b := by
  intro c a b ha hb hab
  by_cases hwc : top.1 ≤ c
  · have hfil : (addedEdges s.steps ++ [(top.1, top.2.2, top.2.1)]).filter
        (fun e => decide (e.1 ≤ c)) =
        (addedEdges s.steps).filter (fun e => decide (e.1 ≤ c)) ++
          [(top.1, top.2.2, top.2.1)] := by
      rw [List.filter_append]
      simp [hwc]
    rw [hfil]
    have hmono : ∀ x y, Joined ((addedEdges s.steps).filter (fun e => decide (e.1 ≤ c))) x y →
        Joined ((addedEdges s.steps).filter (fun e => decide (e.1 ≤ c)) ++
          [(top.1, top.2.2, top.2.1)]) x y :=
      fun x y hxy => joined_mono _ _ (fun e he => List.mem_append_left _ he) x y hxy
    have hJ : Joined ((addedEdges s.steps).filter (fun e => decide (e.1 ≤ c)) ++
        [(top.1, top.2.2, top.2.1)]) top.2.2 top.2.1 :=
      joined_edge _ (top.1, top.2.2, top.2.1) (by simp)
    have hL : LightJoined g c top.2.2 top.2.1 :=
      Relation.EqvGen.rel _ _ ⟨top.1, hwc, hedge⟩
    have hrep : ∀ x, x ∈ s.visited ++ [top.2.1] → ∃ r, r ∈ s.visited ∧
        LightJoined g c x r ∧
        Joined ((addedEdges s.steps).filter (fun e => decide (e.1 ≤ c)) ++
          [(top.1, top.2.2, top.2.1)]) x r := by
      intro x hx
      rcases List.mem_append.mp hx with h | h
      · exact ⟨x, h, Relation.EqvGen.refl _, joined_refl _ _⟩
      · rw [List.mem_singleton.mp h]
        exact ⟨top.2.2, hsrc, Relation.EqvGen.symm _ _ hL, joined_symm _ _ _ hJ⟩
    obtain ⟨ra, hra, hla, hja⟩ := hrep a ha
    obtain ⟨rb, hrb, hlb, hjb⟩ := hrep b hb
    have hlr : LightJoined g c ra rb :=
      Relation.EqvGen.trans _ _ _ (Relation.EqvGen.symm _ _ hla)
        (Relation.EqvGen.trans _ _ _ hab hlb)
    have hjr := hmono ra rb (hinv.light c ra rb hra hrb hlr)
    exact joined_trans _ _ _ _ hja (joined_trans _ _ _ _ hjr (joined_symm _ _ _ hjb))
  · have hfil : (addedEdges s.steps ++ [(top.1, top.2.2, top.2.1)]).filter
        (fun e => decide (e.1 ≤ c)) =
        (addedEdges s.steps).filter (fun e => decide (e.1 ≤ c)) := by
      rw [List.filter_append]
      simp [hwc]
    rw [hfil]
    have hclosed : ∀ x y w, w ≤ c → (y, w) ∈ adj g x → (x ∈ s.visited ↔ y ∈ s.visited) := by
      intro x y w hwle hadj
      constructor
      · intro hx
        by_contra hy
        have := hmin _ (hinv.pqHas x hx (y, w) hadj hy)
        simp only [] at this
        omega
      · intro hy
        by_contra hx
        have := hmin _ (hinv.pqHas y hy (x, w) (hsym x y w hadj) hx)
        simp only [] at this
        omega
    have hiff := lightJoined_mem g c s.visited hclosed a b hab
    rcases List.mem_append.mp ha with h | h
    · exact hinv.light c a b h (hiff.mp h) hab
    · have hbn : b ∉ s.visited := by
        intro hc
        have := hiff.mpr hc
        rw [List.mem_singleton.mp h] at this
        exact hvis this
      rcases List.mem_append.mp hb with h' | h'
      · exact absurd h' hbn
      · rw [List.mem_singleton.mp h, List.mem_singleton.mp h']
        exact joined_refl _ _

theorem primStep_add (g : Graph) (hv : ValidGraph g) (hsym : SymmetricGraph g)
    (hw : SummableWeights g) (s : PrimState) (top : Edge) (hinv : PrimInv g s)
    (htop : top ∈ s.pq) (hmin : ∀ e ∈ s.pq, top.1 ≤ e.1) (hvis : top.2.1 ∉ s.visited) :
    ∃ s', primStep g s top = Except.ok s' ∧ PrimInv g s' ∧
      s'.pq.length + pendingDeg g s'.visited < s.pq.length + pendingDeg g s.visited := by
  obtain ⟨hsrc, hedge⟩ := hinv.pqFrom top htop
  have hdv := mem_adj_valid g hv top.2.2 (top.2.1, top.1) hedge
  simp only [] at hdv
  have hadj := adj_eq_getD g top.2.1 hdv
  have hnd1 : (s.visited ++ [top.2.1]).Nodup :=
    List.Nodup.append hinv.nodup (List.nodup_singleton _) (by simpa using hvis)
  have hval1 : ∀ v ∈ s.visited ++ [top.2.1], 0 ≤ v ∧ v < (g.length : Int) := by
    intro v hvm
    rcases List.mem_append.mp hvm with h | h
    · exact hinv.valid v h
    · rw [List.mem_singleton.mp h]; exact hdv
  have hlen1 := nodup_length_le g.length _ hnd1 hval1
  simp only [List.length_append, List.length_cons, List.length_nil] at hlen1
  have hadd : addedEdges (s.steps ++
      [graphStateToJson (s.visited ++ [top.2.1]) top.2.1
        (GraphStatus.addedEdge top.2.2 top.2.1 top.1)] ++
      [graphStateToJson (s.visited ++ [top.2.1]) top.2.1 (GraphStatus.primQueued top.2.1)]) =
      addedEdges s.steps ++ [(top.1, top.2.2, top.2.1)] := by
    rw [addedEdges_append, addedEdges_append]
    simp [addedEdges, graphStateToJson]
  have hent1 : ∀ e ∈ addedEdges s.steps ++ [(top.1, top.2.2, top.2.1)],
      (e.2.2, e.1) ∈ adj g e.2.1 := by
    intro e he
    rcases List.mem_append.mp he with h | h
    · exact hinv.entries e h
    · rw [List.mem_singleton.mp h]; exact hedge
  have hcount := hinv.count
  have htot : wrapInt (s.totalWeight + top.1) =
      treeWeight (addedEdges s.steps ++ [(top.1, top.2.2, top.2.1)]) := by
    have hb := treeWeight_bound g hw _ hent1
    have he : treeWeight (addedEdges s.steps ++ [(top.1, top.2.2, top.2.1)]) =
        s.totalWeight + top.1 := by
      rw [treeWeight_append, hinv.total]
      simp [treeWeight]
    rw [he] at hb
    simp only [List.length_append, List.length_cons, List.length_nil] at hb
    have hn : ((addedEdges s.steps).length : Int) + 1 + 1 ≤ (g.length : Int) := by omega
    have hn0 : (0 : Int) < (g.length : Int) := by omega
    rw [he]
    apply wrapInt_eq
    · by_contra hc
      push_cast at hb
      nlinarith
    · by_contra hc
      push_cast at hb
      nlinarith
  have hjoin1 : ∀ v ∈ s.visited ++ [top.2.1],
      Joined (addedEdges s.steps ++ [(top.1, top.2.2, top.2.1)]) 0 v := by
    intro v hvm
    have hmono : ∀ x, Joined (addedEdges s.steps) 0 x →
        Joined (addedEdges s.steps ++ [(top.1, top.2.2, top.2.1)]) 0 x :=
      fun x hx => joined_mono _ _ (fun e he => List.mem_append_left _ he) 0 x hx
    rcases List.mem_append.mp hvm with h | h
    · exact hmono v (hinv.joined v h)
    · rw [List.mem_singleton.mp h]
      exact joined_trans _ _ _ _ (hmono _ (hinv.joined _ hsrc))
        (joined_edge _ (top.1, top.2.2, top.2.1) (by simp))
  refine ⟨{ visited := s.visited ++ [top.2.1]
            pq := s.pq.erase top ++
              ((g.getD top.2.1.toNat []).filter
                (fun edge => decide (edge.1 ∉ s.visited ++ [top.2.1]))).map
                (fun edge => (edge.2, edge.1, top.2.1))
            totalWeight := wrapInt (s.totalWeight + top.1)
            steps := s.steps ++
              [graphStateToJson (s.visited ++ [top.2.1]) top.2.1
                (GraphStatus.addedEdge top.2.2 top.2.1 top.1)] ++
              [graphStateToJson (s.visited ++ [top.2.1]) top.2.1
                (GraphStatus.primQueued top.2.1)] },
    by unfold primStep; rw [if_neg hvis, if_pos hdv],
    ⟨hnd1, hval1, ?_, ?_, ?_, ?_, ?_, ?_, ?_, List.mem_append_left _ hinv.hasStart⟩, ?_⟩
  · show (addedEdges _).length + 1 = (s.visited ++ [top.2.1]).length
    rw [hadd]
    simp only [List.length_append, List.length_cons, List.length_nil]
    omega
  · show wrapInt (s.totalWeight + top.1) = treeWeight (addedEdges _)
    rw [hadd]
    exact htot
  · show ∀ e ∈ addedEdges _, _
    rw [hadd]
    exact hent1
  · show ∀ v ∈ s.visited ++ [top.2.1], Joined (addedEdges _) 0 v
    rw [hadd]
    exact hjoin1
  · intro e he
    show e.2.2 ∈ s.visited ++ [top.2.1] ∧ _
    rcases List.mem_append.mp he with h | h
    · have := hinv.pqFrom e (List.mem_of_mem_erase h)
      exact ⟨List.mem_append_left _ this.1, this.2⟩
    · obtain ⟨a, ha, rfl⟩ := List.mem_map.mp h
      refine ⟨by simp, ?_⟩
      rw [hadj]
      exact (List.mem_filter.mp ha).1
  · intro x hx a ha hna
    have hna' : a.1 ∉ s.visited ++ [top.2.1] := hna
    have hx' : x ∈ s.visited ++ [top.2.1] := hx
    show _ ∈ s.pq.erase top ++ _
    rcases List.mem_append.mp hx' with h | h
    · have hmem := hinv.pqHas x h a ha (fun hc => hna' (List.mem_append_left _ hc))
      refine List.mem_append_left _ ((List.mem_erase_of_ne ?_).mpr hmem)
      intro hc
      apply hna'
      rw [← hc]
      simp
    · have hxd : x = top.2.1 := List.mem_singleton.mp h
      refine List.mem_append_right _ (List.mem_map.mpr ⟨a, ?_, by rw [hxd]⟩)
      rw [List.mem_filter]
      rw [hxd, hadj] at ha
      exact ⟨ha, by simpa using hna'⟩
  · show ∀ (c a b : Int), a ∈ s.visited ++ [top.2.1] → b ∈ s.visited ++ [top.2.1] →
      LightJoined g c a b → Joined ((addedEdges _).filter _) a b
    rw [hadd]
    exact prim_light_step g hsym s top hinv hsrc hedge hmin hvis
  · show (s.pq.erase top ++ _).length + pendingDeg g (s.visited ++ [top.2.1]) < _
    have hdeg := pendingDeg_visit g s.visited top.2.1 hdv.1 hdv.2 hvis
    have hfl := List.length_filter_le
      (fun edge : Int × Int => decide (edge.1 ∉ s.visited ++ [top.2.1]))
      (g.getD top.2.1.toNat [])
    have hpos : 0 < s.pq.length := List.length_pos_of_mem htop
    rw [List.length_append, List.length_map, List.length_erase_of_mem htop]
    omega

theorem primLoop_spec (g : Graph) (hv : ValidGraph g) (hsym : SymmetricGraph g)
    (hw : SummableWeights g) :
    ∀ (fuel : Nat) (s : PrimState), PrimInv g s →
      s.pq.length + pendingDeg g s.visited ≤ fuel →
      ∃ s', primLoop g fuel s = Except.ok s' ∧ PrimInv g s' ∧
        (s'.pq = [] ∨ ¬ s'.visited.length < g.length) := by
  intro fuel
  induction fuel with
  | zero =>
    intro s hinv hfuel
    have hq : s.pq = [] := List.eq_nil_of_length_eq_zero (by omega)
    exact ⟨s, by unfold primLoop; rw [hq]; rfl, hinv, Or.inl hq⟩
  | succ fuel ih =>
    intro s hinv hfuel
    cases htop : primTop s.pq with
    | none =>
      exact ⟨s, by unfold primLoop; rw [htop], hinv, Or.inl (primTop_none _ htop)⟩
    | some top =>
      by_cases hlen : s.visited.length < g.length
      · obtain ⟨hmem, hmin⟩ := primTop_some _ _ htop
        have hstep : ∃ s', primStep g s top = Except.ok s' ∧ PrimInv g s' ∧
            s'.pq.length + pendingDeg g s'.visited < s.pq.length + pendingDeg g s.visited := by
          by_cases hvis : top.2.1 ∈ s.visited
          · exact primStep_skip g s top hinv hmem hvis
          · exact primStep_add g hv hsym hw s top hinv hmem hmin hvis
        obtain ⟨s1, hrun1, hinv1, hm⟩ := hstep
        obtain ⟨s2, hloop, hinv2, hexit⟩ := ih s1 hinv1 (by omega)
        refine ⟨s2, ?_, hinv2, hexit⟩
        unfold primLoop
        rw [htop]
        simp only [hlen, if_true]
        rw [hrun1]
        exact hloop
      · refine ⟨s, ?_, hinv, Or.inr hlen⟩
        unfold primLoop
        rw [htop]
        simp only [hlen, if_false]

theorem primInit_inv (g : Graph) (hne : g ≠ []) : PrimInv g (primInit g) := by
  have hn : 0 < g.length := List.length_pos.mpr hne
  have hadj : adj g 0 = g.getD 0 [] := adj_eq_getD g 0 ⟨le_refl _, by omega⟩
  have hF : addedEdges (primInit g).steps = [] := by
    simp [primInit, addedEdges, graphStateToJson]
  refine ⟨List.nodup_singleton _, ?_, ?_, ?_, ?_, ?_, ?_, ?_, ?_, ?_⟩
  · intro v hvm
    have : v = 0 := by simpa [primInit] using hvm
    rw [this]
    exact ⟨le_refl _, by omega⟩
  · rw [hF]; rfl
  · rw [hF]; rfl
  · rw [hF]; intro e he; simp at he
  · intro v hvm
    have : v = 0 := by simpa [primInit] using hvm
    rw [this]
    exact joined_refl _ _
  · intro e he
    obtain ⟨a, ha, rfl⟩ := List.mem_map.mp he
    refine ⟨by simp [primInit], ?_⟩
    rw [hadj]
    exact ha
  · intro x hx a ha _
    have hx0 : x = 0 := by simpa [primInit] using hx
    rw [hx0, hadj] at ha
    rw [hx0]
    exact List.mem_map.mpr ⟨a, ha, rfl⟩
  · intro c a b ha hb _
    have ha0 : a = 0 := by simpa [primInit] using ha
    have hb0 : b = 0 := by simpa [primInit] using hb
    rw [ha0, hb0]
    exact joined_refl _ _
  · simp [primInit]

theorem prim_all_visited (g : Graph) (hconn : ConnectedGraph g) (s : PrimState)
    (hinv : PrimInv g s) (hexit : s.pq = [] ∨ ¬ s.visited.length < g.length) :
    ∀ v : Int, 0 ≤ v → v < (g.length : Int) → v ∈ s.visited := by
  intro v h0 h1
  rcases hexit with hq | hlen
  · have hclosed : ∀ u ∈ s.visited, ∀ e ∈ adj g u, e.1 ∈ s.visited := by
      intro u hu e he
      by_contra hc
      have := hinv.pqHas u hu e he hc
      rw [hq] at this
      simp at this
    obtain ⟨p, hp, hend⟩ := hconn 0 v (le_refl _) (by omega) h0 h1
    rw [← hend]
    exact closed_reachable g s.visited hclosed p 0 hinv.hasStart hp
  · exact nodup_full g.length s.visited hinv.nodup hinv.valid (by omega) v h0 h1

theorem joined_light (g : Graph) (c : Int) (T : List Edge)
    (hent : ∀ e ∈ T, (e.2.2, e.1) ∈ adj g e.2.1) (x y : Int)
    (h : Joined (T.filter (fun e => decide (e.1 ≤ c))) x y) : LightJoined g c x y := by
  induction h with
  | rel a b hab =>
    obtain ⟨w, hmem⟩ := hab
    obtain ⟨hT, hle⟩ := List.mem_filter.mp hmem
    exact Relation.EqvGen.rel _ _ ⟨w, by simpa using hle, hent _ hT⟩
  | refl a => exact Relation.EqvGen.refl _
  | symm a b _ ih => exact Relation.EqvGen.symm _ _ ih
  | trans a b d _ _ ih1 ih2 => exact Relation.EqvGen.trans _ _ _ ih1 ih2

theorem full_length (n : Nat) (l : List Int) (hnd : l.Nodup)
    (hr : ∀ x ∈ l, 0 ≤ x ∧ x < (n : Int))
    (hall : ∀ v : Int, 0 ≤ v → v < (n : Int) → v ∈ l) : l.length = n := by
  have h1 := nodup_length_le n l hnd hr
  have hsub : (List.range n).map (fun (i : Nat) => (i : Int)) ⊆ l := by
    intro x hx
    obtain ⟨i, hi, rfl⟩ := List.mem_map.mp hx
    rw [List.mem_range] at hi
    exact hall _ (by omega) (by omega)
  have hnd2 : ((List.range n).map (fun (i : Nat) => (i : Int))).Nodup :=
    (List.nodup_range n).map (fun a b hab => by simpa using hab)
  have h2 := (List.subperm_of_subset hnd2 hsub).length_le
  simp only [List.length_map, List.length_range] at h2
  omega

theorem entries_valid (g : Graph) (hv : ValidGraph g) (T : List Edge)
    (hent : ∀ e ∈ T, (e.2.2, e.1) ∈ adj g e.2.1) : ∀ e ∈ T, EdgeValid g.length e := by
  intro e he
  have h1 := adj_source_valid g _ _ (hent e he)
  have h2 := mem_adj_valid g hv _ _ (hent e he)
  exact ⟨h1.1, h1.2, h2.1, h2.2⟩

/-- On a non-empty connected symmetric graph with valid targets and weights whose sums
stay within `int`, the run of `primMST` ends, the edges of its "Added edge" snapshots
form a spanning tree whose weight is the total it reports, and no spanning tree is
lighter. -/
theorem prim_minimum (g : Graph) (hne : g ≠ []) (hv : ValidGraph g)
    (hsym : SymmetricGraph g) (hconn : ConnectedGraph g) (hw : SummableWeights g) :
    ∃ s, primRun g = Except.ok (some s) ∧ IsSpanningTree g (addedEdges s.steps) ∧
      s.totalWeight = treeWeight (addedEdges s.steps) ∧
      ∀ T, IsSpanningTree g T → treeWeight (addedEdges s.steps) ≤ treeWeight T := by
  have hn : 0 < g.length := List.length_pos.mpr hne
  obtain ⟨s, hloop, hinv, hexit⟩ := primLoop_spec g hv hsym hw (edgeCount g + 1) (primInit g)
    (primInit_inv g hne) (by
      have h1 := pendingDeg_nil g
      have h2 := pendingDeg_visit g [] 0 (le_refl _) (by omega) (by simp)
      have h3 : (primInit g).pq.length = (g.getD 0 []).length := by simp [primInit]
      have h4 : (primInit g).visited = [] ++ [0] := rfl
      rw [h3, h4]
      simp only [Int.toNat_zero] at h2
      omega)
  have hall := prim_all_visited g hconn s hinv hexit
  have hlenV := full_length g.length s.visited hinv.nodup hinv.valid hall
  have hvalF := entries_valid g hv _ hinv.entries
  have hjF : ∀ x y : Int, 0 ≤ x → x < (g.length : Int) → 0 ≤ y → y < (g.length : Int) →
      Joined (addedEdges s.steps) x y := by
    intro x y hx0 hx1 hy0 hy1
    exact joined_trans _ _ _ _ (joined_symm _ _ _ (hinv.joined x (hall x hx0 hx1)))
      (hinv.joined y (hall y hy0 hy1))
  have hlenF : (addedEdges s.steps).length = g.length - 1 := by
    have := hinv.count
    omega
  have hspan : IsSpanningTree g (addedEdges s.steps) := ⟨hinv.entries, hjF, hlenF⟩
  refine ⟨s, ?_, hspan, hinv.total, ?_⟩
  · unfold primRun
    rw [if_neg hne, hloop]
  · rintro T ⟨hentT, hjT, hlenT⟩
    have hvalT := entries_valid g hv T hentT
    have heF := tree_all_effective g.length _ hvalF hjF hlenF
    have heT := tree_all_effective g.length T hvalT hjT hlenT
    apply treeWeight_le_of_threshold _ _ (by rw [hlenF, hlenT])
    intro c
    apply forest_threshold g.length _ T hvalF hvalT heF heT c
    intro x y hx0 hx1 hy0 hy1 hxy
    exact hinv.light c x y (hall x hx0 hx1) (hall y hy0 hy1) (joined_light g c T hentT x y hxy)

/-! ## Prim: the minimum spanning tree claim -/

theorem heavyPath_spanning :
    IsSpanningTree heavyPathGraph [(2147483647, 0, 1), (2147483647, 1, 2)] := by
  refine ⟨by decide, ?_, by decide⟩
  intro x y hx0 hx1 hy0 hy1
  have h01 : Joined [((2147483647, 0, 1) : Edge), (2147483647, 1, 2)] 0 1 :=
    joined_edge _ (2147483647, 0, 1) (by simp)
  have h12 : Joined [((2147483647, 0, 1) : Edge), (2147483647, 1, 2)] 1 2 :=
    joined_edge _ (2147483647, 1, 2) (by simp)
  have h02 := joined_trans _ _ _ _ h01 h12
  rcases three_cases x hx0 hx1 with rfl | rfl | rfl <;>
    rcases three_cases y hy0 hy1 with rfl | rfl | rfl
  · exact joined_refl _ _
  · exact h01
  · exact h02
  · exact joined_symm _ _ _ h01
  · exact joined_refl _ _
  · exact h12
  · exact joined_symm _ _ _ h02
  · exact joined_symm _ _ _ h12
  · exact joined_refl _ _

/-- C11 as stated fails when the weights overflow `int`: the path `0-1-2` with both
edges of weight 2147483647 is non-empty, connected and symmetric with valid targets;
`primMST` adds both edges and its terminal snapshot reports the total `-2` (the sum
wrapped to 32 bits), while its spanning tree `0-1, 1-2` and every other spanning tree
weighs 4294967294. -/
theorem prim_overflow_counterexample :
    heavyPathGraph ≠ [] ∧ heavyPathGraph.length ≤ 8 ∧ ValidGraph heavyPathGraph ∧
    SymmetricGraph heavyPathGraph ∧ ConnectedGraph heavyPathGraph ∧
    (primMST heavyPathGraph).map (fun steps => steps.getLast?) =
      Except.ok (some (graphStateToJson [0, 1, 2] (-1) (GraphStatus.primComplete (-2)))) ∧
    primTotal heavyPathGraph = some (-2) ∧
    IsSpanningTree heavyPathGraph [(2147483647, 0, 1), (2147483647, 1, 2)] ∧
    ∀ T, IsSpanningTree heavyPathGraph T → treeWeight T = 4294967294 :=
  ⟨by decide, by decide, by unfold ValidGraph; decide, heavyPath_symmetric,
    heavyPath_connected, by decide!, by decide!, heavyPath_spanning, heavyPath_tree_weight⟩

/-- C11, amended: for every non-empty connected undirected graph with at most 8 nodes,
given as a symmetric adjacency list with valid edge targets, whose weights satisfy
`|weight| * nodeCount <= INT_MAX`, `primMST` returns, and the total weight in its
terminal snapshot is the weight of a spanning tree of the graph and at most the weight
of every spanning tree. -/
theorem primMST_minimum (g : Graph) (hne : g ≠ []) (_hn : g.length ≤ 8) (hv : ValidGraph g)
    (hsym : SymmetricGraph g) (hconn : ConnectedGraph g) (hw : SummableWeights g) :
    ∃ steps visited total, primMST g = Except.ok steps ∧
      steps.getLast? = some
        (graphStateToJson visited (-1) (GraphStatus.primComplete total)) ∧
      primTotal g = some total ∧
      (∃ T, IsSpanningTree g T ∧ treeWeight T = total) ∧
      ∀ T, IsSpanningTree g T → total ≤ treeWeight T := by
  obtain ⟨s, hrun, hspan, htot, hopt⟩ := prim_minimum g hne hv hsym hconn hw
  refine ⟨_, s.visited, s.totalWeight, by unfold primMST; rw [hrun],
    List.getLast?_concat _, by unfold primTotal; rw [hrun], ⟨_, hspan, htot.symm⟩, ?_⟩
  intro T hT
  rw [htot]
  exact hopt T hT

/-- C11 amended, at the triangle `0-1:1, 1-2:2, 0-2:3`: the hypotheses hold, and the
reported total is 3. -/
theorem primMST_minimum_witness :
    primTotal triangleGraph = some 3 ∧
    ∃ steps visited total, primMST triangleGraph = Except.ok steps ∧
      steps.getLast? = some
        (graphStateToJson visited (-1) (GraphStatus.primComplete total)) ∧
      primTotal triangleGraph = some total ∧
      (∃ T, IsSpanningTree triangleGraph T ∧ treeWeight T = total) ∧
      ∀ T, IsSpanningTree triangleGraph T → total ≤ treeWeight T :=
  ⟨by decide!, primMST_minimum triangleGraph (by decide) (by decide)
    (by unfold ValidGraph; decide) triangle_symmetric triangle_connected
    (by unfold SummableWeights INT_MAX; decide)⟩

/-! ## Edge cases: the empty heap, and inputs of length 0 or 1 -/

/-- C21: when the persistent heap is empty, `heapExtractMax` leaves it empty, captures
no value, and returns exactly two snapshots, the initial state and "Heap is empty,
nothing to extract", both showing an empty heap. -/
theorem heapExtractMax_empty :
    heapExtractMax [] = some (([],
      [⟨heapToJson [] (-1) (-1), HeapStatus.extractStart⟩,
       ⟨heapToJson [] (-1) (-1), HeapStatus.heapEmpty⟩]), none) := by
  rfl

theorem heapSort_short (arr : List Int) (h : arr.length ≤ 1) :
    heapSort arr = some [arrayToJson arr (-1) (-1), arrayToJson arr (-1) (-1),
      arrayToJson arr (-1) (-1)] := by
  match arr, h with
  | [], _ => rfl
  | [x], _ =>
    have h2 : (1 : Nat) / 2 = 0 := by decide
    unfold heapSort
    simp only [List.length_cons, List.length_nil, Nat.zero_add, h2, Nat.sub_self]
    rfl

theorem mergeSort_short (arr : List Int) (h : arr.length ≤ 1) :
    mergeSort arr = some [arrayToJson arr (-1) (-1), arrayToJson arr (-1) (-1)] := by
  match arr, h with
  | [], _ => rfl
  | [x], _ => rfl

theorem quickSort_short (arr : List Int) (h : arr.length ≤ 1) :
    quickSort arr = some [arrayToJson arr (-1) (-1), arrayToJson arr (-1) (-1)] := by
  match arr, h with
  | [], _ => rfl
  | [x], _ => rfl

/-- C22 as stated fails for `heapSort`: between its two loops it records the snapshot
"state after heap is built", also when neither loop runs, so on the empty input (and on
a single element) its trace has three snapshots, not two. -/
theorem heapSort_short_counterexample :
    heapSort [] = some [arrayToJson [] (-1) (-1), arrayToJson [] (-1) (-1),
      arrayToJson [] (-1) (-1)] ∧
    heapSort [7] = some [arrayToJson [7] (-1) (-1), arrayToJson [7] (-1) (-1),
      arrayToJson [7] (-1) (-1)] := by
  decide

/-- C22, amended: for every input sequence of length 0 or 1, each of `bubbleSort`,
`insertionSort`, `selectionSort`, `mergeSort` and `quickSort` returns exactly two
snapshots, the initial and the final one, and `heapSort` returns exactly three, the
initial one, the one after the build loop and the final one; every one of them is the
unhighlighted input, and there is no comparison snapshot. -/
theorem sorts_short_input (arr : List Int) (h : arr.length ≤ 1) :
    bubbleSort arr = [arrayToJson arr (-1) (-1), arrayToJson arr (-1) (-1)] ∧
    insertionSort arr = [arrayToJson arr (-1) (-1), arrayToJson arr (-1) (-1)] ∧
    selectionSort arr = [arrayToJson arr (-1) (-1), arrayToJson arr (-1) (-1)] ∧
    mergeSort arr = some [arrayToJson arr (-1) (-1), arrayToJson arr (-1) (-1)] ∧
    quickSort arr = some [arrayToJson arr (-1) (-1), arrayToJson arr (-1) (-1)] ∧
    heapSort arr = some [arrayToJson arr (-1) (-1), arrayToJson arr (-1) (-1),
      arrayToJson arr (-1) (-1)] := by
  refine ⟨?_, ?_, ?_, mergeSort_short arr h, quickSort_short arr h, heapSort_short arr h⟩
  · match arr, h with
    | [], _ => rfl
    | [x], _ => rfl
  · match arr, h with
    | [], _ => rfl
    | [x], _ => rfl
  · match arr, h with
    | [], _ => rfl
    | [x], _ => rfl

/-- C22 amended, at the one-element input `[7]`. -/
theorem sorts_short_input_witness :
    bubbleSort [7] = [arrayToJson [7] (-1) (-1), arrayToJson [7] (-1) (-1)] ∧
    insertionSort [7] = [arrayToJson [7] (-1) (-1), arrayToJson [7] (-1) (-1)] ∧
    selectionSort [7] = [arrayToJson [7] (-1) (-1), arrayToJson [7] (-1) (-1)] ∧
    mergeSort [7] = some [arrayToJson [7] (-1) (-1), arrayToJson [7] (-1) (-1)] ∧
    quickSort [7] = some [arrayToJson [7] (-1) (-1), arrayToJson [7] (-1) (-1)] ∧
    heapSort [7] = some [arrayToJson [7] (-1) (-1), arrayToJson [7] (-1) (-1),
      arrayToJson [7] (-1) (-1)] :=
  sorts_short_input [7] (by decide)

/-! ## Breadth-first search: the processing order is the discovery order -/

theorem bfsFold_visited (cur : Int) : ∀ (l : List (Int × Int)) (s : BfsState),
    (l.foldl (bfsNeighbor cur) s).visited = appendUndiscovered s.visited l := by
  intro l
  induction l with
  | nil => intro s; rfl
  | cons e l ih =>
    intro s
    rw [List.foldl_cons, ih]
    unfold appendUndiscovered
    rw [List.foldl_cons]
    congr 1
    unfold bfsNeighbor
    by_cases h : e.1 ∈ s.visited
    · simp only [h, if_true]
    · simp only [h, if_false]

theorem bfsDiscoveryOrder_done (g : Graph) (fuel : Nat) (visited : List Int) (i : Nat)
    (h : ¬ i < visited.length) : bfsDiscoveryOrder g fuel visited i = visited := by
  cases fuel with
  | zero => rfl
  | succ fuel => unfold bfsDiscoveryOrder; rw [if_neg h]

theorem bfsLoop_order (g : Graph) : ∀ (fuel : Nat) (s s' : BfsState),
    bfsLoop g fuel s = Except.ok s' → s.visited = processingOrder s.steps ++ s.q →
    s'.visited = processingOrder s'.steps ∧ s'.q = [] ∧
    s.visited.length ≤ s'.visited.length ∧
    ∀ F : Nat, s'.visited.length ≤ F + (processingOrder s.steps).length →
      bfsDiscoveryOrder g F s.visited (processingOrder s.steps).length = s'.visited := by
  intro fuel
  induction fuel with
  | zero =>
    intro s s' hrun hord
    unfold bfsLoop at hrun
    cases hq : s.q with
    | nil =>
      rw [hq] at hrun
      simp only [Except.ok.injEq] at hrun
      subst hrun
      rw [hq, List.append_nil] at hord
      refine ⟨hord, hq, le_refl _, fun F _ => ?_⟩
      apply bfsDiscoveryOrder_done
      rw [← hord]
      omega
    | cons cur rest =>
      rw [hq] at hrun
      simp at hrun
  | succ fuel ih =>
    intro s s' hrun hord
    unfold bfsLoop at hrun
    cases hq : s.q with
    | nil =>
      rw [hq] at hrun
      simp only [Except.ok.injEq] at hrun
      subst hrun
      rw [hq, List.append_nil] at hord
      refine ⟨hord, hq, le_refl _, fun F _ => ?_⟩
      apply bfsDiscoveryOrder_done
      rw [← hord]
      omega
    | cons cur rest =>
      rw [hq] at hrun
      simp only [] at hrun
      by_cases hcv : 0 ≤ cur ∧ cur < (g.length : Int)
      · have hstep : bfsStep g s cur rest = Except.ok
            ((g.getD cur.toNat []).foldl (bfsNeighbor cur)
              { s with q := rest, steps := s.steps ++
                [graphStateToJson s.visited cur (GraphStatus.processing cur)] }) := by
          unfold bfsStep
          rw [if_pos hcv]
        rw [hstep] at hrun
        simp only [] at hrun
        obtain ⟨new, h1, h2, h3, -, -, -⟩ := bfsFold_spec cur (g.getD cur.toNat [])
          { s with q := rest, steps := s.steps ++
            [graphStateToJson s.visited cur (GraphStatus.processing cur)] }
        have hvis := bfsFold_visited cur (g.getD cur.toNat [])
          { s with q := rest, steps := s.steps ++
            [graphStateToJson s.visited cur (GraphStatus.processing cur)] }
        simp only [] at h1 h2 h3 hvis
        have hpo : processingOrder (s.steps ++
            [graphStateToJson s.visited cur (GraphStatus.processing cur)]) =
            processingOrder s.steps ++ [cur] := by
          rw [processingOrder_append]
          rfl
        rw [hpo] at h3
        obtain ⟨r1, r2, r3, r4⟩ := ih _ s' hrun (by
          rw [h1, h2, h3, hord, hq]
          simp)
        rw [h1] at r3
        rw [h3] at r4
        simp only [List.length_append, List.length_cons, List.length_nil] at r3 r4
        refine ⟨r1, r2, by omega, ?_⟩
        intro F hF
        have hlenP : (processingOrder s.steps).length < s.visited.length := by
          rw [hord, hq]
          simp
        have hF1 : 1 ≤ F := by omega
        obtain ⟨F', rfl⟩ : ∃ F', F = F' + 1 := ⟨F - 1, by omega⟩
        unfold bfsDiscoveryOrder
        rw [if_pos hlenP]
        have hget : s.visited.getD (processingOrder s.steps).length 0 = cur := by
          rw [hord, hq, List.getD_append_right _ _ _ _ (le_refl _), Nat.sub_self]
          rfl
        rw [hget, adj_eq_getD g cur hcv, ← hvis]
        simp only [Nat.zero_add] at r4
        exact r4 F' (by omega)
      · have hstep : bfsStep g s cur rest = Except.error Fault.outOfBounds := by
          unfold bfsStep
          rw [if_neg hcv]
        rw [hstep] at hrun
        simp at hrun

/-- C25: for every graph whose edge targets are valid node indices and every valid
start node, `breadthFirstSearch` returns, and the sequence of nodes in its "Processing
node" snapshots is the visited list of its terminal snapshot, which is the discovery
order: `start` first, then the undiscovered neighbours of each processed node in stored
adjacency order (any fuel of at least `nodeCount` gives that order); for
`{0:[(1,1),(2,1)], 1:[(3,1)], 2:[], 3:[]}` from 0 the processing order is 0, 1, 2, 3. -/
theorem bfs_processing_order (g : Graph) (start : Int) (hv : ValidGraph g)
    (hs0 : 0 ≤ start) (hs1 : start < (g.length : Int)) :
    (∃ steps visited, breadthFirstSearch g start = Except.ok steps ∧
      steps.getLast? = some (graphStateToJson visited (-1) GraphStatus.bfsComplete) ∧
      processingOrder steps = visited ∧
      ∀ fuel : Nat, g.length ≤ fuel → bfsDiscoveryOrder g fuel [start] 0 = visited) ∧
    (breadthFirstSearch [[(1, 1), (2, 1)], [(3, 1)], [], []] 0).map processingOrder =
      Except.ok [0, 1, 2, 3] := by
  refine ⟨?_, by decide!⟩
  obtain ⟨s, hloop, hinv, _⟩ := bfsLoop_spec g start hv hs0 hs1 (g.length + 1)
    (bfsInit start) (bfsInit_inv g start) (by simp [bfsInit])
  obtain ⟨r1, _, _, r4⟩ := bfsLoop_order g (g.length + 1) (bfsInit start) s hloop rfl
  have hlen := nodup_length_le g.length s.visited hinv.nodup
    (fun x hx => reachable_valid g hv start x hs0 hs1 (hinv.reach x hx))
  refine ⟨_, s.visited, by unfold breadthFirstSearch; rw [hloop], List.getLast?_concat _,
    ?_, ?_⟩
  · rw [processingOrder_append, ← r1]
    simp [processingOrder, graphStateToJson]
  · intro fuel hfuel
    exact r4 fuel (by
      have : (processingOrder (bfsInit start).steps).length = 0 := rfl
      omega)

/-- C25, at the graph `0 -> 2, 0 -> 1, 1 -> 2, 2 -> 3` from node 0: the processing
order is the discovery order `0, 2, 1, 3`. -/
theorem bfs_processing_order_witness :
    (breadthFirstSearch [[(2, 1), (1, 1)], [(2, 1)], [(3, 1)], []] 0).map processingOrder =
      Except.ok [0, 2, 1, 3] ∧
    ((∃ steps visited,
      breadthFirstSearch [[(2, 1), (1, 1)], [(2, 1)], [(3, 1)], []] 0 = Except.ok steps ∧
      steps.getLast? = some (graphStateToJson visited (-1) GraphStatus.bfsComplete) ∧
      processingOrder steps = visited ∧
      ∀ fuel : Nat, ([[(2, 1), (1, 1)], [(2, 1)], [(3, 1)], []] : Graph).length ≤ fuel →
        bfsDiscoveryOrder [[(2, 1), (1, 1)], [(2, 1)], [(3, 1)], []] fuel [0] 0 = visited) ∧
    (breadthFirstSearch [[(1, 1), (2, 1)], [(3, 1)], [], []] 0).map processingOrder =
      Except.ok [0, 1, 2, 3]) :=
  ⟨by decide!, bfs_processing_order [[(2, 1), (1, 1)], [(2, 1)], [(3, 1)], []] 0
    (by unfold ValidGraph; decide) (by decide) (by decide)⟩

/-! ## Depth-first search: the processing order is the recursive preorder -/

theorem dfsRuns_trans (g : Graph) (a b c : DfsState) (h1 : DfsRuns g a b)
    (h2 : DfsRuns g b c) : DfsRuns g a c := by
  induction h1 with
  | refl s => exact h2
  | step s s1 s2 cur rest hq hstep _ ih => exact DfsRuns.step s s1 c cur rest hq hstep (ih h2)

theorem dfsLoop_of_runs (g : Graph) (s s' : DfsState) (h : DfsRuns g s s')
    (hend : s'.stack = []) :
    ∀ (fuel : Nat) (s'' : DfsState), dfsLoop g fuel s = Except.ok s'' → s'' = s' := by
  induction h with
  | refl s =>
    intro fuel s'' hrun
    unfold dfsLoop at hrun
    rw [hend] at hrun
    simp only [Except.ok.injEq] at hrun
    exact hrun.symm
  | step s s1 s2 cur rest hq hstep _ ih =>
    intro fuel s'' hrun
    unfold dfsLoop at hrun
    rw [hq] at hrun
    cases fuel with
    | zero => simp at hrun
    | succ fuel =>
      simp only [] at hrun
      rw [hstep] at hrun
      exact ih hend fuel s'' hrun

theorem dfsNeighbor_mem (cur : Int) (s : DfsState) (e : Int × Int) (h : e.1 ∈ s.visited) :
    dfsNeighbor cur s e = s := by
  unfold dfsNeighbor
  simp only [h, if_true]

theorem dfsNeighbor_not_mem (cur : Int) (s : DfsState) (e : Int × Int) (h : e.1 ∉ s.visited) :
    dfsNeighbor cur s e =
      { s with
        stack := e.1 :: s.stack
        steps := s.steps ++
          [graphStateToJson s.visited cur (GraphStatus.consideringEdge cur e.1)] } := by
  unfold dfsNeighbor
  simp only [h, if_false]

theorem dfsFold_exact (cur : Int) (s : DfsState) : ∀ (l : List (Int × Int)),
    (l.reverse.foldl (dfsNeighbor cur) s).visited = s.visited ∧
    (l.reverse.foldl (dfsNeighbor cur) s).stack =
      (l.filter (fun e => decide (e.1 ∉ s.visited))).map Prod.fst ++ s.stack ∧
    processingOrder (l.reverse.foldl (dfsNeighbor cur) s).steps = processingOrder s.steps := by
  intro l
  induction l with
  | nil => exact ⟨rfl, rfl, rfl⟩
  | cons e l ih =>
    obtain ⟨h1, h2, h3⟩ := ih
    rw [List.reverse_cons, List.foldl_append, List.foldl_cons, List.foldl_nil]
    by_cases hmem : e.1 ∈ s.visited
    · rw [dfsNeighbor_mem cur _ e (by rw [h1]; exact hmem),
        List.filter_cons_of_neg (by simpa using hmem)]
      exact ⟨h1, h2, h3⟩
    · rw [dfsNeighbor_not_mem cur _ e (by rw [h1]; exact hmem),
        List.filter_cons_of_pos (by simpa using hmem)]
      refine ⟨h1, ?_, ?_⟩
      · show e.1 :: (l.reverse.foldl (dfsNeighbor cur) s).stack = _
        rw [h2]
        rfl
      · show processingOrder ((l.reverse.foldl (dfsNeighbor cur) s).steps ++ _) = _
        rw [processingOrder_append, h3]
        simp [processingOrder, graphStateToJson]

theorem dfsVisit_mono (g : Graph) : ∀ (fuel : Nat) (vis : List Int) (u : Int)
    (vis' : List Int), dfsVisit g fuel vis u = some vis' → ∀ x ∈ vis, x ∈ vis' := by
  intro fuel
  induction fuel with
  | zero => intro vis u vis' h; simp [dfsVisit] at h
  | succ fuel ih =>
    intro vis u vis' h x hx
    unfold dfsVisit at h
    split_ifs at h with hu
    · simp only [Option.some.injEq] at h
      rw [← h]; exact hx
    · have hfold : ∀ (l : List (Int × Int)) (v v' : List Int),
          l.foldlM (fun vis e => dfsVisit g fuel vis e.1) v = some v' →
          ∀ y ∈ v, y ∈ v' := by
        intro l
        induction l with
        | nil =>
          intro v v' hv y hy
          simp only [List.foldlM_nil, Option.pure_def, Option.some.injEq] at hv
          rw [← hv]; exact hy
        | cons e l ihl =>
          intro v v' hv y hy
          rw [List.foldlM_cons] at hv
          cases h1 : dfsVisit g fuel v e.1 with
          | none => rw [h1] at hv; simp at hv
          | some v1 =>
            rw [h1] at hv
            exact ihl v1 v' hv y (ih v e.1 v1 h1 y hy)
      exact hfold _ _ _ h x (List.mem_append_left _ hx)

theorem dfsVisit_visited (g : Graph) (fuel : Nat) (vis : List Int) (u : Int)
    (vis' : List Int) (h : dfsVisit g fuel vis u = some vis') (hu : u ∈ vis) : vis' = vis := by
  cases fuel with
  | zero => simp [dfsVisit] at h
  | succ fuel =>
    unfold dfsVisit at h
    rw [if_pos hu] at h
    simp only [Option.some.injEq] at h
    exact h.symm

theorem dfsVisit_filter (g : Graph) (fuel : Nat) (vis0 : List Int) :
    ∀ (l : List (Int × Int)) (vis vis' : List Int), (∀ x ∈ vis0, x ∈ vis) →
      l.foldlM (fun v e => dfsVisit g fuel v e.1) vis = some vis' →
      (l.filter (fun e => decide (e.1 ∉ vis0))).foldlM
        (fun v e => dfsVisit g fuel v e.1) vis = some vis' := by
  intro l
  induction l with
  | nil => intro vis vis' _ h; exact h
  | cons e l ih =>
    intro vis vis' hsub h
    rw [List.foldlM_cons] at h
    cases h1 : dfsVisit g fuel vis e.1 with
    | none => rw [h1] at h; simp at h
    | some v1 =>
      rw [h1] at h
      by_cases hmem : e.1 ∈ vis0
      · have hv1 := dfsVisit_visited g fuel vis e.1 v1 h1 (hsub _ hmem)
        rw [hv1] at h
        rw [List.filter_cons_of_neg (by simpa using hmem)]
        exact ih vis vis' hsub h
      · rw [List.filter_cons_of_pos (by simpa using hmem), List.foldlM_cons, h1]
        exact ih v1 vis' (fun x hx => dfsVisit_mono g fuel vis e.1 v1 h1 x (hsub x hx)) h

theorem dfs_simulation (g : Graph) (hv : ValidGraph g) :
    ∀ (fuel : Nat) (vis : List Int) (u : Int) (vis' : List Int),
      dfsVisit g fuel vis u = some vis' → 0 ≤ u ∧ u < (g.length : Int) →
      ∀ (s : DfsState) (rest : List Int), s.visited = vis → s.stack = u :: rest →
        s.visited = processingOrder s.steps →
        ∃ s', DfsRuns g s s' ∧ s'.visited = vis' ∧ s'.stack = rest ∧
          s'.visited = processingOrder s'.steps := by
  intro fuel
  induction fuel with
  | zero => intro vis u vis' h; simp [dfsVisit] at h
  | succ fuel ih =>
    have hlist : ∀ (xs : List (Int × Int)) (vis vis' : List Int),
        xs.foldlM (fun v e => dfsVisit g fuel v e.1) vis = some vis' →
        (∀ e ∈ xs, 0 ≤ e.1 ∧ e.1 < (g.length : Int)) →
        ∀ (s : DfsState) (rest : List Int), s.visited = vis →
          s.stack = xs.map Prod.fst ++ rest → s.visited = processingOrder s.steps →
          ∃ s', DfsRuns g s s' ∧ s'.visited = vis' ∧ s'.stack = rest ∧
            s'.visited = processingOrder s'.steps := by
      intro xs
      induction xs with
      | nil =>
        intro vis vis' h _ s rest hvis hst hpo
        simp only [List.foldlM_nil, Option.pure_def, Option.some.injEq] at h
        exact ⟨s, DfsRuns.refl s, by rw [hvis, h], by simpa using hst, hpo⟩
      | cons e xs ihx =>
        intro vis vis' h hval s rest hvis hst hpo
        rw [List.foldlM_cons] at h
        cases h1 : dfsVisit g fuel vis e.1 with
        | none => rw [h1] at h; simp at h
        | some v1 =>
          rw [h1] at h
          obtain ⟨s1, hr1, hv1, hs1, hp1⟩ := ih vis e.1 v1 h1 (hval e (List.mem_cons_self _ _))
            s (xs.map Prod.fst ++ rest) hvis (by rw [hst]; rfl) hpo
          obtain ⟨s2, hr2, hv2, hs2, hp2⟩ := ihx v1 vis' h
            (fun e' he' => hval e' (List.mem_cons_of_mem _ he')) s1 rest hv1 hs1 hp1
          exact ⟨s2, dfsRuns_trans g s s1 s2 hr1 hr2, hv2, hs2, hp2⟩
    intro vis u vis' h hu s rest hvis hst hpo
    unfold dfsVisit at h
    by_cases hmem : u ∈ vis
    · rw [if_pos hmem] at h
      simp only [Option.some.injEq] at h
      refine ⟨{ s with stack := rest }, DfsRuns.step s _ _ u rest hst ?_ (DfsRuns.refl _),
        by rw [← h]; exact hvis, rfl, hpo⟩
      unfold dfsStep
      rw [if_pos (by rw [hvis]; exact hmem)]
    · rw [if_neg hmem] at h
      have hadj := adj_eq_getD g u hu
      obtain ⟨f1, f2, f3⟩ := dfsFold_exact u
        { visited := s.visited ++ [u], stack := rest, steps := s.steps ++
          [graphStateToJson (s.visited ++ [u]) u (GraphStatus.processing u)] }
        (g.getD u.toNat [])
      simp only [] at f1 f2 f3
      have hstep : dfsStep g s u rest = Except.ok
          ((g.getD u.toNat []).reverse.foldl (dfsNeighbor u)
            { visited := s.visited ++ [u], stack := rest, steps := s.steps ++
              [graphStateToJson (s.visited ++ [u]) u (GraphStatus.processing u)] }) := by
        unfold dfsStep
        rw [if_neg (by rw [hvis]; exact hmem), if_pos hu]
      have hfil := dfsVisit_filter g fuel (vis ++ [u]) (adj g u) (vis ++ [u]) vis'
        (fun x hx => hx) h
      rw [hadj] at hfil
      have hpo1 : processingOrder (s.steps ++
          [graphStateToJson (s.visited ++ [u]) u (GraphStatus.processing u)]) =
          processingOrder s.steps ++ [u] := by
        rw [processingOrder_append]
        rfl
      obtain ⟨s2, hr2, hv2, hs2, hp2⟩ := hlist _ (vis ++ [u]) vis' hfil
        (fun e he => mem_adj_valid g hv u e (by
          rw [hadj]; exact (List.mem_filter.mp he).1))
        _ rest (by rw [f1, hvis]) (by rw [f2, hvis]) (by rw [f1, f3, hpo1, ← hpo])
      exact ⟨s2, DfsRuns.step s _ s2 u rest hst hstep hr2, hv2, hs2, hp2⟩

theorem dfsVisit_returns (g : Graph) (hv : ValidGraph g) :
    ∀ (fuel : Nat) (vis : List Int) (u : Int), vis.Nodup →
      (∀ x ∈ vis, 0 ≤ x ∧ x < (g.length : Int)) → 0 ≤ u ∧ u < (g.length : Int) →
      g.length + 1 ≤ fuel + vis.length →
      ∃ vis', dfsVisit g fuel vis u = some vis' ∧ vis'.Nodup ∧
        (∀ x ∈ vis', 0 ≤ x ∧ x < (g.length : Int)) ∧ vis.length ≤ vis'.length := by
  intro fuel
  induction fuel with
  | zero =>
    intro vis u hnd hval _ hf
    have := nodup_length_le g.length vis hnd hval
    omega
  | succ fuel ih =>
    intro vis u hnd hval hu hf
    unfold dfsVisit
    by_cases hmem : u ∈ vis
    · rw [if_pos hmem]
      exact ⟨vis, rfl, hnd, hval, le_refl _⟩
    · rw [if_neg hmem]
      have hlist : ∀ (xs : List (Int × Int)) (v : List Int), v.Nodup →
          (∀ x ∈ v, 0 ≤ x ∧ x < (g.length : Int)) →
          (∀ e ∈ xs, 0 ≤ e.1 ∧ e.1 < (g.length : Int)) → g.length + 1 ≤ fuel + v.length →
          ∃ v', xs.foldlM (fun v e => dfsVisit g fuel v e.1) v = some v' ∧ v'.Nodup ∧
            (∀ x ∈ v', 0 ≤ x ∧ x < (g.length : Int)) ∧ v.length ≤ v'.length := by
        intro xs
        induction xs with
        | nil => intro v hn hvl _ _; exact ⟨v, rfl, hn, hvl, le_refl _⟩
        | cons e xs ihx =>
          intro v hn hvl hex hfv
          obtain ⟨v1, h1, hn1, hvl1, hl1⟩ := ih v e.1 hn hvl (hex e (List.mem_cons_self _ _)) hfv
          obtain ⟨v2, h2, hn2, hvl2, hl2⟩ := ihx v1 hn1 hvl1
            (fun e' he' => hex e' (List.mem_cons_of_mem _ he')) (by omega)
          refine ⟨v2, ?_, hn2, hvl2, by omega⟩
          rw [List.foldlM_cons, h1]
          exact h2
      obtain ⟨v', h1, h2, h3, h4⟩ := hlist (adj g u) (vis ++ [u])
        (List.Nodup.append hnd (List.nodup_singleton _) (by simpa using hmem))
        (by
          intro x hx
          rcases List.mem_append.mp hx with h | h
          · exact hval x h
          · rw [List.mem_singleton.mp h]; exact hu)
        (fun e he => mem_adj_valid g hv u e he)
        (by simp only [List.length_append, List.length_cons, List.length_nil]; omega)
      refine ⟨v', h1, h2, h3, ?_⟩
      simp only [List.length_append, List.length_cons, List.length_nil] at h4
      omega

/-- C24: for every graph whose edge targets are valid node indices and every valid
start node, `depthFirstSearch` returns, and the sequence of nodes in its "Processing
node" snapshots is the preorder of the recursive depth-first search that, from each
node, recurses into its not-yet-visited neighbours in stored adjacency order (the
recursion nests at most `nodeCount + 1` deep, and any such fuel gives that preorder). -/
theorem dfs_preorder (g : Graph) (start : Int) (hv : ValidGraph g)
    (hs0 : 0 ≤ start) (hs1 : start < (g.length : Int)) :
    ∃ steps, depthFirstSearch g start = Except.ok steps ∧
      ∀ fuel : Nat, g.length + 1 ≤ fuel →
        dfsVisit g fuel [] start = some (processingOrder steps) := by
  obtain ⟨s, hloop, hinv, _⟩ := dfsLoop_spec g start hv hs0 hs1 (edgeCount g + 1)
    (dfsInit start) (dfsInit_inv g start) (by
      have := pendingDeg_nil g
      simp only [dfsInit, List.length_cons, List.length_nil]
      omega)
  have hpo : processingOrder
      (s.steps ++ [graphStateToJson s.visited (-1) GraphStatus.dfsComplete]) = s.visited := by
    rw [processingOrder_append, hinv.order]
    simp [processingOrder, graphStateToJson]
  refine ⟨_, by unfold depthFirstSearch; rw [hloop], ?_⟩
  intro fuel hfuel
  obtain ⟨vis', hvis, _, _, _⟩ := dfsVisit_returns g hv fuel [] start List.nodup_nil
    (by simp) ⟨hs0, hs1⟩ (by simpa using hfuel)
  obtain ⟨s', hruns, hv', hst', _⟩ := dfs_simulation g hv fuel [] start vis' hvis ⟨hs0, hs1⟩
    (dfsInit start) [] rfl rfl rfl
  have heq := dfsLoop_of_runs g (dfsInit start) s' hruns hst' (edgeCount g + 1) s hloop
  rw [hvis, hpo, heq, hv']

/-- C24, at the graph `0 -> 1, 0 -> 2, 1 -> 2, 1 -> 3` from node 0: the processing order
and the recursive preorder are both `0, 1, 2, 3`. -/
theorem dfs_preorder_witness :
    dfsVisit [[(1, 1), (2, 1)], [(2, 1), (3, 1)], [], []] 5 [] 0 = some [0, 1, 2, 3] ∧
    ∃ steps, depthFirstSearch [[(1, 1), (2, 1)], [(2, 1), (3, 1)], [], []] 0 =
        Except.ok steps ∧
      ∀ fuel : Nat, ([[(1, 1), (2, 1)], [(2, 1), (3, 1)], [], []] : Graph).length + 1 ≤ fuel →
        dfsVisit [[(1, 1), (2, 1)], [(2, 1), (3, 1)], [], []] fuel [] 0 =
          some (processingOrder steps) :=
  ⟨by decide!, dfs_preorder [[(1, 1), (2, 1)], [(2, 1), (3, 1)], [], []] 0
    (by unfold ValidGraph; decide) (by decide) (by decide)⟩

/-! ## Prim on any graph with valid targets: the visited set is what node 0 reaches -/

theorem primReach_step (g : Graph) (hv : ValidGraph g) (hw : SummableWeights g)
    (s : PrimState) (top : Edge) (hinv : PrimReachInv g s) (htop : top ∈ s.pq) :
    ∃ s', primStep g s top = Except.ok s' ∧ PrimReachInv g s' ∧
      s'.pq.length + pendingDeg g s'.visited < s.pq.length + pendingDeg g s.visited := by
  have hpos : 0 < s.pq.length := List.length_pos_of_mem htop
  by_cases hvis : top.2.1 ∈ s.visited
  · have hadd : addedEdges (s.steps ++
        [graphStateToJson s.visited (-1) (GraphStatus.primSkip top.2.2 top.2.1)]) =
        addedEdges s.steps := by
      rw [addedEdges_append]
      simp [addedEdges, graphStateToJson]
    refine ⟨{ s with
        pq := s.pq.erase top
        steps := s.steps ++
          [graphStateToJson s.visited (-1) (GraphStatus.primSkip top.2.2 top.2.1)] },
      by unfold primStep; rw [if_pos hvis], ⟨hinv.nodup, hinv.valid, ?_, ?_, ?_, ?_, ?_,
        hinv.hasStart, hinv.reach⟩, ?_⟩
    · show (addedEdges (s.steps ++ _)).length + 1 = _
      rw [hadd]; exact hinv.count
    · show s.totalWeight = treeWeight (addedEdges (s.steps ++ _))
      rw [hadd]; exact hinv.total
    · show ∀ e ∈ addedEdges (s.steps ++ _), _
      rw [hadd]; exact hinv.entries
    · intro e he
      exact hinv.pqFrom e (List.mem_of_mem_erase he)
    · intro x hx a ha hna
      have hmem := hinv.pqHas x hx a ha hna
      refine (List.mem_erase_of_ne ?_).mpr hmem
      intro hc
      apply hna
      rw [← hc] at hvis
      exact hvis
    · show (s.pq.erase top).length + pendingDeg g s.visited < _
      rw [List.length_erase_of_mem htop]
      omega
  · obtain ⟨hsrc, hedge⟩ := hinv.pqFrom top htop
    have hdv := mem_adj_valid g hv top.2.2 (top.2.1, top.1) hedge
    simp only [] at hdv
    have hadj := adj_eq_getD g top.2.1 hdv
    have hnd1 : (s.visited ++ [top.2.1]).Nodup :=
      List.Nodup.append hinv.nodup (List.nodup_singleton _) (by simpa using hvis)
    have hval1 : ∀ v ∈ s.visited ++ [top.2.1], 0 ≤ v ∧ v < (g.length : Int) := by
      intro v hvm
      rcases List.mem_append.mp hvm with h | h
      · exact hinv.valid v h
      · rw [List.mem_singleton.mp h]; exact hdv
    have hlen1 := nodup_length_le g.length _ hnd1 hval1
    simp only [List.length_append, List.length_cons, List.length_nil] at hlen1
    have hadd : addedEdges (s.steps ++
        [graphStateToJson (s.visited ++ [top.2.1]) top.2.1
          (GraphStatus.addedEdge top.2.2 top.2.1 top.1)] ++
        [graphStateToJson (s.visited ++ [top.2.1]) top.2.1 (GraphStatus.primQueued top.2.1)]) =
        addedEdges s.steps ++ [(top.1, top.2.2, top.2.1)] := by
      rw [addedEdges_append, addedEdges_append]
      simp [addedEdges, graphStateToJson]
    have hent1 : ∀ e ∈ addedEdges s.steps ++ [(top.1, top.2.2, top.2.1)],
        (e.2.2, e.1) ∈ adj g e.2.1 := by
      intro e he
      rcases List.mem_append.mp he with h | h
      · exact hinv.entries e h
      · rw [List.mem_singleton.mp h]; exact hedge
    have hcount := hinv.count
    have htot : wrapInt (s.totalWeight + top.1) =
        treeWeight (addedEdges s.steps ++ [(top.1, top.2.2, top.2.1)]) := by
      have hb := treeWeight_bound g hw _ hent1
      have he : treeWeight (addedEdges s.steps ++ [(top.1, top.2.2, top.2.1)]) =
          s.totalWeight + top.1 := by
        rw [treeWeight_append, hinv.total]
        simp [treeWeight]
      rw [he] at hb
      simp only [List.length_append, List.length_cons, List.length_nil] at hb
      have hn : ((addedEdges s.steps).length : Int) + 1 + 1 ≤ (g.length : Int) := by omega
      have hn0 : (0 : Int) < (g.length : Int) := by omega
      rw [he]
      apply wrapInt_eq
      · by_contra hc
        push_cast at hb
        nlinarith
      · by_contra hc
        push_cast at hb
        nlinarith
    refine ⟨{ visited := s.visited ++ [top.2.1]
              pq := s.pq.erase top ++
                ((g.getD top.2.1.toNat []).filter
                  (fun edge => decide (edge.1 ∉ s.visited ++ [top.2.1]))).map
                  (fun edge => (edge.2, edge.1, top.2.1))
              totalWeight := wrapInt (s.totalWeight + top.1)
              steps := s.steps ++
                [graphStateToJson (s.visited ++ [top.2.1]) top.2.1
                  (GraphStatus.addedEdge top.2.2 top.2.1 top.1)] ++
                [graphStateToJson (s.visited ++ [top.2.1]) top.2.1
                  (GraphStatus.primQueued top.2.1)] },
      by unfold primStep; rw [if_neg hvis, if_pos hdv],
      ⟨hnd1, hval1, ?_, ?_, ?_, ?_, ?_, List.mem_append_left _ hinv.hasStart, ?_⟩, ?_⟩
    · show (addedEdges _).length + 1 = (s.visited ++ [top.2.1]).length
      rw [hadd]
      simp only [List.length_append, List.length_cons, List.length_nil]
      omega
    · show wrapInt (s.totalWeight + top.1) = treeWeight (addedEdges _)
      rw [hadd]
      exact htot
    · show ∀ e ∈ addedEdges _, _
      rw [hadd]
      exact hent1
    · intro e he
      show e.2.2 ∈ s.visited ++ [top.2.1] ∧ _
      rcases List.mem_append.mp he with h | h
      · have := hinv.pqFrom e (List.mem_of_mem_erase h)
        exact ⟨List.mem_append_left _ this.1, this.2⟩
      · obtain ⟨a, ha, rfl⟩ := List.mem_map.mp h
        refine ⟨by simp, ?_⟩
        rw [hadj]
        exact (List.mem_filter.mp ha).1
    · intro x hx a ha hna
      have hna' : a.1 ∉ s.visited ++ [top.2.1] := hna
      have hx' : x ∈ s.visited ++ [top.2.1] := hx
      show _ ∈ s.pq.erase top ++ _
      rcases List.mem_append.mp hx' with h | h
      · have hmem := hinv.pqHas x h a ha (fun hc => hna' (List.mem_append_left _ hc))
        refine List.mem_append_left _ ((List.mem_erase_of_ne ?_).mpr hmem)
        intro hc
        apply hna'
        rw [← hc]
        simp
      · have hxd : x = top.2.1 := List.mem_singleton.mp h
        refine List.mem_append_right _ (List.mem_map.mpr ⟨a, ?_, by rw [hxd]⟩)
        rw [List.mem_filter]
        rw [hxd, hadj] at ha
        exact ⟨ha, by simpa using hna'⟩
    · intro v hvm
      have hvm' : v ∈ s.visited ++ [top.2.1] := hvm
      rcases List.mem_append.mp hvm' with h | h
      · exact hinv.reach v h
      · rw [List.mem_singleton.mp h]
        exact reachable_step g 0 top.2.2 (top.2.1, top.1) (hinv.reach _ hsrc) hedge
    · show (s.pq.erase top ++ _).length + pendingDeg g (s.visited ++ [top.2.1]) < _
      have hdeg := pendingDeg_visit g s.visited top.2.1 hdv.1 hdv.2 hvis
      have hfl := List.length_filter_le
        (fun edge : Int × Int => decide (edge.1 ∉ s.visited ++ [top.2.1]))
        (g.getD top.2.1.toNat [])
      rw [List.length_append, List.length_map, List.length_erase_of_mem htop]
      omega

theorem primReach_loop (g : Graph) (hv : ValidGraph g) (hw : SummableWeights g) :
    ∀ (fuel : Nat) (s : PrimState), PrimReachInv g s →
      s.pq.length + pendingDeg g s.visited ≤ fuel →
      ∃ s', primLoop g fuel s = Except.ok s' ∧ PrimReachInv g s' ∧
        (s'.pq = [] ∨ ¬ s'.visited.length < g.length) := by
  intro fuel
  induction fuel with
  | zero =>
    intro s hinv hfuel
    have hq : s.pq = [] := List.eq_nil_of_length_eq_zero (by omega)
    exact ⟨s, by unfold primLoop; rw [hq]; rfl, hinv, Or.inl hq⟩
  | succ fuel ih =>
    intro s hinv hfuel
    cases htop : primTop s.pq with
    | none =>
      exact ⟨s, by unfold primLoop; rw [htop], hinv, Or.inl (primTop_none _ htop)⟩
    | some top =>
      by_cases hlen : s.visited.length < g.length
      · obtain ⟨hmem, _⟩ := primTop_some _ _ htop
        obtain ⟨s1, hrun1, hinv1, hm⟩ := primReach_step g hv hw s top hinv hmem
        obtain ⟨s2, hloop, hinv2, hexit⟩ := ih s1 hinv1 (by omega)
        refine ⟨s2, ?_, hinv2, hexit⟩
        unfold primLoop
        rw [htop]
        simp only [hlen, if_true]
        rw [hrun1]
        exact hloop
      · refine ⟨s, ?_, hinv, Or.inr hlen⟩
        unfold primLoop
        rw [htop]
        simp only [hlen, if_false]

theorem primReach_init (g : Graph) (hne : g ≠ []) : PrimReachInv g (primInit g) := by
  have hn : 0 < g.length := List.length_pos.mpr hne
  have hadj : adj g 0 = g.getD 0 [] := adj_eq_getD g 0 ⟨le_refl _, by omega⟩
  have hF : addedEdges (primInit g).steps = [] := by
    simp [primInit, addedEdges, graphStateToJson]
  refine ⟨List.nodup_singleton _, ?_, ?_, ?_, ?_, ?_, ?_, ?_, ?_⟩
  · intro v hvm
    have : v = 0 := by simpa [primInit] using hvm
    rw [this]
    exact ⟨le_refl _, by omega⟩
  · rw [hF]; rfl
  · rw [hF]; rfl
  · rw [hF]; intro e he; simp at he
  · intro e he
    obtain ⟨a, ha, rfl⟩ := List.mem_map.mp he
    refine ⟨by simp [primInit], ?_⟩
    rw [hadj]
    exact ha
  · intro x hx a ha _
    have hx0 : x = 0 := by simpa [primInit] using hx
    rw [hx0, hadj] at ha
    rw [hx0]
    exact List.mem_map.mpr ⟨a, ha, rfl⟩
  · simp [primInit]
  · intro v hvm
    have : v = 0 := by simpa [primInit] using hvm
    rw [this]
    exact ⟨[], trivial, rfl⟩

theorem primReach_run (g : Graph) (hne : g ≠ []) (hv : ValidGraph g)
    (hw : SummableWeights g) :
    ∃ s, primRun g = Except.ok (some s) ∧ PrimReachInv g s ∧
      ∀ v, v ∈ s.visited ↔ Reachable g 0 v := by
  have hn : 0 < g.length := List.length_pos.mpr hne
  obtain ⟨s, hloop, hinv, hexit⟩ := primReach_loop g hv hw (edgeCount g + 1) (primInit g)
    (primReach_init g hne) (by
      have h1 := pendingDeg_nil g
      have h2 := pendingDeg_visit g [] 0 (le_refl _) (by omega) (by simp)
      have h3 : (primInit g).pq.length = (g.getD 0 []).length := by simp [primInit]
      have h4 : (primInit g).visited = [] ++ [0] := rfl
      rw [h3, h4]
      simp only [Int.toNat_zero] at h2
      omega)
  refine ⟨s, by unfold primRun; rw [if_neg hne, hloop], hinv, ?_⟩
  intro v
  refine ⟨hinv.reach v, ?_⟩
  intro hr
  rcases hexit with hq | hlen
  · have hclosed : ∀ u ∈ s.visited, ∀ e ∈ adj g u, e.1 ∈ s.visited := by
      intro u hu e he
      by_contra hc
      have := hinv.pqHas u hu e he hc
      rw [hq] at this
      simp at this
    obtain ⟨p, hp, hend⟩ := hr
    rw [← hend]
    exact closed_reachable g s.visited hclosed p 0 hinv.hasStart hp
  · have hval := reachable_valid g hv 0 v (le_refl _) (by omega) hr
    exact nodup_full g.length s.visited hinv.nodup hinv.valid (by omega) v hval.1 hval.2

/-- C30 as stated fails when the weights overflow `int`: on the path `0-1-2` with
both edges of weight 2147483647 (non-empty, valid targets) `primMST` adds the edges
`0-1` and `1-2`, whose weights sum to 4294967294, and its terminal snapshot reports
the total `-2`. -/
theorem prim_total_overflow_counterexample :
    heavyPathGraph ≠ [] ∧ ValidGraph heavyPathGraph ∧
    (primMST heavyPathGraph).map
        (fun steps => (steps.getLast?, addedEdges steps, treeWeight (addedEdges steps))) =
      Except.ok (some (graphStateToJson [0, 1, 2] (-1) (GraphStatus.primComplete (-2))),
        [(2147483647, 0, 1), (2147483647, 1, 2)], 4294967294) :=
  ⟨by decide, by unfold ValidGraph; decide, by decide!⟩

/-- C30, amended: for every non-empty graph whose edge targets are valid node indices
and whose weights satisfy `|weight| * nodeCount <= INT_MAX`, `primMST` returns; the
nodes marked visited in its terminal snapshot are distinct and are exactly the nodes
reachable from node 0, the number of "Added edge" snapshots is the number of those
nodes minus one, and the reported total is the sum of the weights of the added
edges. -/
theorem primMST_reachable (g : Graph) (hne : g ≠ []) (hv : ValidGraph g)
    (hw : SummableWeights g) :
    ∃ steps visited total, primMST g = Except.ok steps ∧
      steps.getLast? = some
        (graphStateToJson visited (-1) (GraphStatus.primComplete total)) ∧
      visited.Nodup ∧ (∀ v, v ∈ visited ↔ Reachable g 0 v) ∧
      (addedEdges steps).length = visited.length - 1 ∧
      total = treeWeight (addedEdges steps) := by
  obtain ⟨s, hrun, hinv, hreach⟩ := primReach_run g hne hv hw
  have hadd : addedEdges (s.steps ++
      [graphStateToJson s.visited (-1) (GraphStatus.primComplete s.totalWeight)]) =
      addedEdges s.steps := by
    rw [addedEdges_append]
    simp [addedEdges, graphStateToJson]
  refine ⟨_, s.visited, s.totalWeight, by unfold primMST; rw [hrun],
    List.getLast?_concat _, hinv.nodup, hreach, ?_, ?_⟩
  · rw [hadd]
    have := hinv.count
    omega
  · rw [hadd]
    exact hinv.total

/-- C30 amended, at a directed graph where node 3 is not reachable from node 0: the
hypotheses hold, the visited nodes are `0, 2, 1`, two edges are added and the total
is 3. -/
theorem primMST_reachable_witness :
    (primMST [[(1, 5), (2, 1)], [], [(1, 2)], [(0, 1)]]).map
        (fun steps => (steps.getLast?, addedEdges steps)) =
      Except.ok (some (graphStateToJson [0, 2, 1] (-1) (GraphStatus.primComplete 3)),
        [(1, 0, 2), (2, 2, 1)]) ∧
    ∃ steps visited total,
      primMST [[(1, 5), (2, 1)], [], [(1, 2)], [(0, 1)]] = Except.ok steps ∧
      steps.getLast? = some
        (graphStateToJson visited (-1) (GraphStatus.primComplete total)) ∧
      visited.Nodup ∧
      (∀ v, v ∈ visited ↔ Reachable [[(1, 5), (2, 1)], [], [(1, 2)], [(0, 1)]] 0 v) ∧
      (addedEdges steps).length = visited.length - 1 ∧
      total = treeWeight (addedEdges steps) :=
  ⟨by decide!, primMST_reachable [[(1, 5), (2, 1)], [], [(1, 2)], [(0, 1)]] (by decide)
    (by unfold ValidGraph; decide) (by unfold SummableWeights INT_MAX; decide)⟩

/-! ## The disjoint-set forest, for any number of nodes -/

theorem forest_root_root (n : Nat) (R : Int) (root ht : Int → Int) (ds : DisjointSet)
    (lab : List Int) (h : DSForest n R root ht ds lab) (x : Int) (h0 : 0 ≤ x)
    (h1 : x < (n : Int)) : root (root x) = root x := by
  obtain ⟨r0, r1, r2⟩ := h.rvalid x h0 h1
  exact h.rfix (root x) r0 r1 r2

theorem find_forest (n : Nat) (R : Int) (root ht : Int → Int) (lab : List Int) :
    ∀ (fuel : Nat) (ds : DisjointSet) (u : Int), DSForest n R root ht ds lab →
      0 ≤ u → u < (n : Int) → R - ht u ≤ (fuel : Int) →
      ∃ ds', DisjointSet.find fuel ds u = Except.ok (root u, ds') ∧
        DSForest n R root ht ds' lab ∧ ht u ≤ ht (root u) := by
  intro fuel
  induction fuel with
  | zero =>
    intro ds u h h0 h1 hf
    have hb : 0 ≤ u ∧ u < (ds.parent.length : Int) := by rw [h.plen]; exact ⟨h0, h1⟩
    have hrb := h.htBd u h0 h1
    have hpeq : parentAt ds u = u := by
      by_contra hne
      have h1' := h.htLt u h0 h1 hne
      obtain ⟨p0, p1⟩ := h.pvalid u h0 h1
      have := h.htBd _ p0 p1
      omega
    have hru := h.rfix u h0 h1 hpeq
    refine ⟨ds, ?_, h, by rw [hru]⟩
    unfold DisjointSet.find
    rw [if_pos hb]
    have hpeq' : ds.parent.getD u.toNat 0 = u := hpeq
    rw [if_neg (by rw [hpeq']; simp), hpeq', hru]
  | succ fuel ih =>
    intro ds u h h0 h1 hf
    have hb : 0 ≤ u ∧ u < (ds.parent.length : Int) := by rw [h.plen]; exact ⟨h0, h1⟩
    by_cases hpeq : parentAt ds u = u
    · have hru := h.rfix u h0 h1 hpeq
      refine ⟨ds, ?_, h, by rw [hru]⟩
      unfold DisjointSet.find
      rw [if_pos hb]
      have hpeq' : ds.parent.getD u.toNat 0 = u := hpeq
      rw [if_neg (by rw [hpeq']; simp), hpeq', hru]
    · obtain ⟨p0, p1⟩ := h.pvalid u h0 h1
      have hlt := h.htLt u h0 h1 hpeq
      obtain ⟨ds1, hrun1, h1inv, hle1⟩ := ih ds (parentAt ds u) h p0 p1 (by omega)
      have hroot : root (parentAt ds u) = root u := h.rstep u h0 h1
      rw [hroot] at hrun1 hle1
      obtain ⟨r0, r1, r2⟩ := h1inv.rvalid u h0 h1
      have hidx : u.toNat < ds1.parent.length := by rw [h1inv.plen]; omega
      have hP : ∀ x : Int,
          parentAt { parent := ds1.parent.set u.toNat (root u), rank := ds1.rank } x =
            if x.toNat = u.toNat then root u else parentAt ds1 x :=
        fun x => parentAt_set ds1 ds1.rank u (root u) x hidx
      refine ⟨{ parent := ds1.parent.set u.toNat (root u), rank := ds1.rank }, ?_, ?_,
        by omega⟩
      · unfold DisjointSet.find
        rw [if_pos hb]
        have hne' : u ≠ ds.parent.getD u.toNat 0 := fun hc => hpeq hc.symm
        rw [if_pos hne']
        simp only []
        have hrun1' : DisjointSet.find fuel ds (ds.parent.getD u.toNat 0) =
            Except.ok (root u, ds1) := hrun1
        rw [hrun1']
      · refine ⟨by simp only [List.length_set]; exact h1inv.plen, ?_, ?_, ?_, ?_, ?_,
          h1inv.htBd, h1inv.link⟩
        · intro x x0 x1
          rw [hP]
          split_ifs
          · exact ⟨r0, r1⟩
          · exact h1inv.pvalid x x0 x1
        · intro x x0 x1
          obtain ⟨q0, q1, q2⟩ := h1inv.rvalid x x0 x1
          refine ⟨q0, q1, ?_⟩
          rw [hP]
          split_ifs with hc
          · have hxu : root x = u := by omega
            rw [hxu] at q2
            rw [hxu]
            exact (h1inv.rfix u h0 h1 q2)
          · exact q2
        · intro x x0 x1 hx
          rw [hP] at hx
          split_ifs at hx with hc
          · have hxu : x = u := by omega
            rw [hxu] at hx ⊢
            exact hx
          · exact h1inv.rfix x x0 x1 hx
        · intro x x0 x1
          rw [hP]
          split_ifs with hc
          · have hxu : x = u := by omega
            rw [hxu]
            exact forest_root_root n R root ht ds1 lab h1inv u h0 h1
          · exact h1inv.rstep x x0 x1
        · intro x x0 x1 hx
          rw [hP] at hx ⊢
          split_ifs at hx ⊢ with hc
          · have hxu : x = u := by omega
            rw [hxu]
            omega
          · exact h1inv.htLt x x0 x1 hx

theorem link_forest (n : Nat) (R : Int) (root ht : Int → Int) (ds : DisjointSet)
    (lab lab' : List Int) (h : DSForest n R root ht ds lab) (a b : Int) (rk : List Int)
    (ha0 : 0 ≤ a) (ha1 : a < (n : Int)) (hb0 : 0 ≤ b) (hb1 : b < (n : Int))
    (hra : root a = a) (hrb : root b = b) (hpb : parentAt ds b = b) (hab : a ≠ b)
    (hlink : ∀ x y : Int, 0 ≤ x → x < (n : Int) → 0 ≤ y → y < (n : Int) →
      ((if root x = a then b else root x) = (if root y = a then b else root y) ↔
        labelAt lab' x = labelAt lab' y)) :
    DSForest n (R + 1) (fun x => if root x = a then b else root x)
      (fun x => if x = b then max (ht b) (ht a + 1) else ht x)
      { parent := ds.parent.set a.toNat b, rank := rk } lab' := by
  have hidx : a.toNat < ds.parent.length := by rw [h.plen]; omega
  have hP : ∀ x : Int, parentAt { parent := ds.parent.set a.toNat b, rank := rk } x =
      if x.toNat = a.toNat then b else parentAt ds x :=
    fun x => parentAt_set ds rk a b x hidx
  have hta := h.htBd a ha0 ha1
  have htb := h.htBd b hb0 hb1
  refine ⟨by simp only [List.length_set]; exact h.plen, ?_, ?_, ?_, ?_, ?_, ?_, hlink⟩
  · intro x x0 x1
    rw [hP]
    split_ifs
    · exact ⟨hb0, hb1⟩
    · exact h.pvalid x x0 x1
  · intro x x0 x1
    obtain ⟨q0, q1, q2⟩ := h.rvalid x x0 x1
    simp only [hP]
    split_ifs with c1 c2 c3
    · omega
    · exact ⟨hb0, hb1, hpb⟩
    · omega
    · exact ⟨q0, q1, q2⟩
  · intro x x0 x1 hx
    rw [hP] at hx
    show (if root x = a then b else root x) = x
    split_ifs at hx with c1
    · omega
    · have := h.rfix x x0 x1 hx
      rw [this, if_neg (by omega)]
  · intro x x0 x1
    obtain ⟨p0, p1⟩ := h.pvalid x x0 x1
    have hs := h.rstep x x0 x1
    simp only [hP]
    by_cases c1 : x.toNat = a.toNat
    · have hxa : x = a := by omega
      rw [if_pos c1, hrb, if_neg (by omega), hxa, hra, if_pos rfl]
    · rw [if_neg c1, hs]
  · intro x x0 x1 hx
    rw [hP] at hx ⊢
    by_cases c1 : x.toNat = a.toNat
    · have hxa : x = a := by omega
      rw [if_pos c1, hxa, if_neg hab, if_pos rfl]
      omega
    · rw [if_neg c1] at hx ⊢
      have hlt := h.htLt x x0 x1 hx
      have hxb : x ≠ b := fun hc => hx (by rw [hc]; exact hpb)
      rw [if_neg hxb]
      by_cases hpb' : parentAt ds x = b
      · rw [if_pos hpb']
        rw [hpb'] at hlt
        omega
      · rw [if_neg hpb']
        exact hlt
  · intro x x0 x1
    have := h.htBd x x0 x1
    show 0 ≤ (if x = b then max (ht b) (ht a + 1) else ht x) ∧
      (if x = b then max (ht b) (ht a + 1) else ht x) ≤ R + 1
    split_ifs <;> omega

theorem forest_union_link (n : Nat) (R : Int) (root ht : Int → Int) (ds : DisjointSet)
    (lab : List Int) (h : DSForest n R root ht ds lab) (hlab : LabOK n lab) (e : Edge)
    (he : EdgeValid n e) (a b : Int)
    (hab : (a = root e.2.1 ∧ b = root e.2.2) ∨ (a = root e.2.2 ∧ b = root e.2.1)) :
    ∀ x y : Int, 0 ≤ x → x < (n : Int) → 0 ≤ y → y < (n : Int) →
      ((if root x = a then b else root x) = (if root y = a then b else root y) ↔
        labelAt (mergeLabels lab e) x = labelAt (mergeLabels lab e) y) := by
  obtain ⟨hu0, hu1, hv0, hv1⟩ := he
  intro x y x0 x1 y0 y1
  rw [merge_kernel n lab e hlab x y x0 x1 y0 y1, ← h.link x y x0 x1 y0 y1,
    ← h.link x e.2.1 x0 x1 hu0 hu1, ← h.link x e.2.2 x0 x1 hv0 hv1,
    ← h.link y e.2.1 y0 y1 hu0 hu1, ← h.link y e.2.2 y0 y1 hv0 hv1]
  rcases hab with ⟨rfl, rfl⟩ | ⟨rfl, rfl⟩ <;> split_ifs <;> omega

theorem unionSets_forest (n : Nat) (R : Int) (root ht : Int → Int) (ds : DisjointSet)
    (lab : List Int) (h : DSForest n R root ht ds lab) (hlab : LabOK n lab) (e : Edge)
    (he : EdgeValid n e) (hne : root e.2.1 ≠ root e.2.2) (hR : R ≤ (n : Int)) :
    ∃ ds' root' ht', DisjointSet.unionSets ds e.2.1 e.2.2 = Except.ok ds' ∧
      DSForest n (R + 1) root' ht' ds' (mergeLabels lab e) := by
  obtain ⟨hu0, hu1, hv0, hv1⟩ := he
  have hbu := h.htBd e.2.1 hu0 hu1
  obtain ⟨ds1, hrun1, h1, _⟩ := find_forest n R root ht lab ds.parent.length ds e.2.1 h
    hu0 hu1 (by rw [h.plen]; omega)
  have hbv := h1.htBd e.2.2 hv0 hv1
  obtain ⟨ds2, hrun2, h2, _⟩ := find_forest n R root ht lab ds1.parent.length ds1 e.2.2 h1
    hv0 hv1 (by rw [h1.plen]; omega)
  obtain ⟨a0, a1, a2⟩ := h2.rvalid e.2.1 hu0 hu1
  obtain ⟨b0, b1, b2⟩ := h2.rvalid e.2.2 hv0 hv1
  have hra := forest_root_root n R root ht ds2 lab h2 e.2.1 hu0 hu1
  have hrb := forest_root_root n R root ht ds2 lab h2 e.2.2 hv0 hv1
  have hl1 := forest_union_link n R root ht ds2 lab h2 hlab e ⟨hu0, hu1, hv0, hv1⟩ _ _
    (Or.inl ⟨rfl, rfl⟩)
  have hl2 := forest_union_link n R root ht ds2 lab h2 hlab e ⟨hu0, hu1, hv0, hv1⟩ _ _
    (Or.inr ⟨rfl, rfl⟩)
  unfold DisjointSet.unionSets
  rw [hrun1]
  simp only []
  rw [hrun2]
  simp only []
  rw [if_pos hne]
  by_cases c1 : ds2.rank.getD (root e.2.1).toNat 0 < ds2.rank.getD (root e.2.2).toNat 0
  · rw [if_pos c1]
    exact ⟨_, _, _, rfl, link_forest n R root ht ds2 lab _ h2 (root e.2.1) (root e.2.2)
      ds2.rank a0 a1 b0 b1 hra hrb b2 hne hl1⟩
  · rw [if_neg c1]
    by_cases c2 : ds2.rank.getD (root e.2.1).toNat 0 > ds2.rank.getD (root e.2.2).toNat 0
    · rw [if_pos c2]
      exact ⟨_, _, _, rfl, link_forest n R root ht ds2 lab _ h2 (root e.2.2) (root e.2.1)
        ds2.rank b0 b1 a0 a1 hrb hra a2 (fun hc => hne hc.symm) hl2⟩
    · rw [if_neg c2]
      exact ⟨_, _, _, rfl, link_forest n R root ht ds2 lab _ h2 (root e.2.2) (root e.2.1)
        _ b0 b1 a0 a1 hrb hra a2 (fun hc => hne hc.symm) hl2⟩

/-! ## The trace of Kruskal -/

theorem kruskalReports_cons (lab : List Int) (e : Edge) (es : List Edge) :
    kruskalReports lab (e :: es) =
      GraphStatus.consideringWeighted e.2.1 e.2.2 e.1 ::
        (if labelAt lab e.2.1 ≠ labelAt lab e.2.2 then
          GraphStatus.addedEdge e.2.1 e.2.2 e.1 :: kruskalReports (mergeLabels lab e) es
        else
          GraphStatus.cycleSkip e.2.1 e.2.2 :: kruskalReports lab es) := rfl

theorem kruskalReports_snoc : ∀ (P : List Edge) (lab : List Int) (e : Edge),
    kruskalReports lab (P ++ [e]) = kruskalReports lab P ++
      [GraphStatus.consideringWeighted e.2.1 e.2.2 e.1,
        if labelAt (P.foldl mergeLabels lab) e.2.1 ≠ labelAt (P.foldl mergeLabels lab) e.2.2
        then GraphStatus.addedEdge e.2.1 e.2.2 e.1 else GraphStatus.cycleSkip e.2.1 e.2.2] := by
  intro P
  induction P with
  | nil =>
    intro lab e
    rw [List.nil_append, kruskalReports_cons, List.foldl_nil]
    split_ifs <;> rfl
  | cons a P ih =>
    intro lab e
    rw [List.cons_append, kruskalReports_cons, kruskalReports_cons, List.foldl_cons]
    by_cases h : labelAt lab a.2.1 ≠ labelAt lab a.2.2
    · rw [if_pos h, if_pos h, ih]
      rfl
    · rw [if_neg h, if_neg h, ih, mergeLabels_same lab a (not_not.mp h)]
      rfl

theorem dsForest_init (n : Nat) :
    DSForest n 0 (fun x => x) (fun _ => 0) (DisjointSet.init n) (initLabels n) := by
  have hP : ∀ x : Int, 0 ≤ x → x < (n : Int) → parentAt (DisjointSet.init n) x = x := by
    intro x x0 x1
    exact labelAt_init n x x0 x1
  refine ⟨by simp [DisjointSet.init], ?_, ?_, ?_, ?_, ?_, ?_, ?_⟩
  · intro x x0 x1
    rw [hP x x0 x1]
    exact ⟨x0, x1⟩
  · intro x x0 x1
    exact ⟨x0, x1, hP x x0 x1⟩
  · intro x _ _ _
    rfl
  · intro x x0 x1
    show parentAt (DisjointSet.init n) x = x
    exact hP x x0 x1
  · intro x x0 x1 hx
    exact absurd (hP x x0 x1) hx
  · intro x _ _
    exact ⟨le_refl _, le_refl _⟩
  · intro x y x0 x1 y0 y1
    rw [labelAt_init n x x0 x1, labelAt_init n y y0 y1]

theorem kruskalStep_trace (n : Nat) (P : List Edge) (s : KruskalState) (e : Edge)
    (hval : ∀ e' ∈ P ++ [e], EdgeValid n e') (h : KruskalTraceInv n P s) :
    ∃ s', kruskalStep s e = Except.ok s' ∧ KruskalTraceInv n (P ++ [e]) s' := by
  obtain ⟨⟨root, ht, hds⟩, hmst, htr⟩ := h
  have hvalP : ∀ e' ∈ P, EdgeValid n e' := fun e' he' => hval e' (List.mem_append_left _ he')
  have hev : EdgeValid n e := hval e (List.mem_append_right _ (List.mem_singleton_self _))
  have hlab := (labels_kernel n P hvalP).1
  have hcnt := greedy_count n P hvalP
  have hcnt' := greedy_count n (P ++ [e]) hval
  obtain ⟨hu0, hu1, hv0, hv1⟩ := hev
  have hbu := hds.htBd e.2.1 hu0 hu1
  obtain ⟨ds1, hrun1, h1, _⟩ := find_forest n _ root ht _ s.ds.parent.length s.ds e.2.1 hds
    hu0 hu1 (by rw [hds.plen]; omega)
  have hbv := h1.htBd e.2.2 hv0 hv1
  obtain ⟨ds2, hrun2, h2, _⟩ := find_forest n _ root ht _ ds1.parent.length ds1 e.2.2 h1
    hv0 hv1 (by rw [h1.plen]; omega)
  have hlink := h2.link e.2.1 e.2.2 hu0 hu1 hv0 hv1
  have hsn := kruskalReports_snoc P (initLabels n) e
  unfold kruskalStep
  simp only []
  rw [hrun1]
  simp only []
  rw [hrun2]
  simp only []
  by_cases hne : root e.2.1 ≠ root e.2.2
  · have heff : labelAt (labelsOf n P) e.2.1 ≠ labelAt (labelsOf n P) e.2.2 :=
      fun hc => hne (hlink.mpr hc)
    have hg := greedy_snoc n P e
    rw [if_pos heff] at hg
    rw [hg, List.length_append, List.length_singleton] at hcnt'
    have heff' : labelAt (P.foldl mergeLabels (initLabels n)) e.2.1 ≠
        labelAt (P.foldl mergeLabels (initLabels n)) e.2.2 := heff
    rw [if_pos heff'] at hsn
    obtain ⟨ds3, root', ht', hrun3, h3⟩ := unionSets_forest n _ root ht ds2 _ h2 hlab e
      ⟨hu0, hu1, hv0, hv1⟩ hne (by omega)
    rw [if_pos hne, hrun3]
    refine ⟨_, rfl, ⟨root', ht', ?_⟩, ?_, ?_⟩
    · rw [labelsOf_snoc, hg, List.length_append, List.length_singleton]
      push_cast
      exact h3
    · simp only []
      rw [hg, hmst, List.map_append]
      rfl
    · rw [hsn]
      simp [htr, graphStateToJson]
  · have heq : labelAt (labelsOf n P) e.2.1 = labelAt (labelsOf n P) e.2.2 :=
      hlink.mp (not_not.mp hne)
    have hg := greedy_snoc n P e
    rw [if_neg (not_not.mpr heq)] at hg
    have heq' : ¬ labelAt (P.foldl mergeLabels (initLabels n)) e.2.1 ≠
        labelAt (P.foldl mergeLabels (initLabels n)) e.2.2 := not_not.mpr heq
    rw [if_neg heq'] at hsn
    rw [if_neg hne]
    refine ⟨_, rfl, ⟨root, ht, ?_⟩, ?_, ?_⟩
    · rw [labelsOf_snoc, hg, merge_of_eq _ e heq]
      exact h2
    · simp only []
      rw [hg, hmst]
    · rw [hsn]
      simp [htr, graphStateToJson]

theorem kruskalFold_trace (n : Nat) :
    ∀ (Q P : List Edge) (s : KruskalState), (∀ e ∈ P ++ Q, EdgeValid n e) →
      KruskalTraceInv n P s →
      ∃ s', Q.foldlM kruskalStep s = Except.ok s' ∧ KruskalTraceInv n (P ++ Q) s' := by
  intro Q
  induction Q with
  | nil =>
    intro P s _ h
    exact ⟨s, rfl, by rw [List.append_nil]; exact h⟩
  | cons e Q ih =>
    intro P s hval h
    have hE : (P ++ [e]) ++ Q = P ++ e :: Q := by simp
    obtain ⟨s1, hrun1, h1⟩ := kruskalStep_trace n P s e
      (fun e' he' => hval e' (by
        rcases List.mem_append.mp he' with h' | h'
        · exact List.mem_append_left _ h'
        · simp only [List.mem_singleton] at h'
          rw [h']; exact List.mem_append_right _ (List.mem_cons_self _ _))) h
    obtain ⟨s2, hrun2, h2⟩ := ih (P ++ [e]) s1 (by rw [hE]; exact hval) h1
    refine ⟨s2, ?_, by rw [hE] at h2; exact h2⟩
    rw [List.foldlM_cons, hrun1]
    exact hrun2

/-- With valid edge targets `kruskalMST` returns, for any number of nodes: its
statuses are those told by the labels, and `mst` is the greedy forest of the sorted
edge list. -/
theorem kruskalMST_trace (g : Graph) (hv : ValidGraph g) :
    ∃ s, kruskalRun g = Except.ok s ∧
      kruskalMST g = Except.ok (s.steps ++ [graphStateToJson s.visited (-1)
        (GraphStatus.kruskalComplete (s.mst.foldl (kruskalAddWeight g) 0))]) ∧
      s.mst = (greedyFrom (initLabels g.length) (kruskalSortedEdges g)).map
        (fun e => (e.2.1, e.2.2)) ∧
      s.steps.map (fun x => x.status) =
        GraphStatus.kruskalStart ::
          kruskalReports (initLabels g.length) (kruskalSortedEdges g) := by
  obtain ⟨s, hrun, _, hmst, htr⟩ := kruskalFold_trace g.length (kruskalSortedEdges g) []
    { ds := DisjointSet.init g.length
      mst := []
      visited := []
      steps := [graphStateToJson [] (-1) GraphStatus.kruskalStart] }
    (by simpa using kruskalEdges_valid g hv)
    ⟨⟨fun x => x, fun _ => 0, by
      show DSForest g.length ((greedyFrom (initLabels g.length) []).length : Int) _ _ _
        (labelsOf g.length [])
      exact dsForest_init g.length⟩, rfl, rfl⟩
  rw [List.nil_append] at hmst htr
  have hrun' : kruskalRun g = Except.ok s := hrun
  exact ⟨s, hrun', by unfold kruskalMST; rw [hrun'], hmst, htr⟩

/-! ## Kruskal: the order in which edges are considered -/

theorem addedEdges_status (steps : List GraphSnapshot) :
    addedEdges steps = (steps.map (fun x => x.status)).filterMap statusAdded := by
  unfold addedEdges
  rw [List.filterMap_map]
  congr 1

theorem greedy_valid (n : Nat) (P : List Edge) (hval : ∀ e ∈ P, EdgeValid n e) :
    ∀ e ∈ greedyFrom (initLabels n) P, EdgeValid n e :=
  fun e he => hval e ((greedy_sublist P (initLabels n)).subset he)

theorem labels_greedy_joined (n : Nat) (P : List Edge) (hval : ∀ e ∈ P, EdgeValid n e)
    (u v : Int) (hu0 : 0 ≤ u) (hu1 : u < (n : Int)) (hv0 : 0 ≤ v) (hv1 : v < (n : Int)) :
    labelAt (labelsOf n P) u = labelAt (labelsOf n P) v ↔
      Joined (greedyFrom (initLabels n) P) u v := by
  have h1 : labelsOf n (greedyFrom (initLabels n) P) = labelsOf n P :=
    greedy_labels P (initLabels n)
  rw [← h1]
  exact (labels_kernel n _ (greedy_valid n P hval)).2 u v hu0 hu1 hv0 hv1

theorem added_reports : ∀ (es : List Edge) (lab : List Int),
    (kruskalReports lab es).filterMap statusAdded = greedyFrom lab es := by
  intro es
  induction es with
  | nil => intro lab; rfl
  | cons e es ih =>
    intro lab
    rw [kruskalReports_cons, greedyFrom_cons]
    by_cases h : labelAt lab e.2.1 ≠ labelAt lab e.2.2
    · rw [if_pos h, if_pos h]
      simp only [List.filterMap_cons, statusAdded]
      rw [ih]
    · rw [if_neg h, if_neg h]
      simp only [List.filterMap_cons, statusAdded]
      rw [ih]

theorem reports_split (n : Nat) (T : List GraphStatus)
    (hT : ∀ t ∈ T, statusConsidered t = none) :
    ∀ (Q P : List Edge) (pre : List GraphStatus) (c r : GraphStatus)
      (post : List GraphStatus) (u v w : Int),
      (∀ e ∈ P ++ Q, EdgeValid n e) →
      kruskalReports (labelsOf n P) Q ++ T = pre ++ c :: r :: post →
      c = GraphStatus.consideringWeighted u v w →
      (¬ Joined (greedyFrom (initLabels n) P ++ pre.filterMap statusAdded) u v ∧
          r = GraphStatus.addedEdge u v w) ∨
        (Joined (greedyFrom (initLabels n) P ++ pre.filterMap statusAdded) u v ∧
          r = GraphStatus.cycleSkip u v) := by
  intro Q
  induction Q with
  | nil =>
    intro P pre c r post u v w _ heq hc
    exfalso
    have hmem : c ∈ T := by
      have : c ∈ pre ++ c :: r :: post := by simp
      rw [← heq] at this
      simpa [kruskalReports] using this
    have := hT c hmem
    rw [hc] at this
    simp [statusConsidered] at this
  | cons e Q ih =>
    intro P pre c r post u v w hval heq hc
    have hvalP : ∀ e' ∈ P, EdgeValid n e' :=
      fun e' he' => hval e' (List.mem_append_left _ he')
    have hev : EdgeValid n e := hval e (by simp)
    obtain ⟨hu0, hu1, hv0, hv1⟩ := hev
    have hj := labels_greedy_joined n P hvalP e.2.1 e.2.2 hu0 hu1 hv0 hv1
    have hE : (P ++ [e]) ++ Q = P ++ e :: Q := by simp
    have hg := greedy_snoc n P e
    rw [kruskalReports_cons] at heq
    by_cases h : labelAt (labelsOf n P) e.2.1 ≠ labelAt (labelsOf n P) e.2.2
    · rw [if_pos h] at heq hg
      rw [← labelsOf_snoc] at heq
      match pre, heq with
      | [], heq =>
        simp only [List.nil_append, List.cons_append, List.cons.injEq] at heq
        obtain ⟨h1, h2, _⟩ := heq
        rw [hc] at h1
        injection h1 with e1 e2 e3
        rw [← e1, ← e2, ← e3, ← h2]
        simp only [List.filterMap_nil, List.append_nil]
        exact Or.inl ⟨fun hc2 => h (hj.mpr hc2), trivial⟩
      | [x], heq =>
        simp only [List.cons_append, List.nil_append, List.cons.injEq] at heq
        obtain ⟨_, h2, _⟩ := heq
        rw [hc] at h2
        cases h2
      | x :: y :: pre2, heq =>
        simp only [List.cons_append, List.cons.injEq] at heq
        obtain ⟨h1, h2, h3⟩ := heq
        have := ih (P ++ [e]) pre2 c r post u v w (by rw [hE]; exact hval) h3 hc
        rw [hg] at this
        rw [← h1, ← h2]
        simp only [List.filterMap_cons, statusConsidered, statusAdded]
        simpa using this
    · rw [if_neg h] at heq hg
      have hsame : labelsOf n (P ++ [e]) = labelsOf n P := by
        rw [labelsOf_snoc]
        exact mergeLabels_same _ e (not_not.mp h)
      rw [← hsame] at heq
      match pre, heq with
      | [], heq =>
        simp only [List.nil_append, List.cons_append, List.cons.injEq] at heq
        obtain ⟨h1, h2, _⟩ := heq
        rw [hc] at h1
        injection h1 with e1 e2 e3
        rw [← e1, ← e2, ← h2]
        simp only [List.filterMap_nil, List.append_nil]
        exact Or.inr ⟨hj.mp (not_not.mp h), trivial⟩
      | [x], heq =>
        simp only [List.cons_append, List.nil_append, List.cons.injEq] at heq
        obtain ⟨_, h2, _⟩ := heq
        rw [hc] at h2
        cases h2
      | x :: y :: pre2, heq =>
        simp only [List.cons_append, List.cons.injEq] at heq
        obtain ⟨h1, h2, h3⟩ := heq
        have := ih (P ++ [e]) pre2 c r post u v w (by rw [hE]; exact hval) h3 hc
        rw [hg] at this
        rw [← h1, ← h2]
        simp only [List.filterMap_cons, statusConsidered, statusAdded]
        exact this

theorem greedy_forest (n : Nat) :
    ∀ (Q P A : List Edge) (e : Edge) (B : List Edge), (∀ e' ∈ P ++ Q, EdgeValid n e') →
      greedyFrom (labelsOf n P) Q = A ++ e :: B →
      ¬ Joined (greedyFrom (initLabels n) P ++ A) e.2.1 e.2.2 := by
  intro Q
  induction Q with
  | nil =>
    intro P A e B _ heq
    simp [greedyFrom] at heq
  | cons q Q ih =>
    intro P A e B hval heq
    have hvalP : ∀ e' ∈ P, EdgeValid n e' :=
      fun e' he' => hval e' (List.mem_append_left _ he')
    have hev : EdgeValid n q := hval q (by simp)
    obtain ⟨hu0, hu1, hv0, hv1⟩ := hev
    have hj := labels_greedy_joined n P hvalP q.2.1 q.2.2 hu0 hu1 hv0 hv1
    have hE : (P ++ [q]) ++ Q = P ++ q :: Q := by simp
    have hg := greedy_snoc n P q
    rw [greedyFrom_cons] at heq
    by_cases h : labelAt (labelsOf n P) q.2.1 ≠ labelAt (labelsOf n P) q.2.2
    · rw [if_pos h] at heq hg
      rw [← labelsOf_snoc] at heq
      match A, heq with
      | [], heq =>
        simp only [List.nil_append, List.cons.injEq] at heq
        rw [← heq.1, List.append_nil]
        exact fun hc => h (hj.mpr hc)
      | a :: A2, heq =>
        simp only [List.cons_append, List.cons.injEq] at heq
        have := ih (P ++ [q]) A2 e B (by rw [hE]; exact hval) heq.2
        rw [hg] at this
        rw [← heq.1]
        simpa using this
    · rw [if_neg h] at heq hg
      have hsame : labelsOf n (P ++ [q]) = labelsOf n P := by
        rw [labelsOf_snoc]
        exact mergeLabels_same _ q (not_not.mp h)
      rw [← hsame] at heq
      have := ih (P ++ [q]) A e B (by rw [hE]; exact hval) heq
      rw [hg] at this
      exact this

/-! ## Kruskal: the reported total -/

theorem greedy_mem_split (n : Nat) : ∀ (Q P : List Edge) (e : Edge),
    e ∈ greedyFrom (labelsOf n P) Q →
    ∃ Q1 Q2, Q = Q1 ++ e :: Q2 ∧
      labelAt (labelsOf n (P ++ Q1)) e.2.1 ≠ labelAt (labelsOf n (P ++ Q1)) e.2.2 := by
  intro Q
  induction Q with
  | nil =>
    intro P e he
    simp [greedyFrom] at he
  | cons q Q ih =>
    intro P e he
    rw [greedyFrom_cons] at he
    have hE : ∀ Q1 : List Edge, (P ++ [q]) ++ Q1 = P ++ q :: Q1 := by intro Q1; simp
    by_cases h : labelAt (labelsOf n P) q.2.1 ≠ labelAt (labelsOf n P) q.2.2
    · rw [if_pos h, ← labelsOf_snoc] at he
      rcases List.mem_cons.mp he with h1 | h1
      · refine ⟨[], Q, by rw [h1]; rfl, ?_⟩
        rw [List.append_nil, h1]
        exact h
      · obtain ⟨Q1, Q2, hq, hlab⟩ := ih (P ++ [q]) e h1
        refine ⟨q :: Q1, Q2, by rw [hq]; rfl, ?_⟩
        rw [← hE]
        exact hlab
    · rw [if_neg h] at he
      have hsame : labelsOf n (P ++ [q]) = labelsOf n P := by
        rw [labelsOf_snoc]
        exact mergeLabels_same _ q (not_not.mp h)
      rw [← hsame] at he
      obtain ⟨Q1, Q2, hq, hlab⟩ := ih (P ++ [q]) e he
      refine ⟨q :: Q1, Q2, by rw [hq]; rfl, ?_⟩
      rw [← hE]
      exact hlab

/-- An edge that Kruskal adds is the lightest of the listed edges between its end
points. -/
theorem added_lightest (g : Graph) (hv : ValidGraph g) (e e' : Edge)
    (he : e ∈ greedyFrom (initLabels g.length) (kruskalSortedEdges g))
    (he' : e' ∈ kruskalSortedEdges g) (hends : e'.2 = e.2) : e.1 ≤ e'.1 := by
  have hval := kruskalEdges_valid g hv
  obtain ⟨Q1, Q2, hq, hlab⟩ := greedy_mem_split g.length (kruskalSortedEdges g) [] e he
  rw [List.nil_append] at hlab
  have hsorted : List.Sorted tupleLe (kruskalSortedEdges g) := by
    haveI := tupleLe_total
    haveI := tupleLe_trans
    exact List.sorted_insertionSort tupleLe (kruskalEdgeList g)
  rw [hq] at he' hsorted hval
  rcases List.mem_append.mp he' with h1 | h1
  · exfalso
    have hvalQ : ∀ x ∈ Q1, EdgeValid g.length x :=
      fun x hx => hval x (List.mem_append_left _ hx)
    obtain ⟨hu0, hu1, hv0, hv1⟩ := hval e (by simp)
    apply hlab
    apply ((labels_kernel g.length Q1 hvalQ).2 e.2.1 e.2.2 hu0 hu1 hv0 hv1).mpr
    have := joined_edge Q1 e' h1
    rw [hends] at this
    exact this
  · rcases List.mem_cons.mp h1 with h2 | h2
    · rw [h2]
    · have hp := (List.pairwise_cons.mp (List.pairwise_append.mp hsorted).2.1).1 e' h2
      unfold tupleLe at hp
      omega

theorem find_first_lightest : ∀ (l : List (Int × Int)) (v w : Int),
    l.Pairwise (fun a b => a.1 = b.1 → a.2 ≤ b.2) → (v, w) ∈ l →
    ∃ w0, l.find? (fun a => decide (a.1 = v)) = some (v, w0) ∧ w0 ≤ w ∧ (v, w0) ∈ l := by
  intro l
  induction l with
  | nil => intro v w _ h; simp at h
  | cons a l ih =>
    intro v w hp h
    obtain ⟨hhead, htail⟩ := List.pairwise_cons.mp hp
    by_cases ha : a.1 = v
    · refine ⟨a.2, ?_, ?_, ?_⟩
      · rw [List.find?_cons_of_pos _ (by simpa using ha), ← ha]
      · rcases List.mem_cons.mp h with h1 | h1
        · rw [← h1]
        · exact hhead (v, w) h1 ha
      · rw [← ha]
        exact List.mem_cons_self _ _
    · have hmem : (v, w) ∈ l := by
        rcases List.mem_cons.mp h with h1 | h1
        · exact absurd (by rw [← h1]) ha
        · exact h1
      obtain ⟨w0, h1, h2, h3⟩ := ih v w htail hmem
      refine ⟨w0, ?_, h2, List.mem_cons_of_mem _ h3⟩
      rw [List.find?_cons_of_neg _ (by simpa using ha)]
      exact h1

theorem kruskalAddWeight_added (g : Graph) (hv : ValidGraph g) (hl : LightestFirst g)
    (e : Edge) (he : e ∈ greedyFrom (initLabels g.length) (kruskalSortedEdges g)) (t : Int) :
    kruskalAddWeight g t (e.2.1, e.2.2) = wrapInt (t + e.1) := by
  have hes : e ∈ kruskalSortedEdges g := (greedy_sublist _ _).subset he
  obtain ⟨h0, h1, h2, h3⟩ := (mem_kruskalEdgeList g e).mp ((mem_kruskalSortedEdges g e).mp hes)
  have hadj := adj_eq_getD g _ ⟨h0, h1⟩
  rw [hadj] at h3
  have hu : e.2.1.toNat < g.length := by omega
  have hmem : g.getD e.2.1.toNat [] ∈ g := by
    rw [List.getD_eq_getElem g [] hu]
    exact List.getElem_mem hu
  obtain ⟨w0, hfind, hle, hin⟩ := find_first_lightest _ e.2.2 e.1 (hl _ hmem) h3
  have he' : ((w0, e.2.1, e.2.2) : Edge) ∈ kruskalSortedEdges g := by
    apply (mem_kruskalSortedEdges g _).mpr
    apply (mem_kruskalEdgeList g _).mpr
    refine ⟨h0, h1, h2, ?_⟩
    rw [hadj]
    exact hin
  have hge := added_lightest g hv e (w0, e.2.1, e.2.2) he he' rfl
  have hw0 : w0 = e.1 := by
    have : e.1 ≤ w0 := hge
    omega
  unfold kruskalAddWeight
  simp only []
  rw [hfind, hw0]

theorem kruskalTotal_added (g : Graph) (hw : SummableWeights g) :
    ∀ (G : List Edge) (t : Int) (k : Nat), (∀ e ∈ G, e ∈ kruskalSortedEdges g) →
      (∀ e ∈ G, ∀ t', kruskalAddWeight g t' (e.2.1, e.2.2) = wrapInt (t' + e.1)) →
      k + G.length < g.length →
      -((k : Int) * 2147483647) ≤ t * (g.length : Int) →
      t * (g.length : Int) ≤ (k : Int) * 2147483647 →
      (G.map (fun e => (e.2.1, e.2.2))).foldl (kruskalAddWeight g) t = t + treeWeight G := by
  intro G
  induction G with
  | nil => intro t k _ _ _ _ _; simp [treeWeight]
  | cons e G ih =>
    intro t k hmem hadd hk hlo hhi
    have he := hmem e (List.mem_cons_self _ _)
    obtain ⟨w1, w2⟩ := kruskalEdges_weight g hw e he
    rw [List.length_cons] at hk
    have hkn : (k : Int) + 1 < (g.length : Int) := by omega
    have hn0 : (0 : Int) < (g.length : Int) := by omega
    have hlo' : -(((k + 1 : Nat) : Int) * 2147483647) ≤ (t + e.1) * (g.length : Int) := by
      push_cast; nlinarith
    have hhi' : (t + e.1) * (g.length : Int) ≤ ((k + 1 : Nat) : Int) * 2147483647 := by
      push_cast; nlinarith
    have hwrap : wrapInt (t + e.1) = t + e.1 := by
      apply wrapInt_eq
      · by_contra hc
        push_cast at hlo'
        nlinarith
      · by_contra hc
        push_cast at hhi'
        nlinarith
    rw [List.map_cons, List.foldl_cons, hadd e (List.mem_cons_self _ _), hwrap,
      ih (t + e.1) (k + 1) (fun e' he' => hmem e' (List.mem_cons_of_mem _ he'))
        (fun e' he' => hadd e' (List.mem_cons_of_mem _ he')) (by omega) hlo' hhi',
      treeWeight_cons]
    ring

theorem consideredEdges_reports : ∀ (es : List Edge) (lab : List Int),
    (kruskalReports lab es).filterMap statusConsidered = es := by
  intro es
  induction es with
  | nil => intro lab; rfl
  | cons e es ih =>
    intro lab
    rw [kruskalReports_cons]
    by_cases h : labelAt lab e.2.1 ≠ labelAt lab e.2.2
    · rw [if_pos h]
      simp only [List.filterMap_cons, statusConsidered]
      rw [ih]
    · rw [if_neg h]
      simp only [List.filterMap_cons, statusConsidered]
      rw [ih]

theorem kruskal_considered (g : Graph) (hv : ValidGraph g) :
    ∃ steps, kruskalMST g = Except.ok steps ∧ consideredEdges steps = kruskalSortedEdges g := by
  obtain ⟨s, _, hmst, _, htr⟩ := kruskalMST_trace g hv
  refine ⟨_, hmst, ?_⟩
  have h1 : ∀ l : List GraphSnapshot,
      consideredEdges l = (l.map (fun x => x.status)).filterMap statusConsidered := by
    intro l
    unfold consideredEdges
    rw [List.filterMap_map]
    rfl
  rw [h1, List.map_append, htr]
  simp only [List.map_cons, List.map_nil, graphStateToJson]
  rw [List.filterMap_append, List.filterMap_cons]
  simp only [statusConsidered, List.filterMap_cons, List.filterMap_nil, List.append_nil]
  exact consideredEdges_reports _ _

theorem kruskal_added_greedy (g : Graph) (s : KruskalState) (t : Int)
    (htr : s.steps.map (fun x => x.status) =
      GraphStatus.kruskalStart :: kruskalReports (initLabels g.length) (kruskalSortedEdges g)) :
    addedEdges (s.steps ++ [graphStateToJson s.visited (-1) (GraphStatus.kruskalComplete t)]) =
      greedyFrom (initLabels g.length) (kruskalSortedEdges g) := by
  rw [addedEdges_status, List.map_append, htr]
  simp only [List.map_cons, List.map_nil, graphStateToJson]
  rw [List.filterMap_append, List.filterMap_cons]
  simp only [statusAdded, List.filterMap_cons, List.filterMap_nil, List.append_nil]
  exact added_reports _ _

/-- C28: for every graph whose edge targets are valid node indices, `kruskalMST`
returns a trace that ends with its terminal snapshot; in it, the snapshot after every
"Considering edge u -> v" snapshot reports the edge as added when `u` and `v` are not
joined by the edges added before, and as skipped when they are; and the added edges
form a forest. -/
theorem kruskal_adds_iff_unjoined (g : Graph) (hv : ValidGraph g) :
    ∃ steps visited total, kruskalMST g = Except.ok steps ∧
      steps.getLast? = some
        (graphStateToJson visited (-1) (GraphStatus.kruskalComplete total)) ∧
      (∀ (pre : List GraphSnapshot) (c r : GraphSnapshot) (post : List GraphSnapshot)
        (u v w : Int), steps = pre ++ c :: r :: post →
        c.status = GraphStatus.consideringWeighted u v w →
        (¬ Joined (addedEdges pre) u v ∧ r.status = GraphStatus.addedEdge u v w) ∨
          (Joined (addedEdges pre) u v ∧ r.status = GraphStatus.cycleSkip u v)) ∧
      IsForest (addedEdges steps) := by
  obtain ⟨s, _, hmst, _, htr⟩ := kruskalMST_trace g hv
  have hval := kruskalEdges_valid g hv
  refine ⟨_, s.visited, _, hmst, List.getLast?_concat _, ?_, ?_⟩
  · intro pre c r post u v w heq hc
    have hmap := congrArg (List.map (fun x : GraphSnapshot => x.status)) heq
    rw [List.map_append, htr] at hmap
    simp only [List.map_cons, List.map_nil, List.map_append, graphStateToJson] at hmap
    match pre, hmap with
    | [], hmap =>
      simp only [List.map_nil, List.nil_append, List.cons_append, List.cons.injEq] at hmap
      rw [hc] at hmap
      exact absurd hmap.1 (by simp)
    | p0 :: pre2, hmap =>
      simp only [List.map_cons, List.cons_append, List.cons.injEq] at hmap
      obtain ⟨h0, hrest⟩ := hmap
      have hsplit := reports_split g.length
        [GraphStatus.kruskalComplete (s.mst.foldl (kruskalAddWeight g) 0)]
        (by intro t ht; rw [List.mem_singleton.mp ht]; rfl)
        (kruskalSortedEdges g) [] (pre2.map (fun x : GraphSnapshot => x.status))
        c.status r.status (post.map (fun x : GraphSnapshot => x.status)) u v w (by simpa using hval) hrest hc
      have hadd : addedEdges (p0 :: pre2) =
          greedyFrom (initLabels g.length) [] ++
            (pre2.map (fun x => x.status)).filterMap statusAdded := by
        rw [addedEdges_status, List.map_cons, ← h0]
        rfl
      rw [hadd]
      exact hsplit
  · rw [kruskal_added_greedy g s _ htr]
    intro A e B heq
    have := greedy_forest g.length (kruskalSortedEdges g) [] A e B (by simpa using hval) heq
    simpa [greedyFrom] using this

/-- C28, at the triangle `0-1:1, 1-2:2, 0-2:3`: the hypothesis holds; the edges
`0-1` and `1-2` are reported as added, and `0-2`, whose end points they join, as
skipped. -/
theorem kruskal_adds_iff_unjoined_witness :
    kruskalTrace triangleGraph = some
      [GraphStatus.kruskalStart,
        GraphStatus.consideringWeighted 0 1 1, GraphStatus.addedEdge 0 1 1,
        GraphStatus.consideringWeighted 1 2 2, GraphStatus.addedEdge 1 2 2,
        GraphStatus.consideringWeighted 0 2 3, GraphStatus.cycleSkip 0 2,
        GraphStatus.kruskalComplete 3] ∧
    ∃ steps visited total, kruskalMST triangleGraph = Except.ok steps ∧
      steps.getLast? = some
        (graphStateToJson visited (-1) (GraphStatus.kruskalComplete total)) ∧
      (∀ (pre : List GraphSnapshot) (c r : GraphSnapshot) (post : List GraphSnapshot)
        (u v w : Int), steps = pre ++ c :: r :: post →
        c.status = GraphStatus.consideringWeighted u v w →
        (¬ Joined (addedEdges pre) u v ∧ r.status = GraphStatus.addedEdge u v w) ∨
          (Joined (addedEdges pre) u v ∧ r.status = GraphStatus.cycleSkip u v)) ∧
      IsForest (addedEdges steps) :=
  ⟨by decide!, kruskal_adds_iff_unjoined triangleGraph (by unfold ValidGraph; decide)⟩

/-- C29: with two edges between nodes 0 and 1, of weights 5 and 2 in this order, all
targets valid, `kruskalMST` reports the edge of weight 2 as added and then the total 5:
the loop that adds up `totalWeight` looks each MST edge up again in the adjacency list
and takes the first entry with that target, here the one of weight 5.  The claim says
the total is the sum of the added weights, 2, which is what `primMST` reports on the
same graph, since it adds each weight when the edge is accepted. -/
theorem kruskal_total_first_entry :
    ValidGraph [[(1, 5), (1, 2)], [(0, 5), (0, 2)]] ∧
    (kruskalMST [[(1, 5), (1, 2)], [(0, 5), (0, 2)]]).map
        (fun steps => (steps.getLast?, addedEdges steps, treeWeight (addedEdges steps))) =
      Except.ok (some (graphStateToJson [0, 1] (-1) (GraphStatus.kruskalComplete 5)),
        [(2, 0, 1)], 2) ∧
    kruskalTotal [[(1, 5), (1, 2)], [(0, 5), (0, 2)]] = some 5 ∧
    primTotal [[(1, 5), (1, 2)], [(0, 5), (0, 2)]] = some 2 :=
  ⟨by unfold ValidGraph; decide, by decide!, by decide!, by decide!⟩

/-- Where the lookup of the total finds the added weight: on a graph with valid edge
targets in which the first entry of a node for each target is a lightest one (no
parallel edges, for instance) and whose weights satisfy
`|weight| * nodeCount <= INT_MAX`, `kruskalMST` returns and the total of its terminal
snapshot is the sum of the weights of the edges its trace reports as added. -/
theorem kruskal_total_sum (g : Graph) (hv : ValidGraph g) (hl : LightestFirst g)
    (hw : SummableWeights g) :
    ∃ steps visited total, kruskalMST g = Except.ok steps ∧
      steps.getLast? = some
        (graphStateToJson visited (-1) (GraphStatus.kruskalComplete total)) ∧
      total = treeWeight (addedEdges steps) := by
  obtain ⟨s, _, hmst, hgreedy, htr⟩ := kruskalMST_trace g hv
  have hval := kruskalEdges_valid g hv
  refine ⟨_, s.visited, _, hmst, List.getLast?_concat _, ?_⟩
  rw [kruskal_added_greedy g s _ htr, hgreedy]
  have hsub : ∀ e ∈ greedyFrom (initLabels g.length) (kruskalSortedEdges g),
      e ∈ kruskalSortedEdges g := fun e he => (greedy_sublist _ _).subset he
  by_cases hG : greedyFrom (initLabels g.length) (kruskalSortedEdges g) = []
  · rw [hG]
    rfl
  · obtain ⟨e0, he0⟩ := List.exists_mem_of_ne_nil _ hG
    have hn : 0 < g.length := by
      have := (hval e0 (hsub e0 he0)).2.1
      have := (hval e0 (hsub e0 he0)).1
      omega
    have hcnt := greedy_count g.length (kruskalSortedEdges g) hval
    have hpos := rootCount_pos g.length _ (labels_kernel g.length _ hval).1 hn
    have h := kruskalTotal_added g hw _ 0 0 hsub
      (fun e he t => kruskalAddWeight_added g hv hl e he t) (by omega) (by simp) (by simp)
    rw [h]
    ring

/-- At a graph with two edges between nodes 0 and 1, the lighter one listed first, the
edge of weight 2 is added and the reported total is 2 + 4 = 6. -/
theorem kruskal_total_sum_witness :
    (kruskalMST [[(1, 2), (1, 5)], [(0, 2), (0, 5), (2, 4)], [(1, 4)]]).map
        (fun steps => (steps.getLast?, addedEdges steps)) =
      Except.ok (some (graphStateToJson [0, 1, 1, 2] (-1) (GraphStatus.kruskalComplete 6)),
        [(2, 0, 1), (4, 1, 2)]) ∧
    ∃ steps visited total,
      kruskalMST [[(1, 2), (1, 5)], [(0, 2), (0, 5), (2, 4)], [(1, 4)]] = Except.ok steps ∧
      steps.getLast? = some
        (graphStateToJson visited (-1) (GraphStatus.kruskalComplete total)) ∧
      total = treeWeight (addedEdges steps) :=
  ⟨by decide!, kruskal_total_sum [[(1, 2), (1, 5)], [(0, 2), (0, 5), (2, 4)], [(1, 4)]]
    (by unfold ValidGraph; decide) (by unfold LightestFirst; decide)
    (by unfold SummableWeights INT_MAX; decide)⟩

/-! ## Dijkstra: which nodes are processed, and with which distance -/

theorem dijkstraProcessed_append (a b : List GraphSnapshot) :
    dijkstraProcessed (a ++ b) = dijkstraProcessed a ++ dijkstraProcessed b := by
  unfold dijkstraProcessed
  exact List.filterMap_append _ _ _

theorem wrapInt_le (x : Int) : wrapInt x ≤ INT_MAX := by
  unfold wrapInt INT_MAX
  omega

theorem toNat_inj_of_nonneg (a b : Int) (ha : 0 ≤ a) (hb : 0 ≤ b) (h : a.toNat = b.toNat) :
    a = b := by
  omega

theorem relax_sum_bound (g : Graph) (hw : SummableWeights g) (cur d : Int) (e : Int × Int)
    (he : e ∈ adj g cur) (k : Nat) (hk : k + 1 ≤ g.length)
    (hd : -(((k : Int) - 1) * INT_MAX) ≤ d * (g.length : Int) ∧
      d * (g.length : Int) ≤ ((k : Int) - 1) * INT_MAX) :
    wrapInt (d + e.2) = d + e.2 ∧ d + e.2 < INT_MAX ∧
      -((k : Int) * INT_MAX) ≤ (d + e.2) * (g.length : Int) ∧
      (d + e.2) * (g.length : Int) ≤ (k : Int) * INT_MAX := by
  obtain ⟨l, hl, hel⟩ := mem_adj_mem_graph g cur e he
  obtain ⟨w1, w2⟩ := hw l hl e hel
  obtain ⟨d1, d2⟩ := hd
  unfold INT_MAX at *
  have hn0 : (0 : Int) < (g.length : Int) := by omega
  have hkn : (k : Int) + 1 ≤ (g.length : Int) := by omega
  have hlo : -((k : Int) * 2147483647) ≤ (d + e.2) * (g.length : Int) := by nlinarith
  have hhi : (d + e.2) * (g.length : Int) ≤ (k : Int) * 2147483647 := by nlinarith
  have hlt : d + e.2 < 2147483647 := by
    by_contra hc
    nlinarith
  have hgt : -2147483647 < d + e.2 := by
    by_contra hc
    nlinarith
  exact ⟨wrapInt_eq _ (by omega) (by omega), hlt, hlo, hhi⟩

theorem relaxEdge_proc (g : Graph) (hv : ValidGraph g) (start cur d : Int)
    (done : List (Int × Int)) (s : DijkstraState) (e : Int × Int) (he : e ∈ adj g cur)
    (h : DijkRelaxing g start cur d done s) :
    ∃ s', relaxEdge cur d s e = Except.ok s' ∧ DijkRelaxing g start cur d (done ++ [e]) s' ∧
      s'.visited = s.visited ∧ s'.pq.length ≤ s.pq.length + 1 := by
  obtain ⟨hc, hcur, hco, hch, hbd, hdb⟩ := h
  have hnbv := mem_adj_valid g hv cur e he
  by_cases hvis : e.1 ∈ s.visited
  · refine ⟨s, by unfold relaxEdge; simp only [hvis, if_true], ⟨hc, hcur, hco, ?_, hbd, hdb⟩,
      rfl, by omega⟩
    intro hw e' he'
    rcases List.mem_append.mp he' with h1 | h1
    · exact hch hw e' h1
    · rw [List.mem_singleton.mp h1]
      exact Or.inl hvis
  · have hb : 0 ≤ e.1 ∧ e.1 < (s.distances.length : Int) := by rw [hc.len]; exact hnbv
    have hidx : e.1.toNat < s.distances.length := by omega
    have hcount : s.visited.length + 1 ≤ g.length := by
      have := nodup_length_le g.length (e.1 :: s.visited)
        (List.nodup_cons.mpr ⟨hvis, hc.nodup⟩) (by
          intro x hx
          rcases List.mem_cons.mp hx with h1 | h1
          · rw [h1]; exact hnbv
          · exact hc.valid x h1)
      simpa using this
    have hsum : SummableWeights g → wrapInt (d + e.2) = d + e.2 ∧ d + e.2 < INT_MAX ∧
        -((s.visited.length : Int) * INT_MAX) ≤ (d + e.2) * (g.length : Int) ∧
        (d + e.2) * (g.length : Int) ≤ (s.visited.length : Int) * INT_MAX :=
      fun hw => relax_sum_bound g hw cur d e he s.visited.length hcount (hdb hw)
    by_cases hlt : wrapInt (d + e.2) < s.distances.getD e.1.toNat 0
    · have hnew : wrapInt (d + e.2) ≠ INT_MAX := by
        have := hc.dmax e.1
        unfold distAt at this
        omega
      have hD : ∀ x : Int, distAt (s.distances.set e.1.toNat (wrapInt (d + e.2))) x =
          if x.toNat = e.1.toNat then wrapInt (d + e.2) else distAt s.distances x :=
        fun x => distAt_set s.distances e.1 x _ hidx
      have hkeep : ∀ x : Int, distAt s.distances x ≠ INT_MAX →
          distAt (s.distances.set e.1.toNat (wrapInt (d + e.2))) x ≠ INT_MAX := by
        intro x hx
        rw [hD]
        split_ifs
        · exact hnew
        · exact hx
      have hproc : dijkstraProcessed (s.steps ++
          [graphStateToJson s.visited cur (GraphStatus.consideringWeighted cur e.1 e.2)] ++
          [graphStateToJson s.visited e.1 (GraphStatus.updatedDist e.1 (wrapInt (d + e.2)))]) =
          dijkstraProcessed s.steps := by
        rw [dijkstraProcessed_append, dijkstraProcessed_append]
        simp [dijkstraProcessed, graphStateToJson]
      refine ⟨{ s with
          distances := s.distances.set e.1.toNat (wrapInt (d + e.2))
          previous := s.previous.set e.1.toNat cur
          pq := s.pq ++ [(wrapInt (d + e.2), e.1)]
          steps := s.steps ++
            [graphStateToJson s.visited cur (GraphStatus.consideringWeighted cur e.1 e.2)] ++
            [graphStateToJson s.visited e.1
              (GraphStatus.updatedDist e.1 (wrapInt (d + e.2)))] },
        by unfold relaxEdge; simp only [hvis, if_false]; rw [if_pos hb, if_pos hlt],
        ⟨⟨by simp only [List.length_set]; exact hc.len, ?_, hkeep start hc.startFin, hc.nodup,
          hc.valid, hc.reach, ?_, ?_, ?_, ?_⟩, hcur, ?_, ?_, ?_, hdb⟩, rfl, by simp⟩
      · intro x
        show distAt (s.distances.set e.1.toNat (wrapInt (d + e.2))) x ≤ INT_MAX
        rw [hD]
        split_ifs
        · exact wrapInt_le _
        · exact hc.dmax x
      · intro e' he'
        show _ ∧ _ ∧ _ ∧ distAt (s.distances.set e.1.toNat (wrapInt (d + e.2))) e'.2 ≤ e'.1 ∧ _
        rcases List.mem_append.mp he' with h1 | h1
        · obtain ⟨a0, a1, a2, a3, a4⟩ := hc.pqOk e' h1
          refine ⟨a0, a1, a2, ?_, a4⟩
          rw [hD]
          split_ifs with hx
          · have hxe : e'.2 = e.1 := toNat_inj_of_nonneg _ _ a0 hnbv.1 hx
            rw [hxe] at a3
            unfold distAt at a3
            omega
          · exact a3
        · rw [List.mem_singleton.mp h1]
          refine ⟨hnbv.1, hnbv.2, reachable_step g start cur e (hc.reach cur hcur) he, ?_, ?_⟩
          · rw [hD, if_pos rfl]
          · have := wrapInt_le (d + e.2)
            show wrapInt (d + e.2) < INT_MAX
            omega
      · intro v v0 v1 hvv hfin
        show (distAt (s.distances.set e.1.toNat (wrapInt (d + e.2))) v, v) ∈
          s.pq ++ [(wrapInt (d + e.2), e.1)]
        have hfin' : distAt (s.distances.set e.1.toNat (wrapInt (d + e.2))) v ≠ INT_MAX := hfin
        rw [hD] at hfin' ⊢
        split_ifs at hfin' ⊢ with hx
        · have hxe : v = e.1 := toNat_inj_of_nonneg _ _ v0 hnbv.1 hx
          rw [hxe]
          exact List.mem_append_right _ (List.mem_singleton_self _)
        · exact List.mem_append_left _ (hc.pqHas v v0 v1 hvv hfin')
      · show (dijkstraProcessed _).map Prod.fst = s.visited
        rw [hproc]
        exact hc.procOrder
      · show ∀ p ∈ dijkstraProcessed _,
          distAt (s.distances.set e.1.toNat (wrapInt (d + e.2))) p.1 = p.2
        rw [hproc]
        intro p hp
        have hpv : p.1 ∈ s.visited := by
          rw [← hc.procOrder]
          exact List.mem_map_of_mem _ hp
        rw [hD]
        split_ifs with hx
        · exfalso
          have hxe : p.1 = e.1 := toNat_inj_of_nonneg _ _ (hc.valid _ hpv).1 hnbv.1 hx
          rw [hxe] at hpv
          exact hvis hpv
        · exact hc.procDist p hp
      · intro hw u hu huc e' he'
        rcases hco hw u hu huc e' he' with h1 | h1
        · exact Or.inl h1
        · exact Or.inr (hkeep _ h1)
      · intro hw e' he'
        rcases List.mem_append.mp he' with h1 | h1
        · rcases hch hw e' h1 with h2 | h2
          · exact Or.inl h2
          · exact Or.inr (hkeep _ h2)
        · rw [List.mem_singleton.mp h1]
          refine Or.inr ?_
          show distAt (s.distances.set e.1.toNat (wrapInt (d + e.2))) e.1 ≠ INT_MAX
          rw [hD, if_pos rfl]
          exact hnew
      · intro hw e' he'
        rcases List.mem_append.mp he' with h1 | h1
        · exact hbd hw e' h1
        · rw [List.mem_singleton.mp h1]
          obtain ⟨q1, _, q3, q4⟩ := hsum hw
          show -((s.visited.length : Int) * INT_MAX) ≤ wrapInt (d + e.2) * (g.length : Int) ∧
            wrapInt (d + e.2) * (g.length : Int) ≤ (s.visited.length : Int) * INT_MAX
          rw [q1]
          exact ⟨q3, q4⟩
    · have hproc : dijkstraProcessed (s.steps ++
          [graphStateToJson s.visited cur (GraphStatus.consideringWeighted cur e.1 e.2)]) =
          dijkstraProcessed s.steps := by
        rw [dijkstraProcessed_append]
        simp [dijkstraProcessed, graphStateToJson]
      refine ⟨{ s with
          steps := s.steps ++
            [graphStateToJson s.visited cur (GraphStatus.consideringWeighted cur e.1 e.2)] },
        by unfold relaxEdge; simp only [hvis, if_false]; rw [if_pos hb, if_neg hlt],
        ⟨⟨hc.len, hc.dmax, hc.startFin, hc.nodup, hc.valid, hc.reach, hc.pqOk, hc.pqHas, ?_,
          ?_⟩, hcur, hco, ?_, hbd, hdb⟩, rfl, by simp⟩
      · show (dijkstraProcessed _).map Prod.fst = s.visited
        rw [hproc]
        exact hc.procOrder
      · show ∀ p ∈ dijkstraProcessed _, _
        rw [hproc]
        exact hc.procDist
      · intro hw e' he'
        rcases List.mem_append.mp he' with h1 | h1
        · exact hch hw e' h1
        · rw [List.mem_singleton.mp h1]
          refine Or.inr ?_
          obtain ⟨q1, q2, _, _⟩ := hsum hw
          rw [q1] at hlt
          show distAt s.distances e.1 ≠ INT_MAX
          unfold distAt
          omega

theorem relaxFold_proc (g : Graph) (hv : ValidGraph g) (start cur d : Int) :
    ∀ (todo done : List (Int × Int)) (s : DijkstraState),
      (∀ e ∈ todo, e ∈ adj g cur) → DijkRelaxing g start cur d done s →
      ∃ s', todo.foldlM (relaxEdge cur d) s = Except.ok s' ∧
        DijkRelaxing g start cur d (done ++ todo) s' ∧ s'.visited = s.visited ∧
        s'.pq.length ≤ s.pq.length + todo.length := by
  intro todo
  induction todo with
  | nil =>
    intro done s _ h
    exact ⟨s, rfl, by rw [List.append_nil]; exact h, rfl, by simp⟩
  | cons e todo ih =>
    intro done s hmem h
    obtain ⟨s1, hrun1, h1, hv1, hq1⟩ := relaxEdge_proc g hv start cur d done s e
      (hmem e (List.mem_cons_self _ _)) h
    obtain ⟨s2, hrun2, h2, hv2, hq2⟩ := ih (done ++ [e]) s1
      (fun e' he' => hmem e' (List.mem_cons_of_mem _ he')) h1
    refine ⟨s2, ?_, by rw [List.append_assoc] at h2; exact h2, by rw [hv2, hv1], ?_⟩
    · rw [List.foldlM_cons, hrun1]
      exact hrun2
    · rw [List.length_cons]
      omega

theorem getD_le_of_forall (l : List Int) (i : Nat) (M : Int) (h : ∀ x ∈ l, x ≤ M)
    (h0 : 0 ≤ M) : l.getD i 0 ≤ M := by
  by_cases hi : i < l.length
  · rw [List.getD_eq_getElem l 0 hi]
    exact h _ (List.getElem_mem hi)
  · rw [List.getD_eq_default l 0 (by omega)]
    exact h0

theorem dijkstraProc_init (g : Graph) (start : Int) (hs0 : 0 ≤ start)
    (hs1 : start < (g.length : Int)) :
    DijkBetween g start
      { visited := []
        distances := (List.replicate g.length INT_MAX).set start.toNat 0
        previous := List.replicate g.length (-1)
        pq := [(0, start)]
        steps := [graphStateToJson [] start (GraphStatus.dijkstraStart start)] } := by
  have hstart := distAt_init g.length start start hs0 hs1 hs0
  rw [if_pos rfl] at hstart
  refine ⟨⟨by simp, ?_, ?_, List.nodup_nil, ?_, ?_, ?_, ?_, rfl, ?_⟩, ?_⟩
  · intro v
    unfold distAt
    apply getD_le_of_forall _ _ _ _ (by unfold INT_MAX; decide)
    intro x hx
    rcases List.mem_or_eq_of_mem_set hx with h | h
    · rw [List.eq_of_mem_replicate h]
    · rw [h]; unfold INT_MAX; decide
  · show distAt ((List.replicate g.length INT_MAX).set start.toNat 0) start ≠ INT_MAX
    rw [hstart]
    unfold INT_MAX
    decide
  · intro v hvm
    simp at hvm
  · intro v hvm
    simp at hvm
  · intro e he
    rw [List.mem_singleton.mp he]
    refine ⟨hs0, hs1, reachable_refl g start, ?_, ?_⟩
    · show distAt ((List.replicate g.length INT_MAX).set start.toNat 0) start ≤ 0
      rw [hstart]
    · show (0 : Int) < INT_MAX
      unfold INT_MAX
      decide
  · intro v v0 v1 _ hfin
    have hfin' : distAt ((List.replicate g.length INT_MAX).set start.toNat 0) v ≠ INT_MAX :=
      hfin
    show (distAt ((List.replicate g.length INT_MAX).set start.toNat 0) v, v) ∈ [(0, start)]
    rw [distAt_init g.length start v hs0 hs1 v0] at hfin' ⊢
    by_cases hvs : v = start
    · rw [if_pos hvs, hvs]
      exact List.mem_singleton_self _
    · rw [if_neg hvs, if_pos v1] at hfin'
      exact absurd rfl hfin'
  · intro p hp
    simp [dijkstraProcessed, graphStateToJson] at hp
  · intro _
    refine ⟨fun u hu => by simp at hu, ?_⟩
    intro e he
    rw [List.mem_singleton.mp he]
    simp

theorem dijkstraStep_proc (g : Graph) (hv : ValidGraph g) (start : Int)
    (s : DijkstraState) (top : Int × Int)
    (hP : DijkBetween g start s) (htop : pqTop s.pq = some top) :
    ∃ s', dijkstraStep g s top = Except.ok s' ∧ DijkBetween g start s' ∧
      dijkstraMeasure g s' < dijkstraMeasure g s := by
  obtain ⟨hc, hext⟩ := hP
  obtain ⟨htmem, htmin⟩ := pqTop_some s.pq top htop
  obtain ⟨hc0, hc1, hreach, hdle, hdlt⟩ := hc.pqOk top htmem
  have hlen1 : (s.pq.erase top).length + 1 = s.pq.length := by
    rw [List.length_erase_of_mem htmem]
    have : 0 < s.pq.length := List.length_pos_of_mem htmem
    omega
  by_cases hvis : top.2 ∈ s.visited
  · refine ⟨{ s with pq := s.pq.erase top }, by unfold dijkstraStep; simp only [hvis, if_true],
      ⟨⟨hc.len, hc.dmax, hc.startFin, hc.nodup, hc.valid, hc.reach, ?_, ?_, hc.procOrder,
        hc.procDist⟩, ?_⟩, ?_⟩
    · intro e he
      exact hc.pqOk e (List.mem_of_mem_erase he)
    · intro v v0 v1 hvS hvfin
      have hmem := hc.pqHas v v0 v1 hvS hvfin
      refine (List.mem_erase_of_ne ?_).mpr hmem
      intro hcon
      rw [← hcon] at hvis
      exact hvS hvis
    · intro hw
      exact ⟨(hext hw).1, fun e he => (hext hw).2 e (List.mem_of_mem_erase he)⟩
    · unfold dijkstraMeasure
      simp only []
      omega
  · have hfin : distAt s.distances top.2 ≠ INT_MAX := by omega
    have hmem := hc.pqHas top.2 hc0 hc1 hvis hfin
    have hd : distAt s.distances top.2 = top.1 := by
      have := htmin _ hmem
      simp only [] at this
      omega
    have hproc : dijkstraProcessed (s.steps ++
        [graphStateToJson (s.visited ++ [top.2]) top.2
          (GraphStatus.processingDist top.2 top.1)]) =
        dijkstraProcessed s.steps ++ [(top.2, top.1)] := by
      rw [dijkstraProcessed_append]
      simp [dijkstraProcessed, graphStateToJson]
    have hM : (0 : Int) ≤ INT_MAX := by unfold INT_MAX; decide
    have hstart : DijkRelaxing g start top.2 top.1 []
        { s with
          visited := s.visited ++ [top.2]
          pq := s.pq.erase top
          steps := s.steps ++ [graphStateToJson (s.visited ++ [top.2]) top.2
            (GraphStatus.processingDist top.2 top.1)] } := by
      refine ⟨⟨hc.len, hc.dmax, hc.startFin, ?_, ?_, ?_, ?_, ?_, ?_, ?_⟩, ?_, ?_, ?_, ?_, ?_⟩
      · apply List.Nodup.append hc.nodup (List.nodup_singleton _)
        intro x hx1 hx2
        simp only [List.mem_singleton] at hx2
        exact hvis (hx2 ▸ hx1)
      · intro v hvm
        rcases List.mem_append.mp hvm with h | h
        · exact hc.valid v h
        · simp only [List.mem_singleton] at h
          rw [h]; exact ⟨hc0, hc1⟩
      · intro v hvm
        rcases List.mem_append.mp hvm with h | h
        · exact hc.reach v h
        · simp only [List.mem_singleton] at h
          rw [h]; exact hreach
      · intro e he
        exact hc.pqOk e (List.mem_of_mem_erase he)
      · intro v v0 v1 hvS hvfin
        have hvS' : v ∉ s.visited := fun h => hvS (List.mem_append_left _ h)
        have hne : v ≠ top.2 := fun h => hvS (List.mem_append_right _ (by simp [h]))
        have hmem' := hc.pqHas v v0 v1 hvS' hvfin
        refine (List.mem_erase_of_ne ?_).mpr hmem'
        intro hcon
        exact hne (by rw [← hcon])
      · show (dijkstraProcessed _).map Prod.fst = s.visited ++ [top.2]
        rw [hproc, List.map_append, hc.procOrder]
        rfl
      · show ∀ p ∈ dijkstraProcessed _, distAt s.distances p.1 = p.2
        rw [hproc]
        intro p hp
        rcases List.mem_append.mp hp with h | h
        · exact hc.procDist p h
        · rw [List.mem_singleton.mp h]
          exact hd
      · exact List.mem_append_right _ (List.mem_singleton_self _)
      · intro hw u hu huc e he
        rcases List.mem_append.mp hu with h | h
        · rcases (hext hw).1 u h e he with h2 | h2
          · exact Or.inl (List.mem_append_left _ h2)
          · exact Or.inr h2
        · simp only [List.mem_singleton] at h
          exact absurd h huc
      · intro _ e he
        simp at he
      · intro hw e he
        have := (hext hw).2 e (List.mem_of_mem_erase he)
        show -(((s.visited ++ [top.2]).length : Int) * INT_MAX) ≤ _ ∧
          _ ≤ ((s.visited ++ [top.2]).length : Int) * INT_MAX
        rw [List.length_append, List.length_singleton]
        push_cast
        constructor
        · linarith [this.1]
        · linarith [this.2]
      · intro hw
        have := (hext hw).2 top htmem
        show -((((s.visited ++ [top.2]).length : Int) - 1) * INT_MAX) ≤ _ ∧
          _ ≤ (((s.visited ++ [top.2]).length : Int) - 1) * INT_MAX
        rw [List.length_append, List.length_singleton]
        push_cast
        rw [add_sub_cancel_right]
        exact this
    have hadj : adj g top.2 = g.getD top.2.toNat [] := adj_eq_getD g top.2 ⟨hc0, hc1⟩
    obtain ⟨s', hrun, hfinal, hvis', hqlen'⟩ := relaxFold_proc g hv start top.2 top.1
      (g.getD top.2.toNat []) [] _ (fun e he => by rw [hadj]; exact he) hstart
    rw [List.nil_append] at hfinal
    have hvis2 : s'.visited = s.visited ++ [top.2] := hvis'
    have hqlen2 : s'.pq.length ≤ (s.pq.erase top).length + (g.getD top.2.toNat []).length :=
      hqlen'
    refine ⟨s', by
      unfold dijkstraStep
      simp only [hvis, if_false]
      rw [if_pos ⟨hc0, hc1⟩]
      exact hrun, ⟨hfinal.core, ?_⟩, ?_⟩
    · intro hw
      refine ⟨?_, hfinal.bound hw⟩
      intro u hu e he
      by_cases huc : u = top.2
      · rw [huc, hadj] at he
        exact hfinal.closedHere hw e he
      · exact hfinal.closedOther hw u hu huc e he
    · unfold dijkstraMeasure
      rw [hvis2]
      have := pendingDeg_visit g s.visited top.2 hc0 hc1 hvis
      omega

/-- For any weights: with valid targets and a valid start the loop of
`dijkstraAlgorithm` ends with the invariant, an empty queue and `start` visited. -/
theorem dijkstra_processing (g : Graph) (start : Int) (hv : ValidGraph g)
    (hs0 : 0 ≤ start) (hs1 : start < (g.length : Int)) :
    ∃ s, dijkstraRun g start = Except.ok s ∧ DijkBetween g start s ∧ s.pq = [] ∧
      start ∈ s.visited := by
  obtain ⟨s, hrun, hP, hpq⟩ := dijkstraLoop_inv g (DijkBetween g start)
    (dijkstraMeasure g)
    (fun s top hP htop => dijkstraStep_proc g hv start s top hP htop)
    (edgeCount g + 1) _ (dijkstraProc_init g start hs0 hs1)
    (by unfold dijkstraMeasure; simp only [List.length_singleton]; rw [pendingDeg_nil]; omega)
  refine ⟨s, by unfold dijkstraRun; simp only []; rw [if_pos ⟨hs0, hs1⟩]; exact hrun,
    hP, hpq, ?_⟩
  by_contra hcon
  have := hP.1.pqHas start hs0 hs1 hcon hP.1.startFin
  rw [hpq] at this
  simp at this

/-- C26 as stated fails for a weight that reaches the "infinite" sentinel: in the graph
with the single edge `0 -> 1` of weight 2147483647 node 1 is reachable from node 0, but
the relaxation `0 + 2147483647 < INT_MAX` fails, so node 1 is never queued and the only
"Processing node" snapshot is that of node 0. -/
theorem dijkstra_unprocessed_counterexample :
    ValidGraph [[(1, 2147483647)], []] ∧ Reachable [[(1, 2147483647)], []] 0 1 ∧
    (dijkstraAlgorithm [[(1, 2147483647)], []] 0).map dijkstraProcessed =
      Except.ok [(0, 0)] :=
  ⟨by unfold ValidGraph; decide, ⟨[(1, 2147483647)], by simp [IsWalk, adj], rfl⟩,
    by decide!⟩

/-- C26, amended: for every graph whose edge targets are valid node indices and whose
weights, of either sign, satisfy `|weight| * nodeCount <= INT_MAX`, and every valid
start node, `dijkstraAlgorithm` returns; no node has two "Processing node" snapshots,
the nodes that have one are exactly the nodes reachable from start, and the distance
shown in each equals that node's distance in the final result. -/
theorem dijkstra_processes_reachable (g : Graph) (start : Int) (hv : ValidGraph g)
    (hw : SummableWeights g) (hs0 : 0 ≤ start) (hs1 : start < (g.length : Int)) :
    ∃ steps visited distances, dijkstraAlgorithm g start = Except.ok steps ∧
      steps.getLast? = some
        (graphStateToJson visited (-1) (GraphStatus.dijkstraComplete start distances)) ∧
      ((dijkstraProcessed steps).map Prod.fst).Nodup ∧
      (∀ v, v ∈ (dijkstraProcessed steps).map Prod.fst ↔ Reachable g start v) ∧
      ∀ p ∈ dijkstraProcessed steps, distAt distances p.1 = p.2 := by
  obtain ⟨s, hrun, ⟨hc, hext⟩, hpq, hstart⟩ := dijkstra_processing g start hv hs0 hs1
  have hproc : dijkstraProcessed (s.steps ++
      [graphStateToJson s.visited (-1) (GraphStatus.dijkstraComplete start s.distances)]) =
      dijkstraProcessed s.steps := by
    rw [dijkstraProcessed_append]
    simp [dijkstraProcessed, graphStateToJson]
  refine ⟨_, s.visited, s.distances, by unfold dijkstraAlgorithm; rw [hrun],
    List.getLast?_concat _, ?_, ?_, ?_⟩
  · rw [hproc, hc.procOrder]
    exact hc.nodup
  · intro v
    rw [hproc, hc.procOrder]
    refine ⟨hc.reach v, ?_⟩
    rintro ⟨p, hp, hend⟩
    have hclosed : ∀ u ∈ s.visited, ∀ e ∈ adj g u, e.1 ∈ s.visited := by
      intro u hu e he
      rcases (hext hw).1 u hu e he with h | h
      · exact h
      · by_contra hcon
        have hval := mem_adj_valid g hv u e he
        have := hc.pqHas e.1 hval.1 hval.2 hcon h
        rw [hpq] at this
        simp at this
    rw [← hend]
    exact closed_reachable g s.visited hclosed p start hstart hp
  · rw [hproc]
    exact hc.procDist

/-- C26 amended, at a graph with a negative weight and an unreachable node 3: the
hypotheses hold; nodes 0, 2, 1 are processed with distances 0, 1, 2, which are their
final distances. -/
theorem dijkstra_processes_reachable_witness :
    (dijkstraAlgorithm [[(1, 4), (2, 1)], [(2, -2)], [(1, 1)], []] 0).map dijkstraProcessed =
      Except.ok [(0, 0), (2, 1), (1, 2)] ∧
    dijkstraDistances [[(1, 4), (2, 1)], [(2, -2)], [(1, 1)], []] 0 =
      some [0, 2, 1, 2147483647] ∧
    ∃ steps visited distances,
      dijkstraAlgorithm [[(1, 4), (2, 1)], [(2, -2)], [(1, 1)], []] 0 = Except.ok steps ∧
      steps.getLast? = some
        (graphStateToJson visited (-1) (GraphStatus.dijkstraComplete 0 distances)) ∧
      ((dijkstraProcessed steps).map Prod.fst).Nodup ∧
      (∀ v, v ∈ (dijkstraProcessed steps).map Prod.fst ↔
        Reachable [[(1, 4), (2, 1)], [(2, -2)], [(1, 1)], []] 0 v) ∧
      ∀ p ∈ dijkstraProcessed steps, distAt distances p.1 = p.2 :=
  ⟨by decide!, by decide!,
    dijkstra_processes_reachable [[(1, 4), (2, 1)], [(2, -2)], [(1, 1)], []] 0
      (by unfold ValidGraph; decide) (by unfold SummableWeights INT_MAX; decide)
      (by decide) (by decide)⟩

/-! ## Highlight positions are indices of the array shown -/

theorem vh_none (n : Nat) : ValidHighlight n (-1) := Or.inl rfl

theorem vh_nat (n i : Nat) (h : i < n) : ValidHighlight n (i : Int) :=
  Or.inr ⟨by omega, by omega⟩

theorem vh_int (n : Nat) (i : Int) (h0 : 0 ≤ i) (h1 : i < (n : Int)) : ValidHighlight n i :=
  Or.inr ⟨h0, h1⟩

theorem allValid_snoc (n : Nat) (steps : List ArraySnapshot) (a : List Int) (h1 h2 : Int)
    (hs : ∀ s ∈ steps, s.ValidHighlights) (ha : a.length = n)
    (v1 : ValidHighlight n h1) (v2 : ValidHighlight n h2) :
    ∀ s ∈ steps ++ [arrayToJson a h1 h2], s.ValidHighlights := by
  intro s hm
  rcases List.mem_append.mp hm with h | h
  · exact hs s h
  · rw [List.mem_singleton.mp h]
    unfold ArraySnapshot.ValidHighlights arrayToJson
    simp only []
    rw [ha]
    exact ⟨v1, v2⟩

theorem sortOK_push (n : Nat) (st : SortState) (a : List Int) (h1 h2 : Int)
    (hs : SortOK n st) (ha : a.length = n)
    (v1 : ValidHighlight n h1) (v2 : ValidHighlight n h2) :
    SortOK n (a, st.2 ++ [arrayToJson a h1 h2]) :=
  ⟨ha, allValid_snoc n st.2 a h1 h2 hs.2 ha v1 v2⟩

theorem foldl_mem_inv {σ α : Type} (P : σ → Prop) (f : σ → α → σ) :
    ∀ (l : List α) (st : σ), P st → (∀ st x, x ∈ l → P st → P (f st x)) →
      P (l.foldl f st) := by
  intro l
  induction l with
  | nil => intro st h _; exact h
  | cons x l ih =>
    intro st h hstep
    rw [List.foldl_cons]
    exact ih _ (hstep st x (List.mem_cons_self _ _) h)
      (fun st' y hy hp => hstep st' y (List.mem_cons_of_mem _ hy) hp)

theorem foldlM_mem_inv {σ α : Type} (P : σ → Prop) (f : σ → α → Option σ) :
    ∀ (l : List α) (st : σ), P st →
      (∀ st x, x ∈ l → P st → ∃ st', f st x = some st' ∧ P st') →
      ∃ st', l.foldlM f st = some st' ∧ P st' := by
  intro l
  induction l with
  | nil => intro st h _; exact ⟨st, rfl, h⟩
  | cons x l ih =>
    intro st h hstep
    obtain ⟨st1, hrun1, hp1⟩ := hstep st x (List.mem_cons_self _ _) h
    obtain ⟨st2, hrun2, hp2⟩ := ih st1 hp1
      (fun st' y hy hp => hstep st' y (List.mem_cons_of_mem _ hy) hp)
    refine ⟨st2, ?_, hp2⟩
    rw [List.foldlM_cons, hrun1]
    exact hrun2

/-! ### Bubble, insertion and selection sort -/

theorem bubbleInner_ok (n : Nat) (st : SortState) (j : Nat) (hj : j + 1 < n)
    (h : SortOK n st) : SortOK n (bubbleInner st j) := by
  have v1 := vh_nat n j (by omega)
  have v2 : ValidHighlight n ((j : Int) + 1) := vh_int n _ (by omega) (by omega)
  have h1 := sortOK_push n st st.1 j (j + 1) h h.1 v1 v2
  unfold bubbleInner
  simp only []
  split_ifs
  · exact sortOK_push n _ _ j (j + 1) h1 (by rw [length_swap]; exact h.1) v1 v2
  · exact h1

theorem bubbleSort_ok (arr : List Int) : ∀ s ∈ bubbleSort arr, s.ValidHighlights := by
  have h0 : SortOK arr.length (arr, [arrayToJson arr (-1) (-1)]) :=
    ⟨rfl, allValid_snoc arr.length [] arr (-1) (-1) (fun s hs => by simp at hs) rfl
      (vh_none _) (vh_none _)⟩
  have h1 : SortOK arr.length
      ((List.range (arr.length - 1)).foldl (bubbleOuter arr.length)
        (arr, [arrayToJson arr (-1) (-1)])) := by
    apply foldl_mem_inv (SortOK arr.length) _ _ _ h0
    intro st i hi hst
    unfold bubbleOuter
    apply foldl_mem_inv (SortOK arr.length) _ _ _ hst
    intro st' j hj hst'
    have := List.mem_range.mp hj
    exact bubbleInner_ok _ st' j (by omega) hst'
  exact (sortOK_push _ _ _ (-1) (-1) h1 h1.1 (vh_none _) (vh_none _)).2

theorem insertionWhile_ok (n : Nat) (key : Int) (i : Nat) (hi : i < n) :
    ∀ (c : Nat) (st : SortState), c ≤ i → SortOK n st →
      (insertionWhile key i c st).1 ≤ c ∧ SortOK n (insertionWhile key i c st).2 := by
  intro c
  induction c with
  | zero =>
    intro st _ h
    exact ⟨le_refl _, h⟩
  | succ j ih =>
    intro st hc h
    unfold insertionWhile
    by_cases hgt : st.1.getD j 0 > key
    · have h1 := sortOK_push n st st.1 j i h h.1 (vh_nat n j (by omega)) (vh_nat n i hi)
      have h2 := sortOK_push n _ (st.1.set (j + 1) (st.1.getD j 0)) j (-1) h1
        (by rw [List.length_set]; exact h.1) (vh_nat n j (by omega)) (vh_none _)
      obtain ⟨r1, r2⟩ := ih _ (by omega) h2
      rw [if_pos hgt]
      exact ⟨Nat.le_succ_of_le r1, r2⟩
    · rw [if_neg hgt]
      exact ⟨le_refl _, h⟩

theorem insertionOuter_ok (n : Nat) (st : SortState) (i : Nat) (hi : i < n)
    (h : SortOK n st) : SortOK n (insertionOuter st i) := by
  have h1 := sortOK_push n st st.1 i (-1) h h.1 (vh_nat n i hi) (vh_none _)
  obtain ⟨r1, r2⟩ := insertionWhile_ok n (st.1.getD i 0) i hi i _ (le_refl _) h1
  unfold insertionOuter
  simp only []
  exact sortOK_push n _ _ _ (-1) r2 (by rw [List.length_set]; exact r2.1)
    (vh_nat n _ (by omega)) (vh_none _)

theorem insertionSort_ok (arr : List Int) : ∀ s ∈ insertionSort arr, s.ValidHighlights := by
  have h0 : SortOK arr.length (arr, [arrayToJson arr (-1) (-1)]) :=
    ⟨rfl, allValid_snoc arr.length [] arr (-1) (-1) (fun s hs => by simp at hs) rfl
      (vh_none _) (vh_none _)⟩
  have h1 : SortOK arr.length
      ((List.range' 1 (arr.length - 1)).foldl insertionOuter
        (arr, [arrayToJson arr (-1) (-1)])) := by
    apply foldl_mem_inv (SortOK arr.length) _ _ _ h0
    intro st i hi hst
    have := List.mem_range'_1.mp hi
    exact insertionOuter_ok _ st i (by omega) hst
  exact (sortOK_push _ _ _ (-1) (-1) h1 h1.1 (vh_none _) (vh_none _)).2

theorem selectionOuter_ok (n : Nat) (st : SortState) (i : Nat) (hi : i < n)
    (h : SortOK n st) : SortOK n (selectionOuter n st i) := by
  have h1 := sortOK_push n st st.1 i (-1) h h.1 (vh_nat n i hi) (vh_none _)
  have h2 : ((List.range' (i + 1) (n - (i + 1))).foldl (selectionInner st.1)
        (i, st.2 ++ [arrayToJson st.1 i (-1)])).1 < n ∧
      ∀ s ∈ ((List.range' (i + 1) (n - (i + 1))).foldl (selectionInner st.1)
        (i, st.2 ++ [arrayToJson st.1 i (-1)])).2, s.ValidHighlights := by
    apply foldl_mem_inv
      (fun ms : Nat × List ArraySnapshot => ms.1 < n ∧ ∀ s ∈ ms.2, s.ValidHighlights)
      _ _ _ ⟨hi, h1.2⟩
    intro ms j hj hms
    have hjn := List.mem_range'_1.mp hj
    have hv := allValid_snoc n ms.2 st.1 ms.1 j hms.2 h.1 (vh_nat n _ hms.1)
      (vh_nat n j (by omega))
    unfold selectionInner
    simp only []
    split_ifs
    · exact ⟨by omega, hv⟩
    · exact ⟨hms.1, hv⟩
  unfold selectionOuter
  simp only []
  have h3 := allValid_snoc n _ st.1 i _ h2.2 h.1 (vh_nat n i hi) (vh_nat n _ h2.1)
  exact ⟨by rw [length_swap]; exact h.1,
    allValid_snoc n _ _ i (-1) h3 (by rw [length_swap]; exact h.1) (vh_nat n i hi)
      (vh_none _)⟩

theorem selectionSort_ok (arr : List Int) : ∀ s ∈ selectionSort arr, s.ValidHighlights := by
  have h0 : SortOK arr.length (arr, [arrayToJson arr (-1) (-1)]) :=
    ⟨rfl, allValid_snoc arr.length [] arr (-1) (-1) (fun s hs => by simp at hs) rfl
      (vh_none _) (vh_none _)⟩
  have h1 : SortOK arr.length
      ((List.range (arr.length - 1)).foldl (selectionOuter arr.length)
        (arr, [arrayToJson arr (-1) (-1)])) := by
    apply foldl_mem_inv (SortOK arr.length) _ _ _ h0
    intro st i hi hst
    have := List.mem_range.mp hi
    exact selectionOuter_ok _ st i (by omega) hst
  exact (sortOK_push _ _ _ (-1) (-1) h1 h1.1 (vh_none _) (vh_none _)).2

/-! ### Quick sort -/

theorem partitionStep_ok (n : Nat) (pivot low high j : Int) (s : PartState)
    (h0 : 0 ≤ low) (hj0 : low ≤ j) (hj1 : j < high) (hh : high < (n : Int))
    (hi0 : low - 1 ≤ s.1) (hi1 : s.1 < j) (h : SortOK n s.2) :
    low - 1 ≤ (partitionStep pivot high s j).1 ∧ (partitionStep pivot high s j).1 < j + 1 ∧
      SortOK n (partitionStep pivot high s j).2 := by
  have h1 := sortOK_push n s.2 s.2.1 j high h h.1 (vh_int n j (by omega) (by omega))
    (vh_int n high (by omega) hh)
  unfold partitionStep
  simp only []
  split_ifs
  · refine ⟨by omega, by omega, ?_⟩
    exact sortOK_push n _ _ (s.1 + 1) j h1 (by rw [length_swap]; exact h.1)
      (vh_int n _ (by omega) (by omega)) (vh_int n j (by omega) (by omega))
  · exact ⟨hi0, by omega, h1⟩

theorem partition_ok (n : Nat) (st : SortState) (low high : Int)
    (h0 : 0 ≤ low) (hlh : low < high) (hh : high < (n : Int)) (h : SortOK n st) :
    SortOK n (partition st low high).2 := by
  have h1 := sortOK_push n st st.1 high (-1) h h.1 (vh_int n high (by omega) hh) (vh_none _)
  have hfold : ∀ init : PartState, low - 1 ≤ init.1 → init.1 < low → SortOK n init.2 →
      low - 1 ≤ (((List.range (high - low).toNat).map (fun (k : Nat) => low + (k : Int))).foldl
        (partitionStep (st.1.getD high.toNat 0) high) init).1 ∧
      (((List.range (high - low).toNat).map (fun (k : Nat) => low + (k : Int))).foldl
        (partitionStep (st.1.getD high.toNat 0) high) init).1 < high ∧
      SortOK n (((List.range (high - low).toNat).map (fun (k : Nat) => low + (k : Int))).foldl
        (partitionStep (st.1.getD high.toNat 0) high) init).2 := by
    intro init i0 i1 hinit
    rw [List.foldl_map]
    have := foldl_range_inv
      (fun (k : Nat) (s : PartState) => low - 1 ≤ s.1 ∧ s.1 < low + (k : Int) ∧ SortOK n s.2)
      (fun s (k : Nat) => partitionStep (st.1.getD high.toNat 0) high s (low + (k : Int)))
      (high - low).toNat init ⟨i0, by simpa using i1, hinit⟩
      (fun k s hk hp => by
        have := partitionStep_ok n (st.1.getD high.toNat 0) low high (low + (k : Int)) s h0
          (by omega) (by omega) hh hp.1 hp.2.1 hp.2.2
        refine ⟨this.1, ?_, this.2.2⟩
        push_cast
        have := this.2.1
        omega)
    refine ⟨this.1, ?_, this.2.2⟩
    have := this.2.1
    omega
  obtain ⟨f0, f1, f2⟩ := hfold (low - 1, st.1, st.2 ++ [arrayToJson st.1 high (-1)])
    (le_refl _) (by show low - 1 < low; omega) h1
  unfold partition
  simp only []
  exact sortOK_push n _ _ _ (-1) f2 (by rw [length_swap]; exact f2.1)
    (vh_int n _ (by omega) (by omega)) (vh_none _)

theorem quickSortHelper_ok (n : Nat) :
    ∀ (fuel : Nat) (st : SortState) (low high : Int) (st' : SortState),
      0 ≤ low → high < (n : Int) → SortOK n st →
      quickSortHelper fuel st low high = some st' → SortOK n st' := by
  intro fuel
  induction fuel with
  | zero =>
    intro st low high st' h0 hh h hrun
    unfold quickSortHelper at hrun
    split_ifs at hrun
    injection hrun with e
    rw [← e]
    exact h
  | succ fuel ih =>
    intro st low high st' h0 hh h hrun
    unfold quickSortHelper at hrun
    split_ifs at hrun with hlh
    · simp only [] at hrun
      obtain ⟨st1, hrun1, hrun2⟩ := Option.bind_eq_some.mp hrun
      have hpush := sortOK_push n st st.1 low high h h.1 (vh_int n low h0 (by omega))
        (vh_int n high (by omega) hh)
      have hp := partition_ok n (st.1, st.2 ++ [arrayToJson st.1 low high]) low high h0 hlh hh
        hpush
      have hb := partition_spec (st.1, st.2 ++ [arrayToJson st.1 low high]) low high h0 hlh
        (by show high < ((st.1.length : Nat) : Int); rw [h.1]; exact hh)
      have h1 := ih _ low _ st1 h0 (by omega) hp hrun1
      exact ih st1 _ high st' (by omega) hh h1 hrun2
    · injection hrun with e
      rw [← e]
      exact h

theorem quickSort_ok (arr : List Int) :
    ∃ steps, quickSort arr = some steps ∧ ∀ s ∈ steps, s.ValidHighlights := by
  have h0 : SortOK arr.length (arr, [arrayToJson arr (-1) (-1)]) :=
    ⟨rfl, allValid_snoc arr.length [] arr (-1) (-1) (fun s hs => by simp at hs) rfl
      (vh_none _) (vh_none _)⟩
  obtain ⟨st', hrun, _⟩ := quickSortHelper_spec arr.length (arr, [arrayToJson arr (-1) (-1)])
    0 ((arr.length : Int) - 1) (le_refl _) (by show (arr.length : Int) - 1 < arr.length; omega)
    (by omega)
  have h1 := quickSortHelper_ok arr.length _ _ _ _ st' (le_refl _) (by omega) h0 hrun
  refine ⟨_, by unfold quickSort; simp only []; rw [hrun]; rfl, ?_⟩
  exact (sortOK_push _ _ _ (-1) (-1) h1 h1.1 (vh_none _) (vh_none _)).2

/-! ### Merge sort -/

theorem mergeLoop_ok (n : Nat) (L R : List Int) (left mid n1 n2 : Int)
    (h0 : 0 ≤ left) (hm : mid + 1 = left + n1) (hr : left + n1 + n2 ≤ (n : Int)) :
    ∀ (fuel : Nat) (s s' : MergeState), MergeOK n left n1 n2 s →
      mergeLoop L R left mid n1 n2 fuel s = some s' → MergeOK n left n1 n2 s' := by
  intro fuel
  induction fuel with
  | zero =>
    intro s s' h hrun
    unfold mergeLoop at hrun
    split_ifs at hrun
    injection hrun with e
    rw [← e]
    exact h
  | succ fuel ih =>
    intro s s' h hrun
    obtain ⟨i0, i1, j0, j1, hk, hlen, hsteps⟩ := h
    unfold mergeLoop at hrun
    split_ifs at hrun with hc hle
    · have v1 := allValid_snoc n s.steps s.arr (left + s.i) (mid + 1 + s.j) hsteps hlen
        (vh_int n _ (by omega) (by omega)) (vh_int n _ (by omega) (by omega))
      apply ih _ s' _ hrun
      refine ⟨by show 0 ≤ s.i + 1; omega, by show s.i + 1 ≤ n1; omega, j0, j1,
        by show s.k + 1 = left + (s.i + 1) + s.j; omega,
        by show (s.arr.set _ _).length = n; rw [List.length_set]; exact hlen, ?_⟩
      exact allValid_snoc n _ _ (s.k + 1 - 1) (-1) v1 (by rw [List.length_set]; exact hlen)
        (vh_int n _ (by omega) (by omega)) (vh_none _)
    · have v1 := allValid_snoc n s.steps s.arr (left + s.i) (mid + 1 + s.j) hsteps hlen
        (vh_int n _ (by omega) (by omega)) (vh_int n _ (by omega) (by omega))
      apply ih _ s' _ hrun
      refine ⟨i0, i1, by show 0 ≤ s.j + 1; omega, by show s.j + 1 ≤ n2; omega,
        by show s.k + 1 = left + s.i + (s.j + 1); omega,
        by show (s.arr.set _ _).length = n; rw [List.length_set]; exact hlen, ?_⟩
      exact allValid_snoc n _ _ (s.k + 1 - 1) (-1) v1 (by rw [List.length_set]; exact hlen)
        (vh_int n _ (by omega) (by omega)) (vh_none _)
    · injection hrun with e
      rw [← e]
      exact ⟨i0, i1, j0, j1, hk, hlen, hsteps⟩

theorem mergeCopy_ok (n : Nat) (T : List Int) :
    ∀ (c : Nat) (i k : Int) (st : SortState), 0 ≤ k → k + (c : Int) ≤ (n : Int) →
      SortOK n st →
      (mergeCopy T c i k st).1 = k + (c : Int) ∧ SortOK n (mergeCopy T c i k st).2 := by
  intro c
  induction c with
  | zero =>
    intro i k st _ _ h
    exact ⟨by simp [mergeCopy], h⟩
  | succ c ih =>
    intro i k st k0 k1 h
    unfold mergeCopy
    simp only []
    have h1 := sortOK_push n st (st.1.set k.toNat (T.getD i.toNat 0)) k (-1) h
      (by rw [List.length_set]; exact h.1) (vh_int n k k0 (by omega)) (vh_none _)
    obtain ⟨r1, r2⟩ := ih (i + 1) (k + 1) _ (by omega) (by push_cast at k1 ⊢; omega) h1
    refine ⟨?_, r2⟩
    rw [r1]
    push_cast
    ring

theorem merge_ok (n : Nat) (st st' : SortState) (left mid right : Int)
    (h0 : 0 ≤ left) (hlm : left ≤ mid) (hmr : mid ≤ right) (hr : right < (n : Int))
    (h : SortOK n st) (hrun : merge st left mid right = some st') : SortOK n st' := by
  unfold merge at hrun
  simp only [] at hrun
  obtain ⟨s, hloop, hs⟩ := Option.map_eq_some'.mp hrun
  have hinv := mergeLoop_ok n _ _ left mid (mid - left + 1) (right - mid) h0 (by omega)
    (by omega) _ ⟨0, 0, left, st.1, st.2⟩ s
    ⟨le_refl _, by show (0 : Int) ≤ mid - left + 1; omega, le_refl _,
      by show (0 : Int) ≤ right - mid; omega, by show left = left + 0 + 0; omega, h.1, h.2⟩
    hloop
  obtain ⟨i0, i1, j0, j1, hk, hlen, hsteps⟩ := hinv
  have c1 := mergeCopy_ok n
    ((List.range (mid - left + 1).toNat).map
      (fun (i : Nat) => st.1.getD (left + (i : Int)).toNat 0))
    (mid - left + 1 - s.i).toNat s.i s.k (s.arr, s.steps) (by omega) (by omega)
    ⟨hlen, hsteps⟩
  have c2 := mergeCopy_ok n
    ((List.range (right - mid).toNat).map
      (fun (j : Nat) => st.1.getD (mid + 1 + (j : Int)).toNat 0))
    (right - mid - s.j).toNat s.j
    (mergeCopy ((List.range (mid - left + 1).toNat).map
      (fun (i : Nat) => st.1.getD (left + (i : Int)).toNat 0))
      (mid - left + 1 - s.i).toNat s.i s.k (s.arr, s.steps)).1
    (mergeCopy ((List.range (mid - left + 1).toNat).map
      (fun (i : Nat) => st.1.getD (left + (i : Int)).toNat 0))
      (mid - left + 1 - s.i).toNat s.i s.k (s.arr, s.steps)).2
    (by rw [c1.1]; omega) (by rw [c1.1]; omega) c1.2
  rw [← hs]
  exact c2.2

theorem mergeSortHelper_ok (n : Nat) :
    ∀ (fuel : Nat) (st : SortState) (left right : Int) (st' : SortState),
      0 ≤ left → right < (n : Int) → SortOK n st →
      mergeSortHelper fuel st left right = some st' → SortOK n st' := by
  intro fuel
  induction fuel with
  | zero =>
    intro st left right st' h0 hr h hrun
    unfold mergeSortHelper at hrun
    split_ifs at hrun
    injection hrun with e
    rw [← e]
    exact h
  | succ fuel ih =>
    intro st left right st' h0 hr h hrun
    unfold mergeSortHelper at hrun
    split_ifs at hrun with hlr
    · have hmid : left + (right - left).tdiv 2 = left + (right - left) / 2 := by
        rw [Int.tdiv_eq_ediv (by omega) (by decide)]
      simp only [hmid] at hrun
      obtain ⟨st1, hrun1, hrest⟩ := Option.bind_eq_some.mp hrun
      obtain ⟨st2, hrun2, hrun3⟩ := Option.bind_eq_some.mp hrest
      have hpush := sortOK_push n st st.1 left right h h.1 (vh_int n left h0 (by omega))
        (vh_int n right (by omega) hr)
      have h1 := ih _ left _ st1 h0 (by omega) hpush hrun1
      have h2 := ih st1 _ right st2 (by omega) hr h1 hrun2
      have hpush2 := sortOK_push n st2 st2.1 left right h2 h2.1
        (vh_int n left h0 (by omega)) (vh_int n right (by omega) hr)
      exact merge_ok n _ st' left _ right h0 (by omega) (by omega) hr hpush2 hrun3
    · injection hrun with e
      rw [← e]
      exact h

theorem mergeSort_ok (arr : List Int) :
    ∃ steps, mergeSort arr = some steps ∧ ∀ s ∈ steps, s.ValidHighlights := by
  have h0 : SortOK arr.length (arr, [arrayToJson arr (-1) (-1)]) :=
    ⟨rfl, allValid_snoc arr.length [] arr (-1) (-1) (fun s hs => by simp at hs) rfl
      (vh_none _) (vh_none _)⟩
  obtain ⟨st', _, hrun, _⟩ := mergeSortHelper_spec arr.length
    (arr, [arrayToJson arr (-1) (-1)]) [] arr [] 0 ((arr.length : Int) - 1)
    (by simp) (by simp) (by simp) (le_refl _)
  have h1 := mergeSortHelper_ok arr.length _ _ _ _ st' (le_refl _) (by omega) h0 hrun
  refine ⟨_, by unfold mergeSort; simp only []; rw [hrun]; rfl, ?_⟩
  exact (sortOK_push _ _ _ (-1) (-1) h1 h1.1 (vh_none _) (vh_none _)).2

/-! ### Heap sort -/

theorem heapify_ok (n N : Nat) (hn : n ≤ N) :
    ∀ (fuel : Nat) (st : SortState) (i : Nat), i < n → n - i ≤ fuel → SortOK N st →
      ∃ st', heapify n fuel st i = some st' ∧ SortOK N st' := by
  intro fuel
  induction fuel with
  | zero =>
    intro st i hi hf h
    omega
  | succ fuel ih =>
    intro st i hi hf h
    unfold heapify
    by_cases h1 : 2 * i + 1 < n ∧ st.1.getD (2 * i + 1) 0 > st.1.getD i 0
    · by_cases h2 : 2 * i + 2 < n ∧ st.1.getD (2 * i + 2) 0 > st.1.getD (2 * i + 1) 0
      · simp only [h1, h2, and_self, if_true]
        have hne : 2 * i + 2 ≠ i := by omega
        simp only [ne_eq, hne, not_false_eq_true, if_true]
        refine ih _ _ (by omega) (by omega) ⟨by rw [length_swap]; exact h.1, ?_⟩
        repeat
          refine allValid_snoc N _ _ _ _ ?_
            (by first | (exact h.1) | (rw [length_swap]; exact h.1))
            (by first | (exact vh_none _) | (exact vh_nat _ _ (by omega)))
            (by first | (exact vh_none _) | (exact vh_nat _ _ (by omega)))
        exact h.2
      · simp only [h1, h2, and_self, if_true, if_false]
        have hne : 2 * i + 1 ≠ i := by omega
        simp only [ne_eq, hne, not_false_eq_true, if_true]
        refine ih _ _ (by omega) (by omega) ⟨by rw [length_swap]; exact h.1, ?_⟩
        repeat
          refine allValid_snoc N _ _ _ _ ?_
            (by first | (exact h.1) | (rw [length_swap]; exact h.1))
            (by first | (exact vh_none _) | (exact vh_nat _ _ (by omega)))
            (by first | (exact vh_none _) | (exact vh_nat _ _ (by omega)))
        exact h.2
    · by_cases h2 : 2 * i + 2 < n ∧ st.1.getD (2 * i + 2) 0 > st.1.getD i 0
      · simp only [h1, h2, and_self, if_true, if_false]
        have hne : 2 * i + 2 ≠ i := by omega
        simp only [ne_eq, hne, not_false_eq_true, if_true]
        refine ih _ _ (by omega) (by omega) ⟨by rw [length_swap]; exact h.1, ?_⟩
        repeat
          refine allValid_snoc N _ _ _ _ ?_
            (by first | (exact h.1) | (rw [length_swap]; exact h.1))
            (by first | (exact vh_none _) | (exact vh_nat _ _ (by omega)))
            (by first | (exact vh_none _) | (exact vh_nat _ _ (by omega)))
        exact h.2
      · simp only [h1, h2, if_false, ne_eq, not_true_eq_false]
        exact ⟨_, rfl, h.1, allValid_snoc N _ _ _ _ h.2 h.1 (vh_nat _ _ (by omega))
          (vh_none _)⟩

theorem heapSort_ok (arr : List Int) :
    ∃ steps, heapSort arr = some steps ∧ ∀ s ∈ steps, s.ValidHighlights := by
  have h0 : SortOK arr.length (arr, [arrayToJson arr (-1) (-1)]) :=
    ⟨rfl, allValid_snoc arr.length [] arr (-1) (-1) (fun s hs => by simp at hs) rfl
      (vh_none _) (vh_none _)⟩
  obtain ⟨st1, hrun1, h1⟩ := foldlM_mem_inv (SortOK arr.length) (heapBuildStep arr.length)
    (List.range (arr.length / 2)).reverse _ h0 (by
      intro st i hi hst
      have hi' := List.mem_range.mp (List.mem_reverse.mp hi)
      unfold heapBuildStep
      exact heapify_ok arr.length arr.length (le_refl _) _ _ i (by omega) (by omega)
        (sortOK_push _ st st.1 i (-1) hst hst.1 (vh_nat _ i (by omega)) (vh_none _)))
  have h1' := sortOK_push _ st1 st1.1 (-1) (-1) h1 h1.1 (vh_none _) (vh_none _)
  obtain ⟨st2, hrun2, h2⟩ := foldlM_mem_inv (SortOK arr.length) heapExtractStep
    (List.range' 1 (arr.length - 1)).reverse _ h1' (by
      intro st i hi hst
      have hi' := List.mem_range'_1.mp (List.mem_reverse.mp hi)
      unfold heapExtractStep
      simp only []
      refine heapify_ok i arr.length (by omega) _ _ 0 (by omega) (by omega)
        ⟨by rw [length_swap]; exact hst.1, ?_⟩
      refine allValid_snoc arr.length _ _ _ _ ?_ (by rw [length_swap]; exact hst.1)
        (vh_nat arr.length i (by omega)) (vh_none _)
      exact allValid_snoc arr.length _ _ 0 i hst.2 hst.1
        (vh_int arr.length 0 (le_refl _) (by omega)) (vh_nat arr.length i (by omega)))
  refine ⟨st2.2 ++ [arrayToJson st2.1 (-1) (-1)], ?_, ?_⟩
  · unfold heapSort
    simp only []
    rw [hrun1, Option.some_bind, hrun2]
    rfl
  · exact (sortOK_push _ _ _ (-1) (-1) h2 h2.1 (vh_none _) (vh_none _)).2

/-! ### Searches -/

theorem emits_refl {α : Type} (valid : α → Prop) (steps : List α) :
    EmitsValid valid steps steps :=
  ⟨[], by simp, fun s hs => by simp at hs⟩

theorem emits_snoc {α : Type} (valid : α → Prop) (steps steps' : List α) (x : α)
    (h : EmitsValid valid steps steps') (hx : valid x) :
    EmitsValid valid steps (steps' ++ [x]) := by
  obtain ⟨em, he, hv⟩ := h
  refine ⟨em ++ [x], by rw [he, List.append_assoc], ?_⟩
  intro s hs
  rcases List.mem_append.mp hs with h1 | h1
  · exact hv s h1
  · rw [List.mem_singleton.mp h1]
    exact hx

theorem emits_trans {α : Type} (valid : α → Prop) (a b c : List α)
    (h1 : EmitsValid valid a b) (h2 : EmitsValid valid b c) : EmitsValid valid a c := by
  obtain ⟨e1, he1, hv1⟩ := h1
  obtain ⟨e2, he2, hv2⟩ := h2
  refine ⟨e1 ++ e2, by rw [he2, he1, List.append_assoc], ?_⟩
  intro s hs
  rcases List.mem_append.mp hs with h | h
  · exact hv1 s h
  · exact hv2 s h

theorem searchSnap_valid (arr : List Int) (pos : Int) (status : SearchStatus)
    (v : ValidHighlight arr.length pos) :
    (searchStateToJson arr pos status).ValidHighlights := v

theorem linearSearchLoop_ok (arr : List Int) (target : Int) :
    ∀ (k i : Nat) (steps : List SearchSnapshot), i + k ≤ arr.length →
      EmitsValid SearchSnapshot.ValidHighlights steps
        (linearSearchLoop arr target k i steps).2 := by
  intro k
  induction k with
  | zero =>
    intro i steps _
    unfold linearSearchLoop
    exact emits_snoc _ _ _ _ (emits_refl _ _) (searchSnap_valid _ _ _ (vh_none _))
  | succ k ih =>
    intro i steps hik
    have h1 := emits_snoc _ steps steps
      (searchStateToJson arr i (SearchStatus.checking i)) (emits_refl _ _)
      (searchSnap_valid _ _ _ (vh_nat _ i (by omega)))
    unfold linearSearchLoop
    simp only []
    split_ifs
    · exact emits_snoc _ _ _ _ h1 (searchSnap_valid _ _ _ (vh_nat _ i (by omega)))
    · exact emits_trans _ _ _ _ h1 (ih (i + 1) _ (by omega))

theorem binarySearchLoop_ok (arr : List Int) (target : Int) :
    ∀ (fuel : Nat) (left right : Int) (steps : List SearchSnapshot),
      0 ≤ left → right < arr.length → right - left + 1 ≤ fuel →
      ∃ r steps', binarySearchLoop arr target fuel left right steps = some (r, steps') ∧
        EmitsValid SearchSnapshot.ValidHighlights steps steps' := by
  intro fuel
  induction fuel with
  | zero =>
    intro left right steps h0 hr hf
    have hlr : ¬ left ≤ right := by omega
    exact ⟨-1, _, by unfold binarySearchLoop; rw [if_neg hlr],
      emits_snoc _ _ _ _ (emits_refl _ _) (searchSnap_valid _ _ _ (vh_none _))⟩
  | succ fuel ih =>
    intro left right steps h0 hr hf
    by_cases hlr : left ≤ right
    · have hmid : left + (right - left).tdiv 2 = left + (right - left) / 2 := by
        rw [Int.tdiv_eq_ediv (by omega) (by decide)]
      have hv : ValidHighlight arr.length (left + (right - left) / 2) :=
        vh_int _ _ (by omega) (by omega)
      have h1 := emits_snoc _ steps steps
        (searchStateToJson arr (left + (right - left) / 2)
          (SearchStatus.checkingMid (left + (right - left) / 2))) (emits_refl _ _)
        (searchSnap_valid _ _ _ hv)
      unfold binarySearchLoop
      rw [if_pos hlr]
      simp only [hmid]
      by_cases hEq : arr.getD (left + (right - left) / 2).toNat 0 = target
      · rw [if_pos hEq]
        exact ⟨_, _, rfl, emits_snoc _ _ _ _ h1 (searchSnap_valid _ _ _ hv)⟩
      · rw [if_neg hEq]
        by_cases hLt : arr.getD (left + (right - left) / 2).toNat 0 < target
        · rw [if_pos hLt]
          obtain ⟨r, steps', hrun, hem⟩ := ih (left + (right - left) / 2 + 1) right
            (steps ++ [searchStateToJson arr (left + (right - left) / 2)
                (SearchStatus.checkingMid (left + (right - left) / 2))] ++
              [searchStateToJson arr (left + (right - left) / 2) SearchStatus.greater])
            (by omega) hr (by omega)
          exact ⟨r, steps', hrun, emits_trans _ _ _ _
            (emits_snoc _ _ _ _ h1 (searchSnap_valid _ _ _ hv)) hem⟩
        · rw [if_neg hLt]
          obtain ⟨r, steps', hrun, hem⟩ := ih left (left + (right - left) / 2 - 1)
            (steps ++ [searchStateToJson arr (left + (right - left) / 2)
                (SearchStatus.checkingMid (left + (right - left) / 2))] ++
              [searchStateToJson arr (left + (right - left) / 2) SearchStatus.smaller])
            h0 (by omega) (by omega)
          exact ⟨r, steps', hrun, emits_trans _ _ _ _
            (emits_snoc _ _ _ _ h1 (searchSnap_valid _ _ _ hv)) hem⟩
    · exact ⟨-1, _, by unfold binarySearchLoop; rw [if_neg hlr],
        emits_snoc _ _ _ _ (emits_refl _ _) (searchSnap_valid _ _ _ (vh_none _))⟩

/-! ### Heap operations -/

theorem heapSnap_valid (N : Nat) (heap : List Int) (h1 h2 : Int) (status : HeapStatus)
    (hlen : heap.length = N) (v1 : ValidHighlight N h1) (v2 : ValidHighlight N h2) :
    (HeapSnapshot.mk (heapToJson heap h1 h2) status).ValidHighlights := by
  unfold HeapSnapshot.ValidHighlights heapToJson
  simp only []
  rw [hlen]
  exact ⟨v1, v2⟩

theorem heapifyWithVisualization_ok (n : Nat) :
    ∀ (fuel : Nat) (st : HeapState) (i : Nat), i < n → n ≤ st.1.length → n - i ≤ fuel →
      ∃ st', heapifyWithVisualization n fuel st i = some st' ∧
        st'.1.length = st.1.length ∧
        EmitsValid HeapSnapshot.ValidHighlights st.2 st'.2 := by
  intro fuel
  induction fuel with
  | zero =>
    intro st i hi hn hf
    omega
  | succ fuel ih =>
    intro st i hi hn hf
    have rec1 : ∀ (c : Nat) (steps : List HeapSnapshot), i < c → c < n →
        EmitsValid HeapSnapshot.ValidHighlights st.2 steps →
        ∃ st', heapifyWithVisualization n fuel (swap st.1 i c, steps) c = some st' ∧
          st'.1.length = st.1.length ∧
          EmitsValid HeapSnapshot.ValidHighlights st.2 st'.2 := by
      intro c steps hic hc hem
      obtain ⟨st', hrun, hlen, hem'⟩ := ih (swap st.1 i c, steps) c hc
        (by rw [length_swap]; exact hn) (by omega)
      exact ⟨st', hrun, by rw [hlen]; exact length_swap _ _ _,
        emits_trans _ _ _ _ hem hem'⟩
    unfold heapifyWithVisualization
    simp only []
    by_cases hl : 2 * i + 1 < n
    · by_cases hgl : st.1.getD (2 * i + 1) 0 > st.1.getD i 0
      · by_cases hr : 2 * i + 2 < n
        · by_cases hgr : st.1.getD (2 * i + 2) 0 > st.1.getD (2 * i + 1) 0
          · simp only [hl, hgl, hr, hgr, if_true]
            rw [if_pos (by omega)]
            refine rec1 _ _ (by omega) hr ?_
            repeat
              refine emits_snoc _ _ _ _ ?_ (heapSnap_valid st.1.length _ _ _ _
                (by first | rfl | (exact length_swap _ _ _))
                (by first | (exact vh_none _) | (exact vh_nat _ _ (by omega)))
                (by first | (exact vh_none _) | (exact vh_nat _ _ (by omega))))
            exact emits_refl _ _
          · simp only [hl, hgl, hr, hgr, if_true, if_false]
            rw [if_pos (by omega)]
            refine rec1 _ _ (by omega) hl ?_
            repeat
              refine emits_snoc _ _ _ _ ?_ (heapSnap_valid st.1.length _ _ _ _
                (by first | rfl | (exact length_swap _ _ _))
                (by first | (exact vh_none _) | (exact vh_nat _ _ (by omega)))
                (by first | (exact vh_none _) | (exact vh_nat _ _ (by omega))))
            exact emits_refl _ _
        · simp only [hl, hgl, hr, if_true, if_false]
          rw [if_pos (by omega)]
          refine rec1 _ _ (by omega) hl ?_
          repeat
            refine emits_snoc _ _ _ _ ?_ (heapSnap_valid st.1.length _ _ _ _
              (by first | rfl | (exact length_swap _ _ _))
              (by first | (exact vh_none _) | (exact vh_nat _ _ (by omega)))
              (by first | (exact vh_none _) | (exact vh_nat _ _ (by omega))))
          exact emits_refl _ _
      · by_cases hr : 2 * i + 2 < n
        · by_cases hgr : st.1.getD (2 * i + 2) 0 > st.1.getD i 0
          · simp only [hl, hgl, hr, hgr, if_true, if_false]
            rw [if_pos (by omega)]
            refine rec1 _ _ (by omega) hr ?_
            repeat
              refine emits_snoc _ _ _ _ ?_ (heapSnap_valid st.1.length _ _ _ _
                (by first | rfl | (exact length_swap _ _ _))
                (by first | (exact vh_none _) | (exact vh_nat _ _ (by omega)))
                (by first | (exact vh_none _) | (exact vh_nat _ _ (by omega))))
            exact emits_refl _ _
          · simp only [hl, hgl, hr, hgr, if_true, if_false, ne_eq, not_true_eq_false]
            refine ⟨_, rfl, rfl, ?_⟩
            repeat
              refine emits_snoc _ _ _ _ ?_ (heapSnap_valid st.1.length _ _ _ _
                rfl
                (by first | (exact vh_none _) | (exact vh_nat _ _ (by omega)))
                (by first | (exact vh_none _) | (exact vh_nat _ _ (by omega))))
            exact emits_refl _ _
        · simp only [hl, hgl, hr, if_true, if_false, ne_eq, not_true_eq_false]
          refine ⟨_, rfl, rfl, ?_⟩
          repeat
            refine emits_snoc _ _ _ _ ?_ (heapSnap_valid st.1.length _ _ _ _
              rfl
              (by first | (exact vh_none _) | (exact vh_nat _ _ (by omega)))
              (by first | (exact vh_none _) | (exact vh_nat _ _ (by omega))))
          exact emits_refl _ _
    · have hr : ¬ (2 * i + 2 < n) := by omega
      simp only [hl, hr, if_false, ne_eq, not_true_eq_false]
      refine ⟨_, rfl, rfl, ?_⟩
      repeat
        refine emits_snoc _ _ _ _ ?_ (heapSnap_valid st.1.length _ _ _ _
          rfl
          (by first | (exact vh_none _) | (exact vh_nat _ _ (by omega)))
          (vh_none _))
      exact emits_refl _ _

theorem emits_nil {α : Type} (valid : α → Prop) (steps : List α)
    (h : EmitsValid valid [] steps) : ∀ s ∈ steps, valid s := by
  obtain ⟨em, he, hv⟩ := h
  rw [he, List.nil_append]
  exact hv

theorem heapInsertLoop_ok :
    ∀ (fuel : Nat) (st : HeapState) (i : Nat), i ≤ fuel → i < st.1.length →
      ∃ st', heapInsertLoop fuel st i = some st' ∧ st'.1.length = st.1.length ∧
        EmitsValid HeapSnapshot.ValidHighlights st.2 st'.2 := by
  intro fuel
  induction fuel with
  | zero =>
    intro st i hi _
    have hi0 : ¬ i > 0 := by omega
    exact ⟨st, by unfold heapInsertLoop; rw [if_neg hi0], rfl, emits_refl _ _⟩
  | succ fuel ih =>
    intro st i hi hlen
    unfold heapInsertLoop
    by_cases hi0 : i > 0
    · rw [if_pos hi0]
      simp only []
      have hp : (i - 1) / 2 < i := by omega
      have h1 := emits_snoc HeapSnapshot.ValidHighlights st.2 st.2
        ⟨heapToJson st.1 i ((i - 1) / 2 : Nat),
          HeapStatus.comparingParent (st.1.getD i 0) (st.1.getD ((i - 1) / 2) 0)⟩
        (emits_refl _ _)
        (heapSnap_valid st.1.length _ _ _ _ rfl (vh_nat _ i hlen) (vh_nat _ _ (by omega)))
      by_cases hle : st.1.getD i 0 ≤ st.1.getD ((i - 1) / 2) 0
      · rw [if_pos hle]
        exact ⟨_, rfl, rfl, emits_snoc _ _ _ _ h1
          (heapSnap_valid st.1.length _ _ _ _ rfl (vh_nat _ i hlen) (vh_none _))⟩
      · rw [if_neg hle]
        have h2 := emits_snoc HeapSnapshot.ValidHighlights _ _
          ⟨heapToJson st.1 i ((i - 1) / 2 : Nat), HeapStatus.childGreater⟩ h1
          (heapSnap_valid st.1.length _ _ _ _ rfl (vh_nat _ i hlen) (vh_nat _ _ (by omega)))
        have h3 := emits_snoc HeapSnapshot.ValidHighlights _ _
          ⟨heapToJson (swap st.1 i ((i - 1) / 2)) ((i - 1) / 2 : Nat) (-1),
            HeapStatus.swapped ((swap st.1 i ((i - 1) / 2)).getD ((i - 1) / 2) 0)
              ((swap st.1 i ((i - 1) / 2)).getD i 0)⟩ h2
          (heapSnap_valid st.1.length _ _ _ _ (length_swap _ _ _) (vh_nat _ _ (by omega))
            (vh_none _))
        obtain ⟨st', hrun, hl', hem⟩ := ih (swap st.1 i ((i - 1) / 2), _) ((i - 1) / 2)
          (by omega) (by rw [length_swap]; omega)
        exact ⟨st', hrun, by rw [hl']; exact length_swap _ _ _, emits_trans _ _ _ _ h3 hem⟩
    · rw [if_neg hi0]
      exact ⟨st, rfl, rfl, emits_refl _ _⟩

theorem buildHeapWithVisualization_ok (st : HeapState) :
    ∃ st', buildHeapWithVisualization st = some st' ∧ st'.1.length = st.1.length ∧
      EmitsValid HeapSnapshot.ValidHighlights st.2 st'.2 := by
  have h0 := emits_snoc HeapSnapshot.ValidHighlights st.2 st.2 ⟨heapToJson st.1 (-1) (-1), HeapStatus.buildStart⟩
    (emits_refl _ _) (heapSnap_valid st.1.length _ _ _ _ rfl (vh_none _) (vh_none _))
  obtain ⟨st1, hrun, hl1, hem1⟩ := foldlM_mem_inv
    (fun s : HeapState => s.1.length = st.1.length ∧
      EmitsValid HeapSnapshot.ValidHighlights st.2 s.2)
    (buildHeapStep st.1.length) (List.range (st.1.length / 2)).reverse
    (st.1, st.2 ++ [⟨heapToJson st.1 (-1) (-1), HeapStatus.buildStart⟩]) ⟨rfl, h0⟩ (by
      intro s i hi hs
      have hi' := List.mem_range.mp (List.mem_reverse.mp hi)
      have hpush := emits_snoc HeapSnapshot.ValidHighlights _ _
        ⟨heapToJson s.1 i (-1), HeapStatus.processingNode i⟩ hs.2
        (heapSnap_valid st.1.length _ _ _ _ hs.1 (vh_nat _ i (by omega)) (vh_none _))
      obtain ⟨s', hrun, hl, hem⟩ := heapifyWithVisualization_ok st.1.length st.1.length
        (s.1, s.2 ++ [⟨heapToJson s.1 i (-1), HeapStatus.processingNode i⟩]) i (by omega)
        (by show st.1.length ≤ s.1.length; omega) (by omega)
      exact ⟨s', hrun, by rw [hl]; exact hs.1, emits_trans _ _ _ _ hpush hem⟩)
  refine ⟨(st1.1, st1.2 ++ [⟨heapToJson st1.1 (-1) (-1), HeapStatus.built⟩]),
    by unfold buildHeapWithVisualization; simp only []; rw [hrun]; rfl, hl1, ?_⟩
  exact emits_snoc HeapSnapshot.ValidHighlights _ _ _ hem1
    (heapSnap_valid st.1.length st1.1 (-1) (-1) HeapStatus.built hl1 (vh_none _) (vh_none _))

theorem createHeap_ok (array : List Int) :
    ∃ st, createHeap array = some st ∧ ∀ s ∈ st.2, s.ValidHighlights := by
  obtain ⟨st, hrun, _, hem⟩ := buildHeapWithVisualization_ok
    (array, [⟨heapToJson [] (-1) (-1), HeapStatus.creating⟩,
      ⟨heapToJson array (-1) (-1), HeapStatus.copied⟩])
  refine ⟨st, hrun, emits_nil _ _ (emits_trans _ _ _ _ ?_ hem)⟩
  exact emits_snoc HeapSnapshot.ValidHighlights []
    [⟨heapToJson [] (-1) (-1), HeapStatus.creating⟩] _
    (emits_snoc HeapSnapshot.ValidHighlights [] [] _ (emits_refl _ _)
      (heapSnap_valid 0 [] (-1) (-1) HeapStatus.creating rfl (vh_none _) (vh_none _)))
    (heapSnap_valid array.length array (-1) (-1) HeapStatus.copied rfl (vh_none _)
      (vh_none _))

theorem heapInsert_ok (heapArray : List Int) (value : Int) :
    ∃ st, heapInsert heapArray value = some st ∧ ∀ s ∈ st.2, s.ValidHighlights := by
  have hlen : (heapArray ++ [value]).length = heapArray.length + 1 := by simp
  have h1 : EmitsValid HeapSnapshot.ValidHighlights []
      ([⟨heapToJson heapArray (-1) (-1), HeapStatus.insertStart value⟩] ++
        [⟨heapToJson (heapArray ++ [value]) (((heapArray ++ [value]).length : Int) - 1) (-1),
          HeapStatus.insertedAtEnd value⟩]) :=
    emits_snoc HeapSnapshot.ValidHighlights []
      [⟨heapToJson heapArray (-1) (-1), HeapStatus.insertStart value⟩] _
      (emits_snoc HeapSnapshot.ValidHighlights [] [] _ (emits_refl _ _)
        (heapSnap_valid heapArray.length heapArray (-1) (-1) (HeapStatus.insertStart value)
          rfl (vh_none _) (vh_none _)))
      (heapSnap_valid (heapArray ++ [value]).length (heapArray ++ [value])
        (((heapArray ++ [value]).length : Int) - 1) (-1) (HeapStatus.insertedAtEnd value) rfl
        (vh_int _ _ (by rw [hlen]; push_cast; omega) (by omega)) (vh_none _))
  obtain ⟨st, hrun, hl, hem⟩ := heapInsertLoop_ok ((heapArray ++ [value]).length - 1)
    (heapArray ++ [value],
      [⟨heapToJson heapArray (-1) (-1), HeapStatus.insertStart value⟩] ++
        [⟨heapToJson (heapArray ++ [value]) (((heapArray ++ [value]).length : Int) - 1) (-1),
          HeapStatus.insertedAtEnd value⟩])
    ((heapArray ++ [value]).length - 1) (le_refl _)
    (by show (heapArray ++ [value]).length - 1 < (heapArray ++ [value]).length; omega)
  refine ⟨(st.1, st.2 ++ [⟨heapToJson st.1 (-1) (-1), HeapStatus.insertionComplete⟩]),
    by unfold heapInsert; simp only []; rw [hrun]; rfl, ?_⟩
  exact emits_nil _ _ (emits_snoc HeapSnapshot.ValidHighlights _ _ _
    (emits_trans _ _ _ _ h1 hem)
    (heapSnap_valid st.1.length st.1 (-1) (-1) HeapStatus.insertionComplete rfl (vh_none _)
      (vh_none _)))

theorem heapExtractMax_ok (heapArray : List Int) :
    ∃ r, heapExtractMax heapArray = some r ∧ ∀ s ∈ r.1.2, s.ValidHighlights := by
  cases heapArray with
  | nil =>
    refine ⟨_, rfl, ?_⟩
    intro s hs
    simp only [List.mem_append, List.mem_singleton] at hs
    rcases hs with h | h <;> rw [h] <;> decide
  | cons m rest =>
    have h1 : EmitsValid HeapSnapshot.ValidHighlights []
        ([⟨heapToJson (m :: rest) (-1) (-1), HeapStatus.extractStart⟩] ++
          [⟨heapToJson (m :: rest) 0 (-1), HeapStatus.maximumIs m⟩]) :=
      emits_snoc HeapSnapshot.ValidHighlights []
        [⟨heapToJson (m :: rest) (-1) (-1), HeapStatus.extractStart⟩] _
        (emits_snoc HeapSnapshot.ValidHighlights [] [] _ (emits_refl _ _)
          (heapSnap_valid (m :: rest).length (m :: rest) (-1) (-1) HeapStatus.extractStart
            rfl (vh_none _) (vh_none _)))
        (heapSnap_valid (m :: rest).length (m :: rest) 0 (-1) (HeapStatus.maximumIs m) rfl
          (vh_int _ 0 (le_refl _) (by simp)) (vh_none _))
    unfold heapExtractMax
    simp only []
    by_cases hne : ((m :: rest).set 0 ((m :: rest).getLastD m)).dropLast ≠ []
    · rw [if_pos hne]
      have hpos : 0 < (((m :: rest).set 0 ((m :: rest).getLastD m)).dropLast).length :=
        List.length_pos.mpr hne
      have h2 := emits_snoc HeapSnapshot.ValidHighlights _ _
        ⟨heapToJson (((m :: rest).set 0 ((m :: rest).getLastD m)).dropLast) 0 (-1),
          HeapStatus.replacedRoot
            ((((m :: rest).set 0 ((m :: rest).getLastD m)).dropLast).getD 0 0)⟩ h1
        (heapSnap_valid _ _ 0 (-1) _ rfl (vh_int _ 0 (le_refl _) (by omega)) (vh_none _))
      obtain ⟨st, hrun, _, hem⟩ := heapifyWithVisualization_ok
        (((m :: rest).set 0 ((m :: rest).getLastD m)).dropLast).length
        (((m :: rest).set 0 ((m :: rest).getLastD m)).dropLast).length
        (((m :: rest).set 0 ((m :: rest).getLastD m)).dropLast, _) 0 hpos (le_refl _)
        (by omega)
      rw [hrun]
      refine ⟨_, rfl, ?_⟩
      exact emits_nil _ _ (emits_snoc HeapSnapshot.ValidHighlights _ _ _
        (emits_trans _ _ _ _ h2 hem)
        (heapSnap_valid st.1.length st.1 (-1) (-1) (HeapStatus.extracted m) rfl (vh_none _)
          (vh_none _)))
    · rw [if_neg hne]
      refine ⟨_, rfl, ?_⟩
      have h2 := emits_snoc HeapSnapshot.ValidHighlights _ _
        ⟨heapToJson [] (-1) (-1), HeapStatus.nowEmpty⟩ h1
        (heapSnap_valid 0 [] (-1) (-1) HeapStatus.nowEmpty rfl (vh_none _) (vh_none _))
      exact emits_nil _ _ (emits_snoc HeapSnapshot.ValidHighlights _ _ _ h2
        (heapSnap_valid _ (((m :: rest).set 0 ((m :: rest).getLastD m)).dropLast) (-1) (-1)
          (HeapStatus.extracted m) rfl (vh_none _) (vh_none _)))

/-- C23 as stated fails for `heapifyWithVisualization` called on an index outside the
heap: on the heap `[5, 3]` with `n = 2` and `i = 7` no element is read, and both
snapshots it emits ("Heapifying at index 7", "Node at index 7 is already a max heap")
highlight position 7 of a two-element array. -/
theorem heapify_highlight_counterexample :
    heapifyWithVisualization 2 2 ([5, 3], []) 7 =
      some ([5, 3], [⟨heapToJson [5, 3] 7 (-1), HeapStatus.heapifying 7⟩,
        ⟨heapToJson [5, 3] 7 (-1), HeapStatus.alreadyMaxHeap 7⟩]) ∧
    ¬ (HeapSnapshot.mk (heapToJson [5, 3] 7 (-1)) (HeapStatus.heapifying 7)).ValidHighlights ∧
    ¬ (HeapSnapshot.mk (heapToJson [5, 3] 7 (-1))
      (HeapStatus.alreadyMaxHeap 7)).ValidHighlights :=
  ⟨by decide, by decide, by decide⟩

/-- C23, amended: for every array (the empty one included), target, value and earlier
steps, every snapshot of the six sort functions, every snapshot `linearSearch` and
`binarySearch` emit, every snapshot of `heapInsert`, `heapExtractMax` and `createHeap`,
and every snapshot that `heapifyWithVisualization` emits when it is called with
`i < n <= heap size`, has highlight positions that are each `-1` or an index of the
array shown in that snapshot; the functions modelled with fuel all return.  Only the
part on `heapifyWithVisualization` carries the condition on `i` and `n`. -/
theorem highlights_valid (arr : List Int) (target value : Int)
    (steps : List SearchSnapshot) (heapSteps : List HeapSnapshot) (n i : Nat) :
    (∀ s ∈ bubbleSort arr, s.ValidHighlights) ∧
    (∀ s ∈ insertionSort arr, s.ValidHighlights) ∧
    (∀ s ∈ selectionSort arr, s.ValidHighlights) ∧
    (∃ out, mergeSort arr = some out ∧ ∀ s ∈ out, s.ValidHighlights) ∧
    (∃ out, quickSort arr = some out ∧ ∀ s ∈ out, s.ValidHighlights) ∧
    (∃ out, heapSort arr = some out ∧ ∀ s ∈ out, s.ValidHighlights) ∧
    (∃ emitted, (linearSearch arr target steps).2 = steps ++ emitted ∧
      ∀ s ∈ emitted, s.ValidHighlights) ∧
    (∃ r emitted, binarySearch arr target steps = some (r, steps ++ emitted) ∧
      ∀ s ∈ emitted, s.ValidHighlights) ∧
    (i < n → n ≤ arr.length →
      ∃ heap emitted, heapifyWithVisualization n n (arr, heapSteps) i =
        some (heap, heapSteps ++ emitted) ∧ ∀ s ∈ emitted, s.ValidHighlights) ∧
    (∃ st, heapInsert arr value = some st ∧ ∀ s ∈ st.2, s.ValidHighlights) ∧
    (∃ r, heapExtractMax arr = some r ∧ ∀ s ∈ r.1.2, s.ValidHighlights) ∧
    (∃ st, createHeap arr = some st ∧ ∀ s ∈ st.2, s.ValidHighlights) := by
  refine ⟨bubbleSort_ok arr, insertionSort_ok arr, selectionSort_ok arr, mergeSort_ok arr,
    quickSort_ok arr, heapSort_ok arr, ?_, ?_, ?_, heapInsert_ok arr value,
    heapExtractMax_ok arr, createHeap_ok arr⟩
  · exact linearSearchLoop_ok arr target arr.length 0 steps (by omega)
  · obtain ⟨r, steps', hrun, em, he, hv⟩ := binarySearchLoop_ok arr target arr.length 0
      ((arr.length : Int) - 1) steps (le_refl _) (by omega) (by omega)
    refine ⟨r, em, ?_, hv⟩
    rw [← he]
    exact hrun
  · intro hi hn
    obtain ⟨st, hrun, _, em, he, hv⟩ := heapifyWithVisualization_ok n n (arr, heapSteps) i hi
      hn (by omega)
    refine ⟨st.1, em, ?_, hv⟩
    rw [hrun]
    have he' : st.2 = heapSteps ++ em := he
    rw [← he']

/-- C23 amended, at the array `[3, 1, 2]` with `i = 0` and `n = 3`, where the condition
of `heapifyWithVisualization` holds and it highlights positions 0, 1 and 2 only, and at
the empty array, where `heapSort`, `binarySearch`, `heapExtractMax` and `createHeap`
return with valid highlights. -/
theorem highlights_valid_witness :
    (heapifyWithVisualization 3 3 ([3, 1, 2], []) 0).map
        (fun st => st.2.map (fun s => (s.json.highlightIndex, s.json.highlightIndex2))) =
      some [(0, -1), (0, 1), (0, 2), (0, -1)] ∧
    (∃ heap emitted, heapifyWithVisualization 3 3 ([3, 1, 2], []) 0 =
        some (heap, [] ++ emitted) ∧ ∀ s ∈ emitted, s.ValidHighlights) ∧
    (∃ out, heapSort [] = some out ∧ ∀ s ∈ out, s.ValidHighlights) ∧
    (∃ r emitted, binarySearch [] 2 [] = some (r, [] ++ emitted) ∧
      ∀ s ∈ emitted, s.ValidHighlights) ∧
    (∃ r, heapExtractMax [] = some r ∧ ∀ s ∈ r.1.2, s.ValidHighlights) ∧
    (∃ st, createHeap [] = some st ∧ ∀ s ∈ st.2, s.ValidHighlights) :=
  ⟨by decide,
    (highlights_valid [3, 1, 2] 2 4 [] [] 3 0).2.2.2.2.2.2.2.2.1 (by decide) (by decide),
    (highlights_valid [] 2 4 [] [] 0 0).2.2.2.2.2.1,
    (highlights_valid [] 2 4 [] [] 0 0).2.2.2.2.2.2.2.1,
    (highlights_valid [] 2 4 [] [] 0 0).2.2.2.2.2.2.2.2.2.2.1,
    (highlights_valid [] 2 4 [] [] 0 0).2.2.2.2.2.2.2.2.2.2.2⟩

/-! ## The graph runs stay in bounds and end -/

theorem relaxEdge_previous (cur d : Int) (s s' : DijkstraState) (e : Int × Int)
    (h : relaxEdge cur d s e = Except.ok s') : s'.previous.length = s.previous.length := by
  unfold relaxEdge at h
  simp only [] at h
  split_ifs at h
  · injection h with h1
    rw [← h1]
  · injection h with h1
    rw [← h1]
    simp
  · injection h with h1
    rw [← h1]

theorem relaxFold_previous (cur d : Int) : ∀ (todo : List (Int × Int)) (s s' : DijkstraState),
    todo.foldlM (relaxEdge cur d) s = Except.ok s' →
    s'.previous.length = s.previous.length := by
  intro todo
  induction todo with
  | nil =>
    intro s s' h
    injection h with h1
    rw [h1]
  | cons e todo ih =>
    intro s s' h
    rw [List.foldlM_cons] at h
    cases h1 : relaxEdge cur d s e with
    | error f =>
      rw [h1] at h
      cases h
    | ok s1 =>
      rw [h1] at h
      rw [ih s1 s' h, relaxEdge_previous cur d s s1 e h1]

theorem dijkstraStep_previous (g : Graph) (s s' : DijkstraState) (top : Int × Int)
    (h : dijkstraStep g s top = Except.ok s') : s'.previous.length = s.previous.length := by
  unfold dijkstraStep at h
  simp only [] at h
  split_ifs at h
  · injection h with h1
    rw [← h1]
  · have h2 := relaxFold_previous _ _ _ _ _ h
    exact h2

theorem dijkstra_previous_length (g : Graph) (start : Int) (hv : ValidGraph g)
    (hs0 : 0 ≤ start) (hs1 : start < (g.length : Int)) :
    ∃ s, dijkstraRun g start = Except.ok s ∧ DijkBetween g start s ∧
      s.previous.length = g.length := by
  obtain ⟨s, hrun, hP, _⟩ := dijkstraLoop_inv g
    (fun s => DijkBetween g start s ∧ s.previous.length = g.length) (dijkstraMeasure g)
    (fun s top hP htop => by
      obtain ⟨s', hstep, hP', hm⟩ := dijkstraStep_proc g hv start s top hP.1 htop
      exact ⟨s', hstep, ⟨hP', by rw [dijkstraStep_previous g s s' top hstep]; exact hP.2⟩, hm⟩)
    (edgeCount g + 1) _ ⟨dijkstraProc_init g start hs0 hs1, by simp⟩
    (by unfold dijkstraMeasure; simp only [List.length_singleton]; rw [pendingDeg_nil]; omega)
  exact ⟨s, by unfold dijkstraRun; simp only []; rw [if_pos ⟨hs0, hs1⟩]; exact hrun,
    hP.1, hP.2⟩

/-- C40: for every graph in which every edge target lies in `[0, nodeCount)` and every
start node in `[0, nodeCount)`, the runs of `breadthFirstSearch`, `depthFirstSearch`
and `dijkstraAlgorithm` under checked indexing end with a trace (neither the
out-of-bounds fault nor the end of the fuel is reached); every node whose adjacency
list is read is in `[0, nodeCount)`, and the `distances` and `previous` arrays keep
`nodeCount` entries. -/
theorem traversals_in_bounds (g : Graph) (start : Int) (hv : ValidGraph g)
    (hs0 : 0 ≤ start) (hs1 : start < (g.length : Int)) :
    (∃ steps, breadthFirstSearch g start = Except.ok steps ∧
      ∀ v ∈ processingOrder steps, 0 ≤ v ∧ v < (g.length : Int)) ∧
    (∃ steps, depthFirstSearch g start = Except.ok steps ∧
      ∀ v ∈ processingOrder steps, 0 ≤ v ∧ v < (g.length : Int)) ∧
    (∃ steps s, dijkstraAlgorithm g start = Except.ok steps ∧
      dijkstraRun g start = Except.ok s ∧ s.distances.length = g.length ∧
      s.previous.length = g.length ∧
      ∀ p ∈ dijkstraProcessed steps, 0 ≤ p.1 ∧ p.1 < (g.length : Int)) := by
  refine ⟨?_, ?_, ?_⟩
  · obtain ⟨steps, hrun, _, hreach⟩ := bfs_run_spec g start hv hs0 hs1
    exact ⟨steps, hrun, fun v hvm =>
      reachable_valid g hv start v hs0 hs1 ((hreach v).mp hvm)⟩
  · obtain ⟨steps, hrun, _, hreach⟩ := dfs_run_spec g start hv hs0 hs1
    exact ⟨steps, hrun, fun v hvm =>
      reachable_valid g hv start v hs0 hs1 ((hreach v).mp hvm)⟩
  · obtain ⟨s, hrun, ⟨hc, _⟩, hprev⟩ := dijkstra_previous_length g start hv hs0 hs1
    refine ⟨_, s, by unfold dijkstraAlgorithm; rw [hrun], hrun, hc.len, hprev, ?_⟩
    intro p hp
    rw [dijkstraProcessed_append] at hp
    have hp' : p ∈ dijkstraProcessed s.steps := by
      simpa [dijkstraProcessed, graphStateToJson] using hp
    apply hc.valid
    rw [← hc.procOrder]
    exact List.mem_map_of_mem _ hp'

/-- C40, at a graph with a cycle and a node that is not reached: the hypotheses hold,
and the three runs end with a trace. -/
theorem traversals_in_bounds_witness :
    (breadthFirstSearch [[(1, 4), (2, 1)], [(2, -2)], [(1, 1), (0, 3)], []] 0).map
      processingOrder = Except.ok [0, 1, 2] ∧
    (depthFirstSearch [[(1, 4), (2, 1)], [(2, -2)], [(1, 1), (0, 3)], []] 0).map
      processingOrder = Except.ok [0, 1, 2] ∧
    (∃ steps, breadthFirstSearch [[(1, 4), (2, 1)], [(2, -2)], [(1, 1), (0, 3)], []] 0 =
        Except.ok steps ∧
      ∀ v ∈ processingOrder steps, 0 ≤ v ∧
        v < (([[(1, 4), (2, 1)], [(2, -2)], [(1, 1), (0, 3)], []] : Graph).length : Int)) ∧
    (∃ steps, depthFirstSearch [[(1, 4), (2, 1)], [(2, -2)], [(1, 1), (0, 3)], []] 0 =
        Except.ok steps ∧
      ∀ v ∈ processingOrder steps, 0 ≤ v ∧
        v < (([[(1, 4), (2, 1)], [(2, -2)], [(1, 1), (0, 3)], []] : Graph).length : Int)) ∧
    (∃ steps s, dijkstraAlgorithm [[(1, 4), (2, 1)], [(2, -2)], [(1, 1), (0, 3)], []] 0 =
        Except.ok steps ∧
      dijkstraRun [[(1, 4), (2, 1)], [(2, -2)], [(1, 1), (0, 3)], []] 0 = Except.ok s ∧
      s.distances.length =
        ([[(1, 4), (2, 1)], [(2, -2)], [(1, 1), (0, 3)], []] : Graph).length ∧
      s.previous.length =
        ([[(1, 4), (2, 1)], [(2, -2)], [(1, 1), (0, 3)], []] : Graph).length ∧
      ∀ p ∈ dijkstraProcessed steps, 0 ≤ p.1 ∧
        p.1 < (([[(1, 4), (2, 1)], [(2, -2)], [(1, 1), (0, 3)], []] : Graph).length : Int)) :=
  ⟨by decide!, by decide!,
    traversals_in_bounds [[(1, 4), (2, 1)], [(2, -2)], [(1, 1), (0, 3)], []] 0
      (by unfold ValidGraph; decide) (by decide) (by decide)⟩

/-! ## `createHeap`: a permutation of the input with the maximum at the root -/

theorem isMaxHeap_root_ge (heap : List Int) (hh : IsMaxHeap heap) :
    ∀ x ∈ heap, x ≤ heap.getD 0 0 := by
  intro x hx
  obtain ⟨k, hk, hxk⟩ := List.getElem_of_mem hx
  have h := heap_root_max heap heap.length hh k hk
  rw [List.getD_eq_getElem heap 0 hk, hxk] at h
  exact h

theorem getD_zero_mem (heap : List Int) (hne : heap ≠ []) : heap.getD 0 0 ∈ heap := by
  cases heap with
  | nil => exact absurd rfl hne
  | cons a t => simp

/-- C34: for every sequence `values` and whatever the persistent heap `heapArray` held
before, `createHeap(values)` returns, the persistent heap after it is a permutation of
`values`, and when `values` is non-empty its element at index 0 occurs in `values` and
is at least every element of `values` (the maximum); `createHeap([5,3,8])` leaves the
heap `[8,3,5]`, whose root is 8. -/
theorem createHeap_perm_max (heapArray values : List Int) :
    (∃ heap, applyHeapOp heapArray (HeapOp.create values) = some heap ∧
      heap.Perm values ∧
      (values ≠ [] → heap.getD 0 0 ∈ values ∧ ∀ x ∈ values, x ≤ heap.getD 0 0)) ∧
    applyHeapOp heapArray (HeapOp.create [5, 3, 8]) = some [8, 3, 5] := by
  refine ⟨?_, by
    show (createHeap [5, 3, 8]).map (fun st => st.1) = some [8, 3, 5]
    decide!⟩
  obtain ⟨st, hrun, hheap, hperm⟩ := createHeap_spec values
  refine ⟨st.1, by
    show (createHeap values).map (fun st => st.1) = some st.1
    rw [hrun]; rfl, hperm, ?_⟩
  intro hne
  have hne' : st.1 ≠ [] := by
    intro h0
    rw [h0] at hperm
    exact hne hperm.symm.eq_nil
  exact ⟨hperm.subset (getD_zero_mem st.1 hne'),
    fun x hx => isMaxHeap_root_ge st.1 hheap x (hperm.symm.subset hx)⟩

/-- C34, at a heap that held `[9, 1]` and the input `[2, 7, 7]`: the heap after
`createHeap` is `[7, 2, 7]`, a permutation of the input with the maximum 7 first. -/
theorem createHeap_perm_max_witness :
    applyHeapOp [9, 1] (HeapOp.create [2, 7, 7]) = some [7, 2, 7] ∧
    ((∃ heap, applyHeapOp [9, 1] (HeapOp.create [2, 7, 7]) = some heap ∧
      heap.Perm [2, 7, 7] ∧
      (([2, 7, 7] : List Int) ≠ [] →
        heap.getD 0 0 ∈ ([2, 7, 7] : List Int) ∧
        ∀ x ∈ ([2, 7, 7] : List Int), x ≤ heap.getD 0 0)) ∧
    applyHeapOp [9, 1] (HeapOp.create [5, 3, 8]) = some [8, 3, 5]) :=
  ⟨by decide!, createHeap_perm_max [9, 1] [2, 7, 7]⟩

/-! ## Extracting the maximum until the heap is empty -/

theorem extractMaxTimes_spec : ∀ (n : Nat) (heap : List Int), IsMaxHeap heap →
    heap.length = n →
    ∃ out : List Int, extractMaxTimes n heap = some ([], out.map some) ∧ out.Perm heap ∧
      out.Sorted (fun a b => b ≤ a) := by
  intro n
  induction n with
  | zero =>
    intro heap _ hlen
    have h0 : heap = [] := List.length_eq_zero.mp hlen
    subst h0
    exact ⟨[], rfl, List.Perm.refl _, List.sorted_nil⟩
  | succ k ih =>
    intro heap hh hlen
    have hne : heap ≠ [] := by
      intro h0
      rw [h0] at hlen
      simp at hlen
    obtain ⟨st, m, hrun, _, hmax, hperm, hh', hl⟩ := heapExtractMax_spec heap hne hh
    obtain ⟨out, hrest, hperm', hsorted⟩ := ih st.1 hh' (by omega)
    refine ⟨m :: out, ?_, ?_, ?_⟩
    · simp only [extractMaxTimes]
      rw [hrun, Option.some_bind, hrest]
      rfl
    · exact (List.Perm.cons m hperm').trans hperm.symm
    · refine List.sorted_cons.mpr ⟨?_, hsorted⟩
      · intro b hb
        exact hmax b (hperm.symm.subset (List.mem_cons_of_mem _ (hperm'.subset hb)))

theorem ge_total : IsTotal Int (fun a b => b ≤ a) := ⟨fun a b => le_total b a⟩

theorem ge_trans : IsTrans Int (fun a b => b ≤ a) := ⟨fun _ _ _ h1 h2 => le_trans h2 h1⟩

theorem ge_antisymm : IsAntisymm Int (fun a b => b ≤ a) := ⟨fun _ _ h1 h2 => le_antisymm h2 h1⟩

/-- C38: for every sequence `values` of length `n` (and whatever the heap held before),
`createHeap(values)` followed by `n` calls of `heapExtractMax` returns; the calls
capture the elements of `values` in non-increasing order, the `k`-th captured value
being the `k`-th element of `values` sorted in descending order (duplicates included),
and the heap is empty at the end. -/
theorem extract_all_descending (heapArray values : List Int) :
    ∃ (heap : List Int) (out : List Int),
      applyHeapOp heapArray (HeapOp.create values) = some heap ∧
      extractMaxTimes values.length heap = some ([], out.map some) ∧
      out.Perm values ∧ out.Sorted (fun a b => b ≤ a) ∧
      out = values.insertionSort (fun a b => b ≤ a) := by
  haveI := ge_total
  haveI := ge_trans
  haveI := ge_antisymm
  obtain ⟨st, hrun, hheap, hperm⟩ := createHeap_spec values
  obtain ⟨out, hout, hp, hs⟩ := extractMaxTimes_spec values.length st.1 hheap hperm.length_eq
  refine ⟨st.1, out, ?_, hout, hp.trans hperm, hs, ?_⟩
  · show (createHeap values).map (fun st => st.1) = some st.1
    rw [hrun]
    rfl
  · exact List.eq_of_perm_of_sorted
      ((hp.trans hperm).trans (List.perm_insertionSort _ values).symm) hs
      (List.sorted_insertionSort _ values)

/-! ## `heapInsert`: the sift-up of the inserted element -/

theorem siftUpSnapshot_other (v : Int) (s : HeapSnapshot)
    (h1 : ∀ c p, s.status ≠ HeapStatus.comparingParent c p)
    (h2 : ∀ x y, s.status ≠ HeapStatus.swapped x y) : SiftUpSnapshot v s :=
  ⟨fun c p h => absurd h (h1 c p), fun x y h => absurd h (h2 x y)⟩

theorem siftUpSnapshot_snoc (v : Int) (steps : List HeapSnapshot) (s : HeapSnapshot)
    (h : ∀ t ∈ steps, SiftUpSnapshot v t) (hs : SiftUpSnapshot v s) :
    ∀ t ∈ steps ++ [s], SiftUpSnapshot v t := by
  intro t ht
  rw [List.mem_append, List.mem_singleton] at ht
  rcases ht with ht | ht
  · exact h t ht
  · rw [ht]
    exact hs

theorem heapInsertLoop_sift (v : Int) : ∀ (fuel : Nat) (st : HeapState) (i : Nat), i ≤ fuel →
    i < st.1.length → st.1.getD i 0 = v → (∀ t ∈ st.2, SiftUpSnapshot v t) →
    ∃ st', heapInsertLoop fuel st i = some st' ∧ st'.1.Perm st.1 ∧
      st'.1 = siftUpSpec fuel st.1 i ∧ ∀ t ∈ st'.2, SiftUpSnapshot v t := by
  intro fuel
  induction fuel with
  | zero =>
    intro st i hi _ _ htr
    have h0 : i = 0 := by omega
    subst h0
    unfold heapInsertLoop
    simp only [gt_iff_lt, lt_self_iff_false, if_false]
    exact ⟨st, rfl, List.Perm.refl _, rfl, htr⟩
  | succ fuel ih =>
    intro st i hi hil hv htr
    unfold heapInsertLoop
    by_cases h0 : i > 0
    · simp only [h0, if_true]
      have hcmp : SiftUpSnapshot v ⟨heapToJson st.1 i (((i - 1) / 2 : Nat) : Int),
          HeapStatus.comparingParent (st.1.getD i 0) (st.1.getD ((i - 1) / 2) 0)⟩ := by
        constructor
        · intro c p h
          injection h with hc hp
          exact ⟨st.1, i, h0, hil, hv, by rw [← hc, hv], hp.symm, rfl⟩
        · intro x y h
          cases h
      have htr1 := siftUpSnapshot_snoc v _ _ htr hcmp
      by_cases hle : st.1.getD i 0 ≤ st.1.getD ((i - 1) / 2) 0
      · simp only [hle, if_true]
        refine ⟨_, rfl, List.Perm.refl _, ?_, ?_⟩
        · simp only [siftUpSpec]
          rw [if_neg (by omega)]
        · exact siftUpSnapshot_snoc v _ _ htr1
            (siftUpSnapshot_other v _ (fun _ _ h => by cases h) (fun _ _ h => by cases h))
      · simp only [hle, if_false]
        have hpl : (i - 1) / 2 < st.1.length := by omega
        have hne : (i - 1) / 2 ≠ i := by omega
        have hgp : (swap st.1 i ((i - 1) / 2)).getD ((i - 1) / 2) 0 = v := by
          rw [getD_swap _ _ _ _ hil hpl, if_pos rfl, hv]
        have hgi : (swap st.1 i ((i - 1) / 2)).getD i 0 = st.1.getD ((i - 1) / 2) 0 := by
          rw [getD_swap _ _ _ _ hil hpl, if_neg (fun h => hne h.symm), if_pos rfl]
        have htr2 := siftUpSnapshot_snoc v _ _ htr1
          (siftUpSnapshot_other v ⟨heapToJson st.1 i (((i - 1) / 2 : Nat) : Int),
            HeapStatus.childGreater⟩ (fun _ _ h => by cases h) (fun _ _ h => by cases h))
        have hsw : SiftUpSnapshot v
            ⟨heapToJson (swap st.1 i ((i - 1) / 2)) (((i - 1) / 2 : Nat) : Int) (-1),
              HeapStatus.swapped ((swap st.1 i ((i - 1) / 2)).getD ((i - 1) / 2) 0)
                ((swap st.1 i ((i - 1) / 2)).getD i 0)⟩ := by
          constructor
          · intro c p h
            cases h
          · intro x y h
            injection h with hx hy
            exact ⟨st.1, i, h0, hil, hv, by omega, by rw [← hx, hgp], by rw [← hy, hgi], rfl⟩
        obtain ⟨st', hrun, hperm, hspec, htr'⟩ := ih
          (swap st.1 i ((i - 1) / 2), st.2 ++
            [⟨heapToJson st.1 i (((i - 1) / 2 : Nat) : Int),
              HeapStatus.comparingParent (st.1.getD i 0) (st.1.getD ((i - 1) / 2) 0)⟩] ++
            [⟨heapToJson st.1 i (((i - 1) / 2 : Nat) : Int), HeapStatus.childGreater⟩] ++
            [⟨heapToJson (swap st.1 i ((i - 1) / 2)) (((i - 1) / 2 : Nat) : Int) (-1),
              HeapStatus.swapped ((swap st.1 i ((i - 1) / 2)).getD ((i - 1) / 2) 0)
                ((swap st.1 i ((i - 1) / 2)).getD i 0)⟩])
          ((i - 1) / 2) (by omega) (by simp only []; rw [length_swap]; exact hpl) hgp
          (siftUpSnapshot_snoc v _ _ htr2 hsw)
        refine ⟨st', hrun, hperm.trans (swap_perm _ _ _ hil hpl), ?_, htr'⟩
        rw [hspec]
        simp only [siftUpSpec]
        rw [if_pos ⟨h0, by omega⟩]
    · have hi0 : i = 0 := by omega
      subst hi0
      simp only [gt_iff_lt, lt_self_iff_false, if_false]
      refine ⟨st, rfl, List.Perm.refl _, ?_, htr⟩
      simp only [siftUpSpec]
      rw [if_neg (by omega)]

/-- C35: for every heap state `heap` and every value `v`, `heapInsert(v)` returns; the
persistent heap after it is a permutation of the heap before plus one occurrence of
`v`, so its size is one more; it is the result of the sift-up of the specification
started at the last index (swap with the parent at `(i - 1) / 2` while strictly
greater, stop at the root or at the first parent that is at least `v`); and in the
trace every comparison is between `v` and its parent and every swap exchanges `v` with
a strictly smaller parent. -/
theorem heapInsert_sift_up (heap : List Int) (v : Int) :
    ∃ st, heapInsert heap v = some st ∧ st.1.Perm (heap ++ [v]) ∧
      st.1.length = heap.length + 1 ∧
      st.1 = siftUpSpec heap.length (heap ++ [v]) heap.length ∧
      ∀ t ∈ st.2, SiftUpSnapshot v t := by
  have hlen : (heap ++ [v]).length = heap.length + 1 := by simp
  have hl1 : (heap ++ [v]).length - 1 = heap.length := by omega
  obtain ⟨st', hrun, hperm, hspec, htr⟩ := heapInsertLoop_sift v ((heap ++ [v]).length - 1)
    (heap ++ [v], [⟨heapToJson heap (-1) (-1), HeapStatus.insertStart v⟩] ++
      [⟨heapToJson (heap ++ [v]) (((heap ++ [v]).length : Int) - 1) (-1),
        HeapStatus.insertedAtEnd v⟩])
    ((heap ++ [v]).length - 1) (le_refl _) (by simp only []; omega) (by
      simp only []
      rw [hl1, List.getD_eq_getElem _ _ (by omega)]
      simp) (by
      intro t ht
      simp only [List.mem_append, List.mem_singleton] at ht
      rcases ht with ht | ht <;> rw [ht] <;>
        exact siftUpSnapshot_other v _ (fun _ _ h => by cases h) (fun _ _ h => by cases h))
  simp only [] at hperm hspec
  rw [hl1] at hspec
  refine ⟨(st'.1, st'.2 ++ [⟨heapToJson st'.1 (-1) (-1), HeapStatus.insertionComplete⟩]),
    ?_, hperm, ?_, hspec, ?_⟩
  · unfold heapInsert
    simp only []
    rw [hrun]
    rfl
  · show st'.1.length = heap.length + 1
    rw [hperm.length_eq, hlen]
  · exact siftUpSnapshot_snoc v _ _ htr
      (siftUpSnapshot_other v _ (fun _ _ h => by cases h) (fun _ _ h => by cases h))

/-- C35, at the heap `[8, 3, 5]` and the value 9: the inserted 9 is swapped with its
parent 3 at index 1 and then with its parent 8 at the root. -/
theorem heapInsert_sift_up_witness :
    (heapInsert [8, 3, 5] 9).map (fun st => st.1) = some [9, 8, 5, 3] ∧
    siftUpSpec 3 [8, 3, 5, 9] 3 = [9, 8, 5, 3] ∧
    ∃ st, heapInsert [8, 3, 5] 9 = some st ∧ st.1.Perm ([8, 3, 5] ++ [9]) ∧
      st.1.length = ([8, 3, 5] : List Int).length + 1 ∧
      st.1 = siftUpSpec ([8, 3, 5] : List Int).length ([8, 3, 5] ++ [9])
        ([8, 3, 5] : List Int).length ∧
      ∀ t ∈ st.2, SiftUpSnapshot 9 t :=
  ⟨by decide!, by decide, heapInsert_sift_up [8, 3, 5] 9⟩

/-! ## `bstDelete`: exactly one occurrence is removed -/

theorem delete_perm : ∀ (t : TreeNode) (ctx : TreeNode → TreeNode) (v : Int)
    (steps : List TreeSnapshot), IsBST t → v ∈ inorder t →
    (inorder t).Perm (v :: inorder (deleteNodeHelper ctx t v steps).1) := by
  intro t
  induction t with
  | nil =>
    intro ctx v steps _ hmem
    simp [inorder] at hmem
  | node x l r ihl ihr =>
    intro ctx v steps hb hmem
    obtain ⟨hl, hr, hlt, hge⟩ := hb
    rw [deleteNodeHelper]
    simp only []
    split_ifs with h1 h2
    · have hvl : v ∈ inorder l := by
        rcases (mem_inorder_node x v l r).mp hmem with h | h | h
        · exact h
        · omega
        · have := hge v h
          omega
      have hp := ihl (fun t => ctx (TreeNode.node x t r)) v
        (steps ++ [⟨treeToJson (ctx (TreeNode.node x l r)) x false, TreeStatus.examining x⟩] ++
          [⟨treeToJson (ctx (TreeNode.node x l r)) x false, TreeStatus.leftSubtree v x⟩])
        hl hvl
      simp only [inorder]
      exact (List.Perm.append_right _ hp).trans (by simp)
    · have hvr : v ∈ inorder r := by
        rcases (mem_inorder_node x v l r).mp hmem with h | h | h
        · have := hlt v h
          omega
        · omega
        · exact h
      have hp := ihr (fun t => ctx (TreeNode.node x l t)) v
        (steps ++ [⟨treeToJson (ctx (TreeNode.node x l r)) x false, TreeStatus.examining x⟩] ++
          [⟨treeToJson (ctx (TreeNode.node x l r)) x false, TreeStatus.rightSubtree v x⟩])
        hr hvr
      simp only [inorder]
      refine (List.Perm.append_left _ (List.Perm.cons x hp)).trans ?_
      refine (List.Perm.append_left _ (List.Perm.swap v x _)).trans ?_
      exact List.perm_middle
    · have hvx : v = x := by omega
      subst hvx
      cases l with
      | nil =>
        simp only [inorder, List.nil_append]
        exact List.Perm.refl _
      | node lx ll lr =>
        cases r with
        | nil =>
          simp only [inorder, List.append_nil]
          exact List.perm_append_comm.trans (by simp)
        | node rx rl rr =>
          simp only []
          obtain ⟨s, sl, sr, hs, hsmem, _⟩ :=
            findMinValueNode_spec (TreeNode.node rx rl rr) (by simp)
          rw [hs]
          simp only []
          have hp := ihr (fun t => ctx (TreeNode.node s (TreeNode.node lx ll lr) t)) s
            (steps ++
              [⟨treeToJson (ctx (TreeNode.node v (TreeNode.node lx ll lr)
                (TreeNode.node rx rl rr))) v false, TreeStatus.examining v⟩] ++
              [⟨treeToJson (ctx (TreeNode.node v (TreeNode.node lx ll lr)
                (TreeNode.node rx rl rr))) v true, TreeStatus.foundToDelete v⟩] ++
              [⟨treeToJson (ctx (TreeNode.node v (TreeNode.node lx ll lr)
                (TreeNode.node rx rl rr))) v false, TreeStatus.twoChildren v⟩] ++
              [⟨treeToJson (ctx (TreeNode.node v (TreeNode.node lx ll lr)
                (TreeNode.node rx rl rr))) s false, TreeStatus.successorIs s⟩] ++
              [⟨treeToJson (ctx (TreeNode.node s (TreeNode.node lx ll lr)
                (TreeNode.node rx rl rr))) s false, TreeStatus.replacedWith s⟩,
               ⟨treeToJson (ctx (TreeNode.node s (TreeNode.node lx ll lr)
                (TreeNode.node rx rl rr))) s false, TreeStatus.deletingSuccessor s⟩])
            hr hsmem
          rw [show inorder (TreeNode.node v (TreeNode.node lx ll lr) (TreeNode.node rx rl rr)) =
            inorder (TreeNode.node lx ll lr) ++ v :: inorder (TreeNode.node rx rl rr) from rfl]
          rw [show ∀ t', inorder (TreeNode.node s (TreeNode.node lx ll lr) t') =
            inorder (TreeNode.node lx ll lr) ++ s :: inorder t' from fun _ => rfl]
          refine List.perm_middle.trans (List.Perm.cons v ?_)
          exact List.Perm.append_left _ hp

/-- C31: for every tree satisfying the BST ordering and every value `v` that occurs in
it, the values stored after `bstDelete(v)` are, as a multiset, the values before with
exactly one occurrence of `v` removed: the in-order walk before is a permutation of `v`
followed by the walk after, so every value other than `v` occurs as often as before and
`v` once less, whichever case of the deletion applies (two children included). -/
theorem bstDelete_removes_one (t : TreeNode) (v : Int) (hb : IsBST t)
    (hmem : v ∈ inorder t) :
    (inorder t).Perm (v :: inorder (bstDelete t v).1) ∧
    (inorder (bstDelete t v).1).Perm ((inorder t).erase v) ∧
    ∀ y, (inorder (bstDelete t v).1).count y =
      (inorder t).count y - (if y = v then 1 else 0) := by
  rw [bstDelete_tree]
  have hp := delete_perm t (fun t => t) v
    [⟨treeToJson t (-1) false, TreeStatus.deleteStart v⟩] hb hmem
  refine ⟨hp, ?_, ?_⟩
  · have he := hp.erase v
    rw [List.erase_cons_head] at he
    exact he.symm
  · intro y
    rw [hp.count_eq, List.count_cons]
    by_cases hy : y = v
    · rw [if_pos hy]
      simp [hy]
    · rw [if_neg hy]
      have : ¬ (v == y) = true := by
        simp only [beq_iff_eq]
        exact fun h => hy h.symm
      simp [this]

/-- C31, at the tree after insert 5, 3, 8, 6, 9, 8 and the value 5, whose node has two
children: the walk `3 5 6 8 8 9` becomes `3 6 8 8 9`. -/
theorem bstDelete_removes_one_witness :
    inorder (treeAfter [TreeOp.insert 5, TreeOp.insert 3, TreeOp.insert 8, TreeOp.insert 6,
      TreeOp.insert 9, TreeOp.insert 8]) = [3, 5, 6, 8, 8, 9] ∧
    inorder (bstDelete (treeAfter [TreeOp.insert 5, TreeOp.insert 3, TreeOp.insert 8,
      TreeOp.insert 6, TreeOp.insert 9, TreeOp.insert 8]) 5).1 = [3, 6, 8, 8, 9] ∧
    ((inorder (treeAfter [TreeOp.insert 5, TreeOp.insert 3, TreeOp.insert 8, TreeOp.insert 6,
      TreeOp.insert 9, TreeOp.insert 8])).Perm
        (5 :: inorder (bstDelete (treeAfter [TreeOp.insert 5, TreeOp.insert 3,
          TreeOp.insert 8, TreeOp.insert 6, TreeOp.insert 9, TreeOp.insert 8]) 5).1) ∧
    (inorder (bstDelete (treeAfter [TreeOp.insert 5, TreeOp.insert 3, TreeOp.insert 8,
      TreeOp.insert 6, TreeOp.insert 9, TreeOp.insert 8]) 5).1).Perm
        ((inorder (treeAfter [TreeOp.insert 5, TreeOp.insert 3, TreeOp.insert 8,
          TreeOp.insert 6, TreeOp.insert 9, TreeOp.insert 8])).erase 5) ∧
    ∀ y, (inorder (bstDelete (treeAfter [TreeOp.insert 5, TreeOp.insert 3, TreeOp.insert 8,
      TreeOp.insert 6, TreeOp.insert 9, TreeOp.insert 8]) 5).1).count y =
      (inorder (treeAfter [TreeOp.insert 5, TreeOp.insert 3, TreeOp.insert 8, TreeOp.insert 6,
        TreeOp.insert 9, TreeOp.insert 8])).count y - (if y = 5 then 1 else 0)) :=
  ⟨by decide, by decide, bstDelete_removes_one _ 5 (isBST_treeAfter _) (by decide)⟩

/-! ## `bstDelete`: the node with two children -/

theorem delete_leftmost : ∀ (t : TreeNode) (ctx : TreeNode → TreeNode)
    (steps : List TreeSnapshot) (s : Int) (sl sr : TreeNode), IsBST t →
    findMinValueNode t = TreeNode.node s sl sr →
    (deleteNodeHelper ctx t s steps).1 = removeLeftmost t := by
  intro t
  induction t with
  | nil =>
    intro ctx steps s sl sr _ hmin
    simp [findMinValueNode] at hmin
  | node x l r ihl _ =>
    intro ctx steps s sl sr hb hmin
    obtain ⟨hl, _, hlt, _⟩ := hb
    cases l with
    | nil =>
      simp only [findMinValueNode] at hmin
      injection hmin with hx _ _
      subst hx
      rw [deleteNodeHelper]
      simp only [lt_self_iff_false, gt_iff_lt, if_false]
      rfl
    | node lx ll lr =>
      have hmin : findMinValueNode (TreeNode.node lx ll lr) = TreeNode.node s sl sr := hmin
      obtain ⟨s', sl', sr', hs', hmem, _⟩ :=
        findMinValueNode_spec (TreeNode.node lx ll lr) (by simp)
      have hss : s' = s := by
        rw [hs'] at hmin
        injection hmin
      rw [hss] at hmem
      have hsx := hlt s hmem
      rw [deleteNodeHelper]
      simp only [hsx, if_true]
      rw [ihl _ _ s sl sr hl hmin]
      rfl

theorem removeLeftmost_perm : ∀ (t : TreeNode) (s : Int) (sl sr : TreeNode),
    findMinValueNode t = TreeNode.node s sl sr →
    inorder t = s :: inorder (removeLeftmost t) := by
  intro t
  induction t with
  | nil =>
    intro s sl sr hmin
    simp [findMinValueNode] at hmin
  | node x l r ihl _ =>
    intro s sl sr hmin
    cases l with
    | nil =>
      simp only [findMinValueNode] at hmin
      injection hmin with hx _ _
      subst hx
      rfl
    | node lx ll lr =>
      have hmin : findMinValueNode (TreeNode.node lx ll lr) = TreeNode.node s sl sr := hmin
      have h := ihl s sl sr hmin
      show inorder (TreeNode.node lx ll lr) ++ x :: inorder r =
        s :: (inorder (removeLeftmost (TreeNode.node lx ll lr)) ++ x :: inorder r)
      rw [h]
      rfl

theorem delete_two_children : ∀ (t : TreeNode) (ctx : TreeNode → TreeNode) (v : Int)
    (steps : List TreeSnapshot) (L R : TreeNode), IsBST t →
    foundNode v t = TreeNode.node v L R → L ≠ TreeNode.nil → R ≠ TreeNode.nil →
    ∃ s sl sr, findMinValueNode R = TreeNode.node s sl sr ∧ IsBST R ∧
      (deleteNodeHelper ctx t v steps).1 =
        replaceFound v (TreeNode.node s L (removeLeftmost R)) t := by
  intro t
  induction t with
  | nil =>
    intro ctx v steps L R _ hf
    simp [foundNode] at hf
  | node x l r ihl ihr =>
    intro ctx v steps L R hb hf hL hR
    obtain ⟨hl, hr, _, _⟩ := hb
    rw [deleteNodeHelper]
    simp only [foundNode, replaceFound] at hf ⊢
    split_ifs at hf ⊢ with h1 h2
    · obtain ⟨s, sl, sr, hs, hbR, hd⟩ := ihl (fun t => ctx (TreeNode.node x t r)) v
        (steps ++ [⟨treeToJson (ctx (TreeNode.node x l r)) x false, TreeStatus.examining x⟩] ++
          [⟨treeToJson (ctx (TreeNode.node x l r)) x false, TreeStatus.leftSubtree v x⟩])
        L R hl hf hL hR
      refine ⟨s, sl, sr, hs, hbR, ?_⟩
      simp only []
      rw [hd]
    · obtain ⟨s, sl, sr, hs, hbR, hd⟩ := ihr (fun t => ctx (TreeNode.node x l t)) v
        (steps ++ [⟨treeToJson (ctx (TreeNode.node x l r)) x false, TreeStatus.examining x⟩] ++
          [⟨treeToJson (ctx (TreeNode.node x l r)) x false, TreeStatus.rightSubtree v x⟩])
        L R hr hf hL hR
      refine ⟨s, sl, sr, hs, hbR, ?_⟩
      simp only []
      rw [hd]
    · injection hf with hx hl' hr'
      subst hl' hr'
      cases l with
      | nil => exact absurd rfl hL
      | node lx ll lr =>
        cases r with
        | nil => exact absurd rfl hR
        | node rx rl rr =>
          obtain ⟨s, sl, sr, hs, _, _⟩ :=
            findMinValueNode_spec (TreeNode.node rx rl rr) (by simp)
          refine ⟨s, sl, sr, hs, hr, ?_⟩
          simp only []
          rw [hs]
          simp only []
          rw [delete_leftmost _ _ _ s sl sr hr hs]

/-- C32: for every tree satisfying the BST ordering, when the descent of `bstDelete(v)`
finds `v` at a node with left subtree `L` and right subtree `R`, both non-empty, the
tree after the deletion is the tree before with that node, in place, replaced by the
node holding `s` with the same left subtree `L` and the right subtree `R` without its
leftmost node, where `s`, the value of that leftmost node, is the minimum of `R`; the
values of the new right subtree are those of `R` with one occurrence of `s` removed. -/
theorem bstDelete_two_children (t : TreeNode) (v : Int) (L R : TreeNode) (hb : IsBST t)
    (hf : foundNode v t = TreeNode.node v L R) (hL : L ≠ TreeNode.nil)
    (hR : R ≠ TreeNode.nil) :
    ∃ s, s ∈ inorder R ∧ (∀ y ∈ inorder R, s ≤ y) ∧
      (bstDelete t v).1 = replaceFound v (TreeNode.node s L (removeLeftmost R)) t ∧
      inorder R = s :: inorder (removeLeftmost R) ∧
      (inorder (removeLeftmost R)).Perm ((inorder R).erase s) := by
  obtain ⟨s, sl, sr, hs, hbR, hd⟩ := delete_two_children t (fun t => t) v
    [⟨treeToJson t (-1) false, TreeStatus.deleteStart v⟩] L R hb hf hL hR
  obtain ⟨s', sl', sr', hs', hmem, hmin⟩ := findMinValueNode_spec R hR
  have hss : s' = s := by
    rw [hs'] at hs
    injection hs
  rw [hss] at hmem
  have hperm := removeLeftmost_perm R s sl sr hs
  refine ⟨s, hmem, ?_, ?_, hperm, ?_⟩
  · intro y hy
    have := hmin hbR y hy
    omega
  · rw [bstDelete_tree]
    exact hd
  · rw [hperm, List.erase_cons_head]

/-- C32, at the tree after insert 5, 3, 8, 6, 9, 7 and the value 5: the root has two
children, its value becomes 6, the minimum of the right subtree `8 (6 (- 7)) 9`, and
the right subtree becomes `8 7 9`. -/
theorem bstDelete_two_children_witness :
    (bstDelete (treeAfter [TreeOp.insert 5, TreeOp.insert 3, TreeOp.insert 8, TreeOp.insert 6,
      TreeOp.insert 9, TreeOp.insert 7]) 5).1 =
      TreeNode.node 6 (TreeNode.node 3 TreeNode.nil TreeNode.nil)
        (TreeNode.node 8 (TreeNode.node 7 TreeNode.nil TreeNode.nil)
          (TreeNode.node 9 TreeNode.nil TreeNode.nil)) ∧
    ∃ s, s ∈ inorder (TreeNode.node 8
        (TreeNode.node 6 TreeNode.nil (TreeNode.node 7 TreeNode.nil TreeNode.nil))
        (TreeNode.node 9 TreeNode.nil TreeNode.nil)) ∧
      (∀ y ∈ inorder (TreeNode.node 8
        (TreeNode.node 6 TreeNode.nil (TreeNode.node 7 TreeNode.nil TreeNode.nil))
        (TreeNode.node 9 TreeNode.nil TreeNode.nil)), s ≤ y) ∧
      (bstDelete (treeAfter [TreeOp.insert 5, TreeOp.insert 3, TreeOp.insert 8,
        TreeOp.insert 6, TreeOp.insert 9, TreeOp.insert 7]) 5).1 =
        replaceFound 5 (TreeNode.node s (TreeNode.node 3 TreeNode.nil TreeNode.nil)
          (removeLeftmost (TreeNode.node 8
            (TreeNode.node 6 TreeNode.nil (TreeNode.node 7 TreeNode.nil TreeNode.nil))
            (TreeNode.node 9 TreeNode.nil TreeNode.nil))))
          (treeAfter [TreeOp.insert 5, TreeOp.insert 3, TreeOp.insert 8, TreeOp.insert 6,
            TreeOp.insert 9, TreeOp.insert 7]) ∧
      inorder (TreeNode.node 8
        (TreeNode.node 6 TreeNode.nil (TreeNode.node 7 TreeNode.nil TreeNode.nil))
        (TreeNode.node 9 TreeNode.nil TreeNode.nil)) =
        s :: inorder (removeLeftmost (TreeNode.node 8
          (TreeNode.node 6 TreeNode.nil (TreeNode.node 7 TreeNode.nil TreeNode.nil))
          (TreeNode.node 9 TreeNode.nil TreeNode.nil))) ∧
      (inorder (removeLeftmost (TreeNode.node 8
        (TreeNode.node 6 TreeNode.nil (TreeNode.node 7 TreeNode.nil TreeNode.nil))
        (TreeNode.node 9 TreeNode.nil TreeNode.nil)))).Perm
        ((inorder (TreeNode.node 8
          (TreeNode.node 6 TreeNode.nil (TreeNode.node 7 TreeNode.nil TreeNode.nil))
          (TreeNode.node 9 TreeNode.nil TreeNode.nil))).erase s) :=
  ⟨by decide, bstDelete_two_children _ 5 _ _ (isBST_treeAfter _) (by decide) (by decide)
    (by decide)⟩

/-! ## `bstInsert`: where the new leaf goes -/

theorem valueAt_nil (p : List Bool) : valueAt TreeNode.nil p = none := by
  cases p <;> rfl

theorem valueAt_descentPath (v : Int) : ∀ t : TreeNode, valueAt t (descentPath v t) = none := by
  intro t
  induction t with
  | nil => rfl
  | node x l r ihl ihr =>
    simp only [descentPath]
    split_ifs with h
    · simpa [valueAt] using ihl
    · simpa [valueAt] using ihr

theorem subtreeAt_insertLeaf (v : Int) : ∀ t : TreeNode,
    subtreeAt (insertLeaf v t) (descentPath v t) =
      TreeNode.node v TreeNode.nil TreeNode.nil := by
  intro t
  induction t with
  | nil => rfl
  | node x l r ihl ihr =>
    simp only [descentPath, insertLeaf]
    split_ifs with h
    · simpa [subtreeAt] using ihl
    · simpa [subtreeAt] using ihr

theorem valueAt_insertLeaf (v : Int) : ∀ (t : TreeNode) (p : List Bool),
    valueAt (insertLeaf v t) p = if p = descentPath v t then some v else valueAt t p := by
  intro t
  induction t with
  | nil =>
    intro p
    cases p with
    | nil => rfl
    | cons b p =>
      simp only [insertLeaf, descentPath, valueAt, valueAt_nil]
      simp
  | node x l r ihl ihr =>
    intro p
    by_cases h : v < x
    · have hd : descentPath v (TreeNode.node x l r) = false :: descentPath v l := by
        simp only [descentPath]
        rw [if_pos h]
      have hi : insertLeaf v (TreeNode.node x l r) = TreeNode.node x (insertLeaf v l) r := by
        simp only [insertLeaf]
        rw [if_pos h]
      rw [hd, hi]
      cases p with
      | nil => simp [valueAt]
      | cons b p =>
        cases b with
        | false =>
          simp only [valueAt, Bool.false_eq_true, if_false]
          rw [ihl p]
          simp
        | true =>
          simp [valueAt]
    · have hd : descentPath v (TreeNode.node x l r) = true :: descentPath v r := by
        simp only [descentPath]
        rw [if_neg h]
      have hi : insertLeaf v (TreeNode.node x l r) = TreeNode.node x l (insertLeaf v r) := by
        simp only [insertLeaf]
        rw [if_neg h]
      rw [hd, hi]
      cases p with
      | nil => simp [valueAt]
      | cons b p =>
        cases b with
        | false =>
          simp [valueAt]
        | true =>
          simp only [valueAt, if_true]
          rw [ihr p]
          simp

theorem valueAt_mem : ∀ (t : TreeNode) (p : List Bool) (y : Int),
    valueAt t p = some y → y ∈ inorder t := by
  intro t
  induction t with
  | nil =>
    intro p y h
    rw [valueAt_nil] at h
    cases h
  | node x l r ihl ihr =>
    intro p y h
    rw [mem_inorder_node]
    cases p with
    | nil =>
      simp only [valueAt] at h
      injection h with h
      exact Or.inr (Or.inl h.symm)
    | cons b p =>
      cases b with
      | false =>
        simp only [valueAt, Bool.false_eq_true, if_false] at h
        exact Or.inl (ihl p y h)
      | true =>
        simp only [valueAt, if_true] at h
        exact Or.inr (Or.inr (ihr p y h))

theorem descent_through_equal (v : Int) : ∀ (t : TreeNode) (q : List Bool), IsBST t →
    valueAt t q = some v → ∃ rest, descentPath v t = q ++ true :: rest := by
  intro t
  induction t with
  | nil =>
    intro q _ h
    rw [valueAt_nil] at h
    cases h
  | node x l r ihl ihr =>
    intro q hb h
    obtain ⟨hl, hr, hlt, hge⟩ := hb
    cases q with
    | nil =>
      simp only [valueAt] at h
      injection h with h
      refine ⟨descentPath v r, ?_⟩
      simp only [descentPath]
      rw [if_neg (by omega)]
      rfl
    | cons b q =>
      cases b with
      | false =>
        simp only [valueAt, Bool.false_eq_true, if_false] at h
        have hvx := hlt v (valueAt_mem l q v h)
        obtain ⟨rest, hrest⟩ := ihl q hl h
        refine ⟨rest, ?_⟩
        simp only [descentPath]
        rw [if_pos hvx, hrest]
        rfl
      | true =>
        simp only [valueAt, if_true] at h
        have hvx := hge v (valueAt_mem r q v h)
        obtain ⟨rest, hrest⟩ := ihr q hr h
        refine ⟨rest, ?_⟩
        simp only [descentPath]
        rw [if_neg (by omega), hrest]
        rfl

/-- C33: for every tree and every value `v`, the tree after `bstInsert(v)` is the tree
before with exactly one new leaf holding `v` at the position reached by descending left
when `v < node value` and right when `v >= node value` (the root when the tree was
empty): that position held no node before, it holds the leaf `v` afterwards, and every
other position holds the same value, or no node, as before, so the values are those
before plus one `v`; and in every tree the operations build from the empty tree, as in
every tree that satisfies the BST ordering, when `v` equals the value of an existing
node the new leaf lies in that node's right subtree. -/
theorem bstInsert_leaf_position (t : TreeNode) (v : Int) :
    valueAt t (descentPath v t) = none ∧
    subtreeAt (bstInsert t v).1 (descentPath v t) =
      TreeNode.node v TreeNode.nil TreeNode.nil ∧
    (∀ p, valueAt (bstInsert t v).1 p =
      if p = descentPath v t then some v else valueAt t p) ∧
    (t = TreeNode.nil → (bstInsert t v).1 = TreeNode.node v TreeNode.nil TreeNode.nil) ∧
    (inorder (bstInsert t v).1).Perm (v :: inorder t) ∧
    (∀ ops : List TreeOp, ∀ q, valueAt (treeAfter ops) q = some v →
      ∃ rest, descentPath v (treeAfter ops) = q ++ true :: rest) ∧
    (IsBST t → ∀ q, valueAt t q = some v → ∃ rest, descentPath v t = q ++ true :: rest) := by
  rw [bstInsert_tree]
  refine ⟨valueAt_descentPath v t, subtreeAt_insertLeaf v t, valueAt_insertLeaf v t, ?_, ?_,
    fun ops q hq => descent_through_equal v (treeAfter ops) q (isBST_treeAfter ops) hq,
    fun hb q hq => descent_through_equal v t q hb hq⟩
  · intro h
    rw [h]
    rfl
  · induction t with
    | nil => exact List.Perm.refl _
    | node x l r ihl ihr =>
      simp only [insertLeaf]
      split_ifs with h
      · simp only [inorder]
        exact (List.Perm.append_right _ ihl).trans (by simp)
      · simp only [inorder]
        refine (List.Perm.append_left _ (List.Perm.cons x ihr)).trans ?_
        refine (List.Perm.append_left _ (List.Perm.swap v x _)).trans ?_
        exact List.perm_middle

/-- C33, at the tree after insert 5, 3, 8 and the value 5, which the root holds: the
descent goes right at 5 and left at 8, and the new leaf is the left child of 8, in the
right subtree of the root. -/
theorem bstInsert_leaf_position_witness :
    descentPath 5 (treeAfter [TreeOp.insert 5, TreeOp.insert 3, TreeOp.insert 8]) =
      [true, false] ∧
    (bstInsert (treeAfter [TreeOp.insert 5, TreeOp.insert 3, TreeOp.insert 8]) 5).1 =
      TreeNode.node 5 (TreeNode.node 3 TreeNode.nil TreeNode.nil)
        (TreeNode.node 8 (TreeNode.node 5 TreeNode.nil TreeNode.nil) TreeNode.nil) ∧
    valueAt (treeAfter [TreeOp.insert 5, TreeOp.insert 3, TreeOp.insert 8]) [] = some 5 ∧
    ∃ rest, descentPath 5 (treeAfter [TreeOp.insert 5, TreeOp.insert 3, TreeOp.insert 8]) =
      [] ++ true :: rest :=
  ⟨by decide, by decide, by decide,
    (bstInsert_leaf_position (treeAfter [TreeOp.insert 5, TreeOp.insert 3, TreeOp.insert 8])
      5).2.2.2.2.2.2 (isBST_treeAfter _) [] (by decide)⟩

/-! ## Snapshots rendered with the default `highlightValue` -/

theorem highlighted_treeToJson (h : Int) (f : Bool) : ∀ t : TreeNode,
    (treeToJson t h f).highlighted = (inorder t).filter (fun y => decide (y = h)) := by
  intro t
  induction t with
  | nil => rfl
  | node x l r ihl ihr =>
    simp only [treeToJson, TreeJson.highlighted, inorder, ihl, ihr, List.filter_append,
      List.filter_cons]
    by_cases hx : x = h
    · simp [hx]
    · simp [hx]

theorem defaultRendered_snoc (R : TreeSnapshot → Prop) (steps : List TreeSnapshot)
    (s : TreeSnapshot) (h : DefaultRendered R steps) (hs : s.status.rendersDefault = true → R s) :
    DefaultRendered R (steps ++ [s]) := by
  intro t ht
  rw [List.mem_append, List.mem_singleton] at ht
  rcases ht with ht | ht
  · exact h t ht
  · rw [ht]
    exact hs

theorem defaultRendered_walk (R : TreeSnapshot → Prop) (root : TreeNode) (v : Int) :
    ∀ (cur : TreeNode) (parent : Int) (steps : List TreeSnapshot), DefaultRendered R steps →
      DefaultRendered R (bstInsertWalk root v cur parent steps).2 := by
  intro cur
  induction cur with
  | nil => intro parent steps h; exact h
  | node x l r ihl ihr =>
    intro parent steps h
    simp only [bstInsertWalk]
    split_ifs
    · exact ihl _ _ (defaultRendered_snoc R _ _ (defaultRendered_snoc R _ _ h
        (fun hs => by cases hs)) (fun hs => by cases hs))
    · exact ihr _ _ (defaultRendered_snoc R _ _ (defaultRendered_snoc R _ _ h
        (fun hs => by cases hs)) (fun hs => by cases hs))

theorem defaultRendered_search (R : TreeSnapshot → Prop) (root : TreeNode) (v : Int)
    (hR : R ⟨treeToJson root (-1) false, TreeStatus.notFound v⟩) :
    ∀ (cur : TreeNode) (steps : List TreeSnapshot), DefaultRendered R steps →
      DefaultRendered R (bstSearchLoop root v cur steps) := by
  intro cur
  induction cur with
  | nil =>
    intro steps h
    exact defaultRendered_snoc R _ _ h (fun _ => hR)
  | node x l r ihl ihr =>
    intro steps h
    have h1 := defaultRendered_snoc R steps
      ⟨treeToJson root x false, TreeStatus.comparing v x⟩ h (fun hs => by cases hs)
    simp only [bstSearchLoop]
    split_ifs
    · exact defaultRendered_snoc R _ _ h1 (fun hs => by cases hs)
    · cases l with
      | nil => exact ihl _ h1
      | node y ll lr => exact ihl _ (defaultRendered_snoc R _ _ h1 (fun hs => by cases hs))
    · cases r with
      | nil => exact ihr _ h1
      | node y rl rr => exact ihr _ (defaultRendered_snoc R _ _ h1 (fun hs => by cases hs))

theorem defaultRendered_delete (R : TreeSnapshot → Prop) : ∀ (t : TreeNode)
    (ctx : TreeNode → TreeNode) (v : Int) (steps : List TreeSnapshot),
    DefaultRendered R steps → DefaultRendered R (deleteNodeHelper ctx t v steps).2 := by
  intro t
  induction t with
  | nil => intro ctx v steps h; exact h
  | node x l r ihl ihr =>
    intro ctx v steps h
    have h1 := defaultRendered_snoc R steps
      ⟨treeToJson (ctx (TreeNode.node x l r)) x false, TreeStatus.examining x⟩ h
      (fun hs => by cases hs)
    rw [deleteNodeHelper]
    simp only []
    split_ifs
    · exact ihl _ _ _ (defaultRendered_snoc R _ _ h1 (fun hs => by cases hs))
    · exact ihr _ _ _ (defaultRendered_snoc R _ _ h1 (fun hs => by cases hs))
    · have h2 := defaultRendered_snoc R _
        ⟨treeToJson (ctx (TreeNode.node x l r)) x true, TreeStatus.foundToDelete x⟩ h1
        (fun hs => by cases hs)
      cases l with
      | nil => exact defaultRendered_snoc R _ _ h2 (fun hs => by cases hs)
      | node lx ll lr =>
        cases r with
        | nil => exact defaultRendered_snoc R _ _ h2 (fun hs => by cases hs)
        | node rx rl rr =>
          simp only []
          obtain ⟨s, sl, sr, hs, _, _⟩ :=
            findMinValueNode_spec (TreeNode.node rx rl rr) (by simp)
          rw [hs]
          simp only []
          apply ihr
          intro t ht
          simp only [List.mem_append, List.mem_singleton, List.mem_cons, List.mem_nil_iff,
            or_false] at ht
          rcases ht with (((((ht | ht) | ht) | ht) | ht) | ht | ht)
          · exact h t ht
          all_goals
            rw [ht]
            intro hs
            cases hs

/-- C37: the snapshots rendered by `treeToJson(bstRoot)`, with no node named, are meant
to highlight nothing, but the default `highlightValue` is `-1`, itself a value a node
can hold: in the tree after `bstInsert(-1)`, the initial snapshot of `bstSearch(7)` and
its final "7 not found in the tree" snapshot both show the node `-1` marked
`highlight`, where the claim says no node is marked. -/
theorem default_highlight_counterexample :
    treeAfter [TreeOp.insert (-1)] = TreeNode.node (-1) TreeNode.nil TreeNode.nil ∧
    (bstSearch (treeAfter [TreeOp.insert (-1)]) 7).head? =
      some ⟨TreeJson.node (-1) true false TreeJson.null TreeJson.null,
        TreeStatus.searchStart 7⟩ ∧
    (bstSearch (treeAfter [TreeOp.insert (-1)]) 7).getLast? =
      some ⟨TreeJson.node (-1) true false TreeJson.null TreeJson.null,
        TreeStatus.notFound 7⟩ := by
  decide

/-- Where the default `highlightValue` shows: for every tree and every value `v`, each
snapshot that `bstInsert`, `bstSearch` or `bstDelete` renders without naming a node
(the initial snapshots and the final "Insertion complete", "not found" and "Deletion
complete" ones) shows a tree whose values are among `v` and the values of the tree
before, and the nodes it marks `highlight` are those that hold `-1`; when the tree
holds no `-1` and `v` is not `-1`, no node is marked in these snapshots. -/
theorem default_snapshots_highlight (t : TreeNode) (v : Int) :
    ∀ s ∈ (bstInsert t v).2 ++ bstSearch t v ++ (bstDelete t v).2,
      s.status.rendersDefault = true →
      (∃ u, s.tree = treeToJson u (-1) false ∧ (∀ y ∈ inorder u, y = v ∨ y ∈ inorder t) ∧
        s.tree.highlighted = (inorder u).filter (fun y => decide (y = -1))) ∧
      (-1 ∉ inorder t → v ≠ -1 → s.tree.highlighted = []) := by
  have key : ∀ u : TreeNode, (∀ y ∈ inorder u, y = v ∨ y ∈ inorder t) →
      ∀ st : TreeStatus, DefaultShown t v ⟨treeToJson u (-1) false, st⟩ := by
    intro u hu st
    refine ⟨⟨u, rfl, hu, highlighted_treeToJson (-1) false u⟩, ?_⟩
    intro hn hv
    show (treeToJson u (-1) false).highlighted = []
    rw [highlighted_treeToJson, List.filter_eq_nil_iff]
    intro y hy
    rcases hu y hy with h | h
    · simpa [h] using hv
    · have hne : y ≠ -1 := fun he => hn (he ▸ h)
      simpa using hne
  have hself : ∀ y ∈ inorder t, y = v ∨ y ∈ inorder t := fun y hy => Or.inr hy
  have hins : DefaultRendered (DefaultShown t v) (bstInsert t v).2 := by
    have h0 := defaultRendered_snoc (DefaultShown t v) [] ⟨treeToJson t (-1) false, TreeStatus.insertStart v⟩
      (fun _ h => by simp at h) (fun _ => key t hself (TreeStatus.insertStart v))
    cases t with
    | nil => exact defaultRendered_snoc _ _ _ h0 (fun hs => by cases hs)
    | node x l r =>
      refine defaultRendered_snoc _ _ _ (defaultRendered_snoc _ _ _
        (defaultRendered_walk _ _ v _ x _ h0) ?_) (fun _ => key _ ?_ _)
      · intro hs
        simp only [] at hs
        split_ifs at hs <;> cases hs
      · intro y hy
        exact (mem_inorder_insertLeaf v y _).mp hy
  have hsearch : DefaultRendered (DefaultShown t v) (bstSearch t v) := by
    have h0 := defaultRendered_snoc (DefaultShown t v) [] ⟨treeToJson t (-1) false, TreeStatus.searchStart v⟩
      (fun _ h => by simp at h) (fun _ => key t hself (TreeStatus.searchStart v))
    cases t with
    | nil => exact defaultRendered_snoc _ _ _ h0 (fun hs => by cases hs)
    | node x l r =>
      exact defaultRendered_search _ _ v (key _ hself _) _ _ h0
  have hdel : DefaultRendered (DefaultShown t v) (bstDelete t v).2 := by
    have h0 := defaultRendered_snoc (DefaultShown t v) [] ⟨treeToJson t (-1) false, TreeStatus.deleteStart v⟩
      (fun _ h => by simp at h) (fun _ => key t hself (TreeStatus.deleteStart v))
    cases t with
    | nil => exact defaultRendered_snoc _ _ _ h0 (fun hs => by cases hs)
    | node x l r =>
      refine defaultRendered_snoc _ _ _ (defaultRendered_delete _ _ _ v _ h0)
        (fun _ => key _ ?_ _)
      intro y hy
      exact Or.inr (mem_inorder_delete _ _ _ _ y hy)
  intro s hs hst
  rw [List.mem_append, List.mem_append] at hs
  rcases hs with (hs | hs) | hs
  · exact hins s hs hst
  · exact hsearch s hs hst
  · exact hdel s hs hst

/-- At the tree after insert 5, 3 and the value 4, neither of which holds `-1`, the
initial and final snapshots of the insertion mark no node. -/
theorem default_snapshots_highlight_witness :
    ((bstInsert (treeAfter [TreeOp.insert 5, TreeOp.insert 3]) 4).2.map
      (fun s => (s.status, s.tree.highlighted))).filter
        (fun p => p.1.rendersDefault) =
      [(TreeStatus.insertStart 4, []), (TreeStatus.insertionComplete, [])] ∧
    ∀ s ∈ (bstInsert (treeAfter [TreeOp.insert 5, TreeOp.insert 3]) 4).2 ++
        bstSearch (treeAfter [TreeOp.insert 5, TreeOp.insert 3]) 4 ++
        (bstDelete (treeAfter [TreeOp.insert 5, TreeOp.insert 3]) 4).2,
      s.status.rendersDefault = true → s.tree.highlighted = [] :=
  ⟨by decide, fun s hs hst =>
    (default_snapshots_highlight (treeAfter [TreeOp.insert 5, TreeOp.insert 3]) 4 s hs hst).2
      (by decide) (by decide)⟩

/-! ## Breadth-first search: nodes are processed in order of hop distance -/

theorem bfsLevels_init (g : Graph) (start : Int) :
    BfsLevels g start (bfsInit start) [] [(start, 0)] where
  hdone := rfl
  hpend := rfl
  mono := by simp
  span := by
    intro a ha b hb
    simp only [List.mem_singleton] at ha hb
    rw [ha, hb]
    omega
  walk := by
    intro a ha
    simp only [List.nil_append, List.mem_singleton] at ha
    rw [ha]
    exact ⟨[], trivial, rfl, rfl⟩
  closed := by
    intro a ha
    simp at ha
  hstart := by simp

theorem bfsStep_levels (g : Graph) (start : Int) (hv : ValidGraph g) (hs0 : 0 ≤ start)
    (hs1 : start < (g.length : Int)) (s s' : BfsState) (current : Int) (rest : List Int)
    (hq : s.q = current :: rest) (hinv : BfsInv g start s)
    (done pend : List (Int × Nat)) (hlev : BfsLevels g start s done pend)
    (hstep : bfsStep g s current rest = Except.ok s') :
    ∃ done' pend', BfsLevels g start s' done' pend' := by
  have hcm : current ∈ s.visited := by
    rw [hinv.order, hq]
    simp
  have hcv := reachable_valid g hv start current hs0 hs1 (hinv.reach current hcm)
  obtain ⟨new, h1, h2, h3, h4, h5, _⟩ := bfsFold_spec current (g.getD current.toNat [])
    { s with q := rest, steps := s.steps ++
      [graphStateToJson s.visited current (GraphStatus.processing current)] }
  simp only [] at h1 h2 h3 h4 h5
  have hpo : processingOrder (s.steps ++
      [graphStateToJson s.visited current (GraphStatus.processing current)]) =
      processingOrder s.steps ++ [current] := by
    rw [processingOrder_append]
    rfl
  rw [hpo] at h3
  have hadj := adj_eq_getD g current hcv
  have hs' : s' = (g.getD current.toNat []).foldl (bfsNeighbor current)
      { s with q := rest, steps := s.steps ++
        [graphStateToJson s.visited current (GraphStatus.processing current)] } := by
    unfold bfsStep at hstep
    rw [if_pos hcv] at hstep
    injection hstep with h
    exact h.symm
  rw [← hs'] at h1 h2 h3 h5
  obtain ⟨hdone, hpend, hmono, hspan, hwalk, hclosed, hstart⟩ := hlev
  rw [hq] at hpend
  cases pend with
  | nil => simp at hpend
  | cons c prest =>
    simp only [List.map_cons, List.cons.injEq] at hpend
    obtain ⟨hc, hprest⟩ := hpend
    rw [List.pairwise_append] at hmono
    obtain ⟨hmd, hmp, hmdp⟩ := hmono
    rw [List.pairwise_cons] at hmp
    have hle : ∀ a ∈ done ++ c :: prest, a.2 ≤ c.2 + 1 := by
      intro a ha
      rcases List.mem_append.mp ha with h | h
      · have := hmdp a h c (List.mem_cons_self _ _)
        omega
      · exact hspan c (List.mem_cons_self _ _) a h
    have hge : ∀ a ∈ prest ++ new.map (fun x => (x, c.2 + 1)), c.2 ≤ a.2 ∧ a.2 ≤ c.2 + 1 := by
      intro a ha
      rcases List.mem_append.mp ha with h | h
      · exact ⟨hmp.1 a h, hspan c (List.mem_cons_self _ _) a (List.mem_cons_of_mem _ h)⟩
      · obtain ⟨x, _, hx⟩ := List.mem_map.mp h
        rw [← hx]
        exact ⟨by simp, le_refl _⟩
    have hold : ∀ a, a ∈ done ++ c :: prest →
        a ∈ (done ++ [c]) ++ (prest ++ new.map (fun x => (x, c.2 + 1))) := by
      intro a ha
      simp only [List.mem_append, List.mem_cons, List.mem_singleton, List.mem_nil_iff,
        or_false] at ha ⊢
      tauto
    obtain ⟨pc, hpc, hpce, hpcl⟩ := hwalk c (by simp)
    refine ⟨done ++ [c], prest ++ new.map (fun x => (x, c.2 + 1)), ?_, ?_, ?_, ?_, ?_, ?_, ?_⟩
    · rw [h3, List.map_append, hdone, List.map_singleton, hc]
    · rw [h2, List.map_append, hprest, List.map_map]
      congr 1
      exact List.map_id _
    · have hre : (done ++ [c]) ++ (prest ++ new.map (fun x => (x, c.2 + 1))) =
          (done ++ c :: prest) ++ new.map (fun x => (x, c.2 + 1)) := by simp
      rw [hre, List.pairwise_append]
      refine ⟨List.pairwise_append.mpr ⟨hmd, List.pairwise_cons.mpr hmp, hmdp⟩, ?_, ?_⟩
      · rw [List.pairwise_map]
        exact List.pairwise_of_forall (fun _ _ => le_refl _)
      · intro a ha b hb
        obtain ⟨x, _, hx⟩ := List.mem_map.mp hb
        rw [← hx]
        exact hle a ha
    · intro a ha b hb
      have := (hge a ha).1
      have := (hge b hb).2
      omega
    · intro a ha
      have ha' : a ∈ done ++ c :: prest ∨ a ∈ new.map (fun x => (x, c.2 + 1)) := by
        simp only [List.mem_append, List.mem_cons, List.mem_singleton, List.mem_nil_iff,
          or_false] at ha ⊢
        tauto
      rcases ha' with h | h
      · exact hwalk a h
      · obtain ⟨x, hx, hax⟩ := List.mem_map.mp h
        obtain ⟨e, he, hex⟩ := h4 x hx
        refine ⟨pc ++ [e], (isWalk_snoc g pc start e).mpr ⟨hpc, ?_⟩, ?_, ?_⟩
        · rw [hpce, hc, hadj]
          exact he
        · rw [walkEnd_snoc, ← hax, hex]
        · rw [← hax]
          simp [hpcl]
    · intro a ha e he
      rcases List.mem_append.mp ha with h | h
      · obtain ⟨b, hb, hb1, hb2⟩ := hclosed a h e he
        exact ⟨b, hold b hb, hb1, hb2⟩
      · have hac : a = c := by simpa using h
        rw [hac] at he ⊢
        rw [hc, hadj] at he
        have hmem := h5 e he
        rw [h1] at hmem
        rcases List.mem_append.mp hmem with hm | hm
        · have hvis : s.visited = (done ++ c :: prest).map Prod.fst := by
            rw [hinv.order, hq, List.map_append, hdone, List.map_cons, hc, hprest]
          rw [hvis] at hm
          obtain ⟨b, hb, hbe⟩ := List.mem_map.mp hm
          exact ⟨b, hold b hb, hbe, hle b hb⟩
        · exact ⟨(e.1, c.2 + 1), List.mem_append_right _ (List.mem_append_right _
            (List.mem_map.mpr ⟨e.1, hm, rfl⟩)), rfl, le_refl _⟩
    · exact hold _ hstart

theorem bfsLoop_levels (g : Graph) (start : Int) (hv : ValidGraph g) (hs0 : 0 ≤ start)
    (hs1 : start < (g.length : Int)) :
    ∀ (fuel : Nat) (s : BfsState), BfsInv g start s →
      (∃ done pend, BfsLevels g start s done pend) →
      g.length + s.q.length ≤ fuel + s.visited.length →
      ∃ s', bfsLoop g fuel s = Except.ok s' ∧ BfsInv g start s' ∧ s'.q = [] ∧
        ∃ done, BfsLevels g start s' done [] := by
  intro fuel
  induction fuel with
  | zero =>
    intro s hinv hlev hfuel
    have hlen := nodup_length_le g.length s.visited hinv.nodup
      (fun x hx => reachable_valid g hv start x hs0 hs1 (hinv.reach x hx))
    have hq : s.q = [] := List.eq_nil_of_length_eq_zero (by omega)
    obtain ⟨done, pend, hl⟩ := hlev
    have hp : pend = [] := by
      have := hl.hpend
      rw [hq] at this
      exact List.map_eq_nil_iff.mp this
    rw [hp] at hl
    exact ⟨s, by unfold bfsLoop; rw [hq], hinv, hq, done, hl⟩
  | succ fuel ih =>
    intro s hinv hlev hfuel
    obtain ⟨done, pend, hl⟩ := hlev
    cases hq : s.q with
    | nil =>
      have hp : pend = [] := by
        have := hl.hpend
        rw [hq] at this
        exact List.map_eq_nil_iff.mp this
      rw [hp] at hl
      exact ⟨s, by unfold bfsLoop; rw [hq], hinv, hq, done, hl⟩
    | cons current rest =>
      obtain ⟨s1, hstep, hinv1, hm⟩ := bfsStep_inv g start hv hs0 hs1 s current rest hq hinv
      have hl1 := bfsStep_levels g start hv hs0 hs1 s s1 current rest hq hinv done pend hl hstep
      obtain ⟨s2, hloop, hinv2, hq2, hl2⟩ := ih s1 hinv1 hl1 (by omega)
      refine ⟨s2, ?_, hinv2, hq2, hl2⟩
      unfold bfsLoop
      rw [hq]
      simp only []
      rw [hstep]
      exact hloop

theorem bfsLevels_least (g : Graph) (start : Int) (s : BfsState) (done : List (Int × Nat))
    (hl : BfsLevels g start s done []) :
    ∀ p, IsWalk g start p → ∃ b ∈ done, b.1 = walkEnd start p ∧ b.2 ≤ p.length := by
  intro p
  induction p using List.reverseRecOn with
  | nil =>
    intro _
    exact ⟨(start, 0), by simpa using hl.hstart, rfl, le_refl _⟩
  | append_singleton p e ih =>
    intro hwalk
    obtain ⟨hp, he⟩ := (isWalk_snoc g p start e).mp hwalk
    obtain ⟨b, hb, hb1, hb2⟩ := ih hp
    rw [← hb1] at he
    obtain ⟨c, hc, hc1, hc2⟩ := hl.closed b hb e he
    refine ⟨c, by simpa using hc, by rw [walkEnd_snoc, hc1], ?_⟩
    rw [List.length_append, List.length_singleton]
    omega

theorem bfs_levels_run (g : Graph) (start : Int) (hv : ValidGraph g) (hs0 : 0 ≤ start)
    (hs1 : start < (g.length : Int)) :
    ∃ (steps : List GraphSnapshot) (done : List (Int × Nat)),
      breadthFirstSearch g start = Except.ok steps ∧
      done.map Prod.fst = processingOrder steps ∧
      done.Pairwise (fun a b => a.2 ≤ b.2) ∧
      ∀ a ∈ done, IsHopDist g start a.1 a.2 := by
  obtain ⟨s, hloop, hinv, hq, done, hl⟩ := bfsLoop_levels g start hv hs0 hs1 (g.length + 1)
    (bfsInit start) (bfsInit_inv g start) ⟨[], [(start, 0)], bfsLevels_init g start⟩
    (by simp [bfsInit])
  have hvis : s.visited = processingOrder s.steps := by
    rw [hinv.order, hq, List.append_nil]
  have hpo : processingOrder
      (s.steps ++ [graphStateToJson s.visited (-1) GraphStatus.bfsComplete]) =
      processingOrder s.steps := by
    rw [processingOrder_append]
    simp [processingOrder, graphStateToJson]
  have hnd : (done.map Prod.fst).Nodup := by
    rw [hl.hdone, ← hvis]
    exact hinv.nodup
  refine ⟨_, done, by unfold breadthFirstSearch; rw [hloop], by rw [hpo]; exact hl.hdone,
    by simpa using hl.mono, ?_⟩
  intro a ha
  refine ⟨hl.walk a (by simpa using ha), ?_⟩
  intro p hp hend
  obtain ⟨b, hb, hb1, hb2⟩ := bfsLevels_least g start s done hl p hp
  have hab : b = a := List.inj_on_of_nodup_map hnd hb ha (by rw [hb1, hend])
  rw [← hab]
  exact hb2

/-- C39: for every graph whose edge targets are valid node indices and every valid
start node, `breadthFirstSearch` returns, every processed node has a hop distance from
`start` (the least number of edges of a walk from `start` to it), and the nodes are
processed in non-decreasing order of hop distance: if `a` is processed before `b`
(positions `i < j` of the processing order), then `hops(start, a) <= hops(start, b)`. -/
theorem bfs_hop_order (g : Graph) (start : Int) (hv : ValidGraph g)
    (hs0 : 0 ≤ start) (hs1 : start < (g.length : Int)) :
    ∃ steps, breadthFirstSearch g start = Except.ok steps ∧
      (∀ v ∈ processingOrder steps, ∃ d, IsHopDist g start v d) ∧
      ∀ (i j : Nat), i < j → j < (processingOrder steps).length →
        ∀ da db : Nat, IsHopDist g start ((processingOrder steps).getD i 0) da →
          IsHopDist g start ((processingOrder steps).getD j 0) db → da ≤ db := by
  obtain ⟨steps, done, hrun, hmap, hmono, hhop⟩ := bfs_levels_run g start hv hs0 hs1
  refine ⟨steps, hrun, ?_, ?_⟩
  · intro v hvm
    rw [← hmap] at hvm
    obtain ⟨a, ha, hav⟩ := List.mem_map.mp hvm
    exact ⟨a.2, by rw [← hav]; exact hhop a ha⟩
  · intro i j hij hj da db hda hdb
    have hlen : (processingOrder steps).length = done.length := by
      rw [← hmap, List.length_map]
    have hj' : j < done.length := by omega
    have hi' : i < done.length := by omega
    have hgi : (processingOrder steps).getD i 0 = (done[i]).1 := by
      rw [List.getD_eq_getElem _ _ (by omega)]
      simp only [← hmap, List.getElem_map]
    have hgj : (processingOrder steps).getD j 0 = (done[j]).1 := by
      rw [List.getD_eq_getElem _ _ hj]
      simp only [← hmap, List.getElem_map]
    rw [hgi] at hda
    rw [hgj] at hdb
    have hai := hhop done[i] (List.getElem_mem hi')
    have haj := hhop done[j] (List.getElem_mem hj')
    have h1 : da ≤ (done[i]).2 := by
      obtain ⟨p, hp, hpe, hpl⟩ := hai.1
      have := hda.2 p hp hpe
      omega
    have h2 : (done[j]).2 ≤ db := by
      obtain ⟨p, hp, hpe, hpl⟩ := hdb.1
      have := haj.2 p hp hpe
      omega
    have h3 := List.pairwise_iff_getElem.mp hmono i j hi' hj' hij
    omega

/-- C39, at the graph `0 -> 3, 0 -> 1, 1 -> 2, 3 -> 2, 2 -> 4, 4 -> 0` from node 0:
the processing order is `0, 3, 1, 2, 4`, with hop distances `0, 1, 1, 2, 3`. -/
theorem bfs_hop_order_witness :
    (breadthFirstSearch [[(3, 1), (1, 1)], [(2, 1)], [(4, 1)], [(2, 1)], [(0, 1)]] 0).map
      processingOrder = Except.ok [0, 3, 1, 2, 4] ∧
    ∃ steps, breadthFirstSearch [[(3, 1), (1, 1)], [(2, 1)], [(4, 1)], [(2, 1)], [(0, 1)]] 0 =
        Except.ok steps ∧
      (∀ v ∈ processingOrder steps, ∃ d,
        IsHopDist [[(3, 1), (1, 1)], [(2, 1)], [(4, 1)], [(2, 1)], [(0, 1)]] 0 v d) ∧
      ∀ (i j : Nat), i < j → j < (processingOrder steps).length →
        ∀ da db : Nat,
          IsHopDist [[(3, 1), (1, 1)], [(2, 1)], [(4, 1)], [(2, 1)], [(0, 1)]] 0
            ((processingOrder steps).getD i 0) da →
          IsHopDist [[(3, 1), (1, 1)], [(2, 1)], [(4, 1)], [(2, 1)], [(0, 1)]] 0
            ((processingOrder steps).getD j 0) db → da ≤ db :=
  ⟨by decide!, bfs_hop_order [[(3, 1), (1, 1)], [(2, 1)], [(4, 1)], [(2, 1)], [(0, 1)]] 0
    (by unfold ValidGraph; decide) (by decide) (by decide)⟩

/-! ## Dijkstra when every simple path from `start` weighs less than `INT_MAX` -/

theorem frontier_bound_below (g : Graph) (hv : ValidGraph g) (start : Int)
    (hn : NonnegWeights g) (_hpb : PathsBelowMax g start)
    (S dist : List Int) (pq : List (Int × Int))
    (hinv : DijkInv g start S dist pq)
    (hrel : ∀ u ∈ S, Relaxed dist u (adj g u))
    (d : Int) (hmin : ∀ e ∈ pq, d ≤ e.1) :
    ∀ (p : List (Int × Int)) (x : Int), x ∈ S → IsWalk g x p → walkEnd x p ∉ S →
      d ≤ distAt dist x + walkWeight p := by
  intro p
  induction p with
  | nil =>
    intro x hx _ hend
    exact absurd hx hend
  | cons e p ih =>
    intro x hx hwalk hend
    obtain ⟨he, hp⟩ := hwalk
    obtain ⟨hle, hfin⟩ := hrel x hx e he
    rw [walkWeight_cons]
    by_cases heS : e.1 ∈ S
    · have := ih e.1 heS hp hend
      omega
    · have hval := mem_adj_valid g hv x e he
      have hmem := hinv.pqHas e.1 hval.1 hval.2 heS hfin
      have h1 := hmin _ hmem
      have h2 := walk_weight_nonneg g hn p e.1 hp
      simp only [] at h1
      omega

theorem pop_final_below (g : Graph) (hv : ValidGraph g) (start : Int)
    (hn : NonnegWeights g) (hpb : PathsBelowMax g start)
    (hs0 : 0 ≤ start) (hs1 : start < (g.length : Int))
    (S dist : List Int) (pq : List (Int × Int))
    (hinv : DijkInv g start S dist pq)
    (hrel : ∀ u ∈ S, Relaxed dist u (adj g u))
    (d cur : Int) (hmin : ∀ e ∈ pq, d ≤ e.1) (hcur : cur ∉ S) :
    ∀ p, IsWalk g start p → walkEnd start p = cur → d ≤ walkWeight p := by
  intro p hwalk hend
  by_cases hsS : start ∈ S
  · have := frontier_bound_below g hv start hn hpb S dist pq hinv hrel d hmin p start hsS hwalk
      (by rw [hend]; exact hcur)
    rw [hinv.start0] at this
    omega
  · have hmem := hinv.pqHas start hs0 hs1 hsS (by rw [hinv.start0]; decide)
    have h1 := hmin _ hmem
    have h2 := walk_weight_nonneg g hn p start hwalk
    rw [hinv.start0] at h1
    simp only [] at h1
    omega

theorem relaxEdge_inv_below (g : Graph) (hv : ValidGraph g) (start : Int)
    (hn : NonnegWeights g) (hpb : PathsBelowMax g start)
    (hs0 : 0 ≤ start) (hs1 : start < (g.length : Int))
    (cur d : Int) (S : List Int) (L : Nat) (hcurS : cur ∈ S)
    (done : List (Int × Int)) (s : DijkstraState) (e : Int × Int)
    (he : e ∈ adj g cur) (h : RelaxInv g start cur d S L done s) :
    ∃ s', relaxEdge cur d s e = Except.ok s' ∧ RelaxInv g start cur d S L (done ++ [e]) s' := by
  obtain ⟨hvis, hcore, hoth, hhere, hdcur, hqlen⟩ := h
  have hcurv := hcore.valid cur hcurS
  obtain ⟨hcfin, hcmin⟩ := hcore.final cur hcurS
  obtain ⟨pc, ⟨hpcw, hpce, hpcn⟩, hpcwt, hpcS⟩ := hcore.realized cur hcurv.1 hcurv.2 hcfin
  have hpcS' : ∀ x ∈ walkNodes start pc, x ∈ S := by
    intro x hx
    rcases hpcS x hx with rfl | h'
    · exact hcurS
    · exact h'
  have hext : IsWalk g start (pc ++ [e]) := (isWalk_snoc g pc start e).mpr ⟨hpcw, by rw [hpce]; exact he⟩
  have hextw : walkWeight (pc ++ [e]) = d + e.2 := by rw [walkWeight_snoc, hpcwt, hdcur]
  have hnbv := mem_adj_valid g hv cur e he
  by_cases hnb : e.1 ∈ S
  · refine ⟨s, by unfold relaxEdge; rw [hvis]; simp only [hnb, if_true], hvis, hcore, hoth, ?_,
      hdcur, by rw [List.length_append]; simp; omega⟩
    intro e' he'
    rcases List.mem_append.mp he' with h' | h'
    · exact hhere e' h'
    · simp only [List.mem_singleton] at h'
      subst h'
      obtain ⟨hfin, hmin⟩ := hcore.final e'.1 hnb
      have := hmin (pc ++ [e']) hext (walkEnd_snoc pc start e')
      rw [hextw, ← hdcur] at this
      exact ⟨this, hfin⟩
  · have hextn : (walkNodes start (pc ++ [e])).Nodup := by
      rw [walkNodes_snoc]
      apply List.Nodup.append hpcn (List.nodup_singleton _)
      intro x hx1 hx2
      simp only [List.mem_singleton] at hx2
      subst hx2
      exact hnb (hpcS' _ hx1)
    have hlt := hpb (pc ++ [e]) hext hextn
    have hge := walk_weight_nonneg g hn (pc ++ [e]) start hext
    rw [hextw] at hlt hge
    have hwrap : wrapInt (d + e.2) = d + e.2 := by
      unfold INT_MAX at hlt
      exact wrapInt_eq _ (by omega) (by omega)
    have hidx : e.1.toNat < s.distances.length := by rw [hcore.len]; omega
    have hbnd : 0 ≤ e.1 ∧ e.1 < (s.distances.length : Int) := by rw [hcore.len]; exact hnbv
    have hne_of_S : ∀ u ∈ S, ¬ u.toNat = e.1.toNat := by
      intro u hu hcon
      have := hcore.valid u hu
      have : u = e.1 := by omega
      exact hnb (this ▸ hu)
    by_cases hless : d + e.2 < distAt s.distances e.1
    · refine ⟨_, by
        unfold relaxEdge
        rw [hvis]
        simp only [hnb, if_false, hbnd, and_self, if_true, hwrap]
        rw [if_pos (by unfold distAt at hless; exact hless)], ?_⟩
      have hD : ∀ v : Int, distAt (s.distances.set e.1.toNat (d + e.2)) v =
          if v.toNat = e.1.toNat then d + e.2 else distAt s.distances v :=
        fun v => distAt_set s.distances e.1 v (d + e.2) hidx
      have hsame : ∀ v : Int, v.toNat = e.1.toNat → distAt s.distances v = distAt s.distances e.1 := by
        intro v hveq; unfold distAt; rw [hveq]
      refine ⟨rfl, ?_, ?_, ?_, ?_, ?_⟩
      · refine ⟨by simp only [List.length_set]; exact hcore.len, ?_, hcore.valid, hcore.nodup,
          ?_, ?_, ?_, ?_⟩
        · simp only [hD]
          split_ifs with hc
          · have := hsame start hc
            rw [hcore.start0] at this
            omega
          · exact hcore.start0
        · intro v hv0 hv1 hvfin
          simp only [hD] at hvfin ⊢
          by_cases hc : v.toNat = e.1.toNat
          · have hve : v = e.1 := by omega
            rw [if_pos hc]
            refine ⟨pc ++ [e], ⟨hext, by rw [walkEnd_snoc, hve], hextn⟩, hextw, ?_⟩
            intro x hx
            rw [walkNodes_snoc] at hx
            rcases List.mem_append.mp hx with h' | h'
            · exact Or.inr (hpcS' x h')
            · simp only [List.mem_singleton] at h'
              exact Or.inl (by rw [h', hve])
          · rw [if_neg hc] at hvfin ⊢
            exact hcore.realized v hv0 hv1 hvfin
        · intro v hvS
          simp only [hD]
          rw [if_neg (hne_of_S v hvS)]
          exact hcore.final v hvS
        · intro e' he'
          simp only [hD]
          rcases List.mem_append.mp he' with h' | h'
          · obtain ⟨q1, q2, q3, q4⟩ := hcore.pqValid e' h'
            refine ⟨q1, q2, ?_, q4⟩
            split_ifs with hc
            · have := hsame e'.2 hc
              omega
            · exact q3
          · simp only [List.mem_singleton] at h'
            subst h'
            simp only [if_true]
            exact ⟨hnbv.1, hnbv.2, le_refl _, hlt⟩
        · intro v hv0 hv1 hvS hvfin
          simp only [hD] at hvfin ⊢
          by_cases hc : v.toNat = e.1.toNat
          · have hve : v = e.1 := by omega
            rw [if_pos hc, hve]
            exact List.mem_append_right _ (List.mem_singleton_self _)
          · rw [if_neg hc] at hvfin ⊢
            exact List.mem_append_left _ (hcore.pqHas v hv0 hv1 hvS hvfin)
      · intro u hu huc e' he'
        obtain ⟨r1, r2⟩ := hoth u hu huc e' he'
        simp only [hD]
        rw [if_neg (hne_of_S u hu)]
        split_ifs with hc
        · have := hsame e'.1 hc
          exact ⟨by omega, by omega⟩
        · exact ⟨r1, r2⟩
      · intro e' he'
        simp only [hD]
        rw [if_neg (hne_of_S cur hcurS)]
        rcases List.mem_append.mp he' with h' | h'
        · obtain ⟨r1, r2⟩ := hhere e' h'
          split_ifs with hc
          · have := hsame e'.1 hc
            exact ⟨by omega, by omega⟩
          · exact ⟨r1, r2⟩
        · simp only [List.mem_singleton] at h'
          subst h'
          simp only [if_true]
          exact ⟨by omega, by omega⟩
      · simp only [hD]
        rw [if_neg (hne_of_S cur hcurS)]
        exact hdcur
      · simp only [List.length_append, List.length_singleton]
        omega
    · refine ⟨_, by
        unfold relaxEdge
        rw [hvis]
        simp only [hnb, if_false, hbnd, and_self, if_true, hwrap]
        rw [if_neg (by unfold distAt at hless; exact hless)], ?_⟩
      refine ⟨rfl, hcore, hoth, ?_, hdcur,
        by simp only [List.length_append, List.length_singleton]; omega⟩
      intro e' he'
      rcases List.mem_append.mp he' with h' | h'
      · exact hhere e' h'
      · simp only [List.mem_singleton] at h'
        subst h'
        show distAt s.distances e'.1 ≤ distAt s.distances cur + e'.2 ∧
          distAt s.distances e'.1 ≠ INT_MAX
        exact ⟨by omega, by omega⟩

theorem relaxFold_inv_below (g : Graph) (hv : ValidGraph g) (start : Int)
    (hn : NonnegWeights g) (hpb : PathsBelowMax g start)
    (hs0 : 0 ≤ start) (hs1 : start < (g.length : Int))
    (cur d : Int) (S : List Int) (L : Nat) (hcurS : cur ∈ S) :
    ∀ (todo done : List (Int × Int)) (s : DijkstraState),
      (∀ e ∈ todo, e ∈ adj g cur) → RelaxInv g start cur d S L done s →
      ∃ s', todo.foldlM (relaxEdge cur d) s = Except.ok s' ∧
        RelaxInv g start cur d S L (done ++ todo) s' := by
  intro todo
  induction todo with
  | nil =>
    intro done s _ h
    exact ⟨s, rfl, by rw [List.append_nil]; exact h⟩
  | cons e todo ih =>
    intro done s hmem h
    obtain ⟨s1, hrun1, h1⟩ := relaxEdge_inv_below g hv start hn hpb hs0 hs1 cur d S L hcurS done s e
      (hmem e (List.mem_cons_self _ _)) h
    obtain ⟨s2, hrun2, h2⟩ := ih (done ++ [e]) s1
      (fun e' he' => hmem e' (List.mem_cons_of_mem _ he')) h1
    refine ⟨s2, ?_, by rw [List.append_assoc] at h2; exact h2⟩
    rw [List.foldlM_cons, hrun1]
    exact hrun2

theorem dijkstraStep_inv_below (g : Graph) (hv : ValidGraph g) (start : Int)
    (hn : NonnegWeights g) (hpb : PathsBelowMax g start)
    (hs0 : 0 ≤ start) (hs1 : start < (g.length : Int))
    (s : DijkstraState) (top : Int × Int)
    (hP : DijkOuter g start s) (htop : pqTop s.pq = some top) :
    ∃ s', dijkstraStep g s top = Except.ok s' ∧ DijkOuter g start s' ∧
      dijkstraMeasure g s' < dijkstraMeasure g s := by
  obtain ⟨hinv, hrel⟩ := hP
  obtain ⟨htmem, htmin⟩ := pqTop_some s.pq top htop
  obtain ⟨hc0, hc1, hdle, hdlt⟩ := hinv.pqValid top htmem
  have hlen1 : (s.pq.erase top).length + 1 = s.pq.length := by
    rw [List.length_erase_of_mem htmem]
    have : 0 < s.pq.length := List.length_pos_of_mem htmem
    omega
  by_cases hvis : top.2 ∈ s.visited
  · refine ⟨{ s with pq := s.pq.erase top }, by unfold dijkstraStep; simp only [hvis, if_true],
      ⟨⟨hinv.len, hinv.start0, hinv.valid, hinv.nodup, hinv.realized, hinv.final, ?_, ?_⟩,
        hrel⟩, ?_⟩
    · intro e he
      exact hinv.pqValid e (List.mem_of_mem_erase he)
    · intro v hv0 hv1 hvS hvfin
      have hmem := hinv.pqHas v hv0 hv1 hvS hvfin
      refine (List.mem_erase_of_ne ?_).mpr hmem
      intro hcon
      rw [← hcon] at hvis
      exact hvS hvis
    · unfold dijkstraMeasure
      simp only []
      omega
  · have hfin : distAt s.distances top.2 ≠ INT_MAX := by omega
    have hmem := hinv.pqHas top.2 hc0 hc1 hvis hfin
    have hd : distAt s.distances top.2 = top.1 := by
      have := htmin _ hmem
      simp only [] at this
      omega
    have hmin := pop_final_below g hv start hn hpb hs0 hs1 s.visited s.distances s.pq hinv hrel
      top.1 top.2 htmin hvis
    have hstart : RelaxInv g start top.2 top.1 (s.visited ++ [top.2]) (s.pq.erase top).length []
        { s with
          visited := s.visited ++ [top.2]
          pq := s.pq.erase top
          steps := s.steps ++ [graphStateToJson (s.visited ++ [top.2]) top.2
            (GraphStatus.processingDist top.2 top.1)] } := by
      refine ⟨rfl, ⟨hinv.len, hinv.start0, ?_, ?_, ?_, ?_, ?_, ?_⟩, ?_, ?_, hd, by simp⟩
      · intro v hvm
        rcases List.mem_append.mp hvm with h | h
        · exact hinv.valid v h
        · simp only [List.mem_singleton] at h
          rw [h]; exact ⟨hc0, hc1⟩
      · apply List.Nodup.append hinv.nodup (List.nodup_singleton _)
        intro x hx1 hx2
        simp only [List.mem_singleton] at hx2
        exact hvis (hx2 ▸ hx1)
      · intro v hv0 hv1 hvfin
        obtain ⟨p, hp1, hp2, hp3⟩ := hinv.realized v hv0 hv1 hvfin
        refine ⟨p, hp1, hp2, ?_⟩
        intro x hx
        rcases hp3 x hx with h | h
        · exact Or.inl h
        · exact Or.inr (List.mem_append_left _ h)
      · intro v hvm
        rcases List.mem_append.mp hvm with h | h
        · exact hinv.final v h
        · simp only [List.mem_singleton] at h
          rw [h]
          exact ⟨hfin, fun p hp1 hp2 => by rw [hd]; exact hmin p hp1 hp2⟩
      · intro e he
        exact hinv.pqValid e (List.mem_of_mem_erase he)
      · intro v hv0 hv1 hvS hvfin
        have hvS' : v ∉ s.visited := fun h => hvS (List.mem_append_left _ h)
        have hne : v ≠ top.2 := fun h => hvS (List.mem_append_right _ (by simp [h]))
        have hmem' := hinv.pqHas v hv0 hv1 hvS' hvfin
        refine (List.mem_erase_of_ne ?_).mpr hmem'
        intro hcon
        exact hne (by rw [← hcon])
      · intro u hu huc
        rcases List.mem_append.mp hu with h | h
        · exact hrel u h
        · simp only [List.mem_singleton] at h
          exact absurd h huc
      · intro e he
        simp at he
    have hadj : adj g top.2 = g.getD top.2.toNat [] := adj_eq_getD g top.2 ⟨hc0, hc1⟩
    obtain ⟨s', hrun, hfinal⟩ := relaxFold_inv_below g hv start hn hpb hs0 hs1 top.2 top.1
      (s.visited ++ [top.2]) (s.pq.erase top).length
      (List.mem_append_right _ (List.mem_singleton_self _))
      (g.getD top.2.toNat []) [] _ (fun e he => by rw [hadj]; exact he) hstart
    rw [List.nil_append] at hfinal
    obtain ⟨hvis', hcore', hoth', hhere', _, hqlen'⟩ := hfinal
    refine ⟨s', by
      unfold dijkstraStep
      simp only [hvis, if_false]
      rw [if_pos ⟨hc0, hc1⟩]
      exact hrun, ⟨by rw [hvis']; exact hcore', ?_⟩, ?_⟩
    · intro u hu
      rw [hvis'] at hu
      by_cases huc : u = top.2
      · rw [huc, hadj]; exact hhere'
      · exact hoth' u hu huc
    · unfold dijkstraMeasure
      rw [hvis']
      have := pendingDeg_visit g s.visited top.2 hc0 hc1 hvis
      omega

/-- On a graph with valid targets and non-negative weights whose simple paths from
`start` all weigh less than `INT_MAX`, the run of `dijkstraAlgorithm` ends; a final
distance is `INT_MAX` for a node no walk reaches, and otherwise the weight of a simple
path that no walk from `start` beats. -/
theorem dijkstra_shortest_below (g : Graph) (start : Int) (hv : ValidGraph g)
    (hn : NonnegWeights g) (hpb : PathsBelowMax g start) (hs0 : 0 ≤ start)
    (hs1 : start < (g.length : Int)) :
    ∃ s, dijkstraRun g start = Except.ok s ∧ s.distances.length = g.length ∧
      ∀ v : Int, 0 ≤ v → v < (g.length : Int) →
        (distAt s.distances v = INT_MAX ∧ ∀ p, IsWalk g start p → walkEnd start p ≠ v) ∨
        (distAt s.distances v < INT_MAX ∧
          (∃ p, IsSimplePath g start v p ∧ walkWeight p = distAt s.distances v) ∧
          ∀ p, IsWalk g start p → walkEnd start p = v → distAt s.distances v ≤ walkWeight p) := by
  obtain ⟨s, hrun, ⟨hinv, hrel⟩, hpq⟩ := dijkstraLoop_inv g (DijkOuter g start)
    (dijkstraMeasure g)
    (fun s top hP htop => dijkstraStep_inv_below g hv start hn hpb hs0 hs1 s top hP htop)
    (edgeCount g + 1) _
    (dijkstra_init g start hs0 hs1 [graphStateToJson [] start (GraphStatus.dijkstraStart start)])
    (by unfold dijkstraMeasure; simp only [List.length_singleton]; rw [pendingDeg_nil]; omega)
  rw [hpq] at hinv
  refine ⟨s, by unfold dijkstraRun; simp only []; rw [if_pos ⟨hs0, hs1⟩]; exact hrun,
    hinv.len, ?_⟩
  have hinS : ∀ v : Int, 0 ≤ v → v < (g.length : Int) → distAt s.distances v ≠ INT_MAX →
      v ∈ s.visited := by
    intro v hv0 hv1 hfin
    by_contra hcon
    have := hinv.pqHas v hv0 hv1 hcon hfin
    simp at this
  have hstartS : start ∈ s.visited :=
    hinS start hs0 hs1 (by rw [hinv.start0]; decide)
  intro v hv0 hv1
  by_cases hfin : distAt s.distances v = INT_MAX
  · left
    refine ⟨hfin, ?_⟩
    intro p hp hend
    have := reach_visited g start s.visited s.distances hv hinv hrel p start hstartS hp
    rw [hend] at this
    exact (hinv.final v this).1 hfin
  · right
    obtain ⟨p, hsp, hwt, _⟩ := hinv.realized v hv0 hv1 hfin
    have hlt := hpb p hsp.1 hsp.2.2
    refine ⟨by rw [← hwt]; exact hlt, ⟨p, hsp, hwt⟩, ?_⟩
    exact (hinv.final v (hinS v hv0 hv1 hfin)).2

/-! ## Dijkstra: shortest distances and the infinite sentinel -/

theorem walk_from_sink (g : Graph) (u : Int) (h : adj g u = []) :
    ∀ p, IsWalk g u p → p = [] := by
  intro p hp
  cases p with
  | nil => rfl
  | cons e p =>
    have := hp.1
    rw [h] at this
    simp at this

/-- C36 as stated fails when a path weighs exactly `INT_MAX`: in the 3-node graph
`0 -> 1` (weight 2147483646), `1 -> 2` (weight 1), with valid targets and non-negative
weights, the only path from 0 to 2 weighs 2147483647, which does not overflow; node 2
is reachable, yet its final distance is `INT_MAX`, the infinite sentinel. -/
theorem dijkstra_sentinel_counterexample :
    ValidGraph [[(1, 2147483646)], [(2, 1)], []] ∧
    NonnegWeights [[(1, 2147483646)], [(2, 1)], []] ∧
    IsSimplePath [[(1, 2147483646)], [(2, 1)], []] 0 2 [(1, 2147483646), (2, 1)] ∧
    walkWeight [(1, 2147483646), (2, 1)] = 2147483647 ∧
    wrapInt (2147483646 + 1) = 2147483646 + 1 ∧
    dijkstraDistances [[(1, 2147483646)], [(2, 1)], []] 0 =
      some [0, 2147483646, INT_MAX] := by
  refine ⟨by unfold ValidGraph; decide, by unfold NonnegWeights; decide,
    ⟨?_, rfl, by decide⟩, by decide, by decide, by decide!⟩
  simp [IsWalk, adj]

/-- C36, amended: for every graph (of any number of nodes) whose edge targets are valid
node indices, whose edge weights are all non-negative and whose simple paths from
`start` all weigh less than `INT_MAX` (so that no sum along a path overflows or reaches
the value that stands for infinity), and every valid start node, `dijkstraAlgorithm`
returns; the final distance of each node is the minimum total weight over all paths
from `start` to that node, and it is the infinite sentinel `INT_MAX` exactly for the
nodes unreachable from `start`. -/
theorem dijkstra_distances_minimal (g : Graph) (start : Int) (hv : ValidGraph g)
    (hn : NonnegWeights g) (hpb : PathsBelowMax g start)
    (hs0 : 0 ≤ start) (hs1 : start < (g.length : Int)) :
    ∃ steps dist, dijkstraAlgorithm g start = Except.ok steps ∧
      dijkstraDistances g start = some dist ∧ dist.length = g.length ∧
      ∀ v : Nat, v < g.length →
        (dist.getD v 0 = INT_MAX ↔ ¬ Reachable g start v) ∧
        (Reachable g start v →
          (∃ p, IsWalk g start p ∧ walkEnd start p = v ∧ walkWeight p = dist.getD v 0) ∧
          ∀ p, IsWalk g start p → walkEnd start p = v → dist.getD v 0 ≤ walkWeight p) := by
  obtain ⟨s, hrun, hlen, hres⟩ := dijkstra_shortest_below g start hv hn hpb hs0 hs1
  refine ⟨_, s.distances, by unfold dijkstraAlgorithm; rw [hrun],
    by unfold dijkstraDistances; rw [hrun], hlen, ?_⟩
  intro v hvn
  have hAt : distAt s.distances (v : Int) = s.distances.getD v 0 := by
    unfold distAt; simp
  have h := hres (v : Int) (by omega) (by omega)
  rw [hAt] at h
  rcases h with ⟨hinf, hno⟩ | ⟨hlt, hex, hmin⟩
  · refine ⟨⟨fun _ => ?_, fun _ => hinf⟩, fun hr => ?_⟩
    · rintro ⟨p, hp1, hp2⟩
      exact hno p hp1 hp2
    · obtain ⟨p, hp1, hp2⟩ := hr
      exact absurd hp2 (hno p hp1)
  · obtain ⟨p, hp, hw⟩ := hex
    refine ⟨⟨fun hinf => by omega, fun hno => absurd ⟨p, hp.1, hp.2.1⟩ hno⟩,
      fun _ => ⟨⟨p, hp.1, hp.2.1, hw⟩, hmin⟩⟩

/-- C36 amended, at the 3-node graph `0 -> 1` (weight 2000000000), `0 -> 2` (weight 5),
`2 -> 0` (weight 1), from node 0: the weights are too large for the bound
`weight * nodeCount < INT_MAX`, but every simple path from 0 weighs less than `INT_MAX`;
the distances are `0, 2000000000, 5`. -/
theorem dijkstra_distances_minimal_witness :
    dijkstraDistances [[(1, 2000000000), (2, 5)], [], [(0, 1)]] 0 =
      some [0, 2000000000, 5] ∧
    ∃ steps dist,
      dijkstraAlgorithm [[(1, 2000000000), (2, 5)], [], [(0, 1)]] 0 = Except.ok steps ∧
      dijkstraDistances [[(1, 2000000000), (2, 5)], [], [(0, 1)]] 0 = some dist ∧
      dist.length = ([[(1, 2000000000), (2, 5)], [], [(0, 1)]] : Graph).length ∧
      ∀ v : Nat, v < ([[(1, 2000000000), (2, 5)], [], [(0, 1)]] : Graph).length →
        (dist.getD v 0 = INT_MAX ↔
          ¬ Reachable [[(1, 2000000000), (2, 5)], [], [(0, 1)]] 0 v) ∧
        (Reachable [[(1, 2000000000), (2, 5)], [], [(0, 1)]] 0 v →
          (∃ p, IsWalk [[(1, 2000000000), (2, 5)], [], [(0, 1)]] 0 p ∧ walkEnd 0 p = v ∧
            walkWeight p = dist.getD v 0) ∧
          ∀ p, IsWalk [[(1, 2000000000), (2, 5)], [], [(0, 1)]] 0 p → walkEnd 0 p = v →
            dist.getD v 0 ≤ walkWeight p) :=
  ⟨by decide!, dijkstra_distances_minimal [[(1, 2000000000), (2, 5)], [], [(0, 1)]] 0
    (by unfold ValidGraph; decide) (by unfold NonnegWeights; decide)
    (by
      intro p hp hnd
      cases p with
      | nil => decide
      | cons e p =>
        obtain ⟨he, hp⟩ := hp
        have he' : e = (1, 2000000000) ∨ e = (2, 5) := by
          simpa [adj] using he
        rcases he' with rfl | rfl
        · have := walk_from_sink _ 1 (by decide) p hp
          subst this
          decide
        · cases p with
          | nil => decide
          | cons e2 p =>
            obtain ⟨he2, _⟩ := hp
            have he2' : e2 = (0, 1) := by
              simpa [adj] using he2
            subst he2'
            simp [walkNodes] at hnd)
    (by decide) (by decide)⟩

end DSAVisualizer
